import Mathlib

/-!
RT-Thread dm365 high-resolution timer core: red-black tree index and timer queue

Shallow embedding of `bsp/dm365/applications/rt_rbtree.{h,c}` and
`bsp/dm365/applications/bak/hrtimer.{h,c}`.

Memory is modelled as explicit state: node records live in a map from addresses
(`Nat`, `0` is `NULL`) to records.  Dereferencing `NULL`, running a loop out of fuel and a
failing `RT_ASSERT` are faults, reported through `Except Fault`.

The word `rt_rb_parent_color` packs the parent address (bits 2 and up) and the colour
(bit 0); it is modelled as the pair of fields `rt_rb_parent` / `rt_rb_color`, which is what
the accessor macros `rt_rb_parent`, `rt_rb_color`, `rt_rb_set_parent`, `rt_rb_set_color`
expose for addresses aligned to `sizeof(long)`.
-/

namespace RtThread

/-! ## Faults and memory -/

/-- Ways in which an execution can fail to return. -/
inductive Fault where
  | null_deref
  | out_of_fuel
  | assertion
  | div_by_zero
deriving DecidableEq

/-- Colours `RB_RED` (0) and `RB_BLACK` (1) of `rt_rbtree.h`. -/
inductive Color where
  | RB_RED
  | RB_BLACK
deriving DecidableEq

open Color

/-- Record `struct rt_rb_node`; `rt_rb_parent_color` is split into parent and colour. -/
structure rt_rb_node where
  rt_rb_parent : Nat
  rt_rb_color : Color
  rt_rb_right : Nat
  rt_rb_left : Nat
deriving DecidableEq

/-- Record `struct rt_rb_root`: the pointer to the root node. -/
structure rt_rb_root where
  rt_rb_node : Nat
deriving DecidableEq

/-- Node memory: the `rt_rb_node` stored at each address. -/
abbrev NodeMem := Nat → rt_rb_node

/-- Read the node record at `p`; reading through `NULL` is a fault. -/
def rd (m : NodeMem) (p : Nat) : Except Fault rt_rb_node :=
  if p = 0 then .error .null_deref else .ok (m p)

/-- Update the node record at `p` with `f`; writing through `NULL` is a fault. -/
def wr (m : NodeMem) (p : Nat) (f : rt_rb_node → rt_rb_node) : Except Fault NodeMem :=
  if p = 0 then .error .null_deref else .ok (Function.update m p (f (m p)))

/-! ## rt_rbtree.h accessors -/

/-- Macro `rt_rb_parent(r)`. -/
def rt_rb_parent (m : NodeMem) (r : Nat) : Except Fault Nat := do
  let n ← rd m r
  pure n.rt_rb_parent

/-- Macro `rt_rb_color(r)`. -/
def rt_rb_color (m : NodeMem) (r : Nat) : Except Fault Color := do
  let n ← rd m r
  pure n.rt_rb_color

/-- Macro `rt_rb_is_red(r)`. -/
def rt_rb_is_red (m : NodeMem) (r : Nat) : Except Fault Bool := do
  let c ← rt_rb_color m r
  pure (decide (c = RB_RED))

/-- Macro `rt_rb_is_black(r)`. -/
def rt_rb_is_black (m : NodeMem) (r : Nat) : Except Fault Bool := do
  let c ← rt_rb_color m r
  pure (decide (c = RB_BLACK))

/-- Macro `rt_rb_set_red(r)`. -/
def rt_rb_set_red (m : NodeMem) (r : Nat) : Except Fault NodeMem :=
  wr m r (fun n => { n with rt_rb_color := RB_RED })

/-- Macro `rt_rb_set_black(r)`. -/
def rt_rb_set_black (m : NodeMem) (r : Nat) : Except Fault NodeMem :=
  wr m r (fun n => { n with rt_rb_color := RB_BLACK })

/-- Inline function `rt_rb_set_parent(rb, p)`. -/
def rt_rb_set_parent (m : NodeMem) (rb p : Nat) : Except Fault NodeMem :=
  wr m rb (fun n => { n with rt_rb_parent := p })

/-- Inline function `rt_rb_set_color(rb, color)`. -/
def rt_rb_set_color (m : NodeMem) (rb : Nat) (color : Color) : Except Fault NodeMem :=
  wr m rb (fun n => { n with rt_rb_color := color })

/-- Macro `RT_RB_EMPTY_ROOT(root)`. -/
def RT_RB_EMPTY_ROOT (root : rt_rb_root) : Bool := decide (root.rt_rb_node = 0)

/-- Macro `RT_RB_EMPTY_NODE(node)`: the node is its own parent. -/
def RT_RB_EMPTY_NODE (m : NodeMem) (node : Nat) : Except Fault Bool := do
  let p ← rt_rb_parent m node
  pure (decide (p = node))

/-- Macro `RT_RB_CLEAR_NODE(node)`. -/
def RT_RB_CLEAR_NODE (m : NodeMem) (node : Nat) : Except Fault NodeMem :=
  rt_rb_set_parent m node node

/-- Inline function `rt_rb_init_node`. -/
def rt_rb_init_node (m : NodeMem) (rb : Nat) : Except Fault NodeMem := do
  let m ← wr m rb (fun n => { n with rt_rb_parent := 0, rt_rb_color := RB_RED })
  let m ← wr m rb (fun n => { n with rt_rb_right := 0 })
  let m ← wr m rb (fun n => { n with rt_rb_left := 0 })
  RT_RB_CLEAR_NODE m rb

/-- A location of type `struct rt_rb_node **`: the root slot, or a child slot of a node. -/
inductive Link where
  | root
  | left (p : Nat)
  | right (p : Nat)
deriving DecidableEq

/-- Store `v` through a link (`*rt_rb_link = v`). -/
def Link.store (m : NodeMem) (root : rt_rb_root) (l : Link) (v : Nat) :
    Except Fault (NodeMem × rt_rb_root) :=
  match l with
  | .root => pure (m, { rt_rb_node := v })
  | .left p => do
    let m ← wr m p (fun n => { n with rt_rb_left := v })
    pure (m, root)
  | .right p => do
    let m ← wr m p (fun n => { n with rt_rb_right := v })
    pure (m, root)

/-- Load through a link (`*rt_rb_link`). -/
def Link.load (m : NodeMem) (root : rt_rb_root) (l : Link) : Except Fault Nat :=
  match l with
  | .root => pure root.rt_rb_node
  | .left p => do
    let n ← rd m p
    pure n.rt_rb_left
  | .right p => do
    let n ← rd m p
    pure n.rt_rb_right

/-- Inline function `rt_rb_link_node(node, parent, rt_rb_link)`: the colour bit of the
freshly written `rt_rb_parent_color` is 0, i.e. red. -/
def rt_rb_link_node (m : NodeMem) (root : rt_rb_root) (node parent : Nat) (rt_rb_link : Link) :
    Except Fault (NodeMem × rt_rb_root) := do
  let m ← wr m node (fun n => { n with rt_rb_parent := parent, rt_rb_color := RB_RED })
  let m ← wr m node (fun n => { n with rt_rb_right := 0 })
  let m ← wr m node (fun n => { n with rt_rb_left := 0 })
  Link.store m root rt_rb_link node

/-! ## rt_rbtree.c -/

/-- Function `__rt_rb_rotate_left`. -/
def __rt_rb_rotate_left (m : NodeMem) (node : Nat) (root : rt_rb_root) :
    Except Fault (NodeMem × rt_rb_root) := do
  let right := (← rd m node).rt_rb_right
  let parent ← rt_rb_parent m node
  let rl := (← rd m right).rt_rb_left
  let m ← wr m node (fun n => { n with rt_rb_right := rl })
  let m ← (if rl ≠ 0 then do rt_rb_set_parent m (← rd m right).rt_rb_left node else pure m)
  let m ← wr m right (fun n => { n with rt_rb_left := node })
  let m ← rt_rb_set_parent m right parent
  let (m, root) ←
    (if parent ≠ 0 then do
      if node = (← rd m parent).rt_rb_left then
        let m ← wr m parent (fun n => { n with rt_rb_left := right })
        pure (m, root)
      else
        let m ← wr m parent (fun n => { n with rt_rb_right := right })
        pure (m, root)
    else
      pure (m, ({ rt_rb_node := right } : rt_rb_root)))
  let m ← rt_rb_set_parent m node right
  pure (m, root)

/-- Function `__rt_rb_rotate_right`. -/
def __rt_rb_rotate_right (m : NodeMem) (node : Nat) (root : rt_rb_root) :
    Except Fault (NodeMem × rt_rb_root) := do
  let left := (← rd m node).rt_rb_left
  let parent ← rt_rb_parent m node
  let lr := (← rd m left).rt_rb_right
  let m ← wr m node (fun n => { n with rt_rb_left := lr })
  let m ← (if lr ≠ 0 then do rt_rb_set_parent m (← rd m left).rt_rb_right node else pure m)
  let m ← wr m left (fun n => { n with rt_rb_right := node })
  let m ← rt_rb_set_parent m left parent
  let (m, root) ←
    (if parent ≠ 0 then do
      if node = (← rd m parent).rt_rb_right then
        let m ← wr m parent (fun n => { n with rt_rb_right := left })
        pure (m, root)
      else
        let m ← wr m parent (fun n => { n with rt_rb_left := left })
        pure (m, root)
    else
      pure (m, ({ rt_rb_node := left } : rt_rb_root)))
  let m ← rt_rb_set_parent m node left
  pure (m, root)

/-- Function `rt_rb_insert_color`; each evaluation of the loop condition uses one unit of
fuel. -/
def rt_rb_insert_color (fuel : Nat) (m : NodeMem) (node : Nat) (root : rt_rb_root) :
    Except Fault (NodeMem × rt_rb_root) :=
  match fuel with
  | 0 => .error .out_of_fuel
  | fuel + 1 => do
    let parent ← rt_rb_parent m node
    let red ← (if parent ≠ 0 then rt_rb_is_red m parent else pure false)
    if red then
      let gparent ← rt_rb_parent m parent
      if parent = (← rd m gparent).rt_rb_left then
        let uncle := (← rd m gparent).rt_rb_right
        let ured ← (if uncle ≠ 0 then rt_rb_is_red m uncle else pure false)
        if ured then
          let m ← rt_rb_set_black m uncle
          let m ← rt_rb_set_black m parent
          let m ← rt_rb_set_red m gparent
          rt_rb_insert_color fuel m gparent root
        else
          let (m, root, parent, node) ←
            (if (← rd m parent).rt_rb_right = node then do
              let (m, root) ← __rt_rb_rotate_left m parent root
              pure (m, root, node, parent)
            else
              pure (m, root, parent, node))
          let m ← rt_rb_set_black m parent
          let m ← rt_rb_set_red m gparent
          let (m, root) ← __rt_rb_rotate_right m gparent root
          rt_rb_insert_color fuel m node root
      else
        let uncle := (← rd m gparent).rt_rb_left
        let ured ← (if uncle ≠ 0 then rt_rb_is_red m uncle else pure false)
        if ured then
          let m ← rt_rb_set_black m uncle
          let m ← rt_rb_set_black m parent
          let m ← rt_rb_set_red m gparent
          rt_rb_insert_color fuel m gparent root
        else
          let (m, root, parent, node) ←
            (if (← rd m parent).rt_rb_left = node then do
              let (m, root) ← __rt_rb_rotate_right m parent root
              pure (m, root, node, parent)
            else
              pure (m, root, parent, node))
          let m ← rt_rb_set_black m parent
          let m ← rt_rb_set_red m gparent
          let (m, root) ← __rt_rb_rotate_left m gparent root
          rt_rb_insert_color fuel m node root
    else
      let m ← rt_rb_set_black m root.rt_rb_node
      pure (m, root)

/-- The test `!p || rt_rb_is_black(p)` used throughout `__rt_rb_erase_color`. -/
def null_or_black (m : NodeMem) (p : Nat) : Except Fault Bool :=
  if p = 0 then pure true else rt_rb_is_black m p

/-- Function `__rt_rb_erase_color`; each evaluation of the loop condition uses one unit of
fuel. -/
def __rt_rb_erase_color (fuel : Nat) (m : NodeMem) (node parent : Nat) (root : rt_rb_root) :
    Except Fault (NodeMem × rt_rb_root) :=
  match fuel with
  | 0 => .error .out_of_fuel
  | fuel + 1 => do
    let nb ← null_or_black m node
    if nb && decide (node ≠ root.rt_rb_node) then
      if (← rd m parent).rt_rb_left = node then
        let other := (← rd m parent).rt_rb_right
        let (m, root, other) ←
          (if (← rt_rb_is_red m other) then do
            let m ← rt_rb_set_black m other
            let m ← rt_rb_set_red m parent
            let (m, root) ← __rt_rb_rotate_left m parent root
            pure (m, root, (← rd m parent).rt_rb_right)
          else
            pure (m, root, other))
        let lb ← null_or_black m (← rd m other).rt_rb_left
        let rb ← (if lb then do null_or_black m (← rd m other).rt_rb_right else pure false)
        if lb && rb then
          let m ← rt_rb_set_red m other
          let node := parent
          let parent ← rt_rb_parent m node
          __rt_rb_erase_color fuel m node parent root
        else
          let (m, root, other) ←
            (if (← null_or_black m (← rd m other).rt_rb_right) then do
              let m ← rt_rb_set_black m (← rd m other).rt_rb_left
              let m ← rt_rb_set_red m other
              let (m, root) ← __rt_rb_rotate_right m other root
              pure (m, root, (← rd m parent).rt_rb_right)
            else
              pure (m, root, other))
          let m ← rt_rb_set_color m other (← rt_rb_color m parent)
          let m ← rt_rb_set_black m parent
          let m ← rt_rb_set_black m (← rd m other).rt_rb_right
          let (m, root) ← __rt_rb_rotate_left m parent root
          let node := root.rt_rb_node
          let m ← (if node ≠ 0 then rt_rb_set_black m node else pure m)
          pure (m, root)
      else
        let other := (← rd m parent).rt_rb_left
        let (m, root, other) ←
          (if (← rt_rb_is_red m other) then do
            let m ← rt_rb_set_black m other
            let m ← rt_rb_set_red m parent
            let (m, root) ← __rt_rb_rotate_right m parent root
            pure (m, root, (← rd m parent).rt_rb_left)
          else
            pure (m, root, other))
        let lb ← null_or_black m (← rd m other).rt_rb_left
        let rb ← (if lb then do null_or_black m (← rd m other).rt_rb_right else pure false)
        if lb && rb then
          let m ← rt_rb_set_red m other
          let node := parent
          let parent ← rt_rb_parent m node
          __rt_rb_erase_color fuel m node parent root
        else
          let (m, root, other) ←
            (if (← null_or_black m (← rd m other).rt_rb_left) then do
              let m ← rt_rb_set_black m (← rd m other).rt_rb_right
              let m ← rt_rb_set_red m other
              let (m, root) ← __rt_rb_rotate_left m other root
              pure (m, root, (← rd m parent).rt_rb_left)
            else
              pure (m, root, other))
          let m ← rt_rb_set_color m other (← rt_rb_color m parent)
          let m ← rt_rb_set_black m parent
          let m ← rt_rb_set_black m (← rd m other).rt_rb_left
          let (m, root) ← __rt_rb_rotate_right m parent root
          let node := root.rt_rb_node
          let m ← (if node ≠ 0 then rt_rb_set_black m node else pure m)
          pure (m, root)
    else
      let m ← (if node ≠ 0 then rt_rb_set_black m node else pure m)
      pure (m, root)

/-- The loop `while ((left = node->rt_rb_left) != NULL) node = left;`. -/
def leftmost (fuel : Nat) (m : NodeMem) (node : Nat) : Except Fault Nat :=
  match fuel with
  | 0 => .error .out_of_fuel
  | fuel + 1 => do
    let left := (← rd m node).rt_rb_left
    if left ≠ 0 then leftmost fuel m left else pure node

/-- The loop `while (n->rt_rb_right) n = n->rt_rb_right;`. -/
def rightmost (fuel : Nat) (m : NodeMem) (node : Nat) : Except Fault Nat :=
  match fuel with
  | 0 => .error .out_of_fuel
  | fuel + 1 => do
    let right := (← rd m node).rt_rb_right
    if right ≠ 0 then rightmost fuel m right else pure node

/-- Function `rt_rb_erase`. -/
def rt_rb_erase (fuel : Nat) (m : NodeMem) (node : Nat) (root : rt_rb_root) :
    Except Fault (NodeMem × rt_rb_root) := do
  let nl := (← rd m node).rt_rb_left
  let nr := (← rd m node).rt_rb_right
  if nl ≠ 0 ∧ nr ≠ 0 then
    let old := node
    let node ← leftmost fuel m nr
    let op ← rt_rb_parent m old
    let (m, root) ←
      (if op ≠ 0 then do
        if (← rd m op).rt_rb_left = old then
          let m ← wr m op (fun n => { n with rt_rb_left := node })
          pure (m, root)
        else
          let m ← wr m op (fun n => { n with rt_rb_right := node })
          pure (m, root)
      else
        pure (m, ({ rt_rb_node := node } : rt_rb_root)))
    let child := (← rd m node).rt_rb_right
    let parent ← rt_rb_parent m node
    let color ← rt_rb_color m node
    let (m, parent) ←
      (if parent = old then
        pure (m, node)
      else do
        let m ← (if child ≠ 0 then rt_rb_set_parent m child parent else pure m)
        let m ← wr m parent (fun n => { n with rt_rb_left := child })
        let oright := (← rd m old).rt_rb_right
        let m ← wr m node (fun n => { n with rt_rb_right := oright })
        let m ← rt_rb_set_parent m (← rd m old).rt_rb_right node
        pure (m, parent))
    let oparent := (← rd m old).rt_rb_parent
    let ocolor := (← rd m old).rt_rb_color
    let m ← wr m node (fun n => { n with rt_rb_parent := oparent, rt_rb_color := ocolor })
    let oleft := (← rd m old).rt_rb_left
    let m ← wr m node (fun n => { n with rt_rb_left := oleft })
    let m ← rt_rb_set_parent m (← rd m old).rt_rb_left node
    if color = RB_BLACK then __rt_rb_erase_color fuel m child parent root else pure (m, root)
  else
    let child := if nl = 0 then nr else nl
    let parent ← rt_rb_parent m node
    let color ← rt_rb_color m node
    let m ← (if child ≠ 0 then rt_rb_set_parent m child parent else pure m)
    let (m, root) ←
      (if parent ≠ 0 then do
        if (← rd m parent).rt_rb_left = node then
          let m ← wr m parent (fun n => { n with rt_rb_left := child })
          pure (m, root)
        else
          let m ← wr m parent (fun n => { n with rt_rb_right := child })
          pure (m, root)
      else
        pure (m, ({ rt_rb_node := child } : rt_rb_root)))
    if color = RB_BLACK then __rt_rb_erase_color fuel m child parent root else pure (m, root)

/-- Function `rt_rb_first`. -/
def rt_rb_first (fuel : Nat) (m : NodeMem) (root : rt_rb_root) : Except Fault Nat :=
  let n := root.rt_rb_node
  if n = 0 then pure 0 else leftmost fuel m n

/-- Function `rt_rb_last`. -/
def rt_rb_last (fuel : Nat) (m : NodeMem) (root : rt_rb_root) : Except Fault Nat :=
  let n := root.rt_rb_node
  if n = 0 then pure 0 else rightmost fuel m n

/-- The loop `while ((parent = rt_rb_parent(node)) && node == parent->rt_rb_right)
node = parent;` of `rt_rb_next`, returning the final `parent`. -/
def climb_from_right (fuel : Nat) (m : NodeMem) (node : Nat) : Except Fault Nat :=
  match fuel with
  | 0 => .error .out_of_fuel
  | fuel + 1 => do
    let parent ← rt_rb_parent m node
    if parent ≠ 0 then
      if node = (← rd m parent).rt_rb_right then climb_from_right fuel m parent
      else pure parent
    else pure parent

/-- The loop `while ((parent = rt_rb_parent(node)) && node == parent->rt_rb_left)
node = parent;` of `rt_rb_prev`, returning the final `parent`. -/
def climb_from_left (fuel : Nat) (m : NodeMem) (node : Nat) : Except Fault Nat :=
  match fuel with
  | 0 => .error .out_of_fuel
  | fuel + 1 => do
    let parent ← rt_rb_parent m node
    if parent ≠ 0 then
      if node = (← rd m parent).rt_rb_left then climb_from_left fuel m parent
      else pure parent
    else pure parent

/-- Function `rt_rb_next`. -/
def rt_rb_next (fuel : Nat) (m : NodeMem) (node : Nat) : Except Fault Nat := do
  if (← rt_rb_parent m node) = node then
    pure 0
  else
    let right := (← rd m node).rt_rb_right
    if right ≠ 0 then leftmost fuel m right
    else climb_from_right fuel m node

/-- Function `rt_rb_prev`. -/
def rt_rb_prev (fuel : Nat) (m : NodeMem) (node : Nat) : Except Fault Nat := do
  if (← rt_rb_parent m node) = node then
    pure 0
  else
    let left := (← rd m node).rt_rb_left
    if left ≠ 0 then rightmost fuel m left
    else climb_from_left fuel m node

end RtThread

namespace RtThread
open Color

/-! ## hrtimer.h -/

/-- Enumeration `enum rt_hrtimer_mode`. -/
inductive rt_hrtimer_mode where
  | RT_HRTIMER_MODE_ABS
  | RT_HRTIMER_MODE_REL
deriving DecidableEq

/-- Enumeration `enum rt_hrtimer_restart`, the return value of a callback. -/
inductive rt_hrtimer_restart where
  | RT_HRTIMER_NORESTART
  | RT_HRTIMER_RESTART
deriving DecidableEq

/-- Enumeration `enum rt_clocksource_mode`. -/
inductive rt_clocksource_mode where
  | RT_CLOCKSOURCE_UP
  | RT_CLOCKSOURCE_DOWN
deriving DecidableEq

open rt_hrtimer_mode rt_hrtimer_restart rt_clocksource_mode

/-- Constant `RT_HRTIMER_STATE_INACTIVE`. -/
def RT_HRTIMER_STATE_INACTIVE : Nat := 0x00
/-- Constant `RT_HRTIMER_STATE_ENQUEUED`. -/
def RT_HRTIMER_STATE_ENQUEUED : Nat := 0x01
/-- Constant `RT_HRTIMER_STATE_CALLBACK`. -/
def RT_HRTIMER_STATE_CALLBACK : Nat := 0x02

/-- Width of `unsigned long` on the dm365 (ARM9, ILP32). -/
def ULONG_BITS : Nat := 32

/-- Complement `~flag` of a flag constant, as an `unsigned long` operand. -/
def ulong_not (flag : Nat) : Nat := 2 ^ ULONG_BITS - 1 - flag

/-- Conversion of an integer value to the 64-bit unsigned type `uint64_t`. -/
def to_u64 (x : Int) : Nat := (x % 2 ^ 64).toNat

/-- Conversion of an integer value to the 64-bit signed type `int64_t` (two's complement). -/
def to_s64 (x : Int) : Int := (x + 2 ^ 63) % 2 ^ 64 - 2 ^ 63

/-- Record `struct rt_clocksource_device`; the hardware behind `read` is the counter
oracle of the machine state. -/
structure rt_clocksource_device where
  freq : Nat
  mask : Nat
  cycle_last : Nat
  mult : Nat
  shift : Nat
  maxadj : Nat
  mode : rt_clocksource_mode
  max_idle_ns : Nat
  max_idle_ns_half : Nat
  max_cycles : Nat
  time_base : Int
deriving DecidableEq

/-- Record `struct rt_clockevent_device`; the calls of `set_next_event` are logged in the
machine state. -/
structure rt_clockevent_device where
  min_delta_cycles : Nat
  max_delta_cycles : Nat
  min_delta_ns : Nat
  max_delta_ns : Nat
  mult : Nat
  shift : Nat
deriving DecidableEq

/-- Fields of `struct rt_hrtimer` that follow the embedded `node`.  The node is the first
member, so a timer and its node share one address and `rt_rb_entry` is the identity.
`function` is a code address, `0` for `NULL`. -/
structure rt_hrtimer where
  deadline : Int
  state : Nat
  mode : rt_hrtimer_mode
  function : Nat
  arg : Nat
deriving DecidableEq

/-- Record `struct rt_hrtimer_head`; `event` and `cs` are `none` while no device is
registered (`RT_NULL`). -/
structure rt_hrtimer_head where
  head : rt_rb_root
  next : Nat
  event : Option rt_clockevent_device
  cs : Option rt_clocksource_device

/-- Machine state seen by `hrtimer.c`: node and timer memory, the static queue
`hrtimer_queue`, the address of the static keep-alive timer `update_clock_timer`, the
hardware counter (`counter n` is the value returned by the `n`-th call of `cs->read`), the
log of the cycle counts handed to `set_next_event`, and the log of the timers whose callback
has been called. -/
structure Machine where
  nodes : NodeMem
  timers : Nat → rt_hrtimer
  hrtimer_queue : rt_hrtimer_head
  update_clock_timer : Nat
  counter : Nat → Nat
  reads : Nat
  armed : List Nat
  fired : List Nat

/-- Behaviour of the callbacks: `cb f arg s` runs the code at address `f` with argument `arg`
in state `s`. -/
abbrev Callbacks := Nat → Nat → Machine → Except Fault (rt_hrtimer_restart × Machine)

/-- Read the timer record at `p`; reading through `NULL` is a fault. -/
def rdt (s : Machine) (p : Nat) : Except Fault rt_hrtimer :=
  if p = 0 then .error .null_deref else .ok (s.timers p)

/-- Update the timer record at `p` with `f`; writing through `NULL` is a fault. -/
def wrt (s : Machine) (p : Nat) (f : rt_hrtimer → rt_hrtimer) : Except Fault Machine :=
  if p = 0 then .error .null_deref
  else .ok { s with timers := Function.update s.timers p (f (s.timers p)) }

/-- Macro `RT_HRTIMER_IS_QUEUED(timer)`. -/
def RT_HRTIMER_IS_QUEUED (t : rt_hrtimer) : Bool :=
  decide (t.state &&& RT_HRTIMER_STATE_ENQUEUED ≠ 0)

/-- Macro `RT_HRTIMER_IS_CALLBACK_RUNNING(timer)`. -/
def RT_HRTIMER_IS_CALLBACK_RUNNING (t : rt_hrtimer) : Bool :=
  decide (t.state &&& RT_HRTIMER_STATE_CALLBACK ≠ 0)

/-- Macro `RT_HRTIMER_IS_ACTIVE(timer)`. -/
def RT_HRTIMER_IS_ACTIVE (t : rt_hrtimer) : Bool :=
  decide (t.state ≠ RT_HRTIMER_STATE_INACTIVE)

/-- Inline function `rt_clocksource_cyc2ns`. -/
def rt_clocksource_cyc2ns (cycles mult shift : Nat) : Nat :=
  ((cycles * mult) % 2 ^ 64) >>> shift

/-! ## hrtimer.c -/

/-- Function `rt_clocksource_absolute_time`; the interrupt lock has no effect in the
sequential model. -/
def rt_clocksource_absolute_time (s : Machine) : Except Fault (Int × Machine) :=
  match s.hrtimer_queue.cs with
  | none => .error .null_deref
  | some cs =>
    let cycle_now : Nat := s.counter s.reads % 2 ^ 64
    let s := { s with reads := s.reads + 1 }
    let cycle_delta :=
      if cs.mode = RT_CLOCKSOURCE_UP then
        to_u64 (Int.ofNat cycle_now - Int.ofNat cs.cycle_last) &&& cs.mask
      else
        to_u64 (Int.ofNat cs.cycle_last - Int.ofNat cycle_now) &&& cs.mask
    let ns_offset := rt_clocksource_cyc2ns cycle_delta cs.mult cs.shift
    let time_base : Int := to_s64 (cs.time_base + Int.ofNat ns_offset)
    if ns_offset > cs.max_idle_ns_half then
      .ok (time_base, { s with hrtimer_queue := { s.hrtimer_queue with
        cs := some { cs with cycle_last := cycle_now, time_base := time_base } } })
    else
      .ok (time_base, s)

/-- The loop `while (*new) { ... }` of `rt_hrtimer_insert`: descend from the link `new`
to the empty link where a timer with deadline `deadline` belongs; returns `parent` and
`new`. -/
def rt_hrtimer_insert_find (fuel : Nat) (s : Machine) (deadline : Int) (parent : Nat)
    (new : Link) : Except Fault (Nat × Link) :=
  match fuel with
  | 0 => .error .out_of_fuel
  | fuel + 1 => do
    let cur ← new.load s.nodes s.hrtimer_queue.head
    if cur ≠ 0 then
      if deadline < (s.timers cur).deadline then
        rt_hrtimer_insert_find fuel s deadline cur (.left cur)
      else
        rt_hrtimer_insert_find fuel s deadline cur (.right cur)
    else
      pure (parent, new)

/-- Function `rt_hrtimer_insert(&hrtimer_queue, node)`.  A failing `RT_ASSERT` does not
return. -/
def rt_hrtimer_insert (fuel : Nat) (s : Machine) (node : Nat) : Except Fault Machine := do
  let empty ← RT_RB_EMPTY_NODE s.nodes node
  if empty = false then .error .assertion
  else
    let (parent, new) ← rt_hrtimer_insert_find fuel s (s.timers node).deadline 0 .root
    let (m, root) ← rt_rb_link_node s.nodes s.hrtimer_queue.head node parent new
    let (m, root) ← rt_rb_insert_color fuel m node root
    let next := s.hrtimer_queue.next
    let next :=
      if next = 0 ∨ (s.timers node).deadline < (s.timers next).deadline then node else next
    pure { s with nodes := m, hrtimer_queue := { s.hrtimer_queue with head := root, next := next } }

/-- Function `rt_hrtimer_remove(&hrtimer_queue, node)`. -/
def rt_hrtimer_remove (fuel : Nat) (s : Machine) (node : Nat) : Except Fault Machine := do
  let empty ← RT_RB_EMPTY_NODE s.nodes node
  if empty = true then .error .assertion
  else
    let next ← (if s.hrtimer_queue.next = node then rt_rb_next fuel s.nodes node
      else pure s.hrtimer_queue.next)
    let (m, root) ← rt_rb_erase fuel s.nodes node s.hrtimer_queue.head
    let m ← RT_RB_CLEAR_NODE m node
    pure { s with nodes := m, hrtimer_queue := { s.hrtimer_queue with head := root, next := next } }

/-- Function `rt_hrtimer_enqueue`. -/
def rt_hrtimer_enqueue (fuel : Nat) (s : Machine) (node : Nat) : Except Fault Machine := do
  let s ← rt_hrtimer_insert fuel s node
  wrt s node (fun t => { t with state := t.state ||| RT_HRTIMER_STATE_ENQUEUED })

/-- Function `rt_hrtimer_dequeue`. -/
def rt_hrtimer_dequeue (fuel : Nat) (s : Machine) (node : Nat) : Except Fault Machine := do
  let s ← rt_hrtimer_remove fuel s node
  wrt s node (fun t => { t with state := t.state &&& ulong_not RT_HRTIMER_STATE_ENQUEUED })

/-- Function `rt_hrtimer_init`: the record is zeroed by `rt_memset` and then filled.  The sum
`now + time` is formed in the 64-bit signed `rt_ktime_t`. -/
def rt_hrtimer_init (s : Machine) (timer function arg : Nat) (time : Int)
    (mode : rt_hrtimer_mode) : Except Fault Machine := do
  let m ← wr s.nodes timer
    (fun _ => { rt_rb_parent := 0, rt_rb_color := RB_RED, rt_rb_right := 0, rt_rb_left := 0 })
  let s ← wrt { s with nodes := m } timer
    (fun _ => { deadline := 0, state := 0, mode := RT_HRTIMER_MODE_ABS, function := 0, arg := 0 })
  let s ← wrt s timer (fun t => { t with function := function })
  let s ← wrt s timer (fun t => { t with arg := arg })
  let s ← wrt s timer (fun t => { t with mode := mode })
  let s ← (if mode = RT_HRTIMER_MODE_REL then do
      let (now, s) ← rt_clocksource_absolute_time s
      wrt s timer (fun t => { t with deadline := to_s64 (now + time) })
    else
      wrt s timer (fun t => { t with deadline := time }))
  let s ← wrt s timer (fun t => { t with state := RT_HRTIMER_STATE_INACTIVE })
  let m ← RT_RB_CLEAR_NODE s.nodes timer
  pure { s with nodes := m }

/-- Function `rt_hrtimer_reschedule`.  The difference `deadline - now` is formed in
`int64_t`, the product in the 64-bit unsigned `rt_cycle_t`, and the cycle count is converted
to `unsigned long` when it is handed to `set_next_event`. -/
def rt_hrtimer_reschedule (fuel : Nat) (s : Machine) : Except Fault Machine := do
  let event := s.hrtimer_queue.event
  let next := s.hrtimer_queue.next
  if next ≠ 0 then
    let (now, s) ← rt_clocksource_absolute_time s
    let delta := to_s64 ((s.timers next).deadline - now)
    match event with
    | none => .error .null_deref
    | some event =>
      let delta := if delta ≤ 0 then (event.min_delta_ns : Int) else delta
      let delta := if delta < (event.max_delta_ns : Int) then delta else (event.max_delta_ns : Int)
      let delta := if delta < (event.min_delta_ns : Int) then (event.min_delta_ns : Int) else delta
      let cycle := ((to_u64 delta * event.mult) % 2 ^ 64) >>> event.shift
      pure { s with armed := s.armed ++ [cycle % 2 ^ ULONG_BITS] }
  else
    match s.hrtimer_queue.cs with
    | none => .error .null_deref
    | some cs =>
      let s ← rt_hrtimer_init s s.update_clock_timer 0 0 (to_s64 cs.max_idle_ns)
        RT_HRTIMER_MODE_REL
      rt_hrtimer_enqueue fuel s s.update_clock_timer

/-- Function `rt_hrtimer_start`; returns the status and the new state.  The sum `now + time`
is formed in the 64-bit signed `rt_ktime_t`. -/
def rt_hrtimer_start (fuel : Nat) (s : Machine) (timer : Nat) (time : Int)
    (mode : rt_hrtimer_mode) : Except Fault (Int × Machine) := do
  let (now, s) ← rt_clocksource_absolute_time s
  if (← rdt s timer).mode ≠ mode then pure (-1, s)
  else if (s.timers timer).mode = RT_HRTIMER_MODE_ABS ∧ time ≤ now then pure (-1, s)
  else
    let (ret, s) ← (if RT_HRTIMER_IS_QUEUED (s.timers timer) = true then do
        let s ← rt_hrtimer_dequeue fuel s timer
        pure ((1 : Int), s)
      else pure ((0 : Int), s))
    let s ← (if (s.timers timer).mode = RT_HRTIMER_MODE_REL then
        wrt s timer (fun t => { t with deadline := to_s64 (now + time) })
      else
        wrt s timer (fun t => { t with deadline := time }))
    let s ← rt_hrtimer_enqueue fuel s timer
    let s ← (if s.hrtimer_queue.next = timer then rt_hrtimer_reschedule fuel s else pure s)
    pure (ret, s)

/-- Function `rt_hrtimer_cancel`; returns the status and the new state. -/
def rt_hrtimer_cancel (fuel : Nat) (s : Machine) (timer : Nat) :
    Except Fault (Int × Machine) := do
  if RT_HRTIMER_IS_QUEUED (← rdt s timer) = false then pure (0, s)
  else
    let need_reschedule := decide (s.hrtimer_queue.next = timer)
    let s ← rt_hrtimer_dequeue fuel s timer
    let s ← (if need_reschedule = true then rt_hrtimer_reschedule fuel s else pure s)
    pure (1, s)

/-- One pass through the body of the `while (RT_TRUE)` loop of `rt_hrtimer_invoke`, for the
current value of the local variable `ret`, which is declared outside the loop.  Returns
`none` when the loop is left by `break`, and the new state and `ret` otherwise. -/
def rt_hrtimer_invoke_body (cb : Callbacks) (fuel : Nat) (s : Machine)
    (ret : rt_hrtimer_restart) : Except Fault (Machine × Option rt_hrtimer_restart) := do
  let (now, s) ← rt_clocksource_absolute_time s
  let node := s.hrtimer_queue.next
  if node = 0 then pure (s, none)
  else if (s.timers node).deadline > now then pure (s, none)
  else
    let s ← rt_hrtimer_dequeue fuel s node
    let (ret, s) ← (if (s.timers node).function ≠ 0 then do
        let s ← wrt s node (fun t => { t with state := t.state ||| RT_HRTIMER_STATE_CALLBACK })
        let s := { s with fired := s.fired ++ [node] }
        let (ret, s) ← cb (s.timers node).function (s.timers node).arg s
        let s ← wrt s node
          (fun t => { t with state := t.state &&& ulong_not RT_HRTIMER_STATE_CALLBACK })
        pure (ret, s)
      else pure (ret, s))
    let s ← (if ret = RT_HRTIMER_RESTART then rt_hrtimer_enqueue fuel s node else pure s)
    pure (s, some ret)

/-- The loop of `rt_hrtimer_invoke`, started with the value `ret` of the local variable. -/
def rt_hrtimer_invoke_loop (cb : Callbacks) (fuel : Nat) (s : Machine)
    (ret : rt_hrtimer_restart) : Except Fault Machine :=
  match fuel with
  | 0 => .error .out_of_fuel
  | fuel + 1 => do
    let (s, r) ← rt_hrtimer_invoke_body cb fuel s ret
    match r with
    | none => pure s
    | some ret => rt_hrtimer_invoke_loop cb fuel s ret

/-- Function `rt_hrtimer_invoke`. -/
def rt_hrtimer_invoke (cb : Callbacks) (fuel : Nat) (s : Machine) : Except Fault Machine :=
  rt_hrtimer_invoke_loop cb fuel s RT_HRTIMER_NORESTART

/-- Function `rt_hrtimer_handler`. -/
def rt_hrtimer_handler (cb : Callbacks) (fuel : Nat) (s : Machine) : Except Fault Machine := do
  let s ← rt_hrtimer_invoke cb fuel s
  rt_hrtimer_reschedule fuel s

end RtThread

namespace RtThread
open Color

/-! ## Abstract trees and the representation relation -/

/-- Shape of a linked tree: node addresses with their colours. -/
inductive Tree where
  | nil
  | node (a : Nat) (c : Color) (l r : Tree)
deriving DecidableEq

namespace Tree

/-- Address of the root node, `NULL` for the empty tree. -/
def addr : Tree → Nat
  | nil => 0
  | node a _ _ _ => a

/-- Colour of the root; a missing node counts as black. -/
def color : Tree → Color
  | nil => RB_BLACK
  | node _ c _ _ => c

/-- In-order sequence of the node addresses. -/
def inorder : Tree → List Nat
  | nil => []
  | node a _ l r => inorder l ++ a :: inorder r

/-- Number of black nodes on the leftmost path. -/
def bh : Tree → Nat
  | nil => 0
  | node _ c l _ => bh l + (if c = RB_BLACK then 1 else 0)

/-- Every path from a node to a missing child crosses the same number of black nodes. -/
def Balanced : Tree → Prop
  | nil => True
  | node _ _ l r => Balanced l ∧ Balanced r ∧ bh l = bh r

/-- No red node has a red child. -/
def NoRedRed : Tree → Prop
  | nil => True
  | node _ c l r => (c = RB_RED → l.color = RB_BLACK ∧ r.color = RB_BLACK) ∧
      NoRedRed l ∧ NoRedRed r

/-- The red-black invariants: black root, no red node with a red child, equal black height
on every path. -/
def IsRB (t : Tree) : Prop := t.color = RB_BLACK ∧ t.NoRedRed ∧ t.Balanced

instance decBalanced : (t : Tree) → Decidable t.Balanced
  | nil => isTrue trivial
  | node _ _ l r =>
    have := decBalanced l
    have := decBalanced r
    inferInstanceAs (Decidable (Balanced l ∧ Balanced r ∧ bh l = bh r))

instance decNoRedRed : (t : Tree) → Decidable t.NoRedRed
  | nil => isTrue trivial
  | node _ c l r =>
    have := decNoRedRed l
    have := decNoRedRed r
    inferInstanceAs (Decidable ((c = RB_RED → l.color = RB_BLACK ∧ r.color = RB_BLACK) ∧
      NoRedRed l ∧ NoRedRed r))

instance decIsRB (t : Tree) : Decidable t.IsRB :=
  inferInstanceAs (Decidable (t.color = RB_BLACK ∧ t.NoRedRed ∧ t.Balanced))

/-- Number of occurrences of address `z` in the tree. -/
def occ (z : Nat) (t : Tree) : Nat := t.inorder.count z

end Tree

/-- Memory `m` holds the tree `t` whose root has parent pointer `par`. -/
def Rep (m : NodeMem) : Nat → Tree → Prop
  | _, .nil => True
  | par, .node a c l r =>
    a ≠ 0 ∧ m a = ⟨par, c, r.addr, l.addr⟩ ∧ Rep m a l ∧ Rep m a r

/-- One step of a path from a node to its parent: `L` when the node is the left child
(the frame keeps the parent and the right sibling), `R` when it is the right child. -/
inductive Frame where
  | L (a : Nat) (c : Color) (r : Tree)
  | R (a : Nat) (c : Color) (l : Tree)
deriving DecidableEq

namespace Frame

/-- Address of the parent node of the frame. -/
def addr : Frame → Nat
  | L a _ _ => a
  | R a _ _ => a

/-- Colour of the parent node of the frame. -/
def color : Frame → Color
  | L _ c _ => c
  | R _ c _ => c

/-- Sibling subtree kept by the frame. -/
def sib : Frame → Tree
  | L _ _ r => r
  | R _ _ l => l

/-- Put a subtree into the hole of the frame. -/
def fill : Frame → Tree → Tree
  | L a c r, t => .node a c t r
  | R a c l, t => .node a c l t

end Frame

/-- Two frames carry the same colour and the same sibling subtree; the addresses of their
parent nodes and the sides may differ. -/
def Frame.sameShape (f g : Frame) : Prop := f.color = g.color ∧ f.sib = g.sib

/-- A path from a position in the tree up to the root, innermost frame first. -/
abbrev Ctx := List Frame

/-- Rebuild the whole tree from a path and the subtree at its position. -/
def plug : Ctx → Tree → Tree
  | [], t => t
  | f :: rest, t => plug rest (f.fill t)

namespace Ctx

/-- Address of the parent of the position, `NULL` at the root. -/
def top : Ctx → Nat
  | [] => 0
  | f :: _ => f.addr

/-- Address of the root of the whole tree when the subtree at the position has root `x`. -/
def rootAddr : Ctx → Nat → Nat
  | [], x => x
  | f :: rest, _ => rootAddr rest f.addr

/-- Addresses that precede the position in in-order. -/
def before : Ctx → List Nat
  | [] => []
  | .L _ _ _ :: rest => before rest
  | .R a _ l :: rest => before rest ++ (l.inorder ++ [a])

/-- Addresses that follow the position in in-order. -/
def after : Ctx → List Nat
  | [] => []
  | .L a _ r :: rest => (a :: r.inorder) ++ after rest
  | .R _ _ _ :: rest => after rest

/-- Number of occurrences of address `z` on the path and in its sibling subtrees. -/
def occ (z : Nat) (k : Ctx) : Nat := k.before.count z + k.after.count z

/-- The link (`struct rt_rb_node **`) through which the position is reached. -/
def link : Ctx → Link
  | [] => .root
  | .L a _ _ :: _ => .left a
  | .R a _ _ :: _ => .right a

end Ctx

/-- Memory `m` holds the path `k` when the subtree at its position has root address `x`. -/
def CtxRep (m : NodeMem) : Ctx → Nat → Prop
  | [], _ => True
  | .L a c r :: rest, x =>
    a ≠ 0 ∧ m a = ⟨Ctx.top rest, c, r.addr, x⟩ ∧ Rep m a r ∧ CtxRep m rest a
  | .R a c l :: rest, x =>
    a ≠ 0 ∧ m a = ⟨Ctx.top rest, c, x, l.addr⟩ ∧ Rep m a l ∧ CtxRep m rest a

/-- The memory `m` and root pointer `root` hold the well-formed linked tree `t`:
child and parent pointers agree with `t`, and no address occurs twice. -/
structure HeapTree (m : NodeMem) (root : rt_rb_root) (t : Tree) : Prop where
  root_eq : root.rt_rb_node = t.addr
  rep : Rep m 0 t
  nodup : t.inorder.Nodup

end RtThread

namespace RtThread
open Color

namespace Tree

/-- The tree with its root coloured black. -/
def blacken : Tree → Tree
  | nil => nil
  | node a _ l r => node a RB_BLACK l r

end Tree

namespace Ctx

/-- Colour of the parent of the position; the root position counts as below black. -/
def color : Ctx → Color
  | [] => RB_BLACK
  | f :: _ => f.color

/-- Black-height bookkeeping along a path: every sibling subtree is balanced and has the
black height that the subtree at the position is expected to have at that level. -/
def Bal : Ctx → Nat → Prop
  | [], _ => True
  | f :: rest, n =>
    f.sib.Balanced ∧ f.sib.bh = n ∧ Bal rest (n + (if f.color = RB_BLACK then 1 else 0))

/-- No red node of the path has a red parent or a red sibling subtree root below it, and the
sibling subtrees have no red node with a red child. -/
def NoRR : Ctx → Prop
  | [] => True
  | f :: rest =>
    f.sib.NoRedRed ∧ (f.color = RB_RED → f.sib.color = RB_BLACK ∧ color rest = RB_BLACK) ∧
      NoRR rest

/-- The path only descends through left children. -/
def isLeftSpine : Ctx → Prop
  | [] => True
  | .L _ _ _ :: rest => isLeftSpine rest
  | .R _ _ _ :: _ => False

/-- The path only descends through right children. -/
def isRightSpine : Ctx → Prop
  | [] => True
  | .R _ _ _ :: rest => isRightSpine rest
  | .L _ _ _ :: _ => False

/-- The outermost frame of the path (the root of the tree) is black. -/
def outerBlack : Ctx → Prop
  | [] => True
  | [f] => f.color = RB_BLACK
  | _ :: g :: rest => outerBlack (g :: rest)

end Ctx

end RtThread

namespace RtThread
open Color

/-! ## Pure effects of two recurring code fragments -/

/-- Effect on memory of `if (c) rt_rb_set_parent(c, p);`. -/
def setParentIf (m : NodeMem) (c p : Nat) : NodeMem :=
  if c = 0 then m else Function.update m c { m c with rt_rb_parent := p }

/-- Effect of the fragment
`if (parent) { if (parent->rt_rb_left == node) parent->rt_rb_left = child;
else parent->rt_rb_right = child; } else root->rt_rb_node = child;`. -/
def relink (m : NodeMem) (root : rt_rb_root) (parent node child : Nat) : NodeMem × rt_rb_root :=
  if parent = 0 then (m, { rt_rb_node := child })
  else if (m parent).rt_rb_left = node then
    (Function.update m parent { m parent with rt_rb_left := child }, root)
  else
    (Function.update m parent { m parent with rt_rb_right := child }, root)

/-- Effect of the fragment
`if (parent) { if (node == parent->rt_rb_right) parent->rt_rb_right = child;
else parent->rt_rb_left = child; } else root->rt_rb_node = child;`. -/
def relinkR (m : NodeMem) (root : rt_rb_root) (parent node child : Nat) : NodeMem × rt_rb_root :=
  if parent = 0 then (m, { rt_rb_node := child })
  else if (m parent).rt_rb_right = node then
    (Function.update m parent { m parent with rt_rb_right := child }, root)
  else
    (Function.update m parent { m parent with rt_rb_left := child }, root)

/-- Memory and root after putting the fresh node `s` in the place of the node `x`, with
colour `c` and children `l0` and `r0`: the parent of `x` (or the root pointer) is redirected to
`s`, the record of `s` is written, and both children get `s` as parent. -/
def transplant (m : NodeMem) (root : rt_rb_root) (parent x s : Nat) (c : Color) (l0 r0 : Nat) :
    NodeMem × rt_rb_root :=
  (setParentIf (setParentIf (Function.update (relink m root parent x s).1 s
      { rt_rb_parent := parent, rt_rb_color := c, rt_rb_right := r0, rt_rb_left := l0 })
    l0 s) r0 s, (relink m root parent x s).2)

/-- Result of a rebalancing run: final memory and root represent a red-black tree with the
given in-order sequence, and memory outside the tree is untouched. -/
def RebalDone (m : NodeMem) (t : Tree) (res : Except Fault (NodeMem × rt_rb_root)) : Prop :=
  ∃ m' root' T', res = .ok (m', root') ∧ HeapTree m' root' T' ∧ T'.IsRB ∧
    T'.inorder = t.inorder ∧ ∀ z, Tree.occ z t = 0 → m' z = m z


/-- Loop invariant of `__rt_rb_erase_color` at the position `k` holding the subtree `t`:
the subtree is one black node short of what the path expects, and the only places where a
red node may have a red neighbour are the root of `t` and its links. -/
structure EraseInv (k : Ctx) (t : Tree) : Prop where
  tb : t.Balanced
  kb : Ctx.Bal k (t.bh + 1)
  tn : t.blacken.NoRedRed
  kn : Ctx.NoRR k
  ko : Ctx.outerBlack k

end RtThread

namespace RtThread
open Color

/-! ## Invariant of the timer queue -/

/-- Deadline of the timer at address `a`. -/
def deadlineOf (s : Machine) (a : Nat) : Int := (s.timers a).deadline

/-- Invariant of `hrtimer_queue`: its index is a well-formed red-black tree `T` whose
in-order sequence is sorted by deadline, and `next` caches the first node in in-order
(`NULL` for the empty tree). -/
structure QInv (s : Machine) (T : Tree) : Prop where
  ht : HeapTree s.nodes s.hrtimer_queue.head T
  rb : T.IsRB
  sorted : T.inorder.Pairwise (fun a b => deadlineOf s a ≤ deadlineOf s b)
  next_eq : s.hrtimer_queue.next = T.inorder.headD 0

/-- One operation on the queue index. -/
inductive QueueOp where
  | insert (node : Nat)
  | remove (node : Nat)
deriving DecidableEq

/-- Address of the timer an operation works on. -/
def QueueOp.node : QueueOp → Nat
  | .insert a => a
  | .remove a => a

/-- Run a sequence of `rt_hrtimer_insert` / `rt_hrtimer_remove` calls. -/
def runOps (fuel : Nat) : List QueueOp → Machine → Except Fault Machine
  | [], s => .ok s
  | .insert a :: ops, s => do
    let s ← rt_hrtimer_insert fuel s a
    runOps fuel ops s
  | .remove a :: ops, s => do
    let s ← rt_hrtimer_remove fuel s a
    runOps fuel ops s

/-- Every timer that is not linked in the tree `T` has a cleared node
(`RT_RB_EMPTY_NODE` holds), as left by `rt_hrtimer_init` and `rt_hrtimer_remove`. -/
def Idle (s : Machine) (T : Tree) : Prop :=
  ∀ a, a ≠ 0 → a ∉ T.inorder → (s.nodes a).rt_rb_parent = a

/-- The `ENQUEUED` flag of a timer is set exactly when the timer is linked in `T`. -/
def FlagsOk (s : Machine) (T : Tree) : Prop :=
  ∀ a, a ≠ 0 → (RT_HRTIMER_IS_QUEUED (s.timers a) = true ↔ a ∈ T.inorder)

/-- Full consistency of the queue with the tree `T`: the index invariant, cleared nodes for
the timers outside the tree, and `ENQUEUED` flags that agree with the tree. -/
structure QState (s : Machine) (T : Tree) : Prop where
  inv : QInv s T
  idle : Idle s T
  flags : FlagsOk s T

/-- The parts of the machine state outside the index and the timer records are the same in
`s` and `s'`. -/
def SameEnv (s s' : Machine) : Prop :=
  s'.hrtimer_queue.event = s.hrtimer_queue.event ∧ s'.hrtimer_queue.cs = s.hrtimer_queue.cs ∧
    s'.update_clock_timer = s.update_clock_timer ∧ s'.counter = s.counter ∧
    s'.reads = s.reads ∧ s'.armed = s.armed ∧ s'.fired = s.fired

/-- Cycle delta computed by `rt_clocksource_absolute_time` for the raw counter value `raw`. -/
def clockDelta (cs : rt_clocksource_device) (raw : Nat) : Nat :=
  if cs.mode = rt_clocksource_mode.RT_CLOCKSOURCE_UP then
    to_u64 (Int.ofNat (raw % 2 ^ 64) - Int.ofNat cs.cycle_last) &&& cs.mask
  else
    to_u64 (Int.ofNat cs.cycle_last - Int.ofNat (raw % 2 ^ 64)) &&& cs.mask

/-- Value returned by `rt_clocksource_absolute_time` for the raw counter value `raw`. -/
def clockTime (cs : rt_clocksource_device) (raw : Nat) : Int :=
  to_s64 (cs.time_base + Int.ofNat (rt_clocksource_cyc2ns (clockDelta cs raw) cs.mult cs.shift))

/-- Clocksource record left by `rt_clocksource_absolute_time` for the raw counter value
`raw`. -/
def clockDev (cs : rt_clocksource_device) (raw : Nat) : rt_clocksource_device :=
  if rt_clocksource_cyc2ns (clockDelta cs raw) cs.mult cs.shift > cs.max_idle_ns_half then
    { cs with cycle_last := raw % 2 ^ 64, time_base := clockTime cs raw }
  else cs

/-- Cycle count that `rt_hrtimer_reschedule` hands to `set_next_event` for the next deadline
`deadline` at time `now`. -/
def rescheduleCycles (event : rt_clockevent_device) (deadline now : Int) : Nat :=
  let delta := to_s64 (deadline - now)
  let delta := if delta ≤ 0 then (event.min_delta_ns : Int) else delta
  let delta := if delta < (event.max_delta_ns : Int) then delta else (event.max_delta_ns : Int)
  let delta := if delta < (event.min_delta_ns : Int) then (event.min_delta_ns : Int) else delta
  (((to_u64 delta * event.mult) % 2 ^ 64) >>> event.shift) % 2 ^ ULONG_BITS

/-- The clock reading is fixed at `now`: a clocksource is registered, the hardware counter
keeps its value from the next read on, and the absolute time computed from it is `now`. -/
def ClockFixed (s : Machine) (now : Int) : Prop :=
  ∃ cs raw, s.hrtimer_queue.cs = some cs ∧ (∀ i, s.counter (s.reads + i) = raw) ∧
    clockTime cs raw = now

end RtThread

namespace RtThread
open Color rt_hrtimer_mode rt_hrtimer_restart rt_clocksource_mode

/-! ## Example states -/

/-- A clocksource that counts nanoseconds (`mult = 1`, `shift = 0`), anchored at time 0. -/
def exampleClock : rt_clocksource_device :=
  { freq := 1000000000, mask := 0xFFFFFFFF, cycle_last := 0, mult := 1, shift := 0, maxadj := 0,
    mode := RT_CLOCKSOURCE_UP, max_idle_ns := 1000, max_idle_ns_half := 500, max_cycles := 1000,
    time_base := 0 }

/-- A clockevent device with nanosecond resolution. -/
def exampleEvent : rt_clockevent_device :=
  { min_delta_cycles := 1, max_delta_cycles := 1000000, min_delta_ns := 1000,
    max_delta_ns := 1000000, mult := 1, shift := 0 }

/-- The queue head with cached minimum `next` and tree root `root`, both devices
registered. -/
def exampleQueue (root next : Nat) : rt_hrtimer_head :=
  { head := { rt_rb_node := root }, next := next, event := some exampleEvent, cs := some exampleClock }

/-- An idle system: empty queue, every timer initialised and not enqueued, the timer at
address `a` has deadline `a`; the counter stands at 5, so the time is 5. -/
def idleMachine : Machine :=
  { nodes := fun a => { rt_rb_parent := a, rt_rb_color := RB_RED, rt_rb_right := 0, rt_rb_left := 0 }
    timers := fun a =>
      { deadline := a, state := 0, mode := RT_HRTIMER_MODE_REL, function := 0, arg := a }
    hrtimer_queue := exampleQueue 0 0
    update_clock_timer := 9
    counter := fun _ => 5
    reads := 0
    armed := []
    fired := [] }

/-- The system with the single timer 1 enqueued: deadline 1, callback at address 7. -/
def oneTimer : Machine :=
  { idleMachine with
    nodes := fun a => if a = 1 then
        { rt_rb_parent := 0, rt_rb_color := RB_BLACK, rt_rb_right := 0, rt_rb_left := 0 }
      else { rt_rb_parent := a, rt_rb_color := RB_RED, rt_rb_right := 0, rt_rb_left := 0 }
    timers := fun a => if a = 1 then
        { deadline := 1, state := 1, mode := RT_HRTIMER_MODE_REL, function := 7, arg := 1 }
      else { deadline := a, state := 0, mode := RT_HRTIMER_MODE_REL, function := 0, arg := a }
    hrtimer_queue := exampleQueue 1 1 }

/-- The system with two due timers enqueued: timer 1 (deadline 1) has a callback, timer 2
(deadline 2) has none; the time is 5. -/
def staleMachine : Machine :=
  { idleMachine with
    nodes := fun a => if a = 1 then
        { rt_rb_parent := 0, rt_rb_color := RB_BLACK, rt_rb_right := 2, rt_rb_left := 0 }
      else if a = 2 then
        { rt_rb_parent := 1, rt_rb_color := RB_RED, rt_rb_right := 0, rt_rb_left := 0 }
      else { rt_rb_parent := a, rt_rb_color := RB_RED, rt_rb_right := 0, rt_rb_left := 0 }
    timers := fun a => if a = 1 then
        { deadline := 1, state := 1, mode := RT_HRTIMER_MODE_REL, function := 7, arg := 1 }
      else if a = 2 then
        { deadline := 2, state := 1, mode := RT_HRTIMER_MODE_REL, function := 0, arg := 0 }
      else { deadline := a, state := 0, mode := RT_HRTIMER_MODE_REL, function := 0, arg := a }
    hrtimer_queue := exampleQueue 1 1 }

/-- A periodic callback: it moves the deadline of the timer passed as argument to 100 and
asks for a restart. -/
def restartCallback : Callbacks := fun _ arg s =>
  .ok (RT_HRTIMER_RESTART,
    { s with timers := Function.update s.timers arg { s.timers arg with deadline := 100 } })

/-- A one-shot callback that leaves the state alone. -/
def oneShotCallback : Callbacks := fun _ _ s => .ok (RT_HRTIMER_NORESTART, s)

end RtThread

namespace RtThread
open Color rt_hrtimer_mode rt_hrtimer_restart rt_clocksource_mode

/-! ## hrtimer.c: forwarding a timer -/

/-- Conversion of an integer value to the 32-bit signed type `int` (two's complement). -/
def to_int (x : Int) : Int := (x + 2 ^ 31) % 2 ^ 32 - 2 ^ 31

/-- Function `rt_hrtimer_forward`; returns the overrun count and the new state.  Every
difference and sum is formed in the 64-bit signed `rt_ktime_t`; the quotient is formed in
`rt_ktime_t` with the truncating division of C, added to `overrun` in `rt_ktime_t` and the
sum converted to the `int` variable `overrun`. -/
def rt_hrtimer_forward (s : Machine) (timer : Nat) (now interval : Int) :
    Except Fault (Int × Machine) := do
  let overrun : Int := 1
  let delta := to_s64 (now - (← rdt s timer).deadline)
  if delta < 0 then pure (0, s)
  else if delta ≥ interval then
    if interval = 0 then .error .div_by_zero
    else
      let overrun := to_int (to_s64 (overrun +
        Int.tdiv (to_s64 (to_s64 (delta + interval) - 1)) interval))
      match s.hrtimer_queue.event with
      | none => .error .null_deref
      | some event =>
        let s ← wrt s timer
          (fun t => { t with deadline := to_s64 (now + (event.min_delta_ns : Int)) })
        pure (overrun, s)
  else
    let s ← (if (s.timers timer).deadline ≤ now then
        wrt s timer (fun t => { t with deadline := to_s64 (t.deadline + interval) })
      else pure s)
    pure (overrun, s)

/-- Function `rt_hrtimer_forward_now`. -/
def rt_hrtimer_forward_now (s : Machine) (timer : Nat) (interval : Int) :
    Except Fault (Int × Machine) := do
  let (now, s) ← rt_clocksource_absolute_time s
  rt_hrtimer_forward s timer now interval

/-! ## Successive readings of the clock -/

/-- The values returned by `n` successive calls of `rt_clocksource_absolute_time`, in call
order, and the state after the last call. -/
def absolute_time_calls : Nat → Machine → Except Fault (List Int × Machine)
  | 0, s => .ok ([], s)
  | n + 1, s => do
    let (t, s) ← rt_clocksource_absolute_time s
    let (ts, s) ← absolute_time_calls n s
    pure (t :: ts, s)

/-- Calibration data of a clocksource as `__rt_clocksource_updatefreq_scale` leaves them:
the mask is `2^w - 1` for a counter of `w ≤ 64` bits, `mult + maxadj` does not overflow 32
bits and is not zero, and `max_cycles` is the value stored by `rt_clocks_calc_max_nsecs`,
the smaller one of `ULLONG_MAX / (mult + maxadj)` and `mask`. -/
def Calibrated (cs : rt_clocksource_device) : Prop :=
  (∃ w, w ≤ 64 ∧ cs.mask = 2 ^ w - 1) ∧ 0 < cs.mult + cs.maxadj ∧
    cs.mult + cs.maxadj < 2 ^ 32 ∧
    cs.max_cycles = min ((2 ^ 64 - 1) / (cs.mult + cs.maxadj)) cs.mask

/-- The raw counter value `raw` lies `d` cycles past the anchor `cs.cycle_last` in the
counting direction of the device, the counter wrapping modulo `mask + 1`. -/
def CyclesPastAnchor (cs : rt_clocksource_device) (raw d : Nat) : Prop :=
  if cs.mode = RT_CLOCKSOURCE_UP then
    raw % (cs.mask + 1) = (cs.cycle_last + d) % (cs.mask + 1)
  else
    (raw + d) % (cs.mask + 1) = cs.cycle_last % (cs.mask + 1)

/-- The raw counter only advances and wraps modulo `mask + 1`: between read `i` and read
`i + 1` it moves by `adv i` cycles in the counting direction of the device. -/
def CounterAdvances (cs : rt_clocksource_device) (counter adv : Nat → Nat) : Prop :=
  ∀ i, if cs.mode = RT_CLOCKSOURCE_UP then
      counter (i + 1) % (cs.mask + 1) = (counter i + adv i) % (cs.mask + 1)
    else
      (counter (i + 1) + adv i) % (cs.mask + 1) = counter i % (cs.mask + 1)

/-- Distance in cycles of the counter from the current anchor at each of `n` successive
reads, the first being read `i` at distance `d`: a read whose converted distance exceeds
`max_idle_ns_half` becomes the new anchor, and the counter moves on by `adv i`. -/
def anchorDistances (cs : rt_clocksource_device) (adv : Nat → Nat) : Nat → Nat → Nat → List Nat
  | 0, _, _ => []
  | n + 1, i, d =>
    d :: anchorDistances cs adv n (i + 1)
      ((if rt_clocksource_cyc2ns d cs.mult cs.shift > cs.max_idle_ns_half then 0 else d) + adv i)

/-- Number of cycles by which the counter advances between read `i` and read `i + k`. -/
def cyclesElapsed (adv : Nat → Nat) (i : Nat) : Nat → Nat
  | 0 => 0
  | k + 1 => adv i + cyclesElapsed adv (i + 1) k

/-! ## The delay armed by `rt_hrtimer_reschedule` -/

/-- Delay to the next deadline `deadline` at time `now` in the words of the specification:
`min_delta_ns` if `deadline - now ≤ 0`, and otherwise `deadline - now` clamped into
`[min_delta_ns, max_delta_ns]`. -/
def clampedDelay (event : rt_clockevent_device) (deadline now : Int) : Int :=
  if deadline - now ≤ 0 then (event.min_delta_ns : Int)
  else max (event.min_delta_ns : Int) (min (deadline - now) (event.max_delta_ns : Int))

/-! ## More example states -/

/-- The 32-bit up-counting clocksource of the board as calibrated for 24 MHz
(`mult = 2796202667`, `shift = 26`), with anchor `cycle_last` and time base `time_base`. -/
def boardClock (cycle_last : Nat) (time_base : Int) : rt_clocksource_device :=
  { freq := 24000000, mask := 0xFFFFFFFF, cycle_last := cycle_last, mult := 2796202667,
    shift := 26, maxadj := 307582293, mode := RT_CLOCKSOURCE_UP, max_idle_ns := 79635851949,
    max_idle_ns_half := 39817925974, max_cycles := 0xFFFFFFFF, time_base := time_base }

/-- An idle system on the board clocksource anchored at counter value 0 with time base
`time_base`; the `n`-th read of the counter returns `start + n * step`. -/
def boardMachine (time_base : Int) (start step : Nat) : Machine :=
  { idleMachine with
    hrtimer_queue := { head := { rt_rb_node := 0 }, next := 0, event := some exampleEvent,
                       cs := some (boardClock 0 time_base) }
    counter := fun n => start + n * step }

end RtThread

namespace RtThread
open Color rt_hrtimer_mode rt_hrtimer_restart rt_clocksource_mode

/-! ## hrtimer.c: calibration of the scaled conversions -/

/-- Constant `NSEC_PER_SEC`. -/
def NSEC_PER_SEC : Nat := 1000000000

/-- Constant `UINT_MAX`. -/
def UINT_MAX : Nat := 2 ^ 32 - 1

/-- The loop `while (tmp) { tmp >>= 1; sftacc--; }` of `rt_clocks_calc_mult_shift`; each
evaluation of the loop condition uses one unit of fuel. -/
def calc_sftacc (fuel : Nat) (tmp sftacc : Nat) : Except Fault Nat :=
  match fuel with
  | 0 => .error .out_of_fuel
  | fuel + 1 =>
    if tmp ≠ 0 then calc_sftacc fuel (tmp >>> 1) ((sftacc + 2 ^ 32 - 1) % 2 ^ 32)
    else pure sftacc

/-- The loop `for (sft = 32; sft > 0; sft--)` of `rt_clocks_calc_mult_shift`, entered with
the current values of `sft` and `tmp`; returns the values of `tmp` and `sft` on leaving the
loop.  Each evaluation of the loop condition uses one unit of fuel. -/
def calc_mult_shift_loop (fuel : Nat) (from_ to_ sftacc sft tmp : Nat) : Except Fault (Nat × Nat) :=
  match fuel with
  | 0 => .error .out_of_fuel
  | fuel + 1 =>
    if sft > 0 then
      let tmp := (to_ <<< sft) % 2 ^ 64
      let tmp := (tmp + from_ / 2) % 2 ^ 64
      if from_ = 0 then .error .div_by_zero
      else
        let tmp := tmp / from_
        if tmp >>> sftacc = 0 then pure (tmp, sft)
        else calc_mult_shift_loop fuel from_ to_ sftacc (sft - 1) tmp
    else pure (tmp, sft)

/-- Function `rt_clocks_calc_mult_shift(&mult, &shift, from, to, maxsec)`; returns the values
stored in `*mult` and `*shift`.  The parameters `from` and `to` are called `from_` and `to_`
here. -/
def rt_clocks_calc_mult_shift (fuel : Nat) (from_ to_ maxsec : Nat) :
    Except Fault (Nat × Nat) := do
  let tmp := ((maxsec * from_) % 2 ^ 64) >>> 32
  let sftacc ← calc_sftacc fuel tmp 32
  let (tmp, sft) ← calc_mult_shift_loop fuel from_ to_ sftacc 32 0
  pure (tmp % 2 ^ 32, sft)

/-- Function `rt_clocksource_max_adjustment` for a clocksource with multiplier `mult`. -/
def rt_clocksource_max_adjustment (mult : Nat) : Nat :=
  (((mult * 11) % 2 ^ 64) / 100) % 2 ^ 32

/-- Function `rt_clocks_calc_max_nsecs`; returns the value returned and the value stored in
`*max_cyc`.  The sum and the difference of `mult` and `maxadj` are formed in 32 bits. -/
def rt_clocks_calc_max_nsecs (mult shift maxadj mask : Nat) : Except Fault (Nat × Nat) :=
  let max_cycles := 2 ^ 64 - 1
  if (mult + maxadj) % 2 ^ 32 = 0 then .error .div_by_zero
  else
    let max_cycles := max_cycles / ((mult + maxadj) % 2 ^ 32)
    let max_cycles := if max_cycles < mask then max_cycles else mask
    let max_nsecs := rt_clocksource_cyc2ns max_cycles ((mult + 2 ^ 32 - maxadj) % 2 ^ 32) shift
    let max_nsecs := max_nsecs >>> 1
    pure (max_nsecs, max_cycles)

/-- The loop `while ((cs->mult + cs->maxadj < cs->mult) || (cs->mult - cs->maxadj > cs->mult))`
of `__rt_clocksource_updatefreq_scale` on the fields `mult`, `shift` and `maxadj`; each
evaluation of the loop condition uses one unit of fuel. -/
def updatefreq_adjust (fuel : Nat) (mult shift maxadj : Nat) : Except Fault (Nat × Nat × Nat) :=
  match fuel with
  | 0 => .error .out_of_fuel
  | fuel + 1 =>
    if (mult + maxadj) % 2 ^ 32 < mult ∨ (mult + 2 ^ 32 - maxadj) % 2 ^ 32 > mult then
      let mult := mult >>> 1
      let shift := (shift + 2 ^ 32 - 1) % 2 ^ 32
      updatefreq_adjust fuel mult shift (rt_clocksource_max_adjustment mult)
    else pure (mult, shift, maxadj)

/-- The seconds budget `sec` that `__rt_clocksource_updatefreq_scale` computes from the mask
before it calls `rt_clocks_calc_mult_shift` (for `freq` and `scale` other than 0). -/
def updatefreq_sec (mask scale freq : Nat) : Nat :=
  let sec := (mask + 2 ^ 64 - (mask >>> 3)) % 2 ^ 64
  let sec := sec / freq
  let sec := sec / scale
  if sec = 0 then 1 else if sec > 600 ∧ mask > UINT_MAX then 600 else sec

/-- Function `__rt_clocksource_updatefreq_scale`; `rt_kprintf` has no effect on the state. -/
def __rt_clocksource_updatefreq_scale (fuel : Nat) (cs : rt_clocksource_device)
    (scale freq : Nat) : Except Fault rt_clocksource_device := do
  if freq = 0 then .error .div_by_zero
  else if scale = 0 then .error .div_by_zero
  else
    let sec := updatefreq_sec cs.mask scale freq
    let (mult, shift) ← rt_clocks_calc_mult_shift fuel freq ((NSEC_PER_SEC / scale) % 2 ^ 32)
      (((sec * scale) % 2 ^ 64) % 2 ^ 32)
    let (mult, shift, maxadj) ←
      updatefreq_adjust fuel mult shift (rt_clocksource_max_adjustment mult)
    let (max_idle_ns, max_cycles) ← rt_clocks_calc_max_nsecs mult shift maxadj cs.mask
    pure { cs with mult := mult, shift := shift, maxadj := maxadj, max_idle_ns := max_idle_ns,
                   max_cycles := max_cycles, max_idle_ns_half := max_idle_ns >>> 1 }

/-- Function `_rt_clockevent_delta2ns`.  A failing `RT_ASSERT` does not return. -/
def _rt_clockevent_delta2ns (cycles : Nat) (event : rt_clockevent_device) (ismax : Bool) :
    Except Fault Nat :=
  let ns := (cycles <<< event.shift) % 2 ^ 64
  if event.mult = 0 then .error .assertion
  else
    let fixed := event.mult - 1
    let ns := if ns >>> event.shift ≠ cycles then 2 ^ 64 - 1 else ns
    let ns :=
      if 2 ^ 64 - 1 - ns > fixed ∧ (ismax = false ∨ event.mult ≤ (1 <<< event.shift) % 2 ^ 64)
      then ns + fixed else ns
    let ns := ns / event.mult
    pure (if ns > 1000 then ns else 1000)

/-- Function `rt_clockevents_config`, with the inline `rt_clockevents_calc_mult_shift`.  The
64-bit results of `_rt_clockevent_delta2ns` are stored in the `unsigned long` fields
`min_delta_ns` and `max_delta_ns`. -/
def rt_clockevents_config (fuel : Nat) (dev : rt_clockevent_device) (freq : Nat) :
    Except Fault rt_clockevent_device := do
  let sec := dev.max_delta_cycles
  if freq = 0 then .error .div_by_zero
  else
    let sec := sec / freq
    let sec := if sec = 0 then 1
      else if sec > 600 ∧ dev.max_delta_cycles > UINT_MAX then 600 else sec
    let (mult, shift) ← rt_clocks_calc_mult_shift fuel NSEC_PER_SEC freq (sec % 2 ^ 32)
    let dev := { dev with mult := mult, shift := shift }
    let min_ns ← _rt_clockevent_delta2ns dev.min_delta_cycles dev false
    let dev := { dev with min_delta_ns := min_ns % 2 ^ ULONG_BITS }
    let max_ns ← _rt_clockevent_delta2ns dev.max_delta_cycles dev true
    pure { dev with max_delta_ns := max_ns % 2 ^ ULONG_BITS }

/-- Function `rt_clockevent_device_register`; the handler pointer stored in the device is
not part of the model. -/
def rt_clockevent_device_register (fuel : Nat) (s : Machine) (event_device : rt_clockevent_device)
    (freq : Nat) : Except Fault Machine := do
  let dev ← rt_clockevents_config fuel event_device freq
  pure { s with hrtimer_queue := { s.hrtimer_queue with event := some dev } }

/-- Function `rt_clocksource_device_register_hz`. -/
def rt_clocksource_device_register_hz (fuel : Nat) (s : Machine) (cs : rt_clocksource_device)
    (hz : Nat) : Except Fault Machine := do
  let cs ← __rt_clocksource_updatefreq_scale fuel cs 1 hz
  pure { s with hrtimer_queue := { s.hrtimer_queue with cs := some cs } }

/-- Function `rt_clocksource_device_register_khz`. -/
def rt_clocksource_device_register_khz (fuel : Nat) (s : Machine) (cs : rt_clocksource_device)
    (khz : Nat) : Except Fault Machine := do
  let cs ← __rt_clocksource_updatefreq_scale fuel cs 1000 khz
  pure { s with hrtimer_queue := { s.hrtimer_queue with cs := some cs } }

/-! ## hrtimer.c: time stamps -/

/-- Function `rt_hrtimer_elapsed_time`; `mem` holds the `rt_ktime_t` objects of the caller
and `p` is the pointer `then`.  The difference is formed in the 64-bit signed
`rt_ktime_t`. -/
def rt_hrtimer_elapsed_time (s : Machine) (mem : Nat → Int) (p : Nat) :
    Except Fault (Int × Machine) := do
  let (t, s) ← rt_clocksource_absolute_time s
  if p = 0 then .error .null_deref
  else pure (to_s64 (t - mem p), s)

/-- Function `rt_hrtimer_store_absolute_time`; `mem` holds the `rt_ktime_t` objects of the
caller and `p` is the pointer `now`.  Returns the value returned, the memory and the state
after the call: the body does not assign through `now`. -/
def rt_hrtimer_store_absolute_time (s : Machine) (mem : Nat → Int) (_p : Nat) :
    Except Fault (Int × (Nat → Int) × Machine) := do
  let (ts, s) ← rt_clocksource_absolute_time s
  pure (ts, mem, s)

/-! ## The board of `board.c` -/

/-- The clocksource record of `rt_hw_timer_init` before registration: a 32-bit up-counter,
counter and time base at 0. -/
def clocksource_dm365 : rt_clocksource_device :=
  { freq := 0, mask := 0xFFFFFFFF, cycle_last := 0, mult := 0, shift := 0, maxadj := 0,
    mode := RT_CLOCKSOURCE_UP, max_idle_ns := 0, max_idle_ns_half := 0, max_cycles := 0,
    time_base := 0 }

/-- The clockevent record of `rt_hw_timer_init` before registration. -/
def clockevent_dm365 : rt_clockevent_device :=
  { min_delta_cycles := 1, max_delta_cycles := 0xFFFFFFFE, min_delta_ns := 0, max_delta_ns := 0,
    mult := 0, shift := 0 }

/-- The system before any device is registered: empty queue, every timer record cleared;
the counter stands at 0 for the first three reads and at 240000 afterwards. -/
def bootMachine : Machine :=
  { nodes := fun a => { rt_rb_parent := a, rt_rb_color := RB_RED, rt_rb_right := 0, rt_rb_left := 0 }
    timers := fun _ =>
      { deadline := 0, state := 0, mode := RT_HRTIMER_MODE_ABS, function := 0, arg := 0 }
    hrtimer_queue := { head := { rt_rb_node := 0 }, next := 0, event := none, cs := none }
    update_clock_timer := 9
    counter := fun n => if n < 3 then 0 else 240000
    reads := 0
    armed := []
    fired := [] }

end RtThread

namespace RtThread
open Color rt_hrtimer_mode rt_hrtimer_restart rt_clocksource_mode

/-! ## hrtimer.c: conversion between absolute time and `struct timespec` -/

/-- Conversion of an integer value to a signed integer type of `w` bits (two's
complement). -/
def to_signed (w : Nat) (x : Int) : Int := (x + 2 ^ (w - 1)) % 2 ^ w - 2 ^ (w - 1)

/-- Record `struct timespec` of `<sys/time.h>`: `tv_sec` of type `time_t`, `tv_nsec` of type
`long`. -/
structure timespec where
  tv_sec : Int
  tv_nsec : Int
deriving DecidableEq

/-- Function `rt_ts_to_abstime`; the product and the sum are formed in the 64-bit signed
`rt_ktime_t`. -/
def rt_ts_to_abstime (ts : timespec) : Int :=
  let result := to_s64 (ts.tv_sec * (NSEC_PER_SEC : Int))
  let result := to_s64 (result + ts.tv_nsec)
  result

/-- Function `rt_abstime_to_ts`; returns the record stored in `*ts`.  The header that
declares `time_t` is not part of the sources, so its width `w` in bits is a parameter; the
quotient is converted to `time_t` and the remainder to `long` when they are stored.  The
division of C truncates towards zero.  The product `ts->tv_sec * NSEC_PER_SEC` has the
wider one of the types `time_t` and `long` (`NSEC_PER_SEC` is `1000000000L`), and the
subtraction is done in the 64-bit signed `rt_ktime_t`. -/
def rt_abstime_to_ts (w : Nat) (abstime : Int) : timespec :=
  let tv_sec := to_signed w (Int.tdiv abstime (NSEC_PER_SEC : Int))
  let abstime := to_s64 (abstime -
    to_signed (max w ULONG_BITS) (tv_sec * (NSEC_PER_SEC : Int)))
  { tv_sec := tv_sec, tv_nsec := to_signed ULONG_BITS abstime }

/-! ## Results for different amounts of fuel -/

/-- The result `b` for one more unit of fuel agrees with the result `a`, unless `a` is the
fault of running out of fuel. -/
def Step {α : Type} (a b : Except Fault α) : Prop := a = .error .out_of_fuel ∨ b = a

/-! ## Walking the tree -/

/-- The loop `for (n = ...; n; n = rt_rb_next(n))` of a client that walks the tree, started
at node `n`; returns the nodes visited, in the order of the visits.  Each evaluation of the
loop condition uses one of `steps`; `fuel` is the fuel of each call of `rt_rb_next`. -/
def rb_walk_loop (steps fuel : Nat) (m : NodeMem) (n : Nat) : Except Fault (List Nat) :=
  match steps with
  | 0 => .error .out_of_fuel
  | steps + 1 =>
    if n = 0 then pure []
    else do
      let nx ← rt_rb_next fuel m n
      let rest ← rb_walk_loop steps fuel m nx
      pure (n :: rest)

/-- The walk `for (n = rt_rb_first(root); n; n = rt_rb_next(n))` over the whole tree. -/
def rb_walk (steps fuel : Nat) (m : NodeMem) (root : rt_rb_root) : Except Fault (List Nat) := do
  let n ← rt_rb_first fuel m root
  rb_walk_loop steps fuel m n

/-! ## The queue as a list -/

/-- Stable sorted insert in the words of the specification: in the sequence `l` the new
timer `x` is placed after every timer whose deadline is `≤` its own and before every timer
with a greater deadline; `d` gives the deadlines. -/
def stableInsert (d : Nat → Int) (x : Nat) (l : List Nat) : List Nat :=
  l.filter (fun a => decide (d a ≤ d x)) ++ x :: l.filter (fun b => decide (d x < d b))

/-- The sequence of queued timers after a sequence of insertions and removals, in the words
of the specification: an insertion is a stable sorted insert, a removal deletes the
timer. -/
def specQueue (d : Nat → Int) : List QueueOp → List Nat → List Nat
  | [], l => l
  | .insert a :: ops, l => specQueue d ops (stableInsert d a l)
  | .remove a :: ops, l => specQueue d ops (l.erase a)

/-- Every insertion of the sequence is of a timer that is not queued and every removal of
one that is, `l` being the timers queued at the start. -/
def opsValid (d : Nat → Int) : List QueueOp → List Nat → Bool
  | [], _ => true
  | .insert a :: ops, l => decide (a ∉ l) && opsValid d ops (stableInsert d a l)
  | .remove a :: ops, l => decide (a ∈ l) && opsValid d ops (l.erase a)

/-! ## Sequences of calls of the public interface -/

/-- One call of the public interface of `hrtimer.c` on the queue: `rt_hrtimer_start`,
`rt_hrtimer_cancel`, or a run of the interrupt handler. -/
inductive ApiOp where
  | start (timer : Nat) (time : Int) (mode : rt_hrtimer_mode)
  | cancel (timer : Nat)
  | handler
deriving DecidableEq

/-- The timer a call names is not at `NULL`. -/
def ApiOp.nonNull : ApiOp → Prop
  | .start timer _ _ => timer ≠ 0
  | .cancel timer => timer ≠ 0
  | .handler => True

instance ApiOp.decNonNull : (op : ApiOp) → Decidable op.nonNull
  | .start _ _ _ => by unfold ApiOp.nonNull; exact inferInstance
  | .cancel _ => by unfold ApiOp.nonNull; exact inferInstance
  | .handler => by unfold ApiOp.nonNull; exact inferInstance

/-- Run a sequence of calls of the public interface; the status returned by
`rt_hrtimer_start` and `rt_hrtimer_cancel` is dropped. -/
def runApi (cb : Callbacks) (fuel : Nat) : List ApiOp → Machine → Except Fault Machine
  | [], s => .ok s
  | .start timer time mode :: ops, s => do
    let (_, s) ← rt_hrtimer_start fuel s timer time mode
    runApi cb fuel ops s
  | .cancel timer :: ops, s => do
    let (_, s) ← rt_hrtimer_cancel fuel s timer
    runApi cb fuel ops s
  | .handler :: ops, s => do
    let s ← rt_hrtimer_handler cb fuel s
    runApi cb fuel ops s

/-- The callbacks return and do not touch the queue: a call leaves the index, the cached
minimum, the registered clockevent, the address of the keep-alive timer, the state flags of
every timer and the deadline of every enqueued timer as they are, and a clocksource that is
registered stays registered.  A callback may read the clock and may change the record of a
timer that is not enqueued, such as the timer it is called for. -/
def CallbackFrame (cb : Callbacks) : Prop :=
  ∀ f arg s, ∃ ret s', cb f arg s = .ok (ret, s') ∧
    s'.nodes = s.nodes ∧ s'.hrtimer_queue.head = s.hrtimer_queue.head ∧
    s'.hrtimer_queue.next = s.hrtimer_queue.next ∧
    s'.hrtimer_queue.event = s.hrtimer_queue.event ∧
    (s.hrtimer_queue.cs.isSome = true → s'.hrtimer_queue.cs.isSome = true) ∧
    s'.update_clock_timer = s.update_clock_timer ∧
    ∀ a, (s'.timers a).state = (s.timers a).state ∧
      (RT_HRTIMER_IS_QUEUED (s.timers a) = true →
        (s'.timers a).deadline = (s.timers a).deadline)

/-- No callback asks for a restart. -/
def NoRestart (cb : Callbacks) : Prop :=
  ∀ f arg s ret s', cb f arg s = .ok (ret, s') → ret = RT_HRTIMER_NORESTART

/-- The callbacks leave the enqueued timers and the log of the callback calls alone: a call
changes the record of no timer that is enqueued when it is made. -/
def CallbackQuiet (cb : Callbacks) : Prop :=
  ∀ f arg s ret s', cb f arg s = .ok (ret, s') →
    s'.fired = s.fired ∧
    ∀ a, RT_HRTIMER_IS_QUEUED (s.timers a) = true → s'.timers a = s.timers a

/-- The callbacks leave the clock reading fixed at `now`. -/
def ClockKept (cb : Callbacks) (now : Int) : Prop :=
  ∀ f arg s ret s', cb f arg s = .ok (ret, s') → ClockFixed s now → ClockFixed s' now

/-- A run of `rt_hrtimer_cancel` during which the timer interrupt is served between the test
`RT_HRTIMER_IS_QUEUED(timer)` and the call of `rt_hw_interrupt_disable` that follows it: the
function makes the test with interrupts enabled, and the interrupt runs
`rt_hrtimer_handler`. -/
def rt_hrtimer_cancel_interrupted (cb : Callbacks) (fuel : Nat) (s : Machine) (timer : Nat) :
    Except Fault (Int × Machine) := do
  if RT_HRTIMER_IS_QUEUED (← rdt s timer) = false then pure (0, s)
  else
    let s ← rt_hrtimer_handler cb fuel s
    let need_reschedule := decide (s.hrtimer_queue.next = timer)
    let s ← rt_hrtimer_dequeue fuel s timer
    let s ← (if need_reschedule = true then rt_hrtimer_reschedule fuel s else pure s)
    pure (1, s)

/-- The state between two calls of the public interface: the queue is consistent with the
tree `T`, no timer has the `CALLBACK` flag set, both devices are registered and the
keep-alive timer is not at `NULL`. -/
structure ApiInv (s : Machine) (T : Tree) : Prop where
  q : QState s T
  nocb : ∀ a, a ≠ 0 → RT_HRTIMER_IS_CALLBACK_RUNNING (s.timers a) = false
  cs : s.hrtimer_queue.cs.isSome = true
  ev : s.hrtimer_queue.event.isSome = true
  uct : s.update_clock_timer ≠ 0

/-! ## More example states -/

/-- The system with three timers enqueued: timer 2 (black) is the root of the index, timers
1 and 3 (red) are its children; the timer at address `a` has deadline `a` and no callback.
The time is 5. -/
def threeTimers : Machine :=
  { idleMachine with
    nodes := fun a => if a = 2 then
        { rt_rb_parent := 0, rt_rb_color := RB_BLACK, rt_rb_right := 3, rt_rb_left := 1 }
      else if a = 1 ∨ a = 3 then
        { rt_rb_parent := 2, rt_rb_color := RB_RED, rt_rb_right := 0, rt_rb_left := 0 }
      else { rt_rb_parent := a, rt_rb_color := RB_RED, rt_rb_right := 0, rt_rb_left := 0 }
    timers := fun a => if a = 1 ∨ a = 2 ∨ a = 3 then
        { deadline := a, state := 1, mode := RT_HRTIMER_MODE_REL, function := 0, arg := a }
      else { deadline := a, state := 0, mode := RT_HRTIMER_MODE_REL, function := 0, arg := a }
    hrtimer_queue := exampleQueue 2 1 }

/-- A periodic callback that does not touch the queue: for a timer that is not enqueued it
moves the deadline of the timer passed as argument on by 100 and asks for a restart; for an
enqueued timer it does nothing. -/
def periodicCallback : Callbacks := fun _ arg s =>
  if RT_HRTIMER_IS_QUEUED (s.timers arg) then .ok (RT_HRTIMER_NORESTART, s)
  else .ok (RT_HRTIMER_RESTART,
    { s with
      timers := Function.update s.timers arg
        { s.timers arg with deadline := to_s64 ((s.timers arg).deadline + 100) } })

/-- A one-shot callback that reads the clock and stores the time in the record of the timer
passed as argument, provided that timer is not enqueued. -/
def stampCallback : Callbacks := fun _ arg s =>
  if RT_HRTIMER_IS_QUEUED (s.timers arg) then .ok (RT_HRTIMER_NORESTART, s)
  else
    match rt_clocksource_absolute_time s with
    | .ok (now, s) => .ok (RT_HRTIMER_NORESTART,
        { s with
          timers := Function.update s.timers arg { s.timers arg with deadline := now } })
    | .error _ => .ok (RT_HRTIMER_NORESTART, s)

/-- The system with three timers enqueued that have the callback at address 7 and their own
address as argument: timer 1 with deadline 1, timer 2 with deadline 5 and timer 3 with
deadline 9; timer 2 (black) is the root of the index, timers 1 and 3 (red) are its
children.  The time is 5. -/
def dueTimers : Machine :=
  { threeTimers with
    timers := fun a => if a = 1 ∨ a = 2 ∨ a = 3 then
        { deadline := if a = 1 then 1 else if a = 2 then 5 else 9, state := 1,
          mode := RT_HRTIMER_MODE_REL, function := 7, arg := a }
      else { deadline := a, state := 0, mode := RT_HRTIMER_MODE_REL, function := 0, arg := a } }

/-- A clockevent with the largest 32-bit multiplier. -/
def wideEvent : rt_clockevent_device :=
  { exampleEvent with mult := 4294967295 }

/-- The system of `oneTimer` with the deadline `d` for timer 1 and the clockevent `ev`. -/
def oneTimerAt (d : Int) (ev : rt_clockevent_device) : Machine :=
  { oneTimer with
    timers := fun a => if a = 1 then { oneTimer.timers 1 with deadline := d }
      else oneTimer.timers a
    hrtimer_queue := { oneTimer.hrtimer_queue with event := some ev } }

/-- An idle system in which every timer has the deadline 7. -/
def tieMachine : Machine :=
  { idleMachine with
    timers := fun a =>
      { deadline := 7, state := 0, mode := RT_HRTIMER_MODE_REL, function := 0, arg := a } }

end RtThread

namespace RtThread
open Color

/-! ## Basic facts about the fault monad and memory access -/

@[simp]
theorem ok_bind {α β : Type} (a : α) (f : α → Except Fault β) :
    (Except.ok a >>= f) = f a := rfl

@[simp]
theorem error_bind {α β : Type} (e : Fault) (f : α → Except Fault β) :
    ((Except.error e : Except Fault α) >>= f) = Except.error e := rfl

@[simp]
theorem pure_eq_ok {α : Type} (a : α) : (pure a : Except Fault α) = Except.ok a := rfl

theorem rd_ok {m : NodeMem} {p : Nat} (h : p ≠ 0) : rd m p = .ok (m p) := by
  simp [rd, h]

theorem wr_ok {m : NodeMem} {p : Nat} {f : rt_rb_node → rt_rb_node} (h : p ≠ 0) :
    wr m p f = .ok (Function.update m p (f (m p))) := by
  simp [wr, h]

/-! ## Unfolding lemmas -/

@[simp]
theorem Tree.addr_nil : Tree.nil.addr = 0 := rfl
@[simp]
theorem Tree.addr_node (a : Nat) (c : Color) (l r : Tree) :
    (Tree.node a c l r).addr = a := rfl
@[simp]
theorem Tree.color_nil : Tree.nil.color = RB_BLACK := rfl
@[simp]
theorem Tree.color_node (a : Nat) (c : Color) (l r : Tree) :
    (Tree.node a c l r).color = c := rfl
@[simp]
theorem Ctx.top_nil : Ctx.top [] = 0 := rfl
@[simp]
theorem Ctx.top_cons (f : Frame) (k : Ctx) : Ctx.top (f :: k) = f.addr := rfl
@[simp]
theorem Frame.addr_L (a : Nat) (c : Color) (r : Tree) : (Frame.L a c r).addr = a := rfl
@[simp]
theorem Frame.addr_R (a : Nat) (c : Color) (l : Tree) : (Frame.R a c l).addr = a := rfl
@[simp]
theorem Ctx.rootAddr_nil (x : Nat) : Ctx.rootAddr [] x = x := rfl
@[simp]
theorem Ctx.rootAddr_cons (f : Frame) (k : Ctx) (x : Nat) :
    Ctx.rootAddr (f :: k) x = Ctx.rootAddr k f.addr := rfl
@[simp]
theorem plug_nil (t : Tree) : plug [] t = t := rfl
@[simp]
theorem plug_consL (a : Nat) (c : Color) (r : Tree) (k : Ctx) (t : Tree) :
    plug (.L a c r :: k) t = plug k (.node a c t r) := rfl
@[simp]
theorem plug_consR (a : Nat) (c : Color) (l : Tree) (k : Ctx) (t : Tree) :
    plug (.R a c l :: k) t = plug k (.node a c l t) := rfl

/-! ## Occurrence counting -/

namespace Tree

@[simp]
theorem occ_nil (z : Nat) : occ z nil = 0 := rfl

@[simp]
theorem occ_node (z a : Nat) (c : Color) (l r : Tree) :
    occ z (node a c l r) = occ z l + (if a = z then 1 else 0) + occ z r := by
  simp [occ, inorder, List.count_cons]
  omega

theorem occ_eq_zero {z : Nat} {t : Tree} : occ z t = 0 ↔ z ∉ t.inorder := by
  simp [occ, List.count_eq_zero]

theorem occ_pos {z : Nat} {t : Tree} : 0 < occ z t ↔ z ∈ t.inorder := by
  simp [occ, List.count_pos_iff]

end Tree

namespace Ctx

@[simp]
theorem occ_empty (z : Nat) : occ z ([] : Ctx) = 0 := rfl

@[simp]
theorem occ_consL (z a : Nat) (c : Color) (r : Tree) (k : Ctx) :
    occ z (.L a c r :: k) = (if a = z then 1 else 0) + Tree.occ z r + occ z k := by
  simp [occ, before, after, Tree.occ, List.count_cons]
  omega

@[simp]
theorem occ_consR (z a : Nat) (c : Color) (l : Tree) (k : Ctx) :
    occ z (.R a c l :: k) = (if a = z then 1 else 0) + Tree.occ z l + occ z k := by
  simp [occ, before, after, Tree.occ, List.count_cons]
  omega

end Ctx

theorem ne_addr_of_occ {x : Nat} {t : Tree} (h0 : x ≠ 0) (h : Tree.occ x t = 0) :
    x ≠ t.addr := by
  cases t with
  | nil => simpa using h0
  | node a c l r =>
    rintro rfl
    simp at h

theorem inorder_plug (k : Ctx) (t : Tree) :
    (plug k t).inorder = k.before ++ t.inorder ++ k.after := by
  induction k generalizing t with
  | nil => simp [plug, Ctx.before, Ctx.after]
  | cons f rest ih =>
    cases f <;> simp [plug, Frame.fill, Ctx.before, Ctx.after, ih, Tree.inorder]

theorem occ_plug (z : Nat) (k : Ctx) (t : Tree) :
    Tree.occ z (plug k t) = Tree.occ z t + Ctx.occ z k := by
  simp [Tree.occ, Ctx.occ, inorder_plug]
  omega

theorem addr_plug (k : Ctx) (t : Tree) : (plug k t).addr = k.rootAddr t.addr := by
  induction k generalizing t with
  | nil => rfl
  | cons f rest ih =>
    cases f <;> simp only [plug, Frame.fill, Ctx.rootAddr, Frame.addr] <;> rw [ih] <;> rfl

theorem nodup_iff_occ (t : Tree) : t.inorder.Nodup ↔ ∀ z, Tree.occ z t ≤ 1 := by
  simp [Tree.occ, List.nodup_iff_count_le_one]

/-! ## The representation relation under memory updates -/

theorem Rep_congr {m m' : NodeMem} {par : Nat} {t : Tree}
    (h : ∀ z, 0 < Tree.occ z t → m' z = m z) (hr : Rep m par t) : Rep m' par t := by
  induction t generalizing par with
  | nil => trivial
  | node a c l r ihl ihr =>
    obtain ⟨h0, ha, hl, hrr⟩ := hr
    refine ⟨h0, ?_, ihl ?_ hl, ihr ?_ hrr⟩
    · rw [h a (by simp), ha]
    · intro z hz; exact h z (by simp; omega)
    · intro z hz; exact h z (by simp; omega)

theorem Rep_update {m : NodeMem} {par w : Nat} {v : rt_rb_node} {t : Tree}
    (h : Tree.occ w t = 0) (hr : Rep m par t) : Rep (Function.update m w v) par t := by
  apply Rep_congr _ hr
  intro z hz
  have : z ≠ w := by rintro rfl; omega
  simp [Function.update_apply, this]

theorem CtxRep_congr {m m' : NodeMem} {x : Nat} {k : Ctx}
    (h : ∀ z, 0 < Ctx.occ z k → m' z = m z) (hr : CtxRep m k x) : CtxRep m' k x := by
  induction k generalizing x with
  | nil => trivial
  | cons f rest ih =>
    cases f with
    | L a c r =>
      obtain ⟨h0, ha, hs, hk⟩ := hr
      refine ⟨h0, ?_, Rep_congr ?_ hs, ih ?_ hk⟩
      · rw [h a (by simp), ha]
      · intro z hz; exact h z (by simp; omega)
      · intro z hz; exact h z (by simp; omega)
    | R a c l =>
      obtain ⟨h0, ha, hs, hk⟩ := hr
      refine ⟨h0, ?_, Rep_congr ?_ hs, ih ?_ hk⟩
      · rw [h a (by simp), ha]
      · intro z hz; exact h z (by simp; omega)
      · intro z hz; exact h z (by simp; omega)

theorem CtxRep_update {m : NodeMem} {x w : Nat} {v : rt_rb_node} {k : Ctx}
    (h : Ctx.occ w k = 0) (hr : CtxRep m k x) : CtxRep (Function.update m w v) k x := by
  apply CtxRep_congr _ hr
  intro z hz
  have : z ≠ w := by rintro rfl; omega
  simp [Function.update_apply, this]

/-- Changing the parent pointer of the root of a subtree. -/
theorem Rep_reparent {m m' : NodeMem} {par par' : Nat} {t : Tree}
    (hnd : ∀ z, Tree.occ z t ≤ 1)
    (h : ∀ z, 0 < Tree.occ z t → z ≠ t.addr → m' z = m z)
    (hroot : t ≠ .nil → m' t.addr = { m t.addr with rt_rb_parent := par' })
    (hr : Rep m par t) : Rep m' par' t := by
  cases t with
  | nil => trivial
  | node a c l r =>
    obtain ⟨h0, ha, hl, hrr⟩ := hr
    have hz := hnd a
    simp at hz
    refine ⟨h0, ?_, Rep_congr ?_ hl, Rep_congr ?_ hrr⟩
    · have := hroot (by simp)
      simp [Tree.addr] at this
      rw [this, ha]
    · intro z hz'
      apply h z (by simp; omega)
      rintro rfl
      simp [Tree.addr] at *
      omega
    · intro z hz'
      apply h z (by simp; omega)
      rintro rfl
      simp [Tree.addr] at *
      omega

theorem Rep_plug {m : NodeMem} (k : Ctx) (t : Tree) :
    Rep m 0 (plug k t) ↔ Rep m k.top t ∧ CtxRep m k t.addr := by
  induction k generalizing t with
  | nil => simp [plug, Ctx.top, CtxRep]
  | cons f rest ih =>
    cases f with
    | L a c r =>
      simp only [plug, Frame.fill, ih, Rep, Tree.addr, CtxRep, Ctx.top, Frame.addr]
      tauto
    | R a c l =>
      simp only [plug, Frame.fill, ih, Rep, Tree.addr, CtxRep, Ctx.top, Frame.addr]
      tauto

theorem heapTree_plug {m : NodeMem} {root : rt_rb_root} (k : Ctx) (t : Tree) :
    HeapTree m root (plug k t) ↔
      root.rt_rb_node = k.rootAddr t.addr ∧ Rep m k.top t ∧ CtxRep m k t.addr ∧
      ∀ z, Tree.occ z t + Ctx.occ z k ≤ 1 := by
  constructor
  · intro h
    refine ⟨by rw [h.root_eq, addr_plug], ((Rep_plug k t).1 h.rep).1,
      ((Rep_plug k t).1 h.rep).2, ?_⟩
    intro z
    rw [← occ_plug]
    exact (nodup_iff_occ _).1 h.nodup z
  · rintro ⟨h1, h2, h3, h4⟩
    refine ⟨by rw [h1, addr_plug], (Rep_plug k t).2 ⟨h2, h3⟩, ?_⟩
    rw [nodup_iff_occ]
    intro z
    rw [occ_plug]
    exact h4 z

end RtThread

namespace RtThread
open Color Tree

/-! ## The two code fragments evaluate to their pure effects -/

theorem setParentIf_eval (m : NodeMem) (c p : Nat) :
    (if c ≠ 0 then wr m c (fun n => { n with rt_rb_parent := p }) else Except.ok m) =
      .ok (setParentIf m c p) := by
  by_cases h : c = 0 <;> simp [h, setParentIf, wr]

theorem relink_eval (m : NodeMem) (root : rt_rb_root) (parent node child : Nat) :
    (if parent ≠ 0 then do
        if (← rd m parent).rt_rb_left = node then
          let m ← wr m parent (fun n => { n with rt_rb_left := child })
          Except.ok (m, root)
        else
          let m ← wr m parent (fun n => { n with rt_rb_right := child })
          Except.ok (m, root)
      else
        Except.ok (m, ({ rt_rb_node := child } : rt_rb_root))) =
      .ok (relink m root parent node child) := by
  by_cases h : parent = 0
  · simp [h, relink]
  · by_cases h2 : (m parent).rt_rb_left = node <;> simp [h, h2, relink, rd, wr]

theorem relink_eval' (m : NodeMem) (root : rt_rb_root) (parent node child : Nat) :
    (if parent ≠ 0 then do
        if node = (← rd m parent).rt_rb_left then
          let m ← wr m parent (fun n => { n with rt_rb_left := child })
          Except.ok (m, root)
        else
          let m ← wr m parent (fun n => { n with rt_rb_right := child })
          Except.ok (m, root)
      else
        Except.ok (m, ({ rt_rb_node := child } : rt_rb_root))) =
      .ok (relink m root parent node child) := by
  by_cases h : parent = 0
  · simp [h, relink]
  · by_cases h2 : (m parent).rt_rb_left = node
    · simp [h, h2, relink, rd, wr]
    · have h3 : ¬ node = (m parent).rt_rb_left := fun e => h2 e.symm
      simp [h, h2, h3, relink, rd, wr]

theorem relinkR_eval' (m : NodeMem) (root : rt_rb_root) (parent node child : Nat) :
    (if parent ≠ 0 then do
        if node = (← rd m parent).rt_rb_right then
          let m ← wr m parent (fun n => { n with rt_rb_right := child })
          Except.ok (m, root)
        else
          let m ← wr m parent (fun n => { n with rt_rb_left := child })
          Except.ok (m, root)
      else
        Except.ok (m, ({ rt_rb_node := child } : rt_rb_root))) =
      .ok (relinkR m root parent node child) := by
  by_cases h : parent = 0
  · simp [h, relinkR]
  · by_cases h2 : (m parent).rt_rb_right = node
    · simp [h, h2, relinkR, rd, wr]
    · have h3 : ¬ node = (m parent).rt_rb_right := fun e => h2 e.symm
      simp [h, h2, h3, relinkR, rd, wr]

/-! ## Reading through the pure effects -/

theorem setParentIf_apply {m : NodeMem} {t : Tree} {p z : Nat} (h : Tree.occ z t = 0) :
    setParentIf m t.addr p z = m z := by
  cases t with
  | nil => simp [setParentIf]
  | node a c l r =>
    have : z ≠ a := by rintro rfl; simp at h
    simp only [setParentIf, Tree.addr_node]
    split_ifs <;> simp [Function.update_apply, this]

theorem setParentIf_root {m : NodeMem} {a : Nat} {c : Color} {l r : Tree} {p : Nat} (h : a ≠ 0) :
    setParentIf m (Tree.node a c l r).addr p a = { m a with rt_rb_parent := p } := by
  simp [setParentIf, h]

theorem relink_apply {m : NodeMem} {root : rt_rb_root} {k : Ctx} {x y z : Nat}
    (h : Ctx.occ z k = 0) : (relink m root k.top x y).1 z = m z := by
  rcases k with _ | ⟨⟨p, cp, s⟩ | ⟨p, cp, s⟩, rest⟩
  · simp [relink]
  · have : z ≠ p := by rintro rfl; simp at h
    simp only [relink, Ctx.top_cons, Frame.addr_L]
    split_ifs <;> simp [Function.update_apply, this]
  · have : z ≠ p := by rintro rfl; simp at h
    simp only [relink, Ctx.top_cons, Frame.addr_R]
    split_ifs <;> simp [Function.update_apply, this]

theorem relinkR_apply {m : NodeMem} {root : rt_rb_root} {k : Ctx} {x y z : Nat}
    (h : Ctx.occ z k = 0) : (relinkR m root k.top x y).1 z = m z := by
  rcases k with _ | ⟨⟨p, cp, s⟩ | ⟨p, cp, s⟩, rest⟩
  · simp [relinkR]
  · have : z ≠ p := by rintro rfl; simp at h
    simp only [relinkR, Ctx.top_cons, Frame.addr_L]
    split_ifs <;> simp [Function.update_apply, this]
  · have : z ≠ p := by rintro rfl; simp at h
    simp only [relinkR, Ctx.top_cons, Frame.addr_R]
    split_ifs <;> simp [Function.update_apply, this]

/-! ## The pure effects on the representation -/

theorem setParentIf_rep {m : NodeMem} {t : Tree} (par : Nat) {par' : Nat}
    (hnd : ∀ z, Tree.occ z t ≤ 1) (hr : Rep m par t) :
    Rep (setParentIf m t.addr par') par' t := by
  apply Rep_reparent hnd _ _ hr
  · intro z _ hz
    cases t with
    | nil => simp [setParentIf]
    | node a c l r =>
      simp only [Tree.addr_node] at hz
      simp only [setParentIf, Tree.addr_node]
      split_ifs <;> simp [Function.update_apply, hz]
  · intro ht
    cases t with
    | nil => exact absurd rfl ht
    | node a c l r => simp [setParentIf, hr.1]

theorem occ_ctx_le_of_rep {m : NodeMem} {k : Ctx} {x : Nat} (h : CtxRep m k x) : k.top ≠ 0 ∨ k = [] := by
  rcases k with _ | ⟨⟨p, cp, s⟩ | ⟨p, cp, s⟩, rest⟩
  · right; rfl
  · left; exact h.1
  · left; exact h.1

theorem relink_ctx {m : NodeMem} {root : rt_rb_root} {k : Ctx} {x y : Nat}
    (hk : CtxRep m k x) (hx0 : x ≠ 0) (hxk : Ctx.occ x k = 0) (hnd : ∀ z, Ctx.occ z k ≤ 1)
    (hroot : root.rt_rb_node = k.rootAddr x) :
    CtxRep (relink m root k.top x y).1 k y ∧
      (relink m root k.top x y).2.rt_rb_node = k.rootAddr y := by
  rcases k with _ | ⟨⟨p, cp, s⟩ | ⟨p, cp, s⟩, rest⟩
  · simp [relink, CtxRep]
  · obtain ⟨hp0, hmp, hs, hrest⟩ := hk
    have hp := hnd p
    simp only [Ctx.occ_consL, if_true] at hp
    simp only [relink, Ctx.top_cons, Frame.addr_L, hp0, hmp, if_false, if_true, Ctx.rootAddr_cons]
    refine ⟨⟨hp0, by simp, Rep_update (by omega) hs, CtxRep_update (by omega) hrest⟩, hroot⟩
  · obtain ⟨hp0, hmp, hs, hrest⟩ := hk
    have hp := hnd p
    simp only [Ctx.occ_consR, if_true] at hp hxk
    have hxs : x ≠ s.addr := ne_addr_of_occ hx0 (by omega)
    simp only [relink, Ctx.top_cons, Frame.addr_R, hp0, hmp, if_false, hxs.symm, Ctx.rootAddr_cons]
    refine ⟨⟨hp0, by simp, Rep_update (by omega) hs, CtxRep_update (by omega) hrest⟩, hroot⟩

theorem relinkR_ctx {m : NodeMem} {root : rt_rb_root} {k : Ctx} {x y : Nat}
    (hk : CtxRep m k x) (hx0 : x ≠ 0) (hxk : Ctx.occ x k = 0) (hnd : ∀ z, Ctx.occ z k ≤ 1)
    (hroot : root.rt_rb_node = k.rootAddr x) :
    CtxRep (relinkR m root k.top x y).1 k y ∧
      (relinkR m root k.top x y).2.rt_rb_node = k.rootAddr y := by
  rcases k with _ | ⟨⟨p, cp, s⟩ | ⟨p, cp, s⟩, rest⟩
  · simp [relinkR, CtxRep]
  · obtain ⟨hp0, hmp, hs, hrest⟩ := hk
    have hp := hnd p
    simp only [Ctx.occ_consL, if_true] at hp hxk
    have hxs : x ≠ s.addr := ne_addr_of_occ hx0 (by omega)
    simp only [relinkR, Ctx.top_cons, Frame.addr_L, hp0, hmp, if_false, hxs.symm, Ctx.rootAddr_cons]
    refine ⟨⟨hp0, by simp, Rep_update (by omega) hs, CtxRep_update (by omega) hrest⟩, hroot⟩
  · obtain ⟨hp0, hmp, hs, hrest⟩ := hk
    have hp := hnd p
    simp only [Ctx.occ_consR, if_true] at hp
    simp only [relinkR, Ctx.top_cons, Frame.addr_R, hp0, hmp, if_false, if_true, Ctx.rootAddr_cons]
    refine ⟨⟨hp0, by simp, Rep_update (by omega) hs, CtxRep_update (by omega) hrest⟩, hroot⟩

end RtThread

namespace RtThread
open Color Tree

/-! ## Rotations -/

theorem rotate_left_spec {m : NodeMem} {root : rt_rb_root} {k : Ctx} {x y : Nat} {cx cy : Color}
    {a b c : Tree}
    (h : HeapTree m root (plug k (node x cx a (node y cy b c)))) :
    ∃ m' root', __rt_rb_rotate_left m x root = .ok (m', root') ∧
      HeapTree m' root' (plug k (node y cy (node x cx a b) c)) ∧
      ∀ z, Tree.occ z (plug k (node x cx a (node y cy b c))) = 0 → m' z = m z := by
  rw [heapTree_plug] at h
  obtain ⟨hroot, hrep, hk, hocc⟩ := h
  simp only [Rep, Tree.addr_node] at hrep hk hroot
  obtain ⟨hx0, hmx, ha, hy0, hmy, hb, hc⟩ := hrep
  simp only [occ_node] at hocc
  have hx := hocc x
  have hy := hocc y
  simp only [if_true] at hx hy
  have hxy : x ≠ y := by rintro rfl; simp only [if_true] at hx; omega
  have hyx := hxy.symm
  simp only [hxy, hyx, if_false] at hx hy
  have hxb : occ x b = 0 := by omega
  have hyb : occ y b = 0 := by omega
  have hxk : Ctx.occ x k = 0 := by omega
  have hyk : Ctx.occ y k = 0 := by omega
  -- separation facts for an address of the tree
  have hsep : ∀ z, (0 < occ z a ∨ 0 < occ z c ∨ 0 < Ctx.occ z k) → z ≠ x ∧ z ≠ y ∧ occ z b = 0 := by
    intro z hz
    have := hocc z
    refine ⟨?_, ?_, ?_⟩
    · rintro rfl; simp only [if_true] at this; omega
    · rintro rfl; simp only [if_true] at this; omega
    · omega
  have hsepk : ∀ z, (0 < occ z a ∨ 0 < occ z b ∨ 0 < occ z c) → Ctx.occ z k = 0 := by
    intro z hz
    have := hocc z
    omega
  simp only [heapTree_plug, occ_plug, occ_node]
  simp only [__rt_rb_rotate_left, rt_rb_parent, rd_ok hx0, rd_ok hy0, wr_ok hx0, wr_ok hy0,
    rt_rb_set_parent, hmx, hmy,
    hxy, hyx, pure_eq_ok, ok_bind, if_false, if_true, Function.update_apply,
    setParentIf_eval, relink_eval', setParentIf_apply hxb, setParentIf_apply hyb,
    relink_apply hxk, relink_apply hyk, Tree.addr_node]
  refine ⟨_, _, rfl, ?_, ?_⟩
  · have hk3 : CtxRep (Function.update (Function.update (setParentIf (Function.update m x
          { rt_rb_parent := k.top, rt_rb_color := cx, rt_rb_right := b.addr, rt_rb_left := a.addr })
          b.addr x) y { rt_rb_parent := x, rt_rb_color := cy, rt_rb_right := c.addr, rt_rb_left := x })
          y { rt_rb_parent := k.top, rt_rb_color := cy, rt_rb_right := c.addr, rt_rb_left := x }) k x := by
      refine CtxRep_congr (fun z hz => ?_) hk
      obtain ⟨h1, h2, h3⟩ := hsep z (Or.inr (Or.inr hz))
      simp only [Function.update_apply, h1, h2, if_false, setParentIf_apply h3]
    have hrl := relink_ctx (y := y) hk3 hx0 hxk (fun z => by have := hocc z; omega) hroot
    refine ⟨hrl.2, ?_, CtxRep_update hxk hrl.1, ?_⟩
    · simp only [Rep, Tree.addr_node]
      refine ⟨hy0, ?_, ⟨hx0, ?_, ?_, ?_⟩, ?_⟩
      · simp only [Function.update_apply, hyx, if_false, relink_apply hyk, if_true]
      · simp only [Function.update_apply, if_true]
      · refine Rep_congr (fun z hz => ?_) ha
        obtain ⟨h1, h2, h3⟩ := hsep z (Or.inl hz)
        simp only [Function.update_apply, h1, h2, if_false, setParentIf_apply h3,
          relink_apply (hsepk z (Or.inl hz))]
      · refine Rep_update hxb (Rep_congr (fun z hz => relink_apply (hsepk z (Or.inr (Or.inl hz)))) ?_)
        refine Rep_update hyb (Rep_update hyb ?_)
        exact setParentIf_rep _ (fun z => by have := hocc z; omega) (Rep_update hxb hb)
      · refine Rep_congr (fun z hz => ?_) hc
        obtain ⟨h1, h2, h3⟩ := hsep z (Or.inr (Or.inl hz))
        simp only [Function.update_apply, h1, h2, if_false, setParentIf_apply h3,
          relink_apply (hsepk z (Or.inr (Or.inr hz)))]
    · intro z; have := hocc z; omega
  · intro z hz
    have h1 : z ≠ x := by rintro rfl; simp only [if_true] at hz; omega
    have h2 : z ≠ y := by rintro rfl; simp only [if_true] at hz; omega
    have h3 : occ z b = 0 := by omega
    have h4 : Ctx.occ z k = 0 := by omega
    simp only [Function.update_apply, h1, h2, if_false, setParentIf_apply h3, relink_apply h4]


theorem rotate_right_spec {m : NodeMem} {root : rt_rb_root} {k : Ctx} {x y : Nat} {cx cy : Color}
    {a b c : Tree}
    (h : HeapTree m root (plug k (node x cx (node y cy a b) c))) :
    ∃ m' root', __rt_rb_rotate_right m x root = .ok (m', root') ∧
      HeapTree m' root' (plug k (node y cy a (node x cx b c))) ∧
      ∀ z, Tree.occ z (plug k (node x cx (node y cy a b) c)) = 0 → m' z = m z := by
  rw [heapTree_plug] at h
  obtain ⟨hroot, hrep, hk, hocc⟩ := h
  simp only [Rep, Tree.addr_node] at hrep hk hroot
  obtain ⟨hx0, hmx, ⟨hy0, hmy, ha, hb⟩, hc⟩ := hrep
  simp only [occ_node] at hocc
  have hx := hocc x
  have hy := hocc y
  simp only [if_true] at hx hy
  have hxy : x ≠ y := by rintro rfl; simp only [if_true] at hx; omega
  have hyx := hxy.symm
  simp only [hxy, hyx, if_false] at hx hy
  have hxb : occ x b = 0 := by omega
  have hyb : occ y b = 0 := by omega
  have hxk : Ctx.occ x k = 0 := by omega
  have hyk : Ctx.occ y k = 0 := by omega
  -- separation facts for an address of the tree
  have hsep : ∀ z, (0 < occ z a ∨ 0 < occ z c ∨ 0 < Ctx.occ z k) → z ≠ x ∧ z ≠ y ∧ occ z b = 0 := by
    intro z hz
    have := hocc z
    refine ⟨?_, ?_, ?_⟩
    · rintro rfl; simp only [if_true] at this; omega
    · rintro rfl; simp only [if_true] at this; omega
    · omega
  have hsepk : ∀ z, (0 < occ z a ∨ 0 < occ z b ∨ 0 < occ z c) → Ctx.occ z k = 0 := by
    intro z hz
    have := hocc z
    omega
  simp only [heapTree_plug, occ_plug, occ_node]
  simp only [__rt_rb_rotate_right, rt_rb_parent, rd_ok hx0, rd_ok hy0, wr_ok hx0, wr_ok hy0,
    rt_rb_set_parent, hmx, hmy,
    hxy, hyx, pure_eq_ok, ok_bind, if_false, if_true, Function.update_apply,
    setParentIf_eval, relinkR_eval', setParentIf_apply hxb, setParentIf_apply hyb,
    relinkR_apply hxk, relinkR_apply hyk, Tree.addr_node]
  refine ⟨_, _, rfl, ?_, ?_⟩
  · have hk3 : CtxRep (Function.update (Function.update (setParentIf (Function.update m x
          { rt_rb_parent := k.top, rt_rb_color := cx, rt_rb_right := c.addr, rt_rb_left := b.addr })
          b.addr x) y { rt_rb_parent := x, rt_rb_color := cy, rt_rb_right := x, rt_rb_left := a.addr })
          y { rt_rb_parent := k.top, rt_rb_color := cy, rt_rb_right := x, rt_rb_left := a.addr }) k x := by
      refine CtxRep_congr (fun z hz => ?_) hk
      obtain ⟨h1, h2, h3⟩ := hsep z (Or.inr (Or.inr hz))
      simp only [Function.update_apply, h1, h2, if_false, setParentIf_apply h3]
    have hrl := relinkR_ctx (y := y) hk3 hx0 hxk (fun z => by have := hocc z; omega) hroot
    refine ⟨hrl.2, ?_, CtxRep_update hxk hrl.1, ?_⟩
    · simp only [Rep, Tree.addr_node]
      refine ⟨hy0, ?_, ?_, ⟨hx0, ?_, ?_, ?_⟩⟩
      · simp only [Function.update_apply, hyx, if_false, relinkR_apply hyk, if_true]
      · refine Rep_congr (fun z hz => ?_) ha
        obtain ⟨h1, h2, h3⟩ := hsep z (Or.inl hz)
        simp only [Function.update_apply, h1, h2, if_false, setParentIf_apply h3,
          relinkR_apply (hsepk z (Or.inl hz))]
      · simp only [Function.update_apply, if_true]
      · refine Rep_update hxb (Rep_congr (fun z hz => relinkR_apply (hsepk z (Or.inr (Or.inl hz)))) ?_)
        refine Rep_update hyb (Rep_update hyb ?_)
        exact setParentIf_rep _ (fun z => by have := hocc z; omega) (Rep_update hxb hb)
      · refine Rep_congr (fun z hz => ?_) hc
        obtain ⟨h1, h2, h3⟩ := hsep z (Or.inr (Or.inl hz))
        simp only [Function.update_apply, h1, h2, if_false, setParentIf_apply h3,
          relinkR_apply (hsepk z (Or.inr (Or.inr hz)))]
    · intro z; have := hocc z; omega
  · intro z hz
    have h1 : z ≠ x := by rintro rfl; simp only [if_true] at hz; omega
    have h2 : z ≠ y := by rintro rfl; simp only [if_true] at hz; omega
    have h3 : occ z b = 0 := by omega
    have h4 : Ctx.occ z k = 0 := by omega
    simp only [Function.update_apply, h1, h2, if_false, setParentIf_apply h3, relinkR_apply h4]


end RtThread

namespace RtThread
open Color Tree

/-! ## Red-black invariants along a path -/

theorem color_cases (c : Color) : c = RB_RED ∨ c = RB_BLACK := by
  cases c <;> simp

@[simp]
theorem Ctx.color_empty : Ctx.color [] = RB_BLACK := rfl
@[simp]
theorem Ctx.color_cons (f : Frame) (k : Ctx) : Ctx.color (f :: k) = f.color := rfl
@[simp]
theorem Frame.color_L (a : Nat) (c : Color) (r : Tree) : (Frame.L a c r).color = c := rfl
@[simp]
theorem Frame.color_R (a : Nat) (c : Color) (l : Tree) : (Frame.R a c l).color = c := rfl
@[simp]
theorem Frame.sib_L (a : Nat) (c : Color) (r : Tree) : (Frame.L a c r).sib = r := rfl
@[simp]
theorem Frame.sib_R (a : Nat) (c : Color) (l : Tree) : (Frame.R a c l).sib = l := rfl
@[simp]
theorem Tree.bh_nil : Tree.nil.bh = 0 := rfl
@[simp]
theorem Tree.bh_node (a : Nat) (c : Color) (l r : Tree) :
    (Tree.node a c l r).bh = l.bh + (if c = RB_BLACK then 1 else 0) := rfl
@[simp]
theorem Tree.Balanced_nil : Tree.nil.Balanced := trivial
@[simp]
theorem Tree.Balanced_node (a : Nat) (c : Color) (l r : Tree) :
    (Tree.node a c l r).Balanced ↔ l.Balanced ∧ r.Balanced ∧ l.bh = r.bh := Iff.rfl
@[simp]
theorem Tree.NoRedRed_nil : Tree.nil.NoRedRed := trivial
@[simp]
theorem Tree.NoRedRed_node (a : Nat) (c : Color) (l r : Tree) :
    (Tree.node a c l r).NoRedRed ↔
      (c = RB_RED → l.color = RB_BLACK ∧ r.color = RB_BLACK) ∧ l.NoRedRed ∧ r.NoRedRed := Iff.rfl
@[simp]
theorem Ctx.Bal_nil (n : Nat) : Ctx.Bal [] n := trivial
@[simp]
theorem Ctx.Bal_cons (f : Frame) (k : Ctx) (n : Nat) :
    Ctx.Bal (f :: k) n ↔ f.sib.Balanced ∧ f.sib.bh = n ∧
      Ctx.Bal k (n + (if f.color = RB_BLACK then 1 else 0)) := Iff.rfl
@[simp]
theorem Ctx.NoRR_nil : Ctx.NoRR [] := trivial
@[simp]
theorem Ctx.NoRR_cons (f : Frame) (k : Ctx) :
    Ctx.NoRR (f :: k) ↔ f.sib.NoRedRed ∧
      (f.color = RB_RED → f.sib.color = RB_BLACK ∧ Ctx.color k = RB_BLACK) ∧ Ctx.NoRR k := Iff.rfl
@[simp]
theorem Ctx.outerBlack_nil : Ctx.outerBlack [] := trivial
@[simp]
theorem Ctx.outerBlack_single (f : Frame) : Ctx.outerBlack [f] ↔ f.color = RB_BLACK :=
  Iff.rfl
@[simp]
theorem Ctx.outerBlack_cons2 (f g : Frame) (k : Ctx) :
    Ctx.outerBlack (f :: g :: k) ↔ Ctx.outerBlack (g :: k) := Iff.rfl

theorem Balanced_plug (k : Ctx) (t : Tree) :
    (plug k t).Balanced ↔ t.Balanced ∧ Ctx.Bal k t.bh := by
  induction k generalizing t with
  | nil => simp
  | cons f rest ih =>
    cases f with
    | L a c r =>
      simp only [plug_consL, ih, Tree.Balanced_node, Tree.bh_node, Ctx.Bal_cons, Frame.sib_L,
        Frame.color_L]
      constructor
      · rintro ⟨⟨h1, h2, h3⟩, h4⟩; exact ⟨h1, h2, h3.symm, h4⟩
      · rintro ⟨h1, h2, h3, h4⟩; exact ⟨⟨h1, h2, h3.symm⟩, h4⟩
    | R a c l =>
      simp only [plug_consR, ih, Tree.Balanced_node, Tree.bh_node, Ctx.Bal_cons, Frame.sib_R,
        Frame.color_R]
      constructor
      · rintro ⟨⟨h1, h2, h3⟩, h4⟩; exact ⟨h2, h1, h3, h3 ▸ h4⟩
      · rintro ⟨h1, h2, h3, h4⟩; exact ⟨⟨h2, h1, h3⟩, h3 ▸ h4⟩

theorem NoRedRed_plug (k : Ctx) (t : Tree) :
    (plug k t).NoRedRed ↔
      t.NoRedRed ∧ Ctx.NoRR k ∧ (Ctx.color k = RB_RED → t.color = RB_BLACK) := by
  induction k generalizing t with
  | nil => simp
  | cons f rest ih =>
    cases f with
    | L a c r =>
      simp only [plug_consL, ih, Tree.NoRedRed_node, Ctx.NoRR_cons, Frame.sib_L, Frame.color_L,
        Ctx.color_cons, Tree.color_node]
      cases c <;> cases hc : Ctx.color rest <;> simp <;> tauto
    | R a c l =>
      simp only [plug_consR, ih, Tree.NoRedRed_node, Ctx.NoRR_cons, Frame.sib_R, Frame.color_R,
        Ctx.color_cons, Tree.color_node]
      cases c <;> cases hc : Ctx.color rest <;> simp <;> tauto

theorem color_plug_of_outerBlack {k : Ctx} (hk : k ≠ []) (h : Ctx.outerBlack k) (t : Tree) :
    (plug k t).color = RB_BLACK := by
  induction k generalizing t with
  | nil => exact absurd rfl hk
  | cons f rest ih =>
    cases rest with
    | nil => cases f <;> simpa using h
    | cons g rest2 =>
      cases f with
      | L a c r => exact ih (by simp) (by simpa using h) _
      | R a c l => exact ih (by simp) (by simpa using h) _

theorem plug_ne_nil (k : Ctx) (a : Nat) (c : Color) (l r : Tree) : plug k (node a c l r) ≠ nil := by
  induction k generalizing a c l r with
  | nil => simp
  | cons f rest ih => cases f <;> simp [ih]

@[simp]
theorem Tree.inorder_blacken (t : Tree) : t.blacken.inorder = t.inorder := by
  cases t <;> rfl

theorem isRB_blacken {t : Tree} (h1 : t.NoRedRed) (h2 : t.Balanced) : t.blacken.IsRB := by
  cases t with
  | nil => exact ⟨rfl, trivial, trivial⟩
  | node a c l r =>
    refine ⟨rfl, ?_, ?_⟩
    · simp only [Tree.blacken, Tree.NoRedRed_node] at h1 ⊢
      exact ⟨fun h => by simp at h, h1.2⟩
    · simpa [Tree.blacken] using h2

theorem blacken_of_black {t : Tree} (h : t.color = RB_BLACK) : t.blacken = t := by
  cases t with
  | nil => rfl
  | node a c l r => simp only [Tree.color_node] at h; simp [Tree.blacken, h]

/-! ## Reading and recolouring a node of the tree -/

theorem heapTree_cell {m : NodeMem} {root : rt_rb_root} {k : Ctx} {x : Nat} {c : Color}
    {l r : Tree} (h : HeapTree m root (plug k (node x c l r))) :
    x ≠ 0 ∧ m x = ⟨k.top, c, r.addr, l.addr⟩ := by
  rw [heapTree_plug] at h
  exact ⟨h.2.1.1, h.2.1.2.1⟩

theorem recolor_spec {m : NodeMem} {root : rt_rb_root} {k : Ctx} {x : Nat} {c : Color}
    {l r : Tree} (c' : Color) (h : HeapTree m root (plug k (node x c l r))) :
    HeapTree (Function.update m x { m x with rt_rb_color := c' }) root
      (plug k (node x c' l r)) := by
  rw [heapTree_plug] at h ⊢
  obtain ⟨hroot, hrep, hk, hocc⟩ := h
  simp only [Rep, Tree.addr_node, occ_node] at hrep hk hroot hocc ⊢
  obtain ⟨hx0, hmx, hl, hr⟩ := hrep
  have hx := hocc x
  simp only [if_true] at hx
  refine ⟨hroot, ⟨hx0, ?_, Rep_update (by omega) hl, Rep_update (by omega) hr⟩,
    CtxRep_update (by omega) hk, hocc⟩
  simp [hmx]

theorem recolor_frame {m : NodeMem} {k : Ctx} {x : Nat} {c c' : Color} {l r : Tree} {z : Nat}
    (hz : Tree.occ z (plug k (node x c l r)) = 0) :
    (Function.update m x { m x with rt_rb_color := c' }) z = m z := by
  have : z ≠ x := by
    rintro rfl
    simp [occ_plug] at hz
  simp [Function.update_apply, this]

end RtThread

namespace RtThread
open Color Tree

/-! ## Single steps of the rebalancing code on a represented tree -/

theorem rd_node {m : NodeMem} {root : rt_rb_root} {k : Ctx} {x : Nat} {c : Color}
    {l r : Tree} (h : HeapTree m root (plug k (node x c l r))) :
    rd m x = .ok ⟨k.top, c, r.addr, l.addr⟩ := by
  obtain ⟨h0, hm⟩ := heapTree_cell h
  rw [rd_ok h0, hm]

theorem set_color_step {m : NodeMem} {root : rt_rb_root} {k : Ctx} {x : Nat} {c : Color}
    {l r : Tree} (c' : Color) (h : HeapTree m root (plug k (node x c l r))) :
    ∃ m', rt_rb_set_color m x c' = .ok m' ∧ HeapTree m' root (plug k (node x c' l r)) ∧
      ∀ z, Tree.occ z (plug k (node x c l r)) = 0 → m' z = m z := by
  obtain ⟨h0, _⟩ := heapTree_cell h
  refine ⟨_, ?_, recolor_spec c' h, fun z hz => recolor_frame hz⟩
  simp [rt_rb_set_color, wr_ok h0]

theorem set_black_step {m : NodeMem} {root : rt_rb_root} {k : Ctx} {x : Nat} {c : Color}
    {l r : Tree} (h : HeapTree m root (plug k (node x c l r))) :
    ∃ m', rt_rb_set_black m x = .ok m' ∧ HeapTree m' root (plug k (node x RB_BLACK l r)) ∧
      ∀ z, Tree.occ z (plug k (node x c l r)) = 0 → m' z = m z :=
  set_color_step RB_BLACK h

theorem set_red_step {m : NodeMem} {root : rt_rb_root} {k : Ctx} {x : Nat} {c : Color}
    {l r : Tree} (h : HeapTree m root (plug k (node x c l r))) :
    ∃ m', rt_rb_set_red m x = .ok m' ∧ HeapTree m' root (plug k (node x RB_RED l r)) ∧
      ∀ z, Tree.occ z (plug k (node x c l r)) = 0 → m' z = m z :=
  set_color_step RB_RED h

theorem set_black_root {m : NodeMem} {root : rt_rb_root} {t : Tree} (h : HeapTree m root t)
    (hne : t ≠ nil) :
    ∃ m', rt_rb_set_black m root.rt_rb_node = .ok m' ∧ HeapTree m' root t.blacken ∧
      ∀ z, Tree.occ z t = 0 → m' z = m z := by
  cases t with
  | nil => exact absurd rfl hne
  | node a c l r =>
    have hr : root.rt_rb_node = a := h.root_eq
    rw [hr]
    exact set_black_step (k := []) h


theorem exists_of_red {t : Tree} (h : t.color = RB_RED) :
    ∃ a l r, t = node a RB_RED l r := by
  cases t with
  | nil => simp at h
  | node a c l r => simp only [Tree.color_node] at h; subst h; exact ⟨a, l, r, rfl⟩

theorem is_red_sub {m : NodeMem} {root : rt_rb_root} {k : Ctx} {t : Tree}
    (h : HeapTree m root (plug k t)) :
    (if t.addr ≠ 0 then rt_rb_is_red m t.addr else Except.ok false) =
      .ok (decide (t.color = RB_RED)) := by
  cases t with
  | nil => simp
  | node a c l r =>
    have r1 := rd_node h
    have h0 := (heapTree_cell h).1
    simp [rt_rb_is_red, rt_rb_color, r1, h0]

theorem null_or_black_sub {m : NodeMem} {root : rt_rb_root} {k : Ctx} {t : Tree}
    (h : HeapTree m root (plug k t)) :
    null_or_black m t.addr = .ok (decide (t.color = RB_BLACK)) := by
  cases t with
  | nil => simp [null_or_black]
  | node a c l r =>
    have r1 := rd_node h
    have h0 := (heapTree_cell h).1
    simp [null_or_black, rt_rb_is_black, rt_rb_color, r1, h0]

theorem occ_facts {m : NodeMem} {root : rt_rb_root} {t : Tree} (h : HeapTree m root t) :
    ∀ z, Tree.occ z t ≤ 1 :=
  (nodup_iff_occ t).1 h.nodup

end RtThread

namespace RtThread
open Color Tree

/-! ## rt_rb_insert_color restores the invariants -/

theorem insert_exit {m : NodeMem} {root : rt_rb_root} {k : Ctx} {x : Nat} {l r : Tree}
    {fuel : Nat}
    (h : HeapTree m root (plug k (node x RB_RED l r)))
    (hl : l.color = RB_BLACK) (hr : r.color = RB_BLACK) (hln : l.NoRedRed) (hrn : r.NoRedRed)
    (hlb : l.Balanced) (hrb : r.Balanced) (hbh : l.bh = r.bh)
    (hkb : Ctx.Bal k l.bh) (hkn : Ctx.NoRR k) (hkc : Ctx.color k = RB_BLACK) :
    RebalDone m (plug k (node x RB_RED l r)) (rt_rb_insert_color (fuel + 1) m x root) := by
  have rx := rd_node h
  obtain ⟨m', e, H, F⟩ := set_black_root h (plug_ne_nil _ _ _ _ _)
  have hred : (if k.top ≠ 0 then rt_rb_is_red m k.top else Except.ok false) = .ok false := by
    rcases k with _ | ⟨f, rest⟩
    · simp
    · have hp : HeapTree m root (plug rest (f.fill (node x RB_RED l r))) := h
      cases f with
      | L pa cp s =>
        simp only [Ctx.color_cons, Frame.color_L] at hkc
        subst hkc
        have rp := rd_node (k := rest) hp
        have hp0 := (heapTree_cell (k := rest) hp).1
        simp [rt_rb_is_red, rt_rb_color, rp, hp0]
      | R pa cp s =>
        simp only [Ctx.color_cons, Frame.color_R] at hkc
        subst hkc
        have rp := rd_node (k := rest) hp
        have hp0 := (heapTree_cell (k := rest) hp).1
        simp [rt_rb_is_red, rt_rb_color, rp, hp0]
  refine ⟨m', root, _, ?_, H, ?_, by simp, F⟩
  · simp only [rt_rb_insert_color, rt_rb_parent, rx, ok_bind, pure_eq_ok, hred]
    simp [e]
  · apply isRB_blacken
    · rw [NoRedRed_plug]
      refine ⟨?_, hkn, fun hc => ?_⟩
      · simp [hl, hr, hln, hrn]
      · rw [hkc] at hc; cases hc
    · rw [Balanced_plug]
      simp [hlb, hrb, hbh, hbh ▸ hkb]


theorem RebalDone.trans {m m1 : NodeMem} {t t1 : Tree} {res : Except Fault (NodeMem × rt_rb_root)}
    (h : RebalDone m1 t1 res) (hi : t1.inorder = t.inorder)
    (hf : ∀ z, Tree.occ z t = 0 → m1 z = m z) : RebalDone m t res := by
  obtain ⟨m', root', T', e, H, hrb, hio, F⟩ := h
  refine ⟨m', root', T', e, H, hrb, hio.trans hi, fun z hz => ?_⟩
  rw [F z (by simpa [Tree.occ, hi] using hz), hf z hz]

set_option maxHeartbeats 1000000 in
theorem insert_color_loop : ∀ (n : Nat) (k : Ctx), k.length ≤ n →
    ∀ (m : NodeMem) (root : rt_rb_root) (x : Nat) (l r : Tree) (fuel : Nat),
    HeapTree m root (plug k (node x RB_RED l r)) →
    l.color = RB_BLACK → r.color = RB_BLACK → l.NoRedRed → r.NoRedRed →
    l.Balanced → r.Balanced → l.bh = r.bh →
    Ctx.Bal k l.bh → Ctx.NoRR k → Ctx.outerBlack k → k.length + 1 ≤ fuel →
    RebalDone m (plug k (node x RB_RED l r)) (rt_rb_insert_color fuel m x root) := by
  intro n
  induction n using Nat.strong_induction_on with
  | _ n ih =>
  intro k hlen m root x l r fuel h hl hr hln hrn hlb hrb hbh hkb hkn hko hfuel
  obtain ⟨fuel, rfl⟩ : ∃ f, fuel = f + 1 := ⟨fuel - 1, by omega⟩
  rcases color_cases (Ctx.color k) with hkc | hkc
  swap
  · exact insert_exit h hl hr hln hrn hlb hrb hbh hkb hkn hkc
  rcases k with _ | ⟨f, _ | ⟨g, rest⟩⟩
  · simp at hkc
  · simp only [Ctx.color_cons] at hkc
    simp [hkc] at hko
  have hfc : f.color = RB_RED := hkc
  have hgc : g.color = RB_BLACK := (hkn.2.1 hfc).2
  have hfs : f.sib.color = RB_BLACK := (hkn.2.1 hfc).1
  have rx := rd_node h
  have hx0 := (heapTree_cell h).1
  have hocc := occ_facts h
  have hxo := hocc x
  simp only [List.length_cons] at hlen hfuel
  have hko' : Ctx.outerBlack rest := by
    cases rest with
    | nil => trivial
    | cons g2 rest2 => simpa using hko
  have hnrb : ¬ RB_RED = RB_BLACK := by decide
  rcases g with ⟨ga, cg, u⟩ | ⟨ga, cg, u⟩
  · -- the parent is the left child of the grandparent
    simp only [Frame.color_L] at hgc
    subst hgc
    rcases f with ⟨pa, cp, s⟩ | ⟨pa, cp, s⟩
    · -- the node is the left child of its parent
      simp only [Frame.color_L] at hfc
      subst hfc
      simp only [Frame.sib_L] at hfs
      have hvp : HeapTree m root (plug (.L ga RB_BLACK u :: rest)
        (node pa RB_RED (node x RB_RED l r) s)) := h
      have hvg : HeapTree m root (plug rest
        (node ga RB_BLACK (node pa RB_RED (node x RB_RED l r) s) u)) := h
      have hvu : HeapTree m root (plug (.R ga RB_BLACK (node pa RB_RED (node x RB_RED l r) s)
        :: rest) u) := h
      have rp := rd_node hvp
      have rg := rd_node hvg
      have hp0 := (heapTree_cell hvp).1
      have hg0 := (heapTree_cell hvg).1
      simp only [Ctx.Bal_cons, Ctx.NoRR_cons, Frame.sib_L, Frame.color_L, if_true,
        if_neg hnrb, Nat.add_zero] at hkb hkn
      obtain ⟨hsb, hsh, hub, huh, hrestb⟩ := hkb
      obtain ⟨hsn, -, hun, -, hrestn⟩ := hkn
      have hured := is_red_sub hvu
      rcases color_cases u.color with hu | hu
      · -- red uncle: recolour and continue from the grandparent
        obtain ⟨ua, ul, ur, rfl⟩ := exists_of_red hu
        have hu0 := (heapTree_cell hvu).1
        obtain ⟨m1, e1, H1, F1⟩ := set_black_step hvu
        have hvp1 : HeapTree m1 root (plug (.L ga RB_BLACK (node ua RB_BLACK ul ur) :: rest)
          (node pa RB_RED (node x RB_RED l r) s)) := H1
        obtain ⟨m2, e2, H2, F2⟩ := set_black_step hvp1
        have hvg2 : HeapTree m2 root (plug rest (node ga RB_BLACK
          (node pa RB_BLACK (node x RB_RED l r) s) (node ua RB_BLACK ul ur))) := H2
        obtain ⟨m3, e3, H3, F3⟩ := set_red_step hvg2
        have hstep : rt_rb_insert_color (fuel + 1) m x root =
            rt_rb_insert_color fuel m3 ga root := by
          rw [rt_rb_insert_color]
          simp only [Tree.addr_node, Tree.color_node] at hured
          simp [rt_rb_parent, rt_rb_is_red, rt_rb_color, rx, rp, rg, hp0, hg0, hu0, e1, e2, e3,
            rd_node hvu]
        rw [hstep]
        simp only [Tree.NoRedRed_node, Tree.Balanced_node, Tree.bh_node, Tree.color_node,
          if_true, if_neg hnrb, Nat.add_zero] at hun hub huh
        refine (ih (rest.length) (by omega) rest le_rfl m3 root ga _ _ fuel H3 rfl rfl
          ?_ ?_ ?_ ?_ ?_ ?_ hrestn hko' (by omega)).trans ?_ ?_
        · simp [hl, hr, hln, hrn, hsn, hfs]
        · simp [hun]
        · simp [hlb, hrb, hbh, hsb, hsh]
        · simp [hub]
        · simp; omega
        · simpa using hrestb
        · simp [inorder_plug, Tree.inorder]
        · intro z hz
          rw [F3 z (by simp only [occ_plug, occ_node, Ctx.occ_consL, Ctx.occ_consR] at hz ⊢; omega),
            F2 z (by simp only [occ_plug, occ_node, Ctx.occ_consL, Ctx.occ_consR] at hz ⊢; omega),
            F1 z (by simp only [occ_plug, occ_node, Ctx.occ_consL, Ctx.occ_consR] at hz ⊢; omega)]
      · -- black uncle, outer grandchild: one rotation at the grandparent
        obtain ⟨m1, e1, H1, F1⟩ := set_black_step hvp
        have hvg1 : HeapTree m1 root (plug rest
          (node ga RB_BLACK (node pa RB_BLACK (node x RB_RED l r) s) u)) := H1
        obtain ⟨m2, e2, H2, F2⟩ := set_red_step hvg1
        obtain ⟨m3, root3, e3, H3, F3⟩ := rotate_right_spec H2
        have hxs : s.addr ≠ x := by
          simp only [occ_plug, occ_node, Ctx.occ_consL, if_true] at hxo
          exact (ne_addr_of_occ hx0 (by omega)).symm
        have hstep : rt_rb_insert_color (fuel + 1) m x root =
            rt_rb_insert_color fuel m3 x root3 := by
          rw [rt_rb_insert_color]
          simp only [rt_rb_parent, rx, rp, rg, ok_bind, pure_eq_ok, Ctx.top_cons, Frame.addr_L,
            hured, hu]
          simp [rt_rb_is_red, rt_rb_color, rp, hp0, hxs, e1, e2, e3]
        rw [hstep]
        have H3' : HeapTree m3 root3 (plug (.L pa RB_BLACK (node ga RB_RED s u) :: rest)
          (node x RB_RED l r)) := H3
        refine (ih (rest.length + 1) (by omega) (.L pa RB_BLACK (node ga RB_RED s u) :: rest)
          (by simp) m3 root3 x l r fuel H3' hl hr hln hrn
          hlb hrb hbh ?_ ?_ ?_ (by simp; omega)).trans ?_ ?_
        · simp [hsb, hub, hsh, huh, hrestb]
        · simp [hsn, hun, hfs, hu, hrestn]
        · cases rest with
          | nil => simp
          | cons g2 rest2 => simpa using hko'
        · simp [inorder_plug, Tree.inorder, Ctx.before, Ctx.after]
        · intro z hz
          rw [F3 z (by simp only [occ_plug, occ_node, Ctx.occ_consL, Ctx.occ_consR] at hz ⊢; omega),
            F2 z (by simp only [occ_plug, occ_node, Ctx.occ_consL, Ctx.occ_consR] at hz ⊢; omega),
            F1 z (by simp only [occ_plug, occ_node, Ctx.occ_consL, Ctx.occ_consR] at hz ⊢; omega)]
    · -- the node is the right child of its parent
      simp only [Frame.color_R] at hfc
      subst hfc
      simp only [Frame.sib_R] at hfs
      have hvp : HeapTree m root (plug (.L ga RB_BLACK u :: rest)
        (node pa RB_RED s (node x RB_RED l r))) := h
      have hvg : HeapTree m root (plug rest
        (node ga RB_BLACK (node pa RB_RED s (node x RB_RED l r)) u)) := h
      have hvu : HeapTree m root (plug (.R ga RB_BLACK (node pa RB_RED s (node x RB_RED l r))
        :: rest) u) := h
      have rp := rd_node hvp
      have rg := rd_node hvg
      have hp0 := (heapTree_cell hvp).1
      have hg0 := (heapTree_cell hvg).1
      simp only [Ctx.Bal_cons, Ctx.NoRR_cons, Frame.sib_L, Frame.sib_R, Frame.color_L,
        Frame.color_R, if_true, if_neg hnrb, Nat.add_zero] at hkb hkn
      obtain ⟨hsb, hsh, hub, huh, hrestb⟩ := hkb
      obtain ⟨hsn, -, hun, -, hrestn⟩ := hkn
      have hured := is_red_sub hvu
      rcases color_cases u.color with hu | hu
      · obtain ⟨ua, ul, ur, rfl⟩ := exists_of_red hu
        have hu0 := (heapTree_cell hvu).1
        obtain ⟨m1, e1, H1, F1⟩ := set_black_step hvu
        have hvp1 : HeapTree m1 root (plug (.L ga RB_BLACK (node ua RB_BLACK ul ur) :: rest)
          (node pa RB_RED s (node x RB_RED l r))) := H1
        obtain ⟨m2, e2, H2, F2⟩ := set_black_step hvp1
        have hvg2 : HeapTree m2 root (plug rest (node ga RB_BLACK
          (node pa RB_BLACK s (node x RB_RED l r)) (node ua RB_BLACK ul ur))) := H2
        obtain ⟨m3, e3, H3, F3⟩ := set_red_step hvg2
        have hstep : rt_rb_insert_color (fuel + 1) m x root =
            rt_rb_insert_color fuel m3 ga root := by
          rw [rt_rb_insert_color]
          simp [rt_rb_parent, rt_rb_is_red, rt_rb_color, rx, rp, rg, hp0, hg0, hu0, e1, e2, e3,
            rd_node hvu]
        rw [hstep]
        simp only [Tree.NoRedRed_node, Tree.Balanced_node, Tree.bh_node, Tree.color_node,
          if_true, if_neg hnrb, Nat.add_zero] at hun hub huh
        refine (ih (rest.length) (by omega) rest le_rfl m3 root ga _ _ fuel H3 rfl rfl
          ?_ ?_ ?_ ?_ ?_ ?_ hrestn hko' (by omega)).trans ?_ ?_
        · simp [hl, hr, hln, hrn, hsn, hfs]
        · simp [hun]
        · simp [hlb, hrb, hbh, hsb, hsh]
        · simp [hub]
        · simp; omega
        · simpa [hsh] using hrestb
        · simp [inorder_plug, Tree.inorder]
        · intro z hz
          rw [F3 z (by simp only [occ_plug, occ_node, Ctx.occ_consL, Ctx.occ_consR] at hz ⊢; omega),
            F2 z (by simp only [occ_plug, occ_node, Ctx.occ_consL, Ctx.occ_consR] at hz ⊢; omega),
            F1 z (by simp only [occ_plug, occ_node, Ctx.occ_consL, Ctx.occ_consR] at hz ⊢; omega)]
      · -- black uncle, inner grandchild: rotate at the parent, then at the grandparent
        obtain ⟨m1, root1, e1, H1, F1⟩ := rotate_left_spec hvp
        have hvx1 : HeapTree m1 root1 (plug (.L ga RB_BLACK u :: rest)
          (node x RB_RED (node pa RB_RED s l) r)) := H1
        obtain ⟨m2, e2, H2, F2⟩ := set_black_step hvx1
        have hvg2 : HeapTree m2 root1 (plug rest
          (node ga RB_BLACK (node x RB_BLACK (node pa RB_RED s l) r) u)) := H2
        obtain ⟨m3, e3, H3, F3⟩ := set_red_step hvg2
        obtain ⟨m4, root4, e4, H4, F4⟩ := rotate_right_spec H3
        have hstep : rt_rb_insert_color (fuel + 1) m x root =
            rt_rb_insert_color fuel m4 pa root4 := by
          rw [rt_rb_insert_color]
          simp only [rt_rb_parent, rx, rp, rg, ok_bind, pure_eq_ok, Ctx.top_cons, Frame.addr_L,
            Frame.addr_R, hured, hu]
          simp [rt_rb_is_red, rt_rb_color, rp, hp0, e1, e2, e3, e4]
        rw [hstep]
        have H4' : HeapTree m4 root4 (plug (.L x RB_BLACK (node ga RB_RED r u) :: rest)
          (node pa RB_RED s l)) := H4
        refine (ih (rest.length + 1) (by omega) (.L x RB_BLACK (node ga RB_RED r u) :: rest)
          (by simp) m4 root4 pa s l fuel H4' hfs hl hsn hln
          hsb hlb hsh ?_ ?_ ?_ (by simp; omega)).trans ?_ ?_
        · simp only [Ctx.Bal_cons, Frame.sib_L, Frame.color_L, Tree.Balanced_node, Tree.bh_node,
            if_true, if_neg hnrb, Nat.add_zero]
          refine ⟨⟨hrb, hub, by omega⟩, by omega, ?_⟩
          rw [hsh]; exact hrestb
        · simp [hrn, hun, hr, hu, hrestn]
        · cases rest with
          | nil => simp
          | cons g2 rest2 => simpa using hko'
        · simp [inorder_plug, Tree.inorder, Ctx.before, Ctx.after]
        · intro z hz
          rw [F4 z (by simp only [occ_plug, occ_node, Ctx.occ_consL, Ctx.occ_consR] at hz ⊢; omega),
            F3 z (by simp only [occ_plug, occ_node, Ctx.occ_consL, Ctx.occ_consR] at hz ⊢; omega),
            F2 z (by simp only [occ_plug, occ_node, Ctx.occ_consL, Ctx.occ_consR] at hz ⊢; omega),
            F1 z (by simp only [occ_plug, occ_node, Ctx.occ_consL, Ctx.occ_consR] at hz ⊢; omega)]
  · -- the parent is the right child of the grandparent
    simp only [Frame.color_R] at hgc
    subst hgc
    rcases f with ⟨pa, cp, s⟩ | ⟨pa, cp, s⟩
    · -- the node is the left child of its parent
      simp only [Frame.color_L] at hfc
      subst hfc
      simp only [Frame.sib_L] at hfs
      have hvp : HeapTree m root (plug (.R ga RB_BLACK u :: rest)
        (node pa RB_RED (node x RB_RED l r) s)) := h
      have hvg : HeapTree m root (plug rest
        (node ga RB_BLACK u (node pa RB_RED (node x RB_RED l r) s))) := h
      have hvu : HeapTree m root (plug (.L ga RB_BLACK (node pa RB_RED (node x RB_RED l r) s)
        :: rest) u) := h
      have rp := rd_node hvp
      have rg := rd_node hvg
      have hp0 := (heapTree_cell hvp).1
      have hg0 := (heapTree_cell hvg).1
      have hpu : ¬ pa = u.addr := by
        have hpo := hocc pa
        simp only [occ_plug, occ_node, Ctx.occ_consL, Ctx.occ_consR, if_true] at hpo
        exact ne_addr_of_occ hp0 (by omega)
      simp only [Ctx.Bal_cons, Ctx.NoRR_cons, Frame.sib_L, Frame.sib_R, Frame.color_L,
        Frame.color_R, if_true, if_neg hnrb, Nat.add_zero] at hkb hkn
      obtain ⟨hsb, hsh, hub, huh, hrestb⟩ := hkb
      obtain ⟨hsn, -, hun, -, hrestn⟩ := hkn
      have hured := is_red_sub hvu
      rcases color_cases u.color with hu | hu
      · obtain ⟨ua, ul, ur, rfl⟩ := exists_of_red hu
        have hu0 := (heapTree_cell hvu).1
        obtain ⟨m1, e1, H1, F1⟩ := set_black_step hvu
        have hvp1 : HeapTree m1 root (plug (.R ga RB_BLACK (node ua RB_BLACK ul ur) :: rest)
          (node pa RB_RED (node x RB_RED l r) s)) := H1
        obtain ⟨m2, e2, H2, F2⟩ := set_black_step hvp1
        have hvg2 : HeapTree m2 root (plug rest (node ga RB_BLACK (node ua RB_BLACK ul ur)
          (node pa RB_BLACK (node x RB_RED l r) s))) := H2
        obtain ⟨m3, e3, H3, F3⟩ := set_red_step hvg2
        have hstep : rt_rb_insert_color (fuel + 1) m x root =
            rt_rb_insert_color fuel m3 ga root := by
          rw [rt_rb_insert_color]
          simp only [Tree.addr_node] at hpu
          simp [rt_rb_parent, rt_rb_is_red, rt_rb_color, rx, rp, rg, hp0, hg0, hu0, e1, e2, e3,
            rd_node hvu, hpu]
        rw [hstep]
        simp only [Tree.NoRedRed_node, Tree.Balanced_node, Tree.bh_node, Tree.color_node,
          if_true, if_neg hnrb, Nat.add_zero] at hun hub huh
        refine (ih (rest.length) (by omega) rest le_rfl m3 root ga _ _ fuel H3 rfl rfl
          ?_ ?_ ?_ ?_ ?_ ?_ hrestn hko' (by omega)).trans ?_ ?_
        · simp [hun]
        · simp [hl, hr, hln, hrn, hsn, hfs]
        · simp [hub]
        · simp [hlb, hrb, hbh, hsb, hsh]
        · simp; omega
        · simp only [Tree.bh_node, if_true]
          rw [huh]; exact hrestb
        · simp [inorder_plug, Tree.inorder]
        · intro z hz
          rw [F3 z (by simp only [occ_plug, occ_node, Ctx.occ_consL, Ctx.occ_consR] at hz ⊢; omega),
            F2 z (by simp only [occ_plug, occ_node, Ctx.occ_consL, Ctx.occ_consR] at hz ⊢; omega),
            F1 z (by simp only [occ_plug, occ_node, Ctx.occ_consL, Ctx.occ_consR] at hz ⊢; omega)]
      · -- black uncle, inner grandchild: rotate at the parent, then at the grandparent
        obtain ⟨m1, root1, e1, H1, F1⟩ := rotate_right_spec hvp
        have hvx1 : HeapTree m1 root1 (plug (.R ga RB_BLACK u :: rest)
          (node x RB_RED l (node pa RB_RED r s))) := H1
        obtain ⟨m2, e2, H2, F2⟩ := set_black_step hvx1
        have hvg2 : HeapTree m2 root1 (plug rest
          (node ga RB_BLACK u (node x RB_BLACK l (node pa RB_RED r s)))) := H2
        obtain ⟨m3, e3, H3, F3⟩ := set_red_step hvg2
        obtain ⟨m4, root4, e4, H4, F4⟩ := rotate_left_spec H3
        have hstep : rt_rb_insert_color (fuel + 1) m x root =
            rt_rb_insert_color fuel m4 pa root4 := by
          rw [rt_rb_insert_color]
          simp only [rt_rb_parent, rx, rp, rg, ok_bind, pure_eq_ok, Ctx.top_cons, Frame.addr_L,
            Frame.addr_R, hpu, if_false, hured, hu]
          simp [rt_rb_is_red, rt_rb_color, rp, hp0, e1, e2, e3, e4]
        rw [hstep]
        have H4' : HeapTree m4 root4 (plug (.R x RB_BLACK (node ga RB_RED u l) :: rest)
          (node pa RB_RED r s)) := H4
        refine (ih (rest.length + 1) (by omega) (.R x RB_BLACK (node ga RB_RED u l) :: rest)
          (by simp) m4 root4 pa r s fuel H4' hr hfs hrn hsn
          hrb hsb (by omega) ?_ ?_ ?_ (by simp; omega)).trans ?_ ?_
        · simp only [Ctx.Bal_cons, Frame.sib_R, Frame.color_R, Tree.Balanced_node, Tree.bh_node,
            if_true, if_neg hnrb, Nat.add_zero]
          refine ⟨⟨hub, hlb, by omega⟩, by omega, ?_⟩
          rw [← hbh]; exact hrestb
        · simp [hln, hun, hl, hu, hrestn]
        · cases rest with
          | nil => simp
          | cons g2 rest2 => simpa using hko'
        · simp [inorder_plug, Tree.inorder, Ctx.before, Ctx.after]
        · intro z hz
          rw [F4 z (by simp only [occ_plug, occ_node, Ctx.occ_consL, Ctx.occ_consR] at hz ⊢; omega),
            F3 z (by simp only [occ_plug, occ_node, Ctx.occ_consL, Ctx.occ_consR] at hz ⊢; omega),
            F2 z (by simp only [occ_plug, occ_node, Ctx.occ_consL, Ctx.occ_consR] at hz ⊢; omega),
            F1 z (by simp only [occ_plug, occ_node, Ctx.occ_consL, Ctx.occ_consR] at hz ⊢; omega)]
    · -- the node is the right child of its parent
      simp only [Frame.color_R] at hfc
      subst hfc
      simp only [Frame.sib_R] at hfs
      have hvp : HeapTree m root (plug (.R ga RB_BLACK u :: rest)
        (node pa RB_RED s (node x RB_RED l r))) := h
      have hvg : HeapTree m root (plug rest
        (node ga RB_BLACK u (node pa RB_RED s (node x RB_RED l r)))) := h
      have hvu : HeapTree m root (plug (.L ga RB_BLACK (node pa RB_RED s (node x RB_RED l r))
        :: rest) u) := h
      have rp := rd_node hvp
      have rg := rd_node hvg
      have hp0 := (heapTree_cell hvp).1
      have hg0 := (heapTree_cell hvg).1
      have hpu : ¬ pa = u.addr := by
        have hpo := hocc pa
        simp only [occ_plug, occ_node, Ctx.occ_consL, Ctx.occ_consR, if_true] at hpo
        exact ne_addr_of_occ hp0 (by omega)
      simp only [Ctx.Bal_cons, Ctx.NoRR_cons, Frame.sib_L, Frame.sib_R, Frame.color_L,
        Frame.color_R, if_true, if_neg hnrb, Nat.add_zero] at hkb hkn
      obtain ⟨hsb, hsh, hub, huh, hrestb⟩ := hkb
      obtain ⟨hsn, -, hun, -, hrestn⟩ := hkn
      have hured := is_red_sub hvu
      rcases color_cases u.color with hu | hu
      · obtain ⟨ua, ul, ur, rfl⟩ := exists_of_red hu
        have hu0 := (heapTree_cell hvu).1
        obtain ⟨m1, e1, H1, F1⟩ := set_black_step hvu
        have hvp1 : HeapTree m1 root (plug (.R ga RB_BLACK (node ua RB_BLACK ul ur) :: rest)
          (node pa RB_RED s (node x RB_RED l r))) := H1
        obtain ⟨m2, e2, H2, F2⟩ := set_black_step hvp1
        have hvg2 : HeapTree m2 root (plug rest (node ga RB_BLACK (node ua RB_BLACK ul ur)
          (node pa RB_BLACK s (node x RB_RED l r)))) := H2
        obtain ⟨m3, e3, H3, F3⟩ := set_red_step hvg2
        have hstep : rt_rb_insert_color (fuel + 1) m x root =
            rt_rb_insert_color fuel m3 ga root := by
          rw [rt_rb_insert_color]
          simp only [Tree.addr_node] at hpu
          simp [rt_rb_parent, rt_rb_is_red, rt_rb_color, rx, rp, rg, hp0, hg0, hu0, e1, e2, e3,
            rd_node hvu, hpu]
        rw [hstep]
        simp only [Tree.NoRedRed_node, Tree.Balanced_node, Tree.bh_node, Tree.color_node,
          if_true, if_neg hnrb, Nat.add_zero] at hun hub huh
        refine (ih (rest.length) (by omega) rest le_rfl m3 root ga _ _ fuel H3 rfl rfl
          ?_ ?_ ?_ ?_ ?_ ?_ hrestn hko' (by omega)).trans ?_ ?_
        · simp [hun]
        · simp [hl, hr, hln, hrn, hsn, hfs]
        · simp [hub]
        · simp [hlb, hrb, hbh, hsb, hsh]
        · simp; omega
        · simp only [Tree.bh_node, if_true]
          rw [huh]; exact hrestb
        · simp [inorder_plug, Tree.inorder]
        · intro z hz
          rw [F3 z (by simp only [occ_plug, occ_node, Ctx.occ_consL, Ctx.occ_consR] at hz ⊢; omega),
            F2 z (by simp only [occ_plug, occ_node, Ctx.occ_consL, Ctx.occ_consR] at hz ⊢; omega),
            F1 z (by simp only [occ_plug, occ_node, Ctx.occ_consL, Ctx.occ_consR] at hz ⊢; omega)]
      · -- black uncle, outer grandchild: one rotation at the grandparent
        obtain ⟨m1, e1, H1, F1⟩ := set_black_step hvp
        have hvg1 : HeapTree m1 root (plug rest
          (node ga RB_BLACK u (node pa RB_BLACK s (node x RB_RED l r)))) := H1
        obtain ⟨m2, e2, H2, F2⟩ := set_red_step hvg1
        obtain ⟨m3, root3, e3, H3, F3⟩ := rotate_left_spec H2
        have hxs : s.addr ≠ x := by
          simp only [occ_plug, occ_node, Ctx.occ_consL, Ctx.occ_consR, if_true] at hxo
          exact (ne_addr_of_occ hx0 (by omega)).symm
        have hstep : rt_rb_insert_color (fuel + 1) m x root =
            rt_rb_insert_color fuel m3 x root3 := by
          rw [rt_rb_insert_color]
          simp only [rt_rb_parent, rx, rp, rg, ok_bind, pure_eq_ok, Ctx.top_cons, Frame.addr_L,
            Frame.addr_R, hpu, if_false, hured, hu]
          simp [rt_rb_is_red, rt_rb_color, rp, hp0, hxs, e1, e2, e3]
        rw [hstep]
        have H3' : HeapTree m3 root3 (plug (.R pa RB_BLACK (node ga RB_RED u s) :: rest)
          (node x RB_RED l r)) := H3
        refine (ih (rest.length + 1) (by omega) (.R pa RB_BLACK (node ga RB_RED u s) :: rest)
          (by simp) m3 root3 x l r fuel H3' hl hr hln hrn
          hlb hrb hbh ?_ ?_ ?_ (by simp; omega)).trans ?_ ?_
        · simp only [Ctx.Bal_cons, Frame.sib_R, Frame.color_R, Tree.Balanced_node, Tree.bh_node,
            if_true, if_neg hnrb, Nat.add_zero]
          exact ⟨⟨hub, hsb, by omega⟩, by omega, hrestb⟩
        · simp [hsn, hun, hfs, hu, hrestn]
        · cases rest with
          | nil => simp
          | cons g2 rest2 => simpa using hko'
        · simp [inorder_plug, Tree.inorder, Ctx.before, Ctx.after]
        · intro z hz
          rw [F3 z (by simp only [occ_plug, occ_node, Ctx.occ_consL, Ctx.occ_consR] at hz ⊢; omega),
            F2 z (by simp only [occ_plug, occ_node, Ctx.occ_consL, Ctx.occ_consR] at hz ⊢; omega),
            F1 z (by simp only [occ_plug, occ_node, Ctx.occ_consL, Ctx.occ_consR] at hz ⊢; omega)]

end RtThread

namespace RtThread
open Color Tree

/-! ## Linking a node at a leaf position -/

theorem outerBlack_of_color {k : Ctx} {t : Tree} (hk : k ≠ [])
    (h : (plug k t).color = RB_BLACK) : Ctx.outerBlack k := by
  induction k generalizing t with
  | nil => exact absurd rfl hk
  | cons f rest ih =>
    cases rest with
    | nil => cases f <;> simpa using h
    | cons g rest2 =>
      cases f with
      | L a c r => exact ih (by simp) h
      | R a c l => exact ih (by simp) h

theorem link_node_spec {m : NodeMem} {root : rt_rb_root} {k : Ctx} {x : Nat}
    (h : HeapTree m root (plug k nil)) (hx0 : x ≠ 0) (hx : Tree.occ x (plug k nil) = 0) :
    ∃ m' root', rt_rb_link_node m root x k.top k.link = .ok (m', root') ∧
      HeapTree m' root' (plug k (node x RB_RED nil nil)) ∧
      ∀ z, z ≠ x → Tree.occ z (plug k nil) = 0 → m' z = m z := by
  rw [heapTree_plug] at h
  obtain ⟨hroot, -, hk, hocc⟩ := h
  simp only [occ_plug, occ_nil, Nat.zero_add] at hx hocc
  simp only [heapTree_plug, occ_plug, occ_node, occ_nil, Tree.addr_node, Rep]
  rcases k with _ | ⟨⟨p, cp, s⟩ | ⟨p, cp, s⟩, rest⟩
  · simp only [rt_rb_link_node, wr_ok hx0, ok_bind, Ctx.link, Link.store, pure_eq_ok,
      Ctx.top_nil]
    refine ⟨_, _, rfl, ⟨rfl, ⟨hx0, ?_, trivial, trivial⟩, trivial, ?_⟩, ?_⟩
    · simp
    · intro z; simp; split_ifs <;> omega
    · intro z hz _
      simp [Function.update_apply, hz]
  · obtain ⟨hp0, hmp, hs, hrest⟩ := hk
    have hp := hocc p
    simp only [Ctx.occ_consL, if_true] at hp hx
    have hpx : p ≠ x := by rintro rfl; simp only [if_true] at hx; omega
    simp only [rt_rb_link_node, wr_ok hx0, wr_ok hp0, ok_bind, Ctx.link, Link.store, pure_eq_ok,
      Ctx.top_cons, Frame.addr_L, Ctx.rootAddr_cons, CtxRep]
    refine ⟨_, _, rfl, ⟨hroot, ⟨hx0, ?_, trivial, trivial⟩, ⟨hp0, ?_, ?_, ?_⟩, ?_⟩, ?_⟩
    · simp [Function.update_apply, hpx.symm]
    · simp [Function.update_apply, hpx, hmp]
    · refine Rep_update (by omega) (Rep_update (by omega) (Rep_update (by omega)
        (Rep_update (by omega) hs)))
    · refine CtxRep_update (by omega) (CtxRep_update (by omega) (CtxRep_update (by omega)
        (CtxRep_update (by omega) hrest)))
    · intro z
      have := hocc z
      simp only [Ctx.occ_consL] at this ⊢
      by_cases hzx : x = z
      · subst hzx; simp only [if_true]; omega
      · simp only [hzx, if_false]; omega
    · intro z hz hzo
      simp only [Ctx.occ_consL] at hzo
      have hzp : z ≠ p := by rintro rfl; simp only [if_true] at hzo; omega
      simp [Function.update_apply, hz, hzp]
  · obtain ⟨hp0, hmp, hs, hrest⟩ := hk
    have hp := hocc p
    simp only [Ctx.occ_consR, if_true] at hp hx
    have hpx : p ≠ x := by rintro rfl; simp only [if_true] at hx; omega
    simp only [rt_rb_link_node, wr_ok hx0, wr_ok hp0, ok_bind, Ctx.link, Link.store, pure_eq_ok,
      Ctx.top_cons, Frame.addr_R, Ctx.rootAddr_cons, CtxRep]
    refine ⟨_, _, rfl, ⟨hroot, ⟨hx0, ?_, trivial, trivial⟩, ⟨hp0, ?_, ?_, ?_⟩, ?_⟩, ?_⟩
    · simp [Function.update_apply, hpx.symm]
    · simp [Function.update_apply, hpx, hmp]
    · refine Rep_update (by omega) (Rep_update (by omega) (Rep_update (by omega)
        (Rep_update (by omega) hs)))
    · refine CtxRep_update (by omega) (CtxRep_update (by omega) (CtxRep_update (by omega)
        (CtxRep_update (by omega) hrest)))
    · intro z
      have := hocc z
      simp only [Ctx.occ_consR] at this ⊢
      by_cases hzx : x = z
      · subst hzx; simp only [if_true]; omega
      · simp only [hzx, if_false]; omega
    · intro z hz hzo
      simp only [Ctx.occ_consR] at hzo
      have hzp : z ≠ p := by rintro rfl; simp only [if_true] at hzo; omega
      simp [Function.update_apply, hz, hzp]

/-- Linking a node at a leaf position of a red-black tree and rebalancing gives a red-black
tree whose in-order sequence has the node at that position. -/
theorem link_insert_color {m : NodeMem} {root : rt_rb_root} {k : Ctx} {x : Nat} {fuel : Nat}
    (h : HeapTree m root (plug k nil)) (hrb : (plug k nil).IsRB)
    (hx0 : x ≠ 0) (hx : x ∉ (plug k nil).inorder) (hfuel : k.length + 1 ≤ fuel) :
    ∃ m1 root1 m2 root2 T',
      rt_rb_link_node m root x k.top k.link = .ok (m1, root1) ∧
      rt_rb_insert_color fuel m1 x root1 = .ok (m2, root2) ∧
      HeapTree m2 root2 T' ∧ T'.IsRB ∧
      T'.inorder = (plug k (node x RB_RED nil nil)).inorder ∧
      ∀ z, z ≠ x → z ∉ (plug k nil).inorder → m2 z = m z := by
  obtain ⟨m1, root1, e1, H1, F1⟩ := link_node_spec h hx0 (Tree.occ_eq_zero.2 hx)
  obtain ⟨hc, hn, hb⟩ := hrb
  rw [NoRedRed_plug] at hn
  rw [Balanced_plug] at hb
  have hko : Ctx.outerBlack k := by
    rcases k with _ | ⟨f, rest⟩
    · trivial
    · exact outerBlack_of_color (by simp) hc
  obtain ⟨m2, root2, T', e2, H2, hrb2, hio, F2⟩ :=
    insert_color_loop k.length k le_rfl m1 root1 x nil nil fuel H1 rfl rfl trivial trivial
      trivial trivial rfl hb.2 hn.2.1 hko hfuel
  refine ⟨m1, root1, m2, root2, T', e1, e2, H2, hrb2, hio, fun z hz hzo => ?_⟩
  rw [F2 z, F1 z hz (Tree.occ_eq_zero.2 hzo)]
  have := Tree.occ_eq_zero.2 hzo
  simp only [occ_plug, occ_node, occ_nil] at this ⊢
  simp [hz.symm]
  omega

end RtThread

namespace RtThread
open Color Tree

/-! ## __rt_rb_erase_color restores the invariants -/

@[simp]
theorem Tree.color_blacken (t : Tree) : t.blacken.color = RB_BLACK := by
  cases t <;> rfl

@[simp]
theorem Tree.Balanced_blacken (t : Tree) : t.blacken.Balanced ↔ t.Balanced := by
  cases t <;> simp [Tree.blacken]

theorem Tree.bh_blacken_of_red {t : Tree} (h : t.color = RB_RED) : t.blacken.bh = t.bh + 1 := by
  obtain ⟨a, l, r, rfl⟩ := exists_of_red h
  simp [Tree.blacken]

theorem exists_of_bh_pos {t : Tree} (h : 0 < t.bh) : ∃ a c l r, t = node a c l r := by
  cases t with
  | nil => simp at h
  | node a c l r => exact ⟨a, c, l, r, rfl⟩

theorem set_black_sub {m : NodeMem} {root : rt_rb_root} {k : Ctx} {t : Tree}
    (h : HeapTree m root (plug k t)) :
    ∃ m', (if t.addr ≠ 0 then rt_rb_set_black m t.addr else Except.ok m) = .ok m' ∧
      HeapTree m' root (plug k t.blacken) ∧ ∀ z, Tree.occ z (plug k t) = 0 → m' z = m z := by
  cases t with
  | nil => exact ⟨m, by simp, h, fun _ _ => rfl⟩
  | node a c l r =>
    obtain ⟨m', e, H, F⟩ := set_black_step h
    have h0 := (heapTree_cell h).1
    exact ⟨m', by simp [h0, e], H, F⟩

theorem rootAddr_occ {k : Ctx} (hk : k ≠ []) (x : Nat) : 0 < Ctx.occ (k.rootAddr x) k := by
  induction k generalizing x with
  | nil => exact absurd rfl hk
  | cons f rest ih =>
    cases rest with
    | nil => cases f <;> simp
    | cons g rest2 =>
      have := ih (by simp) f.addr
      cases f <;> simp only [Ctx.rootAddr_cons, Ctx.occ_consL, Ctx.occ_consR] at this ⊢ <;> omega

theorem root_ne_of_ctx {m : NodeMem} {root : rt_rb_root} {f : Frame} {rest : Ctx} {t : Tree}
    (h : HeapTree m root (plug (f :: rest) t)) : t.addr ≠ root.rt_rb_node := by
  have h' := (heapTree_plug _ _).1 h
  obtain ⟨hroot, -, hk, hocc⟩ := h'
  have hq := rootAddr_occ (k := f :: rest) (by simp) t.addr
  have hq0 : Ctx.rootAddr (f :: rest) t.addr ≠ 0 := by
    have hne : plug (f :: rest) t ≠ nil := by cases f <;> exact plug_ne_nil _ _ _ _ _
    have hrep := h.rep
    rw [← addr_plug]
    cases hp : plug (f :: rest) t with
    | nil => exact absurd hp hne
    | node a c l r => rw [hp] at hrep; exact hrep.1
  rw [hroot]
  have := hocc (Ctx.rootAddr (f :: rest) t.addr)
  exact (ne_addr_of_occ hq0 (by omega)).symm

theorem erase_exit {m : NodeMem} {root : rt_rb_root} {k : Ctx} {t : Tree} {fuel : Nat}
    (h : HeapTree m root (plug k t)) (inv : EraseInv k t) (hex : t.color = RB_RED ∨ k = []) :
    RebalDone m (plug k t) (__rt_rb_erase_color (fuel + 1) m t.addr k.top root) := by
  have hnb := null_or_black_sub h
  obtain ⟨m', e, H, F⟩ := set_black_sub h
  have hcond : (decide (t.color = RB_BLACK) && decide (t.addr ≠ root.rt_rb_node)) = false := by
    rcases hex with hex | hex
    · simp [hex]
    · subst hex
      have := h.root_eq
      simp only [plug_nil] at this
      simp [this]
  refine ⟨m', root, _, ?_, H, ?_, by simp [inorder_plug], F⟩
  · rw [__rt_rb_erase_color]
    simp only [hnb, ok_bind, hcond, pure_eq_ok, e]
    simp
  · refine ⟨?_, ?_, ?_⟩
    · rcases k with _ | ⟨f, rest⟩
      · simp
      · exact color_plug_of_outerBlack (by simp) inv.ko _
    · rw [NoRedRed_plug]
      exact ⟨inv.tn, inv.kn, fun _ => by simp⟩
    · rw [Balanced_plug]
      refine ⟨by simpa using inv.tb, ?_⟩
      rcases hex with hex | hex
      · rw [Tree.bh_blacken_of_red hex]; exact inv.kb
      · subst hex; trivial


theorem root_ne_zero {m : NodeMem} {root : rt_rb_root} {t : Tree} (h : HeapTree m root t)
    (hne : t ≠ nil) : root.rt_rb_node ≠ 0 := by
  cases t with
  | nil => exact absurd rfl hne
  | node a c l r => rw [h.root_eq]; exact h.rep.1

/-- Left side, black sibling with two black children: recolour the sibling and move up. -/
theorem erase_L2 {m : NodeMem} {root : rt_rb_root} {p wa : Nat} {cp : Color} {wl wr t : Tree}
    {rest : Ctx} (fuel : Nat)
    (h : HeapTree m root (plug (.L p cp (node wa RB_BLACK wl wr) :: rest) t))
    (ht : t.color = RB_BLACK) (hwl : wl.color = RB_BLACK) (hwr : wr.color = RB_BLACK) :
    ∃ m1, __rt_rb_erase_color (fuel + 1) m t.addr p root =
        __rt_rb_erase_color fuel m1 p rest.top root ∧
      HeapTree m1 root (plug rest (node p cp t (node wa RB_RED wl wr))) ∧
      ∀ z, Tree.occ z (plug (.L p cp (node wa RB_BLACK wl wr) :: rest) t) = 0 → m1 z = m z := by
  have hvp : HeapTree m root (plug rest (node p cp t (node wa RB_BLACK wl wr))) := h
  have hvw : HeapTree m root (plug (.R p cp t :: rest) (node wa RB_BLACK wl wr)) := h
  have hvl : HeapTree m root (plug (.L wa RB_BLACK wr :: .R p cp t :: rest) wl) := h
  have hvr : HeapTree m root (plug (.R wa RB_BLACK wl :: .R p cp t :: rest) wr) := h
  have hnb := null_or_black_sub h
  have hne := root_ne_of_ctx h
  have rp := rd_node hvp
  have rw' := rd_node hvw
  have hw0 := (heapTree_cell hvw).1
  have nbl := null_or_black_sub hvl
  have nbr := null_or_black_sub hvr
  obtain ⟨m1, e1, H1, F1⟩ := set_red_step hvw
  have hvp1 : HeapTree m1 root (plug rest (node p cp t (node wa RB_RED wl wr))) := H1
  have rp1 := rd_node hvp1
  refine ⟨m1, ?_, hvp1, F1⟩
  rw [__rt_rb_erase_color]
  simp [hnb, ht, hne, rp, rw', rt_rb_is_red, rt_rb_color, nbl, nbr, hwl, hwr, e1, rt_rb_parent,
    rp1]


/-- Left side, red sibling: after the rotation at the parent the iteration continues as if
started with the new, black sibling. -/
theorem erase_L1 {m : NodeMem} {root : rt_rb_root} {p wa la : Nat} {cp : Color}
    {ll lr wr t : Tree} {rest : Ctx} (fuel : Nat)
    (h : HeapTree m root (plug (.L p cp (node wa RB_RED (node la RB_BLACK ll lr) wr) :: rest) t))
    (ht : t.color = RB_BLACK) :
    ∃ m3 root3, __rt_rb_erase_color (fuel + 1) m t.addr p root =
        __rt_rb_erase_color (fuel + 1) m3 t.addr p root3 ∧
      HeapTree m3 root3
        (plug (.L p RB_RED (node la RB_BLACK ll lr) :: .L wa RB_BLACK wr :: rest) t) ∧
      ∀ z, Tree.occ z (plug (.L p cp (node wa RB_RED (node la RB_BLACK ll lr) wr) :: rest) t) = 0 →
        m3 z = m z := by
  have hvp : HeapTree m root (plug rest
    (node p cp t (node wa RB_RED (node la RB_BLACK ll lr) wr))) := h
  have hvw : HeapTree m root (plug (.R p cp t :: rest)
    (node wa RB_RED (node la RB_BLACK ll lr) wr)) := h
  have hnb := null_or_black_sub h
  have hne := root_ne_of_ctx h
  have rp := rd_node hvp
  have rw' := rd_node hvw
  obtain ⟨m1, e1, H1, F1⟩ := set_black_step hvw
  have hvp1 : HeapTree m1 root (plug rest
    (node p cp t (node wa RB_BLACK (node la RB_BLACK ll lr) wr))) := H1
  obtain ⟨m2, e2, H2, F2⟩ := set_red_step hvp1
  obtain ⟨m3, root3, e3, H3, F3⟩ := rotate_left_spec H2
  have H3' : HeapTree m3 root3
    (plug (.L p RB_RED (node la RB_BLACK ll lr) :: .L wa RB_BLACK wr :: rest) t) := H3
  have hvp3 : HeapTree m3 root3 (plug (.L wa RB_BLACK wr :: rest)
    (node p RB_RED t (node la RB_BLACK ll lr))) := H3
  have hvl3 : HeapTree m3 root3 (plug (.R p RB_RED t :: .L wa RB_BLACK wr :: rest)
    (node la RB_BLACK ll lr)) := H3
  have hnb3 := null_or_black_sub H3'
  have hne3 := root_ne_of_ctx H3'
  have rp3 := rd_node hvp3
  have rl3 := rd_node hvl3
  refine ⟨m3, root3, ?_, H3', fun z hz => ?_⟩
  · rw [__rt_rb_erase_color, __rt_rb_erase_color]
    simp [hnb, ht, hne, rp, rw', rt_rb_is_red, rt_rb_color, e1, e2, e3, hnb3, hne3, rp3, rl3]
  · rw [F3 z (by simp only [occ_plug, occ_node, Ctx.occ_consL, Ctx.occ_consR] at hz ⊢; omega),
      F2 z (by simp only [occ_plug, occ_node, Ctx.occ_consL, Ctx.occ_consR] at hz ⊢; omega),
      F1 z (by simp only [occ_plug, occ_node, Ctx.occ_consL, Ctx.occ_consR] at hz ⊢; omega)]

/-- Left side, black sibling whose far child is black and near child red: after the rotation
at the sibling the iteration continues as if started with a red far nephew. -/
theorem erase_L3 {m : NodeMem} {root : rt_rb_root} {p wa la : Nat} {cp : Color}
    {ll lr wr t : Tree} {rest : Ctx} (fuel : Nat)
    (h : HeapTree m root (plug (.L p cp (node wa RB_BLACK (node la RB_RED ll lr) wr) :: rest) t))
    (ht : t.color = RB_BLACK) (hwr : wr.color = RB_BLACK) :
    ∃ m3 root3, __rt_rb_erase_color (fuel + 1) m t.addr p root =
        __rt_rb_erase_color (fuel + 1) m3 t.addr p root3 ∧
      HeapTree m3 root3
        (plug (.L p cp (node la RB_BLACK ll (node wa RB_RED lr wr)) :: rest) t) ∧
      ∀ z, Tree.occ z (plug (.L p cp (node wa RB_BLACK (node la RB_RED ll lr) wr) :: rest) t) = 0 →
        m3 z = m z := by
  have hvp : HeapTree m root (plug rest
    (node p cp t (node wa RB_BLACK (node la RB_RED ll lr) wr))) := h
  have hvw : HeapTree m root (plug (.R p cp t :: rest)
    (node wa RB_BLACK (node la RB_RED ll lr) wr)) := h
  have hvl : HeapTree m root (plug (.L wa RB_BLACK wr :: .R p cp t :: rest)
    (node la RB_RED ll lr)) := h
  have hvr : HeapTree m root (plug (.R wa RB_BLACK (node la RB_RED ll lr) :: .R p cp t :: rest)
    wr) := h
  have hnb := null_or_black_sub h
  have hne := root_ne_of_ctx h
  have rp := rd_node hvp
  have rw' := rd_node hvw
  have nbl := null_or_black_sub hvl
  have nbr := null_or_black_sub hvr
  obtain ⟨m1, e1, H1, F1⟩ := set_black_step hvl
  have hvw1 : HeapTree m1 root (plug (.R p cp t :: rest)
    (node wa RB_BLACK (node la RB_BLACK ll lr) wr)) := H1
  obtain ⟨m2, e2, H2, F2⟩ := set_red_step hvw1
  obtain ⟨m3, root3, e3, H3, F3⟩ := rotate_right_spec H2
  have H3' : HeapTree m3 root3
    (plug (.L p cp (node la RB_BLACK ll (node wa RB_RED lr wr)) :: rest) t) := H3
  have hvp3 : HeapTree m3 root3 (plug rest
    (node p cp t (node la RB_BLACK ll (node wa RB_RED lr wr)))) := H3
  have hvl3 : HeapTree m3 root3 (plug (.R p cp t :: rest)
    (node la RB_BLACK ll (node wa RB_RED lr wr))) := H3
  have hvll3 : HeapTree m3 root3 (plug (.L la RB_BLACK (node wa RB_RED lr wr) :: .R p cp t :: rest)
    ll) := H3
  have hvw3 : HeapTree m3 root3 (plug (.R la RB_BLACK ll :: .R p cp t :: rest)
    (node wa RB_RED lr wr)) := H3
  have hnb3 := null_or_black_sub H3'
  have hne3 := root_ne_of_ctx H3'
  have rp3 := rd_node hvp3
  have rl3 := rd_node hvl3
  have nbll3 := null_or_black_sub hvll3
  have nbw3 := null_or_black_sub hvw3
  refine ⟨m3, root3, ?_, H3', fun z hz => ?_⟩
  · rw [__rt_rb_erase_color, __rt_rb_erase_color]
    simp only [Tree.addr_node, Tree.color_node] at nbl nbw3
    simp [hnb, ht, hne, rp, rw', rt_rb_is_red, rt_rb_color, e1, e2, e3, hnb3, hne3, rp3, rl3,
      nbl, nbr, hwr, nbll3, nbw3]
  · rw [F3 z (by simp only [occ_plug, occ_node, Ctx.occ_consL, Ctx.occ_consR] at hz ⊢; omega),
      F2 z (by simp only [occ_plug, occ_node, Ctx.occ_consL, Ctx.occ_consR] at hz ⊢; omega),
      F1 z (by simp only [occ_plug, occ_node, Ctx.occ_consL, Ctx.occ_consR] at hz ⊢; omega)]


/-- Left side, black sibling with a red far child: the final rotation at the parent. -/
theorem erase_L4 {m : NodeMem} {root : rt_rb_root} {p wa ra : Nat} {cp : Color}
    {wl rl rr t : Tree} {rest : Ctx} {fuel : Nat}
    (h : HeapTree m root (plug (.L p cp (node wa RB_BLACK wl (node ra RB_RED rl rr)) :: rest) t))
    (ht : t.color = RB_BLACK)
    (inv : EraseInv (.L p cp (node wa RB_BLACK wl (node ra RB_RED rl rr)) :: rest) t) :
    RebalDone m (plug (.L p cp (node wa RB_BLACK wl (node ra RB_RED rl rr)) :: rest) t)
      (__rt_rb_erase_color (fuel + 1) m t.addr p root) := by
  have hvp : HeapTree m root (plug rest
    (node p cp t (node wa RB_BLACK wl (node ra RB_RED rl rr)))) := h
  have hvw : HeapTree m root (plug (.R p cp t :: rest)
    (node wa RB_BLACK wl (node ra RB_RED rl rr))) := h
  have hvl : HeapTree m root (plug (.L wa RB_BLACK (node ra RB_RED rl rr) :: .R p cp t :: rest)
    wl) := h
  have hvr : HeapTree m root (plug (.R wa RB_BLACK wl :: .R p cp t :: rest)
    (node ra RB_RED rl rr)) := h
  have hnb := null_or_black_sub h
  have hne := root_ne_of_ctx h
  have rp := rd_node hvp
  have rw' := rd_node hvw
  have nbl := null_or_black_sub hvl
  have nbr := null_or_black_sub hvr
  obtain ⟨m1, e1, H1, F1⟩ := set_color_step cp hvw
  have hvp1 : HeapTree m1 root (plug rest
    (node p cp t (node wa cp wl (node ra RB_RED rl rr)))) := H1
  obtain ⟨m2, e2, H2, F2⟩ := set_black_step hvp1
  have hvw2 : HeapTree m2 root (plug (.R p RB_BLACK t :: rest)
    (node wa cp wl (node ra RB_RED rl rr))) := H2
  have rw2 := rd_node hvw2
  have hvr2 : HeapTree m2 root (plug (.R wa cp wl :: .R p RB_BLACK t :: rest)
    (node ra RB_RED rl rr)) := H2
  obtain ⟨m3, e3, H3, F3⟩ := set_black_step hvr2
  have hvp3 : HeapTree m3 root (plug rest
    (node p RB_BLACK t (node wa cp wl (node ra RB_BLACK rl rr)))) := H3
  obtain ⟨m4, root4, e4, H4, F4⟩ := rotate_left_spec hvp3
  obtain ⟨m5, e5, H5, F5⟩ := set_black_root H4 (plug_ne_nil _ _ _ _ _)
  have hr0 := root_ne_zero H4 (plug_ne_nil _ _ _ _ _)
  obtain ⟨tb, kb, tn, kn, ko⟩ := inv
  rw [blacken_of_black ht] at tn
  simp only [Ctx.Bal_cons, Ctx.NoRR_cons, Frame.sib_L, Frame.color_L, Tree.Balanced_node,
    Tree.NoRedRed_node, Tree.bh_node, Tree.color_node, if_true,
    if_neg (show ¬ RB_RED = RB_BLACK by decide)] at kb kn
  refine ⟨m5, root4, _, ?_, H5, ?_, ?_, fun z hz => ?_⟩
  · rw [__rt_rb_erase_color]
    simp only [Tree.addr_node, Tree.color_node] at nbr
    simp [hnb, ht, hne, rp, rw', rt_rb_is_red, rt_rb_color, e1, e2, e3, e4, e5, nbl, nbr, rw2,
      hr0]
  · obtain ⟨⟨hwlb, ⟨hrlb, hrrb, hrh⟩, hwh⟩, hwbh, hrestb⟩ := kb
    obtain ⟨⟨-, hwln, ⟨-, hrln, hrrn⟩⟩, hjun, hrestn⟩ := kn
    apply isRB_blacken
    · rw [NoRedRed_plug]
      refine ⟨?_, hrestn, fun hc => ?_⟩
      · simp [tn, hwln, hrln, hrrn]
      · simp only [Tree.color_node]
        rcases color_cases cp with hcp | hcp
        · rw [(hjun hcp).2] at hc; cases hc
        · exact hcp
    · rw [Balanced_plug]
      simp only [Tree.Balanced_node, Tree.bh_node, if_true]
      refine ⟨⟨⟨tb, hwlb, by omega⟩, ⟨hrlb, hrrb, hrh⟩, by omega⟩, ?_⟩
      exact hrestb
  · simp [inorder_plug, Tree.inorder, Ctx.before, Ctx.after]
  · rw [F5 z (by simp only [occ_plug, occ_node, Ctx.occ_consL, Ctx.occ_consR] at hz ⊢; omega),
      F4 z (by simp only [occ_plug, occ_node, Ctx.occ_consL, Ctx.occ_consR] at hz ⊢; omega),
      F3 z (by simp only [occ_plug, occ_node, Ctx.occ_consL, Ctx.occ_consR] at hz ⊢; omega),
      F2 z (by simp only [occ_plug, occ_node, Ctx.occ_consL, Ctx.occ_consR] at hz ⊢; omega),
      F1 z (by simp only [occ_plug, occ_node, Ctx.occ_consL, Ctx.occ_consR] at hz ⊢; omega)]


theorem outerBlack_tail {f : Frame} {rest : Ctx} (h : Ctx.outerBlack (f :: rest)) :
    Ctx.outerBlack rest := by
  cases rest with
  | nil => trivial
  | cons g rest2 => simpa using h

theorem outerBlack_cons_congr {f f' : Frame} {rest : Ctx} (h : f.color = f'.color) :
    Ctx.outerBlack (f :: rest) ↔ Ctx.outerBlack (f' :: rest) := by
  cases rest with
  | nil => simp [h]
  | cons g rest2 => simp

/-- Left side, black sibling: one iteration leads to the final tree, given what the next
iteration does when the hole moves up. -/
theorem erase_LB {m : NodeMem} {root : rt_rb_root} {p wa : Nat} {cp : Color}
    {wl wr t : Tree} {rest : Ctx} {fuel : Nat}
    (h : HeapTree m root (plug (.L p cp (node wa RB_BLACK wl wr) :: rest) t))
    (ht : t.color = RB_BLACK)
    (inv : EraseInv (.L p cp (node wa RB_BLACK wl wr) :: rest) t)
    (hcont : ∀ m1, HeapTree m1 root (plug rest (node p cp t (node wa RB_RED wl wr))) →
      EraseInv rest (node p cp t (node wa RB_RED wl wr)) →
      RebalDone m1 (plug rest (node p cp t (node wa RB_RED wl wr)))
        (__rt_rb_erase_color fuel m1 p rest.top root)) :
    RebalDone m (plug (.L p cp (node wa RB_BLACK wl wr) :: rest) t)
      (__rt_rb_erase_color (fuel + 1) m t.addr p root) := by
  have hnrb : ¬ RB_RED = RB_BLACK := by decide
  rcases color_cases wr.color with hwr | hwr
  · obtain ⟨ra, rl, rr, rfl⟩ := exists_of_red hwr
    exact erase_L4 h ht inv
  obtain ⟨tb, kb, tn, kn, ko⟩ := inv
  have tn' := tn
  rw [blacken_of_black ht] at tn'
  simp only [Ctx.Bal_cons, Ctx.NoRR_cons, Frame.sib_L, Frame.color_L, Tree.Balanced_node,
    Tree.NoRedRed_node, Tree.bh_node, Tree.color_node, if_true, if_neg hnrb] at kb kn
  obtain ⟨⟨hwlb, hwrb, hwh⟩, hwbh, hrestb⟩ := kb
  obtain ⟨⟨-, hwln, hwrn⟩, hjun, hrestn⟩ := kn
  rcases color_cases wl.color with hwl | hwl
  · obtain ⟨la, ll, lr, rfl⟩ := exists_of_red hwl
    obtain ⟨m3, root3, e3, H3, F3⟩ := erase_L3 fuel h ht hwr
    rw [e3]
    simp only [Tree.Balanced_node, Tree.NoRedRed_node, Tree.bh_node, Tree.color_node, if_true,
      if_neg hnrb] at hwlb hwln hwh hwbh
    have hll := (hwln.1 trivial).1
    have hlr := (hwln.1 trivial).2
    obtain ⟨-, hlln, hlrn⟩ := hwln
    obtain ⟨hllb, hlrb, hlh⟩ := hwlb
    refine (erase_L4 H3 ht ⟨tb, ?_, tn, ?_, ?_⟩).trans ?_ F3
    · simp only [Ctx.Bal_cons, Frame.sib_L, Frame.color_L, Tree.Balanced_node, Tree.bh_node,
        if_true, if_neg hnrb]
      constructorm* _ ∧ _
      all_goals first | assumption | omega
    · simp only [Ctx.NoRR_cons, Frame.sib_L, Frame.color_L, Tree.NoRedRed_node, Tree.color_node]
      constructorm* _ ∧ _
      all_goals first | assumption | exact fun _ => ⟨hlr, hwr⟩ |
        exact fun hc => ⟨rfl, (hjun hc).2⟩ | (intro hc; cases hc)
    · refine (outerBlack_cons_congr ?_).1 ko
      rfl
    · simp [inorder_plug, Tree.inorder, Ctx.before, Ctx.after]
  · obtain ⟨m1, e1, H1, F1⟩ := erase_L2 fuel h ht hwl hwr
    rw [e1]
    refine (hcont m1 H1 ⟨?_, ?_, ?_, hrestn, outerBlack_tail ko⟩).trans ?_ F1
    · simp only [Tree.Balanced_node, Tree.bh_node, if_neg hnrb]
      constructorm* _ ∧ _
      all_goals first | assumption | omega
    · simp only [Tree.bh_node]
      have : t.bh + (if cp = RB_BLACK then 1 else 0) + 1 =
          t.bh + 1 + (if cp = RB_BLACK then 1 else 0) := by omega
      rw [this]; exact hrestb
    · simp only [Tree.blacken, Tree.NoRedRed_node, Tree.color_node]
      constructorm* _ ∧ _
      all_goals first | assumption | exact fun _ => ⟨hwl, hwr⟩ | (intro hc; cases hc)
    · simp [inorder_plug, Tree.inorder, Ctx.before, Ctx.after]


/-- Right side, black sibling with two black children: recolour the sibling and move up. -/
theorem erase_R2 {m : NodeMem} {root : rt_rb_root} {p wa : Nat} {cp : Color} {wl wr t : Tree}
    {rest : Ctx} (fuel : Nat)
    (h : HeapTree m root (plug (.R p cp (node wa RB_BLACK wl wr) :: rest) t))
    (ht : t.color = RB_BLACK) (hwl : wl.color = RB_BLACK) (hwr : wr.color = RB_BLACK) :
    ∃ m1, __rt_rb_erase_color (fuel + 1) m t.addr p root =
        __rt_rb_erase_color fuel m1 p rest.top root ∧
      HeapTree m1 root (plug rest (node p cp (node wa RB_RED wl wr) t)) ∧
      ∀ z, Tree.occ z (plug (.R p cp (node wa RB_BLACK wl wr) :: rest) t) = 0 → m1 z = m z := by
  have hvp : HeapTree m root (plug rest (node p cp (node wa RB_BLACK wl wr) t)) := h
  have hvw : HeapTree m root (plug (.L p cp t :: rest) (node wa RB_BLACK wl wr)) := h
  have hvl : HeapTree m root (plug (.L wa RB_BLACK wr :: .L p cp t :: rest) wl) := h
  have hvr : HeapTree m root (plug (.R wa RB_BLACK wl :: .L p cp t :: rest) wr) := h
  have hnb := null_or_black_sub h
  have hne := root_ne_of_ctx h
  have rp := rd_node hvp
  have rw' := rd_node hvw
  have hw0 := (heapTree_cell hvw).1
  have ht0 : ¬ wa = t.addr := by
    have := occ_facts h wa
    simp only [occ_plug, occ_node, Ctx.occ_consR, if_true] at this
    exact ne_addr_of_occ hw0 (by omega)
  have nbl := null_or_black_sub hvl
  have nbr := null_or_black_sub hvr
  obtain ⟨m1, e1, H1, F1⟩ := set_red_step hvw
  have hvp1 : HeapTree m1 root (plug rest (node p cp (node wa RB_RED wl wr) t)) := H1
  have rp1 := rd_node hvp1
  refine ⟨m1, ?_, hvp1, F1⟩
  rw [__rt_rb_erase_color]
  simp [hnb, ht, hne, rp, rw', rt_rb_is_red, rt_rb_color, nbl, nbr, hwl, hwr, e1, rt_rb_parent,
    rp1, ht0]

/-- Right side, red sibling: after the rotation at the parent the iteration continues as if
started with the new, black sibling. -/
theorem erase_R1 {m : NodeMem} {root : rt_rb_root} {p wa ra : Nat} {cp : Color}
    {rl rr wl t : Tree} {rest : Ctx} (fuel : Nat)
    (h : HeapTree m root (plug (.R p cp (node wa RB_RED wl (node ra RB_BLACK rl rr)) :: rest) t))
    (ht : t.color = RB_BLACK) :
    ∃ m3 root3, __rt_rb_erase_color (fuel + 1) m t.addr p root =
        __rt_rb_erase_color (fuel + 1) m3 t.addr p root3 ∧
      HeapTree m3 root3
        (plug (.R p RB_RED (node ra RB_BLACK rl rr) :: .R wa RB_BLACK wl :: rest) t) ∧
      ∀ z, Tree.occ z (plug (.R p cp (node wa RB_RED wl (node ra RB_BLACK rl rr)) :: rest) t) = 0 →
        m3 z = m z := by
  have hvp : HeapTree m root (plug rest
    (node p cp (node wa RB_RED wl (node ra RB_BLACK rl rr)) t)) := h
  have hvw : HeapTree m root (plug (.L p cp t :: rest)
    (node wa RB_RED wl (node ra RB_BLACK rl rr))) := h
  have hnb := null_or_black_sub h
  have hne := root_ne_of_ctx h
  have rp := rd_node hvp
  have rw' := rd_node hvw
  have hw0 := (heapTree_cell hvw).1
  have ht0 : ¬ wa = t.addr := by
    have := occ_facts h wa
    simp only [occ_plug, occ_node, Ctx.occ_consR, if_true] at this
    exact ne_addr_of_occ hw0 (by omega)
  obtain ⟨m1, e1, H1, F1⟩ := set_black_step hvw
  have hvp1 : HeapTree m1 root (plug rest
    (node p cp (node wa RB_BLACK wl (node ra RB_BLACK rl rr)) t)) := H1
  obtain ⟨m2, e2, H2, F2⟩ := set_red_step hvp1
  obtain ⟨m3, root3, e3, H3, F3⟩ := rotate_right_spec H2
  have H3' : HeapTree m3 root3
    (plug (.R p RB_RED (node ra RB_BLACK rl rr) :: .R wa RB_BLACK wl :: rest) t) := H3
  have hvp3 : HeapTree m3 root3 (plug (.R wa RB_BLACK wl :: rest)
    (node p RB_RED (node ra RB_BLACK rl rr) t)) := H3
  have hvr3 : HeapTree m3 root3 (plug (.L p RB_RED t :: .R wa RB_BLACK wl :: rest)
    (node ra RB_BLACK rl rr)) := H3
  have hnb3 := null_or_black_sub H3'
  have hne3 := root_ne_of_ctx H3'
  have rp3 := rd_node hvp3
  have rr3 := rd_node hvr3
  have hr0 := (heapTree_cell hvr3).1
  have ht3 : ¬ ra = t.addr := by
    have := occ_facts H3' ra
    simp only [occ_plug, occ_node, Ctx.occ_consR, if_true] at this
    exact ne_addr_of_occ hr0 (by omega)
  refine ⟨m3, root3, ?_, H3', fun z hz => ?_⟩
  · rw [__rt_rb_erase_color, __rt_rb_erase_color]
    simp [hnb, ht, hne, rp, rw', rt_rb_is_red, rt_rb_color, e1, e2, e3, hnb3, hne3, rp3, rr3,
      ht0, ht3]
  · rw [F3 z (by simp only [occ_plug, occ_node, Ctx.occ_consL, Ctx.occ_consR] at hz ⊢; omega),
      F2 z (by simp only [occ_plug, occ_node, Ctx.occ_consL, Ctx.occ_consR] at hz ⊢; omega),
      F1 z (by simp only [occ_plug, occ_node, Ctx.occ_consL, Ctx.occ_consR] at hz ⊢; omega)]

/-- Right side, black sibling whose far child is black and near child red: after the rotation
at the sibling the iteration continues as if started with a red far nephew. -/
theorem erase_R3 {m : NodeMem} {root : rt_rb_root} {p wa ra : Nat} {cp : Color}
    {rl rr wl t : Tree} {rest : Ctx} (fuel : Nat)
    (h : HeapTree m root (plug (.R p cp (node wa RB_BLACK wl (node ra RB_RED rl rr)) :: rest) t))
    (ht : t.color = RB_BLACK) (hwl : wl.color = RB_BLACK) :
    ∃ m3 root3, __rt_rb_erase_color (fuel + 1) m t.addr p root =
        __rt_rb_erase_color (fuel + 1) m3 t.addr p root3 ∧
      HeapTree m3 root3
        (plug (.R p cp (node ra RB_BLACK (node wa RB_RED wl rl) rr) :: rest) t) ∧
      ∀ z, Tree.occ z (plug (.R p cp (node wa RB_BLACK wl (node ra RB_RED rl rr)) :: rest) t) = 0 →
        m3 z = m z := by
  have hvp : HeapTree m root (plug rest
    (node p cp (node wa RB_BLACK wl (node ra RB_RED rl rr)) t)) := h
  have hvw : HeapTree m root (plug (.L p cp t :: rest)
    (node wa RB_BLACK wl (node ra RB_RED rl rr))) := h
  have hvl : HeapTree m root (plug (.L wa RB_BLACK (node ra RB_RED rl rr) :: .L p cp t :: rest)
    wl) := h
  have hvr : HeapTree m root (plug (.R wa RB_BLACK wl :: .L p cp t :: rest)
    (node ra RB_RED rl rr)) := h
  have hnb := null_or_black_sub h
  have hne := root_ne_of_ctx h
  have rp := rd_node hvp
  have rw' := rd_node hvw
  have hw0 := (heapTree_cell hvw).1
  have ht0 : ¬ wa = t.addr := by
    have := occ_facts h wa
    simp only [occ_plug, occ_node, Ctx.occ_consR, if_true] at this
    exact ne_addr_of_occ hw0 (by omega)
  have nbl := null_or_black_sub hvl
  have nbr := null_or_black_sub hvr
  obtain ⟨m1, e1, H1, F1⟩ := set_black_step hvr
  have hvw1 : HeapTree m1 root (plug (.L p cp t :: rest)
    (node wa RB_BLACK wl (node ra RB_BLACK rl rr))) := H1
  obtain ⟨m2, e2, H2, F2⟩ := set_red_step hvw1
  obtain ⟨m3, root3, e3, H3, F3⟩ := rotate_left_spec H2
  have H3' : HeapTree m3 root3
    (plug (.R p cp (node ra RB_BLACK (node wa RB_RED wl rl) rr) :: rest) t) := H3
  have hvp3 : HeapTree m3 root3 (plug rest
    (node p cp (node ra RB_BLACK (node wa RB_RED wl rl) rr) t)) := H3
  have hvr3 : HeapTree m3 root3 (plug (.L p cp t :: rest)
    (node ra RB_BLACK (node wa RB_RED wl rl) rr)) := H3
  have hvw3 : HeapTree m3 root3 (plug (.L ra RB_BLACK rr :: .L p cp t :: rest)
    (node wa RB_RED wl rl)) := H3
  have hvrr3 : HeapTree m3 root3 (plug (.R ra RB_BLACK (node wa RB_RED wl rl) :: .L p cp t :: rest)
    rr) := H3
  have hnb3 := null_or_black_sub H3'
  have hne3 := root_ne_of_ctx H3'
  have rp3 := rd_node hvp3
  have rr3 := rd_node hvr3
  have hr0 := (heapTree_cell hvr3).1
  have ht3 : ¬ ra = t.addr := by
    have := occ_facts H3' ra
    simp only [occ_plug, occ_node, Ctx.occ_consR, if_true] at this
    exact ne_addr_of_occ hr0 (by omega)
  have nbw3 := null_or_black_sub hvw3
  have nbrr3 := null_or_black_sub hvrr3
  refine ⟨m3, root3, ?_, H3', fun z hz => ?_⟩
  · rw [__rt_rb_erase_color, __rt_rb_erase_color]
    simp only [Tree.addr_node, Tree.color_node] at nbr nbw3
    simp [hnb, ht, hne, rp, rw', rt_rb_is_red, rt_rb_color, e1, e2, e3, hnb3, hne3, rp3, rr3,
      nbl, nbr, hwl, nbrr3, nbw3, ht0, ht3]
  · rw [F3 z (by simp only [occ_plug, occ_node, Ctx.occ_consL, Ctx.occ_consR] at hz ⊢; omega),
      F2 z (by simp only [occ_plug, occ_node, Ctx.occ_consL, Ctx.occ_consR] at hz ⊢; omega),
      F1 z (by simp only [occ_plug, occ_node, Ctx.occ_consL, Ctx.occ_consR] at hz ⊢; omega)]

end RtThread

namespace RtThread
open Color Tree

/-- Right side, black sibling with a red far child: the final rotation at the parent. -/
theorem erase_R4 {m : NodeMem} {root : rt_rb_root} {p wa la : Nat} {cp : Color}
    {ll lr wr t : Tree} {rest : Ctx} {fuel : Nat}
    (h : HeapTree m root (plug (.R p cp (node wa RB_BLACK (node la RB_RED ll lr) wr) :: rest) t))
    (ht : t.color = RB_BLACK)
    (inv : EraseInv (.R p cp (node wa RB_BLACK (node la RB_RED ll lr) wr) :: rest) t) :
    RebalDone m (plug (.R p cp (node wa RB_BLACK (node la RB_RED ll lr) wr) :: rest) t)
      (__rt_rb_erase_color (fuel + 1) m t.addr p root) := by
  have hvp : HeapTree m root (plug rest
    (node p cp (node wa RB_BLACK (node la RB_RED ll lr) wr) t)) := h
  have hvw : HeapTree m root (plug (.L p cp t :: rest)
    (node wa RB_BLACK (node la RB_RED ll lr) wr)) := h
  have hvl : HeapTree m root (plug (.L wa RB_BLACK wr :: .L p cp t :: rest)
    (node la RB_RED ll lr)) := h
  have hvr : HeapTree m root (plug (.R wa RB_BLACK (node la RB_RED ll lr) :: .L p cp t :: rest)
    wr) := h
  have hnb := null_or_black_sub h
  have hne := root_ne_of_ctx h
  have rp := rd_node hvp
  have rw' := rd_node hvw
  have hw0 := (heapTree_cell hvw).1
  have ht0 : ¬ wa = t.addr := by
    have := occ_facts h wa
    simp only [occ_plug, occ_node, Ctx.occ_consR, if_true] at this
    exact ne_addr_of_occ hw0 (by omega)
  have nbl := null_or_black_sub hvl
  have nbr := null_or_black_sub hvr
  obtain ⟨m1, e1, H1, F1⟩ := set_color_step cp hvw
  have hvp1 : HeapTree m1 root (plug rest
    (node p cp (node wa cp (node la RB_RED ll lr) wr) t)) := H1
  obtain ⟨m2, e2, H2, F2⟩ := set_black_step hvp1
  have hvw2 : HeapTree m2 root (plug (.L p RB_BLACK t :: rest)
    (node wa cp (node la RB_RED ll lr) wr)) := H2
  have rw2 := rd_node hvw2
  have hvl2 : HeapTree m2 root (plug (.L wa cp wr :: .L p RB_BLACK t :: rest)
    (node la RB_RED ll lr)) := H2
  obtain ⟨m3, e3, H3, F3⟩ := set_black_step hvl2
  have hvp3 : HeapTree m3 root (plug rest
    (node p RB_BLACK (node wa cp (node la RB_BLACK ll lr) wr) t)) := H3
  obtain ⟨m4, root4, e4, H4, F4⟩ := rotate_right_spec hvp3
  obtain ⟨m5, e5, H5, F5⟩ := set_black_root H4 (plug_ne_nil _ _ _ _ _)
  have hr0 := root_ne_zero H4 (plug_ne_nil _ _ _ _ _)
  obtain ⟨tb, kb, tn, kn, ko⟩ := inv
  rw [blacken_of_black ht] at tn
  simp only [Ctx.Bal_cons, Ctx.NoRR_cons, Frame.sib_R, Frame.color_R, Tree.Balanced_node,
    Tree.NoRedRed_node, Tree.bh_node, Tree.color_node, if_true,
    if_neg (show ¬ RB_RED = RB_BLACK by decide)] at kb kn
  refine ⟨m5, root4, _, ?_, H5, ?_, ?_, fun z hz => ?_⟩
  · rw [__rt_rb_erase_color]
    simp only [Tree.addr_node, Tree.color_node] at nbl
    simp [hnb, ht, hne, rp, rw', rt_rb_is_red, rt_rb_color, e1, e2, e3, e4, e5, nbl, nbr, rw2,
      hr0, ht0]
  · obtain ⟨⟨⟨hllb, hlrb, hlh⟩, hwrb, hwh⟩, hwbh, hrestb⟩ := kb
    obtain ⟨⟨-, ⟨-, hlln, hlrn⟩, hwrn⟩, hjun, hrestn⟩ := kn
    apply isRB_blacken
    · rw [NoRedRed_plug]
      refine ⟨?_, hrestn, fun hc => ?_⟩
      · simp [tn, hwrn, hlln, hlrn]
      · simp only [Tree.color_node]
        rcases color_cases cp with hcp | hcp
        · rw [(hjun hcp).2] at hc; cases hc
        · exact hcp
    · rw [Balanced_plug]
      simp only [Tree.Balanced_node, Tree.bh_node, if_true]
      refine ⟨⟨⟨hllb, hlrb, hlh⟩, ⟨hwrb, tb, by omega⟩, by omega⟩, ?_⟩
      have e : ll.bh + 1 + (if cp = RB_BLACK then 1 else 0) =
          t.bh + 1 + (if cp = RB_BLACK then 1 else 0) := by omega
      rw [e]; exact hrestb
  · simp [inorder_plug, Tree.inorder, Ctx.before, Ctx.after]
  · rw [F5 z (by simp only [occ_plug, occ_node, Ctx.occ_consL, Ctx.occ_consR] at hz ⊢; omega),
      F4 z (by simp only [occ_plug, occ_node, Ctx.occ_consL, Ctx.occ_consR] at hz ⊢; omega),
      F3 z (by simp only [occ_plug, occ_node, Ctx.occ_consL, Ctx.occ_consR] at hz ⊢; omega),
      F2 z (by simp only [occ_plug, occ_node, Ctx.occ_consL, Ctx.occ_consR] at hz ⊢; omega),
      F1 z (by simp only [occ_plug, occ_node, Ctx.occ_consL, Ctx.occ_consR] at hz ⊢; omega)]

/-- Right side, black sibling: one iteration leads to the final tree, given what the next
iteration does when the hole moves up. -/
theorem erase_RB {m : NodeMem} {root : rt_rb_root} {p wa : Nat} {cp : Color}
    {wl wr t : Tree} {rest : Ctx} {fuel : Nat}
    (h : HeapTree m root (plug (.R p cp (node wa RB_BLACK wl wr) :: rest) t))
    (ht : t.color = RB_BLACK)
    (inv : EraseInv (.R p cp (node wa RB_BLACK wl wr) :: rest) t)
    (hcont : ∀ m1, HeapTree m1 root (plug rest (node p cp (node wa RB_RED wl wr) t)) →
      EraseInv rest (node p cp (node wa RB_RED wl wr) t) →
      RebalDone m1 (plug rest (node p cp (node wa RB_RED wl wr) t))
        (__rt_rb_erase_color fuel m1 p rest.top root)) :
    RebalDone m (plug (.R p cp (node wa RB_BLACK wl wr) :: rest) t)
      (__rt_rb_erase_color (fuel + 1) m t.addr p root) := by
  have hnrb : ¬ RB_RED = RB_BLACK := by decide
  rcases color_cases wl.color with hwl | hwl
  · obtain ⟨la, ll, lr, rfl⟩ := exists_of_red hwl
    exact erase_R4 h ht inv
  obtain ⟨tb, kb, tn, kn, ko⟩ := inv
  have tn' := tn
  rw [blacken_of_black ht] at tn'
  simp only [Ctx.Bal_cons, Ctx.NoRR_cons, Frame.sib_R, Frame.color_R, Tree.Balanced_node,
    Tree.NoRedRed_node, Tree.bh_node, Tree.color_node, if_true, if_neg hnrb] at kb kn
  obtain ⟨⟨hwlb, hwrb, hwh⟩, hwbh, hrestb⟩ := kb
  obtain ⟨⟨-, hwln, hwrn⟩, hjun, hrestn⟩ := kn
  rcases color_cases wr.color with hwr | hwr
  · obtain ⟨ra, rl, rr, rfl⟩ := exists_of_red hwr
    obtain ⟨m3, root3, e3, H3, F3⟩ := erase_R3 fuel h ht hwl
    rw [e3]
    simp only [Tree.Balanced_node, Tree.NoRedRed_node, Tree.bh_node, Tree.color_node, if_true,
      if_neg hnrb] at hwrb hwrn hwh hwbh
    have hrl := (hwrn.1 trivial).1
    have hrr := (hwrn.1 trivial).2
    obtain ⟨-, hrln, hrrn⟩ := hwrn
    obtain ⟨hrlb, hrrb, hrh⟩ := hwrb
    refine (erase_R4 H3 ht ⟨tb, ?_, tn, ?_, ?_⟩).trans ?_ F3
    · simp only [Ctx.Bal_cons, Frame.sib_R, Frame.color_R, Tree.Balanced_node, Tree.bh_node,
        if_true, if_neg hnrb]
      constructorm* _ ∧ _
      all_goals first | assumption | omega
    · simp only [Ctx.NoRR_cons, Frame.sib_R, Frame.color_R, Tree.NoRedRed_node, Tree.color_node]
      constructorm* _ ∧ _
      all_goals first | assumption | exact fun _ => ⟨hwl, hrl⟩ |
        exact fun hc => ⟨rfl, (hjun hc).2⟩ | (intro hc; cases hc)
    · refine (outerBlack_cons_congr ?_).1 ko
      rfl
    · simp [inorder_plug, Tree.inorder, Ctx.before, Ctx.after]
  · obtain ⟨m1, e1, H1, F1⟩ := erase_R2 fuel h ht hwl hwr
    rw [e1]
    refine (hcont m1 H1 ⟨?_, ?_, ?_, hrestn, outerBlack_tail ko⟩).trans ?_ F1
    · simp only [Tree.Balanced_node, Tree.bh_node, if_neg hnrb]
      constructorm* _ ∧ _
      all_goals first | assumption | omega
    · simp only [Tree.bh_node, if_neg hnrb]
      have : wl.bh + 0 + (if cp = RB_BLACK then 1 else 0) + 1 =
          t.bh + 1 + (if cp = RB_BLACK then 1 else 0) := by omega
      rw [this]; exact hrestb
    · simp only [Tree.blacken, Tree.NoRedRed_node, Tree.color_node]
      constructorm* _ ∧ _
      all_goals first | assumption | exact fun _ => ⟨hwl, hwr⟩ | (intro hc; cases hc)
    · simp [inorder_plug, Tree.inorder, Ctx.before, Ctx.after]


theorem erase_color_loop : ∀ (n : Nat) (k : Ctx), k.length ≤ n →
    ∀ (m : NodeMem) (root : rt_rb_root) (t : Tree) (fuel : Nat),
    HeapTree m root (plug k t) → EraseInv k t → k.length + 1 ≤ fuel →
    RebalDone m (plug k t) (__rt_rb_erase_color fuel m t.addr k.top root) := by
  intro n
  induction n using Nat.strong_induction_on with
  | _ n ih =>
  intro k hlen m root t fuel h inv hfuel
  obtain ⟨fuel, rfl⟩ : ∃ f, fuel = f + 1 := ⟨fuel - 1, by omega⟩
  have hnrb : ¬ RB_RED = RB_BLACK := by decide
  rcases color_cases t.color with ht | ht
  · exact erase_exit h inv (Or.inl ht)
  rcases k with _ | ⟨f, rest⟩
  · exact erase_exit h inv (Or.inr rfl)
  simp only [List.length_cons] at hlen hfuel
  rcases f with ⟨p, cp, w⟩ | ⟨p, cp, w⟩
  · -- the hole is the left child of its parent
    have hkb := inv.kb
    have hkn := inv.kn
    simp only [Ctx.Bal_cons, Ctx.NoRR_cons, Frame.sib_L, Frame.color_L] at hkb hkn
    obtain ⟨wa, cw, wl, wr, rfl⟩ := exists_of_bh_pos (t := w) (by omega)
    rcases color_cases cw with rfl | rfl
    · -- red sibling
      simp only [Tree.Balanced_node, Tree.NoRedRed_node, Tree.bh_node, Tree.color_node,
        if_neg hnrb, Nat.add_zero] at hkb hkn
      obtain ⟨⟨hwlb, hwrb, hwh⟩, hwbh, hrestb⟩ := hkb
      obtain ⟨⟨hwc, hwln, hwrn⟩, hjun, hrestn⟩ := hkn
      have hcp : cp = RB_BLACK := by
        rcases color_cases cp with hcp | hcp
        · have := (hjun hcp).1; cases this
        · exact hcp
      subst hcp
      have hwlc := (hwc trivial).1
      obtain ⟨la, cl, ll, lr, rfl⟩ := exists_of_bh_pos (t := wl) (by omega)
      simp only [Tree.color_node] at hwlc
      subst hwlc
      obtain ⟨m3, root3, e3, H3, F3⟩ := erase_L1 fuel h ht
      simp only [Ctx.top_cons, Frame.addr_L]
      rw [e3]
      obtain ⟨fuel, rfl⟩ : ∃ f, fuel = f + 1 := ⟨fuel - 1, by omega⟩
      refine (erase_LB H3 ht ⟨inv.tb, ?_, inv.tn, ?_, ?_⟩
        (fun m1 H1 inv1 => erase_exit H1 inv1 (Or.inl rfl))).trans ?_ F3
      · simp only [Ctx.Bal_cons, Frame.sib_L, Frame.color_L, if_true, if_neg hnrb, Nat.add_zero]
          at hrestb ⊢
        exact ⟨hwlb, by omega, hwrb, by omega, hrestb⟩
      · simp only [Ctx.NoRR_cons, Frame.sib_L, Frame.color_L, Ctx.color_cons, Tree.color_node]
        constructorm* _ ∧ _
        all_goals first | assumption | exact fun _ => trivial | exact fun _ => ⟨trivial, trivial⟩ |
          (intro hc; cases hc)
      · have := inv.ko
        cases rest with
        | nil => simp
        | cons g rest2 => simpa using this
      · simp [inorder_plug, Tree.inorder, Ctx.before, Ctx.after]
    · -- black sibling
      exact erase_LB h ht inv (fun m1 H1 inv1 =>
        ih rest.length (by omega) rest le_rfl m1 root _ fuel H1 inv1 (by omega))
  · -- the hole is the right child of its parent
    have hkb := inv.kb
    have hkn := inv.kn
    simp only [Ctx.Bal_cons, Ctx.NoRR_cons, Frame.sib_R, Frame.color_R] at hkb hkn
    obtain ⟨wa, cw, wl, wr, rfl⟩ := exists_of_bh_pos (t := w) (by omega)
    rcases color_cases cw with rfl | rfl
    · -- red sibling
      simp only [Tree.Balanced_node, Tree.NoRedRed_node, Tree.bh_node, Tree.color_node,
        if_neg hnrb, Nat.add_zero] at hkb hkn
      obtain ⟨⟨hwlb, hwrb, hwh⟩, hwbh, hrestb⟩ := hkb
      obtain ⟨⟨hwc, hwln, hwrn⟩, hjun, hrestn⟩ := hkn
      have hcp : cp = RB_BLACK := by
        rcases color_cases cp with hcp | hcp
        · have := (hjun hcp).1; cases this
        · exact hcp
      subst hcp
      have hwrc := (hwc trivial).2
      obtain ⟨ra, cr, rl, rr, rfl⟩ := exists_of_bh_pos (t := wr) (by omega)
      simp only [Tree.color_node] at hwrc
      subst hwrc
      obtain ⟨m3, root3, e3, H3, F3⟩ := erase_R1 fuel h ht
      simp only [Ctx.top_cons, Frame.addr_R]
      rw [e3]
      obtain ⟨fuel, rfl⟩ : ∃ f, fuel = f + 1 := ⟨fuel - 1, by omega⟩
      refine (erase_RB H3 ht ⟨inv.tb, ?_, inv.tn, ?_, ?_⟩
        (fun m1 H1 inv1 => erase_exit H1 inv1 (Or.inl rfl))).trans ?_ F3
      · simp only [Ctx.Bal_cons, Frame.sib_R, Frame.color_R, if_true, if_neg hnrb, Nat.add_zero]
          at hrestb ⊢
        exact ⟨hwrb, by omega, hwlb, by omega, hrestb⟩
      · simp only [Ctx.NoRR_cons, Frame.sib_R, Frame.color_R, Ctx.color_cons, Tree.color_node]
        constructorm* _ ∧ _
        all_goals first | assumption | exact fun _ => trivial | exact fun _ => ⟨trivial, trivial⟩ |
          (intro hc; cases hc)
      · have := inv.ko
        cases rest with
        | nil => simp
        | cons g rest2 => simpa using this
      · simp [inorder_plug, Tree.inorder, Ctx.before, Ctx.after]
    · -- black sibling
      exact erase_RB h ht inv (fun m1 H1 inv1 =>
        ih rest.length (by omega) rest le_rfl m1 root _ fuel H1 inv1 (by omega))

end RtThread

namespace RtThread
open Color Tree

/-! ## Unlinking a node with at most one child -/

theorem splice_mem {m : NodeMem} {root : rt_rb_root} {k : Ctx} {x : Nat} {c : Color}
    {l r ch : Tree} (h : HeapTree m root (plug k (node x c l r)))
    (hch : (l = nil ∧ ch = r) ∨ (r = nil ∧ ch = l)) :
    HeapTree (relink (setParentIf m ch.addr k.top) root k.top x ch.addr).1
        (relink (setParentIf m ch.addr k.top) root k.top x ch.addr).2 (plug k ch) ∧
      (∀ z, Tree.occ z (plug k (node x c l r)) = 0 →
        (relink (setParentIf m ch.addr k.top) root k.top x ch.addr).1 z = m z) ∧
      (relink (setParentIf m ch.addr k.top) root k.top x ch.addr).1 x = m x := by
  rw [heapTree_plug] at h
  obtain ⟨hroot, hrep, hk, hocc⟩ := h
  simp only [Rep, Tree.addr_node, occ_node] at hrep hk hroot hocc
  obtain ⟨hx0, hmx, hl, hr⟩ := hrep
  have hchrep : Rep m x ch := by
    rcases hch with ⟨-, rfl⟩ | ⟨-, rfl⟩
    · exact hr
    · exact hl
  have hchocc : ∀ z, Tree.occ z ch ≤ Tree.occ z l + Tree.occ z r := by
    intro z
    rcases hch with ⟨rfl, rfl⟩ | ⟨rfl, rfl⟩ <;> simp
  have hx := hocc x
  simp only [if_true] at hx
  have hxc : Tree.occ x ch = 0 := by have := hchocc x; omega
  have hxk : Ctx.occ x k = 0 := by omega
  have hk1 : CtxRep (setParentIf m ch.addr k.top) k x := by
    refine CtxRep_congr (fun z hz => ?_) hk
    exact setParentIf_apply (by have := hocc z; have := hchocc z; omega)
  have hrl := relink_ctx (y := ch.addr) hk1 hx0 hxk (fun z => by have := hocc z; omega) hroot
  refine ⟨?_, ?_, ?_⟩
  · rw [heapTree_plug]
    refine ⟨hrl.2, ?_, hrl.1, ?_⟩
    · refine Rep_congr (fun z hz => relink_apply ?_)
        (setParentIf_rep _ (fun z => by have := hocc z; have := hchocc z; omega) hchrep)
      have := hocc z; have := hchocc z; omega
    · intro z; have := hocc z; have := hchocc z; omega
  · intro z hz
    simp only [occ_plug, occ_node] at hz
    rw [relink_apply (by omega), setParentIf_apply (by have := hchocc z; omega)]
  · rw [relink_apply hxk, setParentIf_apply hxc]


theorem erase_eval_simple {m : NodeMem} {root : rt_rb_root} {k : Ctx} {x : Nat} {c : Color}
    {l r ch : Tree} {fuel : Nat} (h : HeapTree m root (plug k (node x c l r)))
    (hch : (l = nil ∧ ch = r) ∨ (r = nil ∧ ch = l)) :
    rt_rb_erase fuel m x root =
      (if c = RB_BLACK then
        __rt_rb_erase_color fuel (relink (setParentIf m ch.addr k.top) root k.top x ch.addr).1
          ch.addr k.top (relink (setParentIf m ch.addr k.top) root k.top x ch.addr).2
      else .ok (relink (setParentIf m ch.addr k.top) root k.top x ch.addr)) := by
  have rx := rd_node h
  have hcond : ¬ (l.addr ≠ 0 ∧ r.addr ≠ 0) := by
    rcases hch with ⟨rfl, -⟩ | ⟨rfl, -⟩ <;> simp
  have hchild : (if l.addr = 0 then r.addr else l.addr) = ch.addr := by
    rcases hch with ⟨rfl, rfl⟩ | ⟨rfl, rfl⟩
    · simp
    · by_cases hl : ch.addr = 0
      · simp [hl]
      · simp [hl]
  rw [rt_rb_erase]
  simp only [rx, ok_bind, hcond, if_false, hchild, rt_rb_parent, rt_rb_color, pure_eq_ok,
    rt_rb_set_parent, setParentIf_eval, relink_eval]


/-! ## Putting a fresh node in the place of a node -/

theorem transplant_mem {m : NodeMem} {root : rt_rb_root} {k : Ctx} {x s : Nat} {c : Color}
    {l r : Tree} (h : HeapTree m root (plug k (node x c l r))) (hs0 : s ≠ 0)
    (hs : Tree.occ s (plug k (node x c l r)) = 0) :
    HeapTree (transplant m root k.top x s c l.addr r.addr).1
      (transplant m root k.top x s c l.addr r.addr).2 (plug k (node s c l r)) := by
  rw [heapTree_plug] at h ⊢
  obtain ⟨hroot, hrep, hk, hocc⟩ := h
  simp only [Rep, Tree.addr_node, occ_node, occ_plug] at hrep hk hroot hocc hs ⊢
  obtain ⟨hx0, hmx, hl, hr⟩ := hrep
  have hx := hocc x
  simp only [if_true] at hx
  have hxs : x ≠ s := by rintro rfl; simp only [if_true] at hs; omega
  have hxk : Ctx.occ x k = 0 := by omega
  have hsk : Ctx.occ s k = 0 := by omega
  have hsl : Tree.occ s l = 0 := by omega
  have hsr : Tree.occ s r = 0 := by omega
  have hrl := relink_ctx (y := s) hk hx0 hxk (fun z => by have := hocc z; omega) hroot
  unfold transplant
  dsimp only
  refine ⟨hrl.2, ⟨hs0, ?_, ?_, ?_⟩, ?_, ?_⟩
  · rw [setParentIf_apply hsr, setParentIf_apply hsl]
    simp
  · refine Rep_congr (fun z hz => setParentIf_apply (by have := hocc z; omega)) ?_
    refine setParentIf_rep x (fun z => by have := hocc z; omega) (Rep_update hsl ?_)
    exact Rep_congr (fun z hz => relink_apply (by have := hocc z; omega)) hl
  · refine setParentIf_rep x (fun z => by have := hocc z; omega) ?_
    refine Rep_congr (fun z hz => setParentIf_apply (by have := hocc z; omega)) ?_
    exact Rep_update hsr (Rep_congr (fun z hz => relink_apply (by have := hocc z; omega)) hr)
  · refine CtxRep_congr (fun z hz => ?_) hrl.1
    have hz' := hocc z
    have hzs : z ≠ s := by rintro rfl; omega
    rw [setParentIf_apply (by omega), setParentIf_apply (by omega)]
    simp [Function.update_apply, hzs]
  · intro z
    have := hocc z
    by_cases hzs : s = z
    · subst hzs
      simp only [if_true]
      omega
    · by_cases hzx : x = z
      · subst hzx; simp only [if_true, hzs, if_false] at this ⊢; omega
      · simp only [hzs, hzx, if_false] at this ⊢; omega

end RtThread

namespace RtThread
open Color Tree

/-! ## Paths composed of two parts -/

theorem plug_append (k1 k2 : Ctx) (t : Tree) : plug (k1 ++ k2) t = plug k2 (plug k1 t) := by
  induction k1 generalizing t with
  | nil => rfl
  | cons f rest ih => cases f <;> simp [ih]

theorem Ctx.occ_append (z : Nat) (k1 k2 : Ctx) :
    Ctx.occ z (k1 ++ k2) = Ctx.occ z k1 + Ctx.occ z k2 := by
  induction k1 with
  | nil => simp
  | cons f rest ih => cases f <;> simp [ih] <;> omega

theorem Ctx.before_leftSpine {k : Ctx} (h : k.isLeftSpine) : k.before = [] := by
  induction k with
  | nil => rfl
  | cons f rest ih =>
    cases f with
    | L a c r => exact ih h
    | R a c l => exact absurd h (by simp [Ctx.isLeftSpine])

theorem exists_leftmost (t : Tree) (ht : t ≠ nil) :
    ∃ kr s cs sr, t = plug kr (node s cs nil sr) ∧ Ctx.isLeftSpine kr := by
  induction t with
  | nil => exact absurd rfl ht
  | node a c l r ihl _ =>
    cases l with
    | nil => exact ⟨[], a, c, r, rfl, trivial⟩
    | node la lc ll lr =>
      obtain ⟨kr, s, cs, sr, e, hsp⟩ := ihl (by simp)
      refine ⟨kr ++ [.L a c r], s, cs, sr, ?_, ?_⟩
      · rw [plug_append, ← e]; rfl
      · clear e ihl
        induction kr with
        | nil => trivial
        | cons f rest ih =>
          cases f with
          | L a c r => exact ih hsp
          | R a c l => exact absurd hsp (by simp [Ctx.isLeftSpine])

theorem leftmost_spine {m : NodeMem} {k0 : Ctx} : ∀ (kr : Ctx) (y fuel : Nat),
    Ctx.isLeftSpine kr → CtxRep m (kr ++ k0) y → y ≠ 0 →
    leftmost (fuel + kr.length) m (Ctx.rootAddr kr y) = leftmost fuel m y := by
  intro kr
  induction kr with
  | nil => intro y fuel _ _ _; rfl
  | cons f rest ih =>
    intro y fuel hsp hk hy
    cases f with
    | R a c l => exact absurd hsp (by simp [Ctx.isLeftSpine])
    | L a c r =>
      obtain ⟨ha0, hma, -, hrest⟩ := hk
      have := ih a (fuel + 1) hsp hrest ha0
      simp only [List.length_cons, Ctx.rootAddr_cons, Frame.addr_L]
      rw [show fuel + (rest.length + 1) = fuel + 1 + rest.length by omega, this, leftmost]
      simp [rd_ok ha0, hma, hy]

theorem leftmost_spec {m : NodeMem} {root : rt_rb_root} (kr k0 : Ctx) {s : Nat} {cs : Color}
    {sr : Tree} (fuel : Nat)
    (h : HeapTree m root (plug (kr ++ k0) (node s cs nil sr))) (hsp : Ctx.isLeftSpine kr)
    (hfuel : kr.length + 1 ≤ fuel) :
    leftmost fuel m (Ctx.rootAddr kr s) = .ok s := by
  have h' := (heapTree_plug _ _).1 h
  obtain ⟨-, hrep, hk, -⟩ := h'
  obtain ⟨fuel', rfl⟩ : ∃ f, fuel = f + 1 + kr.length := ⟨fuel - 1 - kr.length, by omega⟩
  rw [leftmost_spine kr s (fuel' + 1) hsp hk hrep.1, leftmost]
  simp [rd_ok hrep.1, hrep.2.1]

end RtThread

namespace RtThread
open Color Tree

/-- Erasing a node with two children whose in-order successor is its right child. -/
theorem erase_two_near {m : NodeMem} {root : rt_rb_root} {k : Ctx} {x s la : Nat} {c cs lc : Color}
    {ll lr sr : Tree} {fuel : Nat}
    (h : HeapTree m root (plug k (node x c (node la lc ll lr) (node s cs nil sr))))
    (hfuel : 1 ≤ fuel) :
    ∃ m' root', rt_rb_erase fuel m x root =
        (if cs = RB_BLACK then __rt_rb_erase_color fuel m' sr.addr s root' else .ok (m', root')) ∧
      HeapTree m' root' (plug k (node s c (node la lc ll lr) sr)) ∧
      ∀ z, Tree.occ z (plug k (node x c (node la lc ll lr) (node s cs nil sr))) = 0 →
        m' z = m z := by
  have hlm : leftmost fuel m s = .ok s :=
    leftmost_spec [] (.R x c (node la lc ll lr) :: k) fuel h trivial (by simpa using hfuel)
  rw [heapTree_plug] at h
  obtain ⟨hroot, hrep, hk, hocc⟩ := h
  simp only [Rep, Tree.addr_node, Tree.addr_nil] at hrep hk hroot
  obtain ⟨hx0, hmx, ⟨hl0, hml, hll, hlr⟩, hs0, hms, -, hsr⟩ := hrep
  simp only [occ_node, occ_nil] at hocc
  have hx := hocc x
  have hs := hocc s
  have hla := hocc la
  simp only [if_true] at hx hs hla
  have hxs : x ≠ s := by rintro rfl; simp only [if_true] at hx; omega
  have hxl : x ≠ la := by rintro rfl; simp only [if_true] at hx; omega
  have hsl : s ≠ la := by rintro rfl; simp only [if_true] at hs; omega
  have hsx := hxs.symm
  have hlx := hxl.symm
  have hls := hsl.symm
  simp only [hxs, hsx, hxl, hlx, hsl, hls, if_false] at hx hs hla
  have hxk : Ctx.occ x k = 0 := by omega
  have hsk : Ctx.occ s k = 0 := by omega
  have hlk : Ctx.occ la k = 0 := by omega
  simp only [heapTree_plug, occ_plug, occ_node, occ_nil]
  simp only [rt_rb_erase, rt_rb_parent, rt_rb_color, rd_ok hx0, rd_ok hs0, rd_ok hl0, wr_ok hx0,
    wr_ok hs0, wr_ok hl0, rt_rb_set_parent, hmx, hms, hml, hlm,
    hxs, hsx, hxl, hlx, hsl, hls, hl0, hs0, pure_eq_ok, ok_bind, if_false, if_true,
    Function.update_apply, ne_eq, not_false_eq_true, and_self, not_true_eq_false,
    relink_eval, relink_apply hxk, relink_apply hsk, relink_apply hlk, Tree.addr_node]
  refine ⟨_, _, rfl, ?_, ?_⟩
  · have hsep : ∀ z, (0 < occ z ll ∨ 0 < occ z lr ∨ 0 < occ z sr ∨ 0 < Ctx.occ z k) →
        z ≠ x ∧ z ≠ s ∧ z ≠ la := by
      intro z hz
      have := hocc z
      refine ⟨?_, ?_, ?_⟩ <;> (rintro rfl; simp only [if_true] at this; omega)
    have hsepk : ∀ z, (0 < occ z ll ∨ 0 < occ z lr ∨ 0 < occ z sr) → Ctx.occ z k = 0 := by
      intro z hz
      have := hocc z
      omega
    have hrl := relink_ctx (y := s) hk hx0 hxk (fun z => by have := hocc z; omega) hroot
    refine ⟨hrl.2, ?_, ?_, ?_⟩
    · simp only [Rep, Tree.addr_node]
      refine ⟨hs0, ?_, ⟨hl0, ?_, ?_, ?_⟩, ?_⟩
      · simp only [Function.update_apply, hsl, if_false, if_true]
      · simp only [Function.update_apply, if_true]
      · refine Rep_congr (fun z hz => ?_) hll
        obtain ⟨h1, h2, h3⟩ := hsep z (Or.inl hz)
        simp only [Function.update_apply, h1, h2, h3, if_false,
          relink_apply (hsepk z (Or.inl hz))]
      · refine Rep_congr (fun z hz => ?_) hlr
        obtain ⟨h1, h2, h3⟩ := hsep z (Or.inr (Or.inl hz))
        simp only [Function.update_apply, h1, h2, h3, if_false,
          relink_apply (hsepk z (Or.inr (Or.inl hz)))]
      · refine Rep_congr (fun z hz => ?_) hsr
        obtain ⟨h1, h2, h3⟩ := hsep z (Or.inr (Or.inr (Or.inl hz)))
        simp only [Function.update_apply, h1, h2, h3, if_false,
          relink_apply (hsepk z (Or.inr (Or.inr hz)))]
    · exact CtxRep_update hlk (CtxRep_update hsk (CtxRep_update hsk hrl.1))
    · intro z; have := hocc z; omega
  · intro z hz
    have h1 : z ≠ x := by rintro rfl; simp only [if_true] at hz; omega
    have h2 : z ≠ s := by rintro rfl; simp only [if_true] at hz; omega
    have h3 : z ≠ la := by rintro rfl; simp only [if_true] at hz; omega
    have h4 : Ctx.occ z k = 0 := by omega
    simp only [Function.update_apply, h1, h2, h3, if_false, relink_apply h4]

end RtThread

namespace RtThread
open Color Tree

theorem relink_pt (m : NodeMem) (root : rt_rb_root) (p x y z : Nat) :
    (relink m root p x y).1 z =
      if p ≠ 0 ∧ z = p then
        (if (m p).rt_rb_left = x then { m p with rt_rb_left := y }
          else { m p with rt_rb_right := y })
      else m z := by
  unfold relink
  by_cases hp : p = 0
  · simp [hp]
  · by_cases hz : z = p
    · subst hz
      by_cases hl : (m z).rt_rb_left = x <;> simp [hp, hl]
    · by_cases hl : (m p).rt_rb_left = x <;> simp [hp, hl, hz, Function.update_apply]

theorem relink_snd (m : NodeMem) (root : rt_rb_root) (p x y : Nat) :
    (relink m root p x y).2 = if p = 0 then { rt_rb_node := y } else root := by
  unfold relink
  by_cases hp : p = 0
  · simp [hp]
  · by_cases hl : (m p).rt_rb_left = x <;> simp [hp, hl]

theorem setParentIf_pt (m : NodeMem) (c p z : Nat) :
    setParentIf m c p z = if c ≠ 0 ∧ z = c then { m c with rt_rb_parent := p } else m z := by
  unfold setParentIf
  by_cases hc : c = 0
  · simp [hc]
  · by_cases hz : z = c
    · subst hz; simp [hc]
    · simp [hc, hz, Function.update_apply]

theorem ne_top_of_occ {x : Nat} {k : Ctx} (h0 : x ≠ 0) (h : Ctx.occ x k = 0) : x ≠ k.top := by
  rcases k with _ | ⟨⟨p, cp, s⟩ | ⟨p, cp, s⟩, rest⟩
  · simpa using h0
  · rintro rfl; simp at h
  · rintro rfl; simp at h

theorem Rep_addr_ne_zero {m : NodeMem} {par : Nat} {t : Tree} (h : Rep m par t) (ht : t ≠ nil) :
    t.addr ≠ 0 := by
  cases t with
  | nil => exact absurd rfl ht
  | node a c l r => exact h.1

theorem rootAddr_cases (k : Ctx) (y : Nat) :
    Ctx.rootAddr k y = y ∨ 0 < Ctx.occ (Ctx.rootAddr k y) k := by
  cases k with
  | nil => exact Or.inl rfl
  | cons f rest => exact Or.inr (rootAddr_occ (by simp) y)

theorem heapTree_congr {m m' : NodeMem} {root root' : rt_rb_root} {t : Tree}
    (hr : root' = root) (hm : ∀ z, 0 < Tree.occ z t → m' z = m z) (h : HeapTree m root t) :
    HeapTree m' root' t :=
  ⟨hr ▸ h.root_eq, Rep_congr hm h.rep, h.nodup⟩

/-- Erasing a node with two children whose in-order successor lies deeper in the right
subtree. -/
theorem erase_two_far {m : NodeMem} {root : rt_rb_root} {k kr : Ctx} {x s la ps : Nat}
    {c cs lc cps : Color} {ll lr sr sps : Tree} {fuel : Nat}
    (h : HeapTree m root (plug (.L ps cps sps :: (kr ++ .R x c (node la lc ll lr) :: k))
      (node s cs nil sr)))
    (hsp : Ctx.isLeftSpine kr) (hfuel : kr.length + 2 ≤ fuel) :
    ∃ m' root', rt_rb_erase fuel m x root =
        (if cs = RB_BLACK then __rt_rb_erase_color fuel m' sr.addr ps root' else .ok (m', root')) ∧
      HeapTree m' root' (plug (.L ps cps sps :: (kr ++ .R s c (node la lc ll lr) :: k)) sr) ∧
      ∀ z, Tree.occ z (plug (.L ps cps sps :: (kr ++ .R x c (node la lc ll lr) :: k))
        (node s cs nil sr)) = 0 → m' z = m z := by
  have hlm : leftmost fuel m (Ctx.rootAddr kr ps) = .ok s :=
    leftmost_spec (.L ps cps sps :: kr) (.R x c (node la lc ll lr) :: k) fuel h hsp
      (by simpa using hfuel)
  have h' : HeapTree m root (plug k (node x c (node la lc ll lr)
      (plug (.L ps cps sps :: kr) (node s cs nil sr)))) := by
    simpa [plug_append] using h
  have hA := splice_mem h (Or.inl ⟨rfl, rfl⟩)
  have hA' : HeapTree (relink (setParentIf m sr.addr ps) root ps s sr.addr).1
      (relink (setParentIf m sr.addr ps) root ps s sr.addr).2
      (plug k (node x c (node la lc ll lr) (plug (.L ps cps sps :: kr) sr))) := by
    simpa [plug_append] using hA.1
  obtain ⟨hx0, hmx⟩ := heapTree_cell h'
  obtain ⟨hs0, hms⟩ := heapTree_cell h
  have hrx := ((heapTree_plug _ _).1 h').2.1
  simp only [Rep, Tree.addr_node] at hrx
  obtain ⟨-, -, ⟨hl0, hml, -, -⟩, hr⟩ := hrx
  have hr0 := Rep_addr_ne_zero hr (by simpa using plug_ne_nil kr ps cps _ sps)
  have hk := ((heapTree_plug _ _).1 h).2.2.1
  obtain ⟨hp0, hmp, -, -⟩ := hk
  have hocc := ((heapTree_plug _ _).1 h).2.2.2
  simp only [addr_plug, Ctx.rootAddr_cons, Frame.addr_L, Tree.addr_node, Ctx.top_cons,
    Tree.addr_nil] at hr0 hmx hms hmp
  simp only [occ_node, occ_nil, Ctx.occ_consL, Ctx.occ_consR, Ctx.occ_append] at hocc
  have hr0c := rootAddr_cases kr ps
  generalize hr0e : kr.rootAddr ps = r0 at hr0c hlm hmx hr0
  have hx := hocc x
  have hs := hocc s
  have hp := hocc ps
  have hl := hocc la
  have hrr := hocc r0
  simp only [if_true] at hx hs hp hl
  have hxs : x ≠ s := by rintro rfl; simp only [if_true] at hx; omega
  have hxp : x ≠ ps := by rintro rfl; simp only [if_true] at hx; omega
  have hxl : x ≠ la := by rintro rfl; simp only [if_true] at hx; omega
  have hsp' : s ≠ ps := by rintro rfl; simp only [if_true] at hs; omega
  have hsl : s ≠ la := by rintro rfl; simp only [if_true] at hs; omega
  have hpl : ps ≠ la := by rintro rfl; simp only [if_true] at hp; omega
  have hxr : x ≠ r0 := by
    rintro rfl
    rcases hr0c with e | e
    · exact hxp e
    · omega
  have hsr : s ≠ r0 := by
    rintro rfl
    rcases hr0c with e | e
    · exact hsp' e
    · omega
  have hlr : la ≠ r0 := by
    rintro rfl
    rcases hr0c with e | e
    · exact hpl e.symm
    · omega
  simp only [hxs, hxs.symm, hxp, hxp.symm, hxl, hxl.symm, hsp', hsp'.symm, hsl, hsl.symm,
    hpl, hpl.symm, hxr, hxr.symm, hsr, hsr.symm, hlr, hlr.symm, if_false] at hx hs hp hl hrr
  have oxk : Ctx.occ x k = 0 := by omega
  have osk : Ctx.occ s k = 0 := by omega
  have opk : Ctx.occ ps k = 0 := by omega
  have olk : Ctx.occ la k = 0 := by omega
  have ork : Ctx.occ r0 k = 0 := by
    rcases hr0c with e | e
    · rw [e]; exact opk
    · omega
  have oxs : occ x sr = 0 := by omega
  have oss : occ s sr = 0 := by omega
  have ops : occ ps sr = 0 := by omega
  have ols : occ la sr = 0 := by omega
  have ors : occ r0 sr = 0 := by
    rcases hr0c with e | e
    · rw [e]; exact ops
    · omega
  simp only [rt_rb_erase, rt_rb_parent, rt_rb_color, rd_ok hx0, rd_ok hs0, rd_ok hl0, rd_ok hp0,
    rd_ok hr0, wr_ok hx0, wr_ok hs0, wr_ok hl0, wr_ok hp0, wr_ok hr0,
    rt_rb_set_parent, hmx, hms, hml, hmp, hlm,
    hxs, hxs.symm, hxp, hxp.symm, hxl, hxl.symm, hsp', hsp'.symm, hsl, hsl.symm,
    hpl, hpl.symm, hxr, hxr.symm, hsr, hsr.symm, hlr, hlr.symm,
    hl0, hs0, hr0, pure_eq_ok, ok_bind, if_false, if_true,
    Function.update_apply, ne_eq, not_false_eq_true, and_self, not_true_eq_false,
    relink_eval, setParentIf_eval, relink_apply oxk, relink_apply osk, relink_apply olk,
    relink_apply opk, relink_apply ork, setParentIf_apply oxs, setParentIf_apply oss,
    setParentIf_apply ops, setParentIf_apply ols, setParentIf_apply ors, Tree.addr_node]
  have kx := ne_top_of_occ hx0 oxk
  have ks := ne_top_of_occ hs0 osk
  have kp := ne_top_of_occ hp0 opk
  have kl := ne_top_of_occ hl0 olk
  have kr0 := ne_top_of_occ hr0 ork
  have ax := ne_addr_of_occ hx0 oxs
  have as := ne_addr_of_occ hs0 oss
  have ap := ne_addr_of_occ hp0 ops
  have al := ne_addr_of_occ hl0 ols
  have ar := ne_addr_of_occ hr0 ors
  have hck : sr.addr ≠ 0 → sr.addr ≠ k.top := by
    intro h0
    cases sr with
    | nil => exact absurd rfl h0
    | node a ca al ar =>
      have := hocc a
      simp only [occ_node, if_true] at this
      have hak : Ctx.occ a k = 0 := by omega
      exact ne_top_of_occ (x := a) h0 hak
  have hck1 : ¬(¬sr.addr = 0 ∧ k.top = sr.addr) := fun h => hck h.1 h.2.symm
  have hck2 : ¬(¬k.top = 0 ∧ sr.addr = k.top) := by
    rintro ⟨h1, h2⟩
    exact hck (h2 ▸ h1) h2
  refine ⟨_, _, rfl, ?_, ?_⟩
  · have hso : Tree.occ s (plug k (node x c (node la lc ll lr)
        (plug (.L ps cps sps :: kr) sr))) = 0 := by
      simp only [occ_plug, occ_node, Ctx.occ_consL, hxs, hsl.symm, hsp'.symm, if_false]
      omega
    have hB := transplant_mem hA' hs0 hso
    have hB' : HeapTree
        (transplant (relink (setParentIf m sr.addr ps) root ps s sr.addr).1
          (relink (setParentIf m sr.addr ps) root ps s sr.addr).2 k.top x s c la r0).1
        (transplant (relink (setParentIf m sr.addr ps) root ps s sr.addr).1
          (relink (setParentIf m sr.addr ps) root ps s sr.addr).2 k.top x s c la r0).2
        (plug (.L ps cps sps :: (kr ++ .R s c (node la lc ll lr) :: k)) sr) := by
      simpa [plug_append, addr_plug, hr0e] using hB
    clear hA hA' h h' hB
    refine heapTree_congr ?_ ?_ hB'
    · simp only [transplant, relink_snd, hp0, if_false]
    · intro z _
      simp only [transplant, relink_pt, setParentIf_pt, Function.update_apply,
        hxs, hxs.symm, hxp, hxp.symm, hxl, hxl.symm, hsp', hsp'.symm, hsl, hsl.symm,
        hpl, hpl.symm, hxr, hxr.symm, hsr, hsr.symm, hlr, hlr.symm,
        kx, kx.symm, ks, ks.symm, kp, kp.symm, kl, kl.symm, kr0, kr0.symm,
        ax, ax.symm, as, as.symm, ap, ap.symm, al, al.symm, ar, ar.symm,
        hl0, hs0, hr0, hp0, hx0, hmx, hms, hml, hmp, if_false, if_true, and_false, false_and,
        ne_eq, not_false_eq_true, true_and, and_true, not_true_eq_false, hck1, hck2]
      by_cases h1 : z = la
      · simp only [h1, hlr, hsl.symm, if_true, if_false]
      by_cases h2 : z = s
      · simp only [h2, hsr, hsl, if_true, if_false]
      by_cases h3 : z = r0
      · simp only [h3, hlr.symm, hsr.symm, if_true, if_false]
      by_cases h4 : z = ps
      · subst h4
        simp only [h3, h1, h2, kp, if_true, if_false, and_false]
      by_cases h5 : ¬sr.addr = 0 ∧ z = sr.addr
      · obtain ⟨h50, rfl⟩ := h5
        simp only [h3, h1, h2, h4, h50, hck h50, if_true, if_false, and_false, not_false_eq_true,
          and_self]
      simp only [h3, h1, h2, h4, h5, if_false]
  · intro z hz
    simp only [occ_plug, occ_node, occ_nil, Ctx.occ_consL, Ctx.occ_consR, Ctx.occ_append] at hz
    have h1 : z ≠ la := by rintro rfl; simp only [if_true] at hz; omega
    have h2 : z ≠ s := by rintro rfl; simp only [if_true] at hz; omega
    have h4 : z ≠ ps := by rintro rfl; simp only [if_true] at hz; omega
    have h3 : z ≠ r0 := by
      rintro rfl
      rcases hr0c with e | e
      · exact h4 e
      · omega
    have h5 : occ z sr = 0 := by omega
    have h6 : Ctx.occ z k = 0 := by omega
    simp only [Function.update_apply, h1, h2, h3, h4, if_false, setParentIf_apply h5,
      relink_apply h6]

end RtThread

namespace RtThread
open Color Tree

/-! ## Paths of the same shape -/

theorem sameShape_refl (k : Ctx) : List.Forall₂ Frame.sameShape k k := by
  induction k with
  | nil => exact List.Forall₂.nil
  | cons f rest ih => exact List.Forall₂.cons ⟨rfl, rfl⟩ ih

theorem sameShape_append {k1 k2 k2' : Ctx} (h : List.Forall₂ Frame.sameShape k2 k2') :
    List.Forall₂ Frame.sameShape (k1 ++ k2) (k1 ++ k2') := by
  induction k1 with
  | nil => exact h
  | cons f rest ih => exact List.Forall₂.cons ⟨rfl, rfl⟩ ih

theorem sameShape_color {k k' : Ctx} (h : List.Forall₂ Frame.sameShape k k') :
    Ctx.color k = Ctx.color k' := by
  cases h with
  | nil => rfl
  | cons hf _ => exact hf.1

theorem sameShape_Bal {k k' : Ctx} (h : List.Forall₂ Frame.sameShape k k') (n : Nat) :
    Ctx.Bal k n ↔ Ctx.Bal k' n := by
  induction h generalizing n with
  | nil => exact Iff.rfl
  | cons hf _ ih => simp only [Ctx.Bal_cons, hf.1, hf.2, ih]

theorem sameShape_NoRR {k k' : Ctx} (h : List.Forall₂ Frame.sameShape k k') :
    Ctx.NoRR k ↔ Ctx.NoRR k' := by
  induction h with
  | nil => exact Iff.rfl
  | cons hf hrest ih => simp only [Ctx.NoRR_cons, hf.1, hf.2, ih, sameShape_color hrest]

theorem sameShape_outerBlack {k k' : Ctx} (h : List.Forall₂ Frame.sameShape k k') :
    Ctx.outerBlack k ↔ Ctx.outerBlack k' := by
  induction h with
  | nil => exact Iff.rfl
  | cons hf hrest ih =>
    cases hrest with
    | nil => simp only [Ctx.outerBlack_single, hf.1]
    | cons hg hrest2 => simpa only [Ctx.outerBlack_cons2] using ih

theorem noRedRed_blacken {t : Tree} (h : t.NoRedRed) : t.blacken.NoRedRed := by
  cases t with
  | nil => trivial
  | node a c l r =>
    simp only [Tree.blacken, Tree.NoRedRed_node] at h ⊢
    exact ⟨fun hc => (by cases hc), h.2⟩

/-- Invariant bookkeeping for unlinking a node with at most one child: a removed red node
leaves a red-black tree, a removed black node leaves the state that `__rt_rb_erase_color`
repairs. The path may be replaced by one of the same shape. -/
theorem erase_inv {K J : Ctx} {a : Nat} {ca : Color} {l r ch : Tree}
    (hsh : List.Forall₂ Frame.sameShape K J)
    (hrb : (plug K (node a ca l r)).IsRB)
    (hch : (l = nil ∧ ch = r) ∨ (r = nil ∧ ch = l)) :
    (ca = RB_RED → (plug J ch).IsRB) ∧ (ca = RB_BLACK → EraseInv J ch) := by
  obtain ⟨hcol, hnrr, hbal⟩ := hrb
  rw [NoRedRed_plug] at hnrr
  rw [Balanced_plug] at hbal
  obtain ⟨hn, hkn, hkc⟩ := hnrr
  obtain ⟨hb, hkb⟩ := hbal
  simp only [Tree.NoRedRed_node, Tree.Balanced_node, Tree.bh_node, Tree.color_node] at hn hb hkb hkc
  have hob : Ctx.outerBlack K := by
    rcases K with _ | ⟨f, rest⟩
    · trivial
    · exact outerBlack_of_color (by simp) hcol
  have hchn : ch.NoRedRed := by
    rcases hch with ⟨-, rfl⟩ | ⟨-, rfl⟩
    · exact hn.2.2
    · exact hn.2.1
  have hchb : ch.Balanced := by
    rcases hch with ⟨-, rfl⟩ | ⟨-, rfl⟩
    · exact hb.2.1
    · exact hb.1
  have hbh : l.bh = ch.bh := by
    rcases hch with ⟨-, rfl⟩ | ⟨-, rfl⟩
    · exact hb.2.2
    · rfl
  rw [hbh] at hkb
  constructor
  · rintro rfl
    have hK : K ≠ [] := by
      rintro rfl
      simp at hcol
    have hJ : J ≠ [] := by
      rintro rfl
      cases hsh
      exact hK rfl
    have hkcol : Ctx.color K = RB_BLACK := by
      rcases color_cases (Ctx.color K) with h | h
      · have := hkc h
        cases this
      · exact h
    refine ⟨color_plug_of_outerBlack hJ ((sameShape_outerBlack hsh).1 hob) _, ?_, ?_⟩
    · rw [NoRedRed_plug]
      refine ⟨hchn, (sameShape_NoRR hsh).1 hkn, ?_⟩
      rw [← sameShape_color hsh, hkcol]
      intro h; cases h
    · rw [Balanced_plug]
      refine ⟨hchb, (sameShape_Bal hsh _).1 ?_⟩
      simpa using hkb
  · rintro rfl
    refine ⟨hchb, (sameShape_Bal hsh _).1 ?_, noRedRed_blacken hchn, (sameShape_NoRR hsh).1 hkn,
      (sameShape_outerBlack hsh).1 hob⟩
    simpa using hkb

/-! ## Locating a node of the tree -/

theorem exists_plug_of_mem {t : Tree} {x : Nat} (h : x ∈ t.inorder) :
    ∃ k c l r, t = plug k (node x c l r) := by
  induction t with
  | nil => simp [Tree.inorder] at h
  | node a c l r ihl ihr =>
    simp only [Tree.inorder, List.mem_append, List.mem_cons] at h
    rcases h with h | rfl | h
    · obtain ⟨k, c', l', r', e⟩ := ihl h
      exact ⟨k ++ [.L a c r], c', l', r', by rw [plug_append, ← e]; rfl⟩
    · exact ⟨[], c, l, r, rfl⟩
    · obtain ⟨k, c', l', r', e⟩ := ihr h
      exact ⟨k ++ [.R a c l], c', l', r', by rw [plug_append, ← e]; rfl⟩

theorem length_plug (k : Ctx) (t : Tree) :
    k.length + t.inorder.length ≤ (plug k t).inorder.length := by
  induction k generalizing t with
  | nil => simp
  | cons f rest ih =>
    have := ih (f.fill t)
    cases f <;> simp [Frame.fill, Tree.inorder] at this ⊢ <;> omega

theorem Ctx.before_append (k1 k2 : Ctx) :
    Ctx.before (k1 ++ k2) = Ctx.before k2 ++ Ctx.before k1 := by
  induction k1 with
  | nil => simp [Ctx.before]
  | cons f rest ih => cases f <;> simp [Ctx.before, ih]

theorem Ctx.after_append (k1 k2 : Ctx) :
    Ctx.after (k1 ++ k2) = Ctx.after k1 ++ Ctx.after k2 := by
  induction k1 with
  | nil => simp [Ctx.after]
  | cons f rest ih => cases f <;> simp [Ctx.after, ih]

theorem erase_mid (A B : List Nat) (x : Nat) (h : A.count x = 0) :
    (A ++ x :: B).erase x = A ++ B := by
  rw [List.erase_append_right _ (List.count_eq_zero.1 h), List.erase_cons_head]

/-! ## Erasing a node -/

/-- Common last step of `rt_rb_erase`: rebalance if the unlinked node was black. -/
theorem erase_finish {m m1 : NodeMem} {root root1 : rt_rb_root} {K : Ctx} {ch T : Tree}
    {cs : Color} {fuel x : Nat}
    (hev : rt_rb_erase fuel m x root =
      (if cs = RB_BLACK then __rt_rb_erase_color fuel m1 ch.addr (Ctx.top K) root1
        else .ok (m1, root1)))
    (h1 : HeapTree m1 root1 (plug K ch))
    (hfr : ∀ z, Tree.occ z T = 0 → m1 z = m z)
    (hsub : ∀ z, Tree.occ z T = 0 → Tree.occ z (plug K ch) = 0)
    (hinv : (cs = RB_RED → (plug K ch).IsRB) ∧ (cs = RB_BLACK → EraseInv K ch))
    (hfuel : K.length + 1 ≤ fuel) :
    ∃ m' root' T', rt_rb_erase fuel m x root = .ok (m', root') ∧ HeapTree m' root' T' ∧
      T'.IsRB ∧ T'.inorder = (plug K ch).inorder ∧ ∀ z, Tree.occ z T = 0 → m' z = m z := by
  rcases color_cases cs with rfl | rfl
  · refine ⟨m1, root1, _, ?_, h1, hinv.1 rfl, rfl, hfr⟩
    rw [hev]; rfl
  · obtain ⟨m', root', T', e, hT', hrb', hin, hfr'⟩ :=
      erase_color_loop K.length K le_rfl m1 root1 ch fuel h1 (hinv.2 rfl) hfuel
    refine ⟨m', root', T', ?_, hT', hrb', hin, ?_⟩
    · rw [hev, if_pos rfl, e]
    · intro z hz
      rw [hfr' z (hsub z hz), hfr z hz]

end RtThread

namespace RtThread
open Color Tree

/-- Erasing the node at a known position of a red-black tree. -/
theorem erase_at {m : NodeMem} {root : rt_rb_root} {k : Ctx} {x : Nat} {c : Color} {l r : Tree}
    {fuel : Nat} (h : HeapTree m root (plug k (node x c l r)))
    (hrb : (plug k (node x c l r)).IsRB)
    (hfuel : (plug k (node x c l r)).inorder.length + 1 ≤ fuel) :
    ∃ m' root' T', rt_rb_erase fuel m x root = .ok (m', root') ∧ HeapTree m' root' T' ∧
      T'.IsRB ∧ T'.inorder = (plug k (node x c l r)).inorder.erase x ∧
      ∀ z, Tree.occ z (plug k (node x c l r)) = 0 → m' z = m z := by
  have hocc := ((heapTree_plug _ _).1 h).2.2.2
  have hx := hocc x
  simp only [occ_node, if_true] at hx
  have hxl : l.inorder.count x = 0 := by
    have : Tree.occ x l = 0 := by omega
    exact this
  have hxb : (Ctx.before k).count x = 0 := by
    have : Ctx.occ x k = 0 := by omega
    unfold Ctx.occ at this
    omega
  have hlen := length_plug k (node x c l r)
  by_cases hl : l = nil
  · -- no left child
    subst hl
    have hsm := splice_mem h (Or.inl ⟨rfl, rfl⟩)
    have hev : rt_rb_erase fuel m x root = _ := erase_eval_simple h (Or.inl ⟨rfl, rfl⟩)
    simp only [Tree.inorder, List.length_nil, List.length_append, List.length_cons] at hlen
    obtain ⟨m', root', T', e, hT', hrb', hin, hfr⟩ :=
      erase_finish (T := plug k (node x c nil r)) hev
        hsm.1 hsm.2.1 (fun z hz => by
          simp only [occ_plug, occ_node] at hz ⊢; omega)
        (erase_inv (sameShape_refl k) hrb (Or.inl ⟨rfl, rfl⟩)) (by omega)
    refine ⟨m', root', T', e, hT', hrb', ?_, hfr⟩
    rw [hin, inorder_plug, inorder_plug]
    simp only [Tree.inorder, List.nil_append, List.append_assoc, List.cons_append]
    rw [erase_mid _ _ _ hxb]
  by_cases hr : r = nil
  · -- no right child
    subst hr
    have hsm := splice_mem h (Or.inr ⟨rfl, rfl⟩)
    have hev : rt_rb_erase fuel m x root = _ := erase_eval_simple h (Or.inr ⟨rfl, rfl⟩)
    simp only [Tree.inorder, List.length_nil, List.length_append, List.length_cons] at hlen
    obtain ⟨m', root', T', e, hT', hrb', hin, hfr⟩ :=
      erase_finish (T := plug k (node x c l nil)) hev
        hsm.1 hsm.2.1 (fun z hz => by
          simp only [occ_plug, occ_node] at hz ⊢; omega)
        (erase_inv (sameShape_refl k) hrb (Or.inr ⟨rfl, rfl⟩)) (by omega)
    refine ⟨m', root', T', e, hT', hrb', ?_, hfr⟩
    rw [hin, inorder_plug, inorder_plug]
    have hA : (Ctx.before k ++ l.inorder).count x = 0 := by
      rw [List.count_append]; omega
    simp only [Tree.inorder, List.nil_append, List.append_assoc, List.cons_append,
      List.append_nil] at hA ⊢
    have := erase_mid _ (Ctx.after k) x hA
    simp only [List.append_assoc, List.cons_append] at this
    rw [this]
  -- two children: the in-order successor takes the place of the node
  obtain ⟨kr, s, cs, sr, rfl, hsp⟩ := exists_leftmost r hr
  rcases l with _ | ⟨la, lc, ll, lr⟩
  · exact absurd rfl hl
  have hA : (Ctx.before k ++ (node la lc ll lr).inorder).count x = 0 := by
    rw [List.count_append]; omega
  rcases kr with _ | ⟨f, kr⟩
  · -- the successor is the right child
    simp only [plug_nil] at h hrb hfuel hlen hocc hx ⊢
    simp only [Tree.inorder, List.length_nil, List.length_append, List.length_cons] at hlen
    obtain ⟨m1, root1, hev, h1, hfr1⟩ := erase_two_near h (by omega : 1 ≤ fuel)
    have hinv := erase_inv (K := .R x c (node la lc ll lr) :: k)
      (J := .R s c (node la lc ll lr) :: k) (List.Forall₂.cons ⟨rfl, rfl⟩ (sameShape_refl k))
      hrb (Or.inl ⟨rfl, rfl⟩)
    obtain ⟨m', root', T', e, hT', hrb', hin, hfr⟩ :=
      erase_finish (T := plug k (node x c (node la lc ll lr) (node s cs nil sr)))
        (K := .R s c (node la lc ll lr) :: k) hev h1 hfr1 (fun z hz => by
          simp only [occ_plug, occ_node, plug_consR, occ_nil] at hz ⊢
          have : ¬ s = z := by rintro rfl; simp only [if_true] at hz; omega
          simp only [this, if_false] at hz ⊢
          omega) hinv (by simp only [List.length_cons]; omega)
    refine ⟨m', root', T', e, hT', hrb', ?_, hfr⟩
    rw [hin]
    simp only [plug_consR, inorder_plug, Tree.inorder, List.nil_append, List.append_assoc,
      List.cons_append, List.append_nil] at hA ⊢
    have := erase_mid _ (s :: (sr.inorder ++ Ctx.after k)) x hA
    simp only [List.append_assoc, List.cons_append] at this
    rw [this]
  · -- the successor lies deeper in the right subtree
    rcases f with ⟨ps, cps, sps⟩ | ⟨ps, cps, sps⟩
    swap
    · exact absurd hsp (by simp [Ctx.isLeftSpine])
    have hsp' : Ctx.isLeftSpine kr := hsp
    have hT : plug k (node x c (node la lc ll lr)
        (plug (.L ps cps sps :: kr) (node s cs nil sr))) =
        plug (.L ps cps sps :: (kr ++ .R x c (node la lc ll lr) :: k)) (node s cs nil sr) := by
      simp [plug_append]
    have hbk := Ctx.before_leftSpine hsp'
    rw [hT] at h hrb hfuel ⊢
    have hlen2 := length_plug (.L ps cps sps :: (kr ++ .R x c (node la lc ll lr) :: k))
      (node s cs nil sr)
    simp only [Tree.inorder, List.length_nil, List.length_append, List.length_cons] at hlen2
    obtain ⟨m1, root1, hev, h1, hfr1⟩ := erase_two_far h hsp' (by omega : kr.length + 2 ≤ fuel)
    have hinv := erase_inv (K := .L ps cps sps :: (kr ++ .R x c (node la lc ll lr) :: k))
      (J := .L ps cps sps :: (kr ++ .R s c (node la lc ll lr) :: k))
      (List.Forall₂.cons ⟨rfl, rfl⟩
        (sameShape_append (List.Forall₂.cons ⟨rfl, rfl⟩ (sameShape_refl k))))
      hrb (Or.inl ⟨rfl, rfl⟩)
    obtain ⟨m', root', T', e, hT', hrb', hin, hfr⟩ :=
      erase_finish (T := plug (.L ps cps sps :: (kr ++ .R x c (node la lc ll lr) :: k))
          (node s cs nil sr))
        (K := .L ps cps sps :: (kr ++ .R s c (node la lc ll lr) :: k)) hev h1 hfr1 (fun z hz => by
          simp only [occ_plug, occ_node, occ_nil, Ctx.occ_consL, Ctx.occ_consR,
            Ctx.occ_append] at hz ⊢
          have : ¬ s = z := by rintro rfl; simp only [if_true] at hz; omega
          simp only [this, if_false] at hz ⊢
          omega) hinv (by simp only [List.length_cons, List.length_append] at hlen2 ⊢; omega)
    refine ⟨m', root', T', e, hT', hrb', ?_, hfr⟩
    rw [hin]
    simp only [inorder_plug, Tree.inorder, List.nil_append, List.append_assoc,
      List.cons_append, List.append_nil, Ctx.before, Ctx.after, Ctx.before_append,
      Ctx.after_append, hbk] at hA ⊢
    have := erase_mid _ (s :: (sr.inorder ++ (ps :: (sps.inorder ++ (Ctx.after kr ++ Ctx.after k)))))
      x hA
    simp only [List.append_assoc, List.cons_append] at this
    rw [this]

end RtThread

namespace RtThread
open Color Tree

/-! ## Searching the insertion point -/

theorem load_link {m : NodeMem} {root : rt_rb_root} {k : Ctx} {t : Tree}
    (h : HeapTree m root (plug k t)) : Link.load m root k.link = .ok t.addr := by
  rw [heapTree_plug] at h
  obtain ⟨hroot, -, hk, -⟩ := h
  rcases k with _ | ⟨⟨p, cp, s⟩ | ⟨p, cp, s⟩, rest⟩
  · simp only [Ctx.link, Link.load, pure_eq_ok, hroot, Ctx.rootAddr_nil]
  · obtain ⟨hp0, hmp, -, -⟩ := hk
    simp only [Ctx.link, Link.load, rd_ok hp0, ok_bind, pure_eq_ok, hmp]
  · obtain ⟨hp0, hmp, -, -⟩ := hk
    simp only [Ctx.link, Link.load, rd_ok hp0, ok_bind, pure_eq_ok, hmp]

theorem mem_ne_zero {m : NodeMem} {par : Nat} {t : Tree} (h : Rep m par t) {a : Nat}
    (ha : a ∈ t.inorder) : a ≠ 0 := by
  induction t generalizing par with
  | nil => simp [Tree.inorder] at ha
  | node x c l r ihl ihr =>
    obtain ⟨hx0, -, hl, hr⟩ := h
    simp only [Tree.inorder, List.mem_append, List.mem_cons] at ha
    rcases ha with ha | rfl | ha
    · exact ihl hl ha
    · exact hx0
    · exact ihr hr ha

theorem find_spec {s : Machine} {d : Int} : ∀ (t : Tree) (k : Ctx) (fuel : Nat),
    HeapTree s.nodes s.hrtimer_queue.head (plug k t) →
    (plug k t).inorder.Pairwise (fun a b => deadlineOf s a ≤ deadlineOf s b) →
    (∀ a ∈ Ctx.before k, deadlineOf s a ≤ d) → (∀ b ∈ Ctx.after k, d < deadlineOf s b) →
    t.inorder.length + 1 ≤ fuel →
    ∃ k', plug k' nil = plug k t ∧
      rt_hrtimer_insert_find fuel s d k.top k.link = .ok (k'.top, k'.link) ∧
      (∀ a ∈ Ctx.before k', deadlineOf s a ≤ d) ∧ (∀ b ∈ Ctx.after k', d < deadlineOf s b) := by
  intro t
  induction t with
  | nil =>
    intro k fuel h _ hb ha hfuel
    obtain ⟨fuel, rfl⟩ : ∃ f, fuel = f + 1 := ⟨fuel - 1, by omega⟩
    refine ⟨k, rfl, ?_, hb, ha⟩
    rw [rt_hrtimer_insert_find, load_link h]
    simp
  | node a c l r ihl ihr =>
    intro k fuel h hs hb ha hfuel
    obtain ⟨fuel, rfl⟩ : ∃ f, fuel = f + 1 := ⟨fuel - 1, by omega⟩
    have ha0 := (heapTree_cell h).1
    simp only [Tree.inorder, List.length_append, List.length_cons] at hfuel
    have hs' := hs
    rw [inorder_plug] at hs'
    have hst := (List.pairwise_append.1 (List.pairwise_append.1 hs').1).2.1
    simp only [Tree.inorder] at hst
    obtain ⟨-, hst2, hst3⟩ := List.pairwise_append.1 hst
    have hra := (List.pairwise_cons.1 hst2).1
    rw [rt_hrtimer_insert_find, load_link h]
    simp only [ok_bind, Tree.addr_node, ne_eq, ha0, not_false_eq_true, if_true]
    by_cases hd : d < (s.timers a).deadline
    · simp only [hd, if_true]
      obtain ⟨k', e, hf, hb', ha'⟩ := ihl (.L a c r :: k) fuel h hs hb (by
        intro b hb2
        simp only [Ctx.after, List.mem_append, List.mem_cons] at hb2
        rcases hb2 with (rfl | hb2) | hb2
        · exact hd
        · exact lt_of_lt_of_le hd (hra b hb2)
        · exact ha b hb2) (by omega)
      exact ⟨k', e, hf, hb', ha'⟩
    · simp only [hd, if_false]
      obtain ⟨k', e, hf, hb', ha'⟩ := ihr (.R a c l :: k) fuel h hs (by
        intro b hb2
        simp only [Ctx.before, List.mem_append, List.mem_cons, List.mem_singleton,
          List.not_mem_nil, or_false] at hb2
        rcases hb2 with hb2 | hb2 | rfl
        · exact hb b hb2
        · exact le_trans (hst3 b hb2 a (List.mem_cons_self _ _)) (not_lt.1 hd)
        · exact not_lt.1 hd) ha (by omega)
      exact ⟨k', e, hf, hb', ha'⟩

/-! ## Inserting a timer into the queue -/

theorem headD_insert {d : Nat → Int} {A B : List Nat} {x : Nat}
    (hA : ∀ a ∈ A, d a ≤ d x) (hB : ∀ b ∈ B, d x < d b) (h0 : ∀ a ∈ A ++ B, a ≠ 0) :
    (if (A ++ B).headD 0 = 0 ∨ d x < d ((A ++ B).headD 0) then x else (A ++ B).headD 0) =
      (A ++ x :: B).headD 0 := by
  cases A with
  | nil =>
    cases B with
    | nil => simp
    | cons b B' => simp [hB b (List.mem_cons_self _ _)]
  | cons a A' =>
    have h1 := hA a (List.mem_cons_self _ _)
    have h2 := h0 a (by simp)
    simp [h2, not_lt.2 h1]

theorem insert_spec {s : Machine} {T : Tree} {x fuel : Nat} (hq : QInv s T) (hx0 : x ≠ 0)
    (hx : x ∉ T.inorder) (hempty : (s.nodes x).rt_rb_parent = x)
    (hfuel : T.inorder.length + 1 ≤ fuel) :
    ∃ m' root' T' A B,
      rt_hrtimer_insert fuel s x = .ok { s with nodes := m', hrtimer_queue :=
        { s.hrtimer_queue with head := root', next := T'.inorder.headD 0 } } ∧
      QInv { s with nodes := m', hrtimer_queue :=
        { s.hrtimer_queue with head := root', next := T'.inorder.headD 0 } } T' ∧
      T.inorder = A ++ B ∧ T'.inorder = A ++ x :: B ∧
      (∀ a ∈ A, deadlineOf s a ≤ deadlineOf s x) ∧ (∀ b ∈ B, deadlineOf s x < deadlineOf s b) ∧
      ∀ z, z ≠ x → z ∉ T.inorder → m' z = s.nodes z := by
  obtain ⟨k, hk, hfind, hA, hB⟩ := find_spec (s := s) (d := deadlineOf s x) T [] fuel hq.ht
    hq.sorted (by simp [Ctx.before]) (by simp [Ctx.after]) hfuel
  simp only [plug_nil, Ctx.top_nil] at hk hfind
  have hlen := length_plug k nil
  rw [hk] at hlen
  have hT : T.inorder = Ctx.before k ++ Ctx.after k := by
    rw [← hk, inorder_plug]; simp [Tree.inorder]
  obtain ⟨m1, root1, m2, root2, T', e1, e2, hT', hrb', hin, hfr⟩ :=
    link_insert_color (x := x) (hk ▸ hq.ht) (hk ▸ hq.rb) hx0 (hk ▸ hx)
      (by omega : k.length + 1 ≤ fuel)
  have hin' : T'.inorder = Ctx.before k ++ x :: Ctx.after k := by
    rw [hin, inorder_plug]; simp [Tree.inorder]
  have hnext := headD_insert (d := deadlineOf s) (x := x) hA hB (by
    intro a ha
    rw [← hT] at ha
    exact mem_ne_zero hq.ht.rep ha)
  rw [← hT, ← hq.next_eq, ← hin'] at hnext
  refine ⟨m2, root2, T', Ctx.before k, Ctx.after k, ?_, ⟨hT', hrb', ?_, rfl⟩, hT, hin', hA, hB, ?_⟩
  · simp only [rt_hrtimer_insert, RT_RB_EMPTY_NODE, rt_rb_parent, rd_ok hx0, ok_bind, pure_eq_ok,
      hempty, decide_True, Bool.true_eq_false, if_false]
    have hfind' : rt_hrtimer_insert_find fuel s (s.timers x).deadline 0 Link.root =
        .ok (k.top, k.link) := hfind
    rw [hfind']
    simp only [ok_bind, e1, e2]
    unfold deadlineOf at hnext
    rw [hnext]
  · show List.Pairwise (fun a b => deadlineOf s a ≤ deadlineOf s b) T'.inorder
    rw [hin']
    have hs := hq.sorted
    rw [hT] at hs
    obtain ⟨h1, h2, h3⟩ := List.pairwise_append.1 hs
    refine List.pairwise_append.2 ⟨h1, List.pairwise_cons.2 ⟨fun b hb => le_of_lt (hB b hb), h2⟩,
      ?_⟩
    intro a ha b hb
    rcases List.mem_cons.1 hb with rfl | hb
    · exact hA a ha
    · exact h3 a ha b hb
  · intro z hz hzT
    exact hfr z hz (hk ▸ hzT)

end RtThread

namespace RtThread
open Color Tree

/-! ## In-order successor -/

theorem climb_spec {m : NodeMem} {root : rt_rb_root} : ∀ (k : Ctx) (y : Nat) (c : Color)
    (l r : Tree) (fuel : Nat), HeapTree m root (plug k (node y c l r)) → k.length + 1 ≤ fuel →
    climb_from_right fuel m y = .ok ((Ctx.after k).headD 0) := by
  intro k
  induction k with
  | nil =>
    intro y c l r fuel h hfuel
    obtain ⟨fuel, rfl⟩ : ∃ f, fuel = f + 1 := ⟨fuel - 1, by omega⟩
    obtain ⟨hy0, hmy⟩ := heapTree_cell h
    simp [climb_from_right, rt_rb_parent, rd_ok hy0, hmy, Ctx.after]
  | cons f rest ih =>
    intro y c l r fuel h hfuel
    obtain ⟨fuel, rfl⟩ : ∃ f, fuel = f + 1 := ⟨fuel - 1, by omega⟩
    obtain ⟨hy0, hmy⟩ := heapTree_cell h
    have h' := (heapTree_plug _ _).1 h
    obtain ⟨-, -, hk, hocc⟩ := h'
    have hy := hocc y
    simp only [occ_node, if_true] at hy
    cases f with
    | L a ca sib =>
      obtain ⟨ha0, hma, -, -⟩ := hk
      simp only [Ctx.occ_consL] at hy
      have hne : y ≠ sib.addr := ne_addr_of_occ hy0 (by omega)
      simp [climb_from_right, rt_rb_parent, rd_ok hy0, hmy, rd_ok ha0, hma, ha0, hne, Ctx.after]
    | R a ca sib =>
      obtain ⟨ha0, hma, -, -⟩ := hk
      have := ih a ca sib (node y c l r) fuel h (by simpa using hfuel)
      simp [climb_from_right, rt_rb_parent, rd_ok hy0, hmy, rd_ok ha0, hma, ha0, Ctx.after, this]

theorem next_spec {m : NodeMem} {root : rt_rb_root} {k : Ctx} {x : Nat} {c : Color} {l r : Tree}
    {fuel : Nat} (h : HeapTree m root (plug k (node x c l r)))
    (hfuel : (plug k (node x c l r)).inorder.length + 1 ≤ fuel) :
    rt_rb_next fuel m x = .ok ((r.inorder ++ Ctx.after k).headD 0) := by
  obtain ⟨hx0, hmx⟩ := heapTree_cell h
  have hocc := ((heapTree_plug _ _).1 h).2.2.2
  have hx := hocc x
  simp only [occ_node, if_true] at hx
  have hkx : k.top ≠ x := (ne_top_of_occ hx0 (by omega)).symm
  have hlen := length_plug k (node x c l r)
  simp only [Tree.inorder, List.length_append, List.length_cons] at hlen
  by_cases hr : r = nil
  · subst hr
    have := climb_spec k x c l nil fuel h (by omega)
    simp [rt_rb_next, rt_rb_parent, rd_ok hx0, hmx, hkx, this, Tree.inorder]
  · obtain ⟨kr, s, cs, sr, rfl, hsp⟩ := exists_leftmost r hr
    have hT : plug k (node x c l (plug kr (node s cs nil sr))) =
        plug (kr ++ .R x c l :: k) (node s cs nil sr) := by
      simp [plug_append]
    rw [hT] at h
    have hlen2 := length_plug kr (node s cs nil sr)
    have hlm := leftmost_spec _ _ fuel h hsp (by omega)
    have hr0 : Ctx.rootAddr kr s ≠ 0 := by
      have h2 := (heapTree_plug _ _).1 (hT ▸ h)
      have hrr := h2.2.1.2.2.2
      have := Rep_addr_ne_zero hrr (plug_ne_nil kr s cs nil sr)
      simpa [addr_plug] using this
    have hin : (plug kr (node s cs nil sr)).inorder = s :: (sr.inorder ++ Ctx.after kr) := by
      rw [inorder_plug, Ctx.before_leftSpine hsp]; simp [Tree.inorder]
    simp [rt_rb_next, rt_rb_parent, rd_ok hx0, hmx, hkx, addr_plug, hr0, hlm, hin]

/-! ## Removing a timer from the queue -/

theorem heapTree_update {m : NodeMem} {root : rt_rb_root} {T : Tree} {w : Nat} {v : rt_rb_node}
    (hw : w ∉ T.inorder) (h : HeapTree m root T) : HeapTree (Function.update m w v) root T :=
  ⟨h.root_eq, Rep_update (Tree.occ_eq_zero.2 hw) h.rep, h.nodup⟩

theorem headD_erase {P S : List Nat} {x n : Nat} (hP : x ∉ P)
    (hn : n = (P ++ x :: S).headD 0) (s : Nat) (hs : s = S.headD 0) :
    (if n = x then s else n) = (P ++ S).headD 0 := by
  cases P with
  | nil => simp at hn; simp [hn, hs]
  | cons p P' =>
    have : p ≠ x := by rintro rfl; simp at hP
    simp at hn
    simp [hn, this]

theorem remove_spec {s : Machine} {T : Tree} {x fuel : Nat} (hq : QInv s T)
    (hx : x ∈ T.inorder) (hfuel : T.inorder.length + 1 ≤ fuel) :
    ∃ m' root' T',
      rt_hrtimer_remove fuel s x = .ok { s with nodes := m', hrtimer_queue :=
        { s.hrtimer_queue with head := root', next := T'.inorder.headD 0 } } ∧
      QInv { s with nodes := m', hrtimer_queue :=
        { s.hrtimer_queue with head := root', next := T'.inorder.headD 0 } } T' ∧
      T'.inorder = T.inorder.erase x ∧ (m' x).rt_rb_parent = x ∧
      ∀ z, z ≠ x → z ∉ T.inorder → m' z = s.nodes z := by
  obtain ⟨k, c, l, r, rfl⟩ := exists_plug_of_mem hx
  have h := hq.ht
  obtain ⟨hx0, hmx⟩ := heapTree_cell h
  have hocc := ((heapTree_plug _ _).1 h).2.2.2
  have hxo := hocc x
  simp only [occ_node, if_true] at hxo
  have hkx : k.top ≠ x := (ne_top_of_occ hx0 (by omega)).symm
  obtain ⟨m1, root1, T1, e1, hT1, hrb1, hin1, hfr1⟩ := erase_at h hq.rb hfuel
  have hnx := next_spec h hfuel
  have hxT1 : x ∉ T1.inorder := by
    rw [hin1]
    exact fun hmem => (List.Nodup.mem_erase_iff h.nodup).1 hmem |>.1 rfl
  have hP : x ∉ Ctx.before k ++ l.inorder := by
    intro hmem
    have h1 : 0 < (Ctx.before k ++ l.inorder).count x := List.count_pos_iff.2 hmem
    rw [List.count_append] at h1
    have h2 : Tree.occ x l = l.inorder.count x := rfl
    have h3 : Ctx.occ x k = (Ctx.before k).count x + (Ctx.after k).count x := rfl
    omega
  have hTin : (plug k (node x c l r)).inorder =
      (Ctx.before k ++ l.inorder) ++ x :: (r.inorder ++ Ctx.after k) := by
    rw [inorder_plug]; simp [Tree.inorder]
  have hT1in : T1.inorder = (Ctx.before k ++ l.inorder) ++ (r.inorder ++ Ctx.after k) := by
    rw [hin1, hTin, List.erase_append_right _ hP, List.erase_cons_head]
  have hnext := headD_erase hP (hTin ▸ hq.next_eq) _ rfl
  rw [← hT1in] at hnext
  refine ⟨Function.update m1 x { m1 x with rt_rb_parent := x }, root1, T1, ?_,
    ⟨heapTree_update hxT1 hT1, hrb1, ?_, rfl⟩, hin1, by simp, ?_⟩
  · simp only [rt_hrtimer_remove, RT_RB_EMPTY_NODE, rt_rb_parent, rd_ok hx0, ok_bind, pure_eq_ok,
      hmx, hkx, decide_False, Bool.false_eq_true, if_false, RT_RB_CLEAR_NODE, rt_rb_set_parent]
    by_cases hn : s.hrtimer_queue.next = x
    · simp only [hn, if_true] at hnext ⊢
      simp only [hnx, ok_bind, e1, wr_ok hx0, hnext]
    · simp only [hn, if_false] at hnext ⊢
      simp only [e1, ok_bind, wr_ok hx0]
      rw [hnext]
  · show List.Pairwise (fun a b => deadlineOf s a ≤ deadlineOf s b) T1.inorder
    rw [hin1]
    exact List.Pairwise.sublist (List.erase_sublist _ _) hq.sorted
  · intro z hz hzT
    rw [Function.update_apply, if_neg hz]
    exact hfr1 z (Tree.occ_eq_zero.2 hzT)

end RtThread

namespace RtThread
open Color Tree

/-! ## Sequences of queue operations -/

theorem insert_linked {s : Machine} {T : Tree} {x fuel : Nat} (hq : QInv s T)
    (hx : x ∈ T.inorder) : rt_hrtimer_insert fuel s x = .error .assertion := by
  obtain ⟨k, c, l, r, rfl⟩ := exists_plug_of_mem hx
  obtain ⟨hx0, hmx⟩ := heapTree_cell hq.ht
  have hocc := ((heapTree_plug _ _).1 hq.ht).2.2.2
  have hxo := hocc x
  simp only [occ_node, if_true] at hxo
  have hkx : k.top ≠ x := (ne_top_of_occ hx0 (by omega)).symm
  simp [rt_hrtimer_insert, RT_RB_EMPTY_NODE, rt_rb_parent, rd_ok hx0, hmx, hkx]

theorem remove_unlinked {s : Machine} {x fuel : Nat} (hx0 : x ≠ 0)
    (hx : (s.nodes x).rt_rb_parent = x) : rt_hrtimer_remove fuel s x = .error .assertion := by
  simp [rt_hrtimer_remove, RT_RB_EMPTY_NODE, rt_rb_parent, rd_ok hx0, hx]

theorem runOps_inv (fuel : Nat) : ∀ (ops : List QueueOp) (s : Machine) (T : Tree),
    QInv s T → Idle s T → (∀ op ∈ ops, op.node ≠ 0) →
    T.inorder.length + ops.length + 1 ≤ fuel →
    (∃ s' T', runOps fuel ops s = .ok s' ∧ QInv s' T' ∧ Idle s' T' ∧ s'.timers = s.timers) ∨
      runOps fuel ops s = .error .assertion := by
  intro ops
  induction ops with
  | nil => intro s T hq hi _ _; exact Or.inl ⟨s, T, rfl, hq, hi, rfl⟩
  | cons op ops ih =>
    intro s T hq hi h0 hfuel
    have hop0 := h0 op (List.mem_cons_self _ _)
    have h0' : ∀ op' ∈ ops, op'.node ≠ 0 := fun o ho => h0 o (List.mem_cons_of_mem _ ho)
    simp only [List.length_cons] at hfuel
    cases op with
    | insert a =>
      have hop0 : a ≠ 0 := hop0
      by_cases ha : a ∈ T.inorder
      · right
        simp [runOps, insert_linked hq ha]
      · obtain ⟨m', root', T', A, B, e, hq', hT, hT', -, -, hfr⟩ :=
          insert_spec hq hop0 ha (hi a hop0 ha) (by omega : T.inorder.length + 1 ≤ fuel)
        have hi' : Idle { s with nodes := m', hrtimer_queue :=
            { s.hrtimer_queue with head := root', next := T'.inorder.headD 0 } } T' := by
          intro z hz0 hz
          have hza : z ≠ a := by rintro rfl; exact hz (by rw [hT']; simp)
          have hzT : z ∉ T.inorder := by
            intro hm; apply hz; rw [hT'] ; rw [hT] at hm
            rcases List.mem_append.1 hm with h1 | h1
            · exact List.mem_append_left _ h1
            · exact List.mem_append_right _ (List.mem_cons_of_mem _ h1)
          show (m' z).rt_rb_parent = z
          rw [hfr z hza hzT]
          exact hi z hz0 hzT
        have hlen : T'.inorder.length = T.inorder.length + 1 := by
          rw [hT', hT]; simp; omega
        rcases ih _ T' hq' hi' h0' (by omega) with ⟨s'', T'', e2, hq'', hi'', ht''⟩ | e2
        · exact Or.inl ⟨s'', T'', by rw [runOps, e]; exact e2, hq'', hi'', ht''⟩
        · exact Or.inr (by rw [runOps, e]; exact e2)
    | remove a =>
      have hop0 : a ≠ 0 := hop0
      by_cases ha : a ∈ T.inorder
      · obtain ⟨m', root', T', e, hq', hT', hpa, hfr⟩ :=
          remove_spec hq ha (by omega : T.inorder.length + 1 ≤ fuel)
        have hi' : Idle { s with nodes := m', hrtimer_queue :=
            { s.hrtimer_queue with head := root', next := T'.inorder.headD 0 } } T' := by
          intro z hz0 hz
          show (m' z).rt_rb_parent = z
          by_cases hza : z = a
          · rw [hza]; exact hpa
          · have hzT : z ∉ T.inorder := by
              intro hm; apply hz; rw [hT']
              exact (List.mem_erase_of_ne hza).2 hm
            rw [hfr z hza hzT]
            exact hi z hz0 hzT
        have hlen : T'.inorder.length ≤ T.inorder.length := by
          rw [hT']; exact List.length_erase_le _ _
        rcases ih _ T' hq' hi' h0' (by omega) with ⟨s'', T'', e2, hq'', hi'', ht''⟩ | e2
        · exact Or.inl ⟨s'', T'', by rw [runOps, e]; exact e2, hq'', hi'', ht''⟩
        · exact Or.inr (by rw [runOps, e]; exact e2)
      · right
        simp [runOps, remove_unlinked hop0 (hi a hop0 ha)]

end RtThread

namespace RtThread
open Color Tree rt_hrtimer_mode rt_hrtimer_restart rt_clocksource_mode

/-! ## The clock -/

theorem to_s64_of_range {x : Int} (h1 : -2 ^ 63 ≤ x) (h2 : x < 2 ^ 63) : to_s64 x = x := by
  unfold to_s64
  omega

theorem to_s64_idem (x : Int) : to_s64 (to_s64 x) = to_s64 x := by
  unfold to_s64
  rw [sub_add_cancel, Int.emod_emod_of_dvd _ (dvd_refl _)]

theorem abs_time_eq {s : Machine} {cs : rt_clocksource_device}
    (hcs : s.hrtimer_queue.cs = some cs) :
    rt_clocksource_absolute_time s = .ok (clockTime cs (s.counter s.reads),
      { s with reads := s.reads + 1, hrtimer_queue :=
        { s.hrtimer_queue with cs := some (clockDev cs (s.counter s.reads)) } }) := by
  obtain ⟨nodes, timers, ⟨head, next, event, cs'⟩, uct, counter, reads, armed, fired⟩ := s
  simp only at hcs
  subst hcs
  simp only [rt_clocksource_absolute_time, clockTime, clockDev, clockDelta]
  split_ifs <;> rfl

theorem clock_of_delta_zero {cs : rt_clocksource_device} {raw : Nat}
    (h : clockDelta cs raw = 0) :
    clockTime cs raw = to_s64 cs.time_base ∧ clockDev cs raw = cs := by
  constructor
  · unfold clockTime
    rw [h]
    simp [rt_clocksource_cyc2ns]
  · unfold clockDev
    rw [h]
    simp [rt_clocksource_cyc2ns]

theorem clock_stable (cs : rt_clocksource_device) (raw : Nat) :
    clockTime (clockDev cs raw) raw = clockTime cs raw ∧
      clockDev (clockDev cs raw) raw = clockDev cs raw := by
  by_cases h : rt_clocksource_cyc2ns (clockDelta cs raw) cs.mult cs.shift > cs.max_idle_ns_half
  · have hd : clockDelta { cs with cycle_last := raw % 2 ^ 64, time_base := clockTime cs raw } raw
        = 0 := by
      simp [clockDelta, to_u64]
    have hc : clockDev cs raw =
        { cs with cycle_last := raw % 2 ^ 64, time_base := clockTime cs raw } := by
      simp [clockDev, h]
    rw [hc]
    obtain ⟨h1, h2⟩ := clock_of_delta_zero hd
    refine ⟨?_, h2⟩
    rw [h1]
    show to_s64 (clockTime cs raw) = clockTime cs raw
    unfold clockTime
    exact to_s64_idem _
  · have hc : clockDev cs raw = cs := by simp [clockDev, h]
    rw [hc]
    exact ⟨rfl, hc⟩

theorem abs_time_fixed {s : Machine} {now : Int} (h : ClockFixed s now) :
    ∃ cs', rt_clocksource_absolute_time s = .ok (now,
        { s with reads := s.reads + 1, hrtimer_queue := { s.hrtimer_queue with cs := some cs' } }) ∧
      ClockFixed { s with reads := s.reads + 1, hrtimer_queue :=
        { s.hrtimer_queue with cs := some cs' } } now := by
  obtain ⟨cs, raw, hcs, hctr, hnow⟩ := h
  have h0 : s.counter s.reads = raw := by simpa using hctr 0
  refine ⟨clockDev cs raw, ?_, clockDev cs raw, raw, rfl, ?_, ?_⟩
  · rw [abs_time_eq hcs, h0, hnow]
  · intro i
    show s.counter (s.reads + 1 + i) = raw
    rw [Nat.add_assoc]; exact hctr (1 + i)
  · rw [(clock_stable cs raw).1, hnow]

/-! ## The state flags -/

theorem flag_enq_set (st : Nat) : (st ||| RT_HRTIMER_STATE_ENQUEUED) &&& RT_HRTIMER_STATE_ENQUEUED ≠ 0 := by
  have : (st ||| 1) &&& 1 = 1 := by
    apply Nat.eq_of_testBit_eq
    intro i
    simp only [Nat.testBit_and, Nat.testBit_or]
    cases Nat.testBit 1 i <;> simp
  simp [RT_HRTIMER_STATE_ENQUEUED, this]

theorem flag_enq_clear (st : Nat) :
    (st &&& ulong_not RT_HRTIMER_STATE_ENQUEUED) &&& RT_HRTIMER_STATE_ENQUEUED = 0 := by
  rw [Nat.and_assoc]
  have : ulong_not RT_HRTIMER_STATE_ENQUEUED &&& RT_HRTIMER_STATE_ENQUEUED = 0 := by decide
  rw [this, Nat.and_zero]

theorem flag_cb_set (st : Nat) :
    (st ||| RT_HRTIMER_STATE_CALLBACK) &&& RT_HRTIMER_STATE_ENQUEUED =
      st &&& RT_HRTIMER_STATE_ENQUEUED := by
  rw [Nat.and_comm, Nat.and_or_distrib_left]
  have : RT_HRTIMER_STATE_ENQUEUED &&& RT_HRTIMER_STATE_CALLBACK = 0 := by decide
  rw [this, Nat.or_zero, Nat.and_comm]

theorem flag_cb_clear (st : Nat) :
    (st &&& ulong_not RT_HRTIMER_STATE_CALLBACK) &&& RT_HRTIMER_STATE_ENQUEUED =
      st &&& RT_HRTIMER_STATE_ENQUEUED := by
  rw [Nat.and_assoc]
  have : ulong_not RT_HRTIMER_STATE_CALLBACK &&& RT_HRTIMER_STATE_ENQUEUED =
      RT_HRTIMER_STATE_ENQUEUED := by decide
  rw [this]

end RtThread

namespace RtThread
open Color Tree rt_hrtimer_mode rt_hrtimer_restart rt_clocksource_mode

/-! ## Enqueue and dequeue -/

theorem QInv_congr {s s' : Machine} {T : Tree} (h : QInv s T) (hn : s'.nodes = s.nodes)
    (hh : s'.hrtimer_queue.head = s.hrtimer_queue.head)
    (hx : s'.hrtimer_queue.next = s.hrtimer_queue.next)
    (hd : ∀ a ∈ T.inorder, deadlineOf s' a = deadlineOf s a) : QInv s' T := by
  refine ⟨by rw [hn, hh]; exact h.ht, h.rb, ?_, by rw [hx]; exact h.next_eq⟩
  refine List.Pairwise.imp_of_mem ?_ h.sorted
  intro a b ha hb hab
  rw [hd a ha, hd b hb]; exact hab

theorem SameEnv.refl (s : Machine) : SameEnv s s := ⟨rfl, rfl, rfl, rfl, rfl, rfl, rfl⟩

theorem SameEnv.chain {s1 s2 s3 : Machine} (h1 : SameEnv s1 s2) (h2 : SameEnv s2 s3) :
    SameEnv s1 s3 := by
  obtain ⟨a1, a2, a3, a4, a5, a6, a7⟩ := h1
  obtain ⟨b1, b2, b3, b4, b5, b6, b7⟩ := h2
  exact ⟨b1.trans a1, b2.trans a2, b3.trans a3, b4.trans a4, b5.trans a5, b6.trans a6,
    b7.trans a7⟩

theorem enqueue_spec {s : Machine} {T : Tree} {x fuel : Nat} (hq : QState s T) (hx0 : x ≠ 0)
    (hx : x ∉ T.inorder) (hfuel : T.inorder.length + 1 ≤ fuel) :
    ∃ s' T' A B, rt_hrtimer_enqueue fuel s x = .ok s' ∧ QState s' T' ∧
      T.inorder = A ++ B ∧ T'.inorder = A ++ x :: B ∧
      (∀ a ∈ A, deadlineOf s a ≤ deadlineOf s x) ∧ (∀ b ∈ B, deadlineOf s x < deadlineOf s b) ∧
      (∀ a, a ≠ x → s'.timers a = s.timers a) ∧
      s'.timers x = { s.timers x with state := (s.timers x).state ||| RT_HRTIMER_STATE_ENQUEUED } ∧
      SameEnv s s' := by
  obtain ⟨m', root', T', A, B, e, hq', hT, hT', hA, hB, hfr⟩ :=
    insert_spec hq.inv hx0 hx (hq.idle x hx0 hx) hfuel
  have hmem : ∀ a, a ≠ x → (a ∈ T'.inorder ↔ a ∈ T.inorder) := by
    intro a ha
    rw [hT', hT]
    simp [ha]
  refine ⟨{ s with
      nodes := m'
      timers := Function.update s.timers x
        { s.timers x with state := (s.timers x).state ||| RT_HRTIMER_STATE_ENQUEUED }
      hrtimer_queue := { s.hrtimer_queue with head := root', next := T'.inorder.headD 0 } },
    T', A, B, ?_, ⟨?_, ?_, ?_⟩, hT, hT', hA, hB, ?_, ?_, ?_⟩
  · simp only [rt_hrtimer_enqueue, e, ok_bind, wrt, hx0, if_false]
  · exact QInv_congr hq' rfl rfl rfl (fun a _ => by
      simp only [deadlineOf, Function.update_apply]
      split_ifs with h
      · rw [h]
      · rfl)
  · intro z hz0 hz
    have hzx : z ≠ x := by rintro rfl; exact hz (by rw [hT']; simp)
    show (m' z).rt_rb_parent = z
    rw [hfr z hzx (fun hm => hz ((hmem z hzx).2 hm))]
    exact hq.idle z hz0 (fun hm => hz ((hmem z hzx).2 hm))
  · intro a ha0
    by_cases hax : a = x
    · subst hax
      simp only [Function.update_same, RT_HRTIMER_IS_QUEUED, decide_eq_true_eq]
      exact ⟨fun _ => by rw [hT']; simp, fun _ => flag_enq_set _⟩
    · simp only [Function.update_apply, hax, if_false]
      rw [hq.flags a ha0, hmem a hax]
  · intro a ha
    simp only [Function.update_apply, ha, if_false]
  · simp only [Function.update_same]
  · exact ⟨rfl, rfl, rfl, rfl, rfl, rfl, rfl⟩

theorem dequeue_spec {s : Machine} {T : Tree} {x fuel : Nat} (hq : QState s T)
    (hx : x ∈ T.inorder) (hfuel : T.inorder.length + 1 ≤ fuel) :
    ∃ s' T', rt_hrtimer_dequeue fuel s x = .ok s' ∧ QState s' T' ∧
      T'.inorder = T.inorder.erase x ∧
      (∀ a, a ≠ x → s'.timers a = s.timers a) ∧
      s'.timers x = { s.timers x with
        state := (s.timers x).state &&& ulong_not RT_HRTIMER_STATE_ENQUEUED } ∧
      SameEnv s s' := by
  have hx0 : x ≠ 0 := mem_ne_zero hq.inv.ht.rep hx
  obtain ⟨m', root', T', e, hq', hT', hpx, hfr⟩ := remove_spec hq.inv hx hfuel
  have hxT' : x ∉ T'.inorder := by
    rw [hT']
    exact fun hmem => ((List.Nodup.mem_erase_iff hq.inv.ht.nodup).1 hmem).1 rfl
  have hmem : ∀ a, a ≠ x → (a ∈ T'.inorder ↔ a ∈ T.inorder) := by
    intro a ha
    rw [hT']
    exact List.mem_erase_of_ne ha
  refine ⟨{ s with
      nodes := m'
      timers := Function.update s.timers x
        { s.timers x with state := (s.timers x).state &&& ulong_not RT_HRTIMER_STATE_ENQUEUED }
      hrtimer_queue := { s.hrtimer_queue with head := root', next := T'.inorder.headD 0 } },
    T', ?_, ⟨?_, ?_, ?_⟩, hT', ?_, ?_, ?_⟩
  · simp only [rt_hrtimer_dequeue, e, ok_bind, wrt, hx0, if_false]
  · exact QInv_congr hq' rfl rfl rfl (fun a _ => by
      simp only [deadlineOf, Function.update_apply]
      split_ifs with h
      · rw [h]
      · rfl)
  · intro z hz0 hz
    show (m' z).rt_rb_parent = z
    by_cases hzx : z = x
    · rw [hzx]; exact hpx
    · rw [hfr z hzx (fun hm => hz ((hmem z hzx).2 hm))]
      exact hq.idle z hz0 (fun hm => hz ((hmem z hzx).2 hm))
  · intro a ha0
    by_cases hax : a = x
    · subst hax
      simp only [Function.update_same, RT_HRTIMER_IS_QUEUED, decide_eq_true_eq]
      exact ⟨fun h => absurd (flag_enq_clear _) h, fun h => absurd h hxT'⟩
    · simp only [Function.update_apply, hax, if_false]
      rw [hq.flags a ha0, hmem a hax]
  · intro a ha
    simp only [Function.update_apply, ha, if_false]
  · simp only [Function.update_same]
  · exact ⟨rfl, rfl, rfl, rfl, rfl, rfl, rfl⟩

end RtThread

namespace RtThread
open Color Tree rt_hrtimer_mode rt_hrtimer_restart rt_clocksource_mode

/-! ## Initialising a timer and rescheduling -/

theorem QState_congr {s s' : Machine} {T : Tree} (h : QState s T)
    (hn : ∀ a, a ∈ T.inorder → s'.nodes a = s.nodes a)
    (hi : ∀ a, a ≠ 0 → a ∉ T.inorder → (s'.nodes a).rt_rb_parent = a)
    (hh : s'.hrtimer_queue.head = s.hrtimer_queue.head)
    (hx : s'.hrtimer_queue.next = s.hrtimer_queue.next)
    (hd : ∀ a ∈ T.inorder, deadlineOf s' a = deadlineOf s a)
    (hf : ∀ a, a ≠ 0 → (RT_HRTIMER_IS_QUEUED (s'.timers a) = true ↔
      RT_HRTIMER_IS_QUEUED (s.timers a) = true)) : QState s' T := by
  refine ⟨⟨?_, h.inv.rb, ?_, by rw [hx]; exact h.inv.next_eq⟩, hi, ?_⟩
  · rw [hh]
    exact heapTree_congr rfl (fun z hz => hn z (Tree.occ_pos.1 hz)) h.inv.ht
  · refine List.Pairwise.imp_of_mem ?_ h.inv.sorted
    intro a b ha hb hab
    rw [hd a ha, hd b hb]; exact hab
  · intro a ha0
    rw [hf a ha0]; exact h.flags a ha0

theorem abs_time_ok {s : Machine} {cs : rt_clocksource_device}
    (hcs : s.hrtimer_queue.cs = some cs) :
    ∃ now cs', rt_clocksource_absolute_time s = .ok (now,
      { s with reads := s.reads + 1, hrtimer_queue := { s.hrtimer_queue with cs := some cs' } }) :=
  ⟨_, _, abs_time_eq hcs⟩

theorem reschedule_armed {s : Machine} {cs : rt_clocksource_device} {ev : rt_clockevent_device}
    {fuel : Nat} (hcs : s.hrtimer_queue.cs = some cs) (hev : s.hrtimer_queue.event = some ev)
    (hn : s.hrtimer_queue.next ≠ 0) :
    rt_hrtimer_reschedule fuel s = .ok { s with
      reads := s.reads + 1
      hrtimer_queue := { s.hrtimer_queue with cs := some (clockDev cs (s.counter s.reads)) }
      armed := s.armed ++ [rescheduleCycles ev (s.timers s.hrtimer_queue.next).deadline
        (clockTime cs (s.counter s.reads))] } := by
  simp only [rt_hrtimer_reschedule, hn, ne_eq, not_false_eq_true, if_true, abs_time_eq hcs,
    ok_bind, hev, pure_eq_ok, rescheduleCycles]

theorem init_rel_eq {s : Machine} {cs : rt_clocksource_device} {timer f a : Nat} {w : Int}
    (hcs : s.hrtimer_queue.cs = some cs) (ht0 : timer ≠ 0) :
    rt_hrtimer_init s timer f a w RT_HRTIMER_MODE_REL = .ok { s with
      reads := s.reads + 1
      hrtimer_queue := { s.hrtimer_queue with cs := some (clockDev cs (s.counter s.reads)) }
      nodes := Function.update s.nodes timer
        { rt_rb_parent := timer, rt_rb_color := RB_RED, rt_rb_right := 0, rt_rb_left := 0 }
      timers := Function.update s.timers timer
        { deadline := to_s64 (clockTime cs (s.counter s.reads) + w),
          state := RT_HRTIMER_STATE_INACTIVE, mode := RT_HRTIMER_MODE_REL, function := f,
          arg := a } } := by
  have hcs' : ∀ (n : NodeMem) (t : Nat → rt_hrtimer),
      ({ s with nodes := n, timers := t } : Machine).hrtimer_queue.cs = some cs := fun _ _ => hcs
  simp only [rt_hrtimer_init, wr_ok ht0, wrt, ht0, if_false, ok_bind, if_true, abs_time_eq (hcs' _ _),
    RT_RB_CLEAR_NODE, rt_rb_set_parent, Function.update_same, Function.update_idem, pure_eq_ok]

theorem inorder_eq_nil {T : Tree} (h : T.inorder = []) : T = nil := by
  cases T with
  | nil => rfl
  | node a c l r => simp [Tree.inorder] at h

theorem reschedule_idle {s : Machine} {T : Tree} {cs : rt_clocksource_device} {fuel : Nat}
    (hq : QState s T) (hcs : s.hrtimer_queue.cs = some cs) (hn : s.hrtimer_queue.next = 0)
    (hu : s.update_clock_timer ≠ 0) (hfuel : 1 ≤ fuel) :
    ∃ s' T', rt_hrtimer_reschedule fuel s = .ok s' ∧ QState s' T' ∧
      T.inorder = [] ∧ T'.inorder = [s.update_clock_timer] ∧
      s'.timers s.update_clock_timer =
        { deadline := to_s64 (clockTime cs (s.counter s.reads) + to_s64 cs.max_idle_ns),
          state := RT_HRTIMER_STATE_INACTIVE ||| RT_HRTIMER_STATE_ENQUEUED,
          mode := RT_HRTIMER_MODE_REL, function := 0, arg := 0 } ∧
      (∀ a, a ≠ s.update_clock_timer → s'.timers a = s.timers a) ∧
      s'.armed = s.armed ∧ s'.fired = s.fired ∧
      s'.update_clock_timer = s.update_clock_timer ∧
      s'.hrtimer_queue.event = s.hrtimer_queue.event := by
  have hT : T.inorder = [] := by
    rcases hl : T.inorder with _ | ⟨a, rest⟩
    · rfl
    · have h1 := hq.inv.next_eq
      rw [hl, hn] at h1
      have : a ≠ 0 := mem_ne_zero hq.inv.ht.rep (by rw [hl]; simp)
      exact absurd h1.symm this
  have hi := init_rel_eq (f := 0) (a := 0) (w := to_s64 cs.max_idle_ns) hcs hu
  have hq1 : QState { s with
      reads := s.reads + 1
      hrtimer_queue := { s.hrtimer_queue with cs := some (clockDev cs (s.counter s.reads)) }
      nodes := Function.update s.nodes s.update_clock_timer
        { rt_rb_parent := s.update_clock_timer, rt_rb_color := RB_RED, rt_rb_right := 0,
          rt_rb_left := 0 }
      timers := Function.update s.timers s.update_clock_timer
        { deadline := to_s64 (clockTime cs (s.counter s.reads) + to_s64 cs.max_idle_ns),
          state := RT_HRTIMER_STATE_INACTIVE, mode := RT_HRTIMER_MODE_REL, function := 0,
          arg := 0 } } T := by
    refine QState_congr hq ?_ ?_ rfl rfl ?_ ?_
    · intro a ha; rw [hT] at ha; simp at ha
    · intro a ha0 ha
      simp only [Function.update_apply]
      split_ifs with h
      · exact h.symm
      · exact hq.idle a ha0 ha
    · intro a ha; rw [hT] at ha; simp at ha
    · intro a ha0
      simp only [Function.update_apply]
      split_ifs with h
      · subst h
        have h1 : ¬ RT_HRTIMER_IS_QUEUED (s.timers s.update_clock_timer) = true := by
          rw [hq.flags _ ha0, hT]; simp
        simp only [h1, iff_false]
        simp [RT_HRTIMER_IS_QUEUED, RT_HRTIMER_STATE_INACTIVE]
      · exact Iff.rfl
  obtain ⟨s', T', A, B, e, hq', hAB, hT', -, -, hoth, hself, henv⟩ :=
    enqueue_spec (x := s.update_clock_timer) hq1 hu (by rw [hT]; simp)
      (show T.inorder.length + 1 ≤ fuel by rw [hT]; simpa using hfuel)
  rw [hT] at hAB
  obtain ⟨rfl, rfl⟩ := List.append_eq_nil.1 hAB.symm
  refine ⟨s', T', ?_, hq', hT, by simpa using hT', ?_, ?_, henv.2.2.2.2.2.1, henv.2.2.2.2.2.2,
    henv.2.2.1, henv.1⟩
  · simp only [rt_hrtimer_reschedule]
    rw [if_neg (not_not.2 hn)]
    simp only [hcs, hi, ok_bind]
    exact e
  · rw [hself]
    simp
  · intro a ha
    rw [hoth a ha]
    simp [Function.update_apply, ha]

end RtThread

namespace RtThread
open Color Tree rt_hrtimer_mode rt_hrtimer_restart rt_clocksource_mode

/-! ## States that differ outside the queue -/

theorem QState_env {s s' : Machine} {T : Tree} (h : QState s T) (hn : s'.nodes = s.nodes)
    (ht : s'.timers = s.timers) (hh : s'.hrtimer_queue.head = s.hrtimer_queue.head)
    (hx : s'.hrtimer_queue.next = s.hrtimer_queue.next) : QState s' T :=
  QState_congr h (fun a _ => by rw [hn]) (fun a h0 ha => by rw [hn]; exact h.idle a h0 ha) hh hx
    (fun a _ => by simp only [deadlineOf, ht]) (fun a _ => by rw [ht])

theorem ClockFixed_env {s s' : Machine} {now : Int} (h : ClockFixed s now)
    (hc : s'.hrtimer_queue.cs = s.hrtimer_queue.cs) (hk : s'.counter = s.counter)
    (hr : s'.reads = s.reads) : ClockFixed s' now := by
  obtain ⟨cs, raw, h1, h2, h3⟩ := h
  exact ⟨cs, raw, by rw [hc, h1], by rw [hk, hr]; exact h2, h3⟩

end RtThread

namespace RtThread
open Color Tree rt_hrtimer_mode rt_hrtimer_restart rt_clocksource_mode

/-! ## Starting and cancelling a timer -/

theorem start_reject {s : Machine} {cs : rt_clocksource_device} {timer fuel : Nat} {time : Int}
    {mode : rt_hrtimer_mode} (hcs : s.hrtimer_queue.cs = some cs) (ht0 : timer ≠ 0)
    (h : (s.timers timer).mode ≠ mode ∨
      (mode = RT_HRTIMER_MODE_ABS ∧ time ≤ clockTime cs (s.counter s.reads))) :
    rt_hrtimer_start fuel s timer time mode = .ok (-1, { s with
      reads := s.reads + 1
      hrtimer_queue := { s.hrtimer_queue with cs := some (clockDev cs (s.counter s.reads)) } }) := by
  simp only [rt_hrtimer_start, abs_time_eq hcs, ok_bind, rdt, ht0, if_false]
  by_cases hm : (s.timers timer).mode = mode
  · rcases h with h | ⟨h1, h2⟩
    · exact absurd hm h
    · subst h1
      simp [hm, h2]
  · simp [hm]

theorem bind_ok {α β : Type} {x : Except Fault α} {f : α → Except Fault β} {b : β}
    (h : (x >>= f) = .ok b) : ∃ a, x = .ok a ∧ f a = .ok b := by
  cases x with
  | error e => cases h
  | ok a => exact ⟨a, rfl, h⟩

theorem start_status {s : Machine} {cs : rt_clocksource_device} {timer fuel : Nat} {time : Int}
    {mode : rt_hrtimer_mode} (hcs : s.hrtimer_queue.cs = some cs) (ht0 : timer ≠ 0)
    (h : ¬ ((s.timers timer).mode ≠ mode ∨
      (mode = RT_HRTIMER_MODE_ABS ∧ time ≤ clockTime cs (s.counter s.reads))))
    {r : Int} {s' : Machine} (he : rt_hrtimer_start fuel s timer time mode = .ok (r, s')) :
    r = 0 ∨ r = 1 := by
  simp only [not_or, not_not, not_and] at h
  obtain ⟨h1, h2⟩ := h
  simp only [rt_hrtimer_start, abs_time_eq hcs, ok_bind, rdt, ht0, if_false, h1, ne_eq,
    not_true_eq_false] at he
  rw [if_neg (by rintro ⟨ha, hb⟩; exact h2 (h1 ▸ ha) hb)] at he
  obtain ⟨⟨r1, s1⟩, e1, he⟩ := bind_ok he
  obtain ⟨s2, e2, he⟩ := bind_ok he
  obtain ⟨s3, e3, he⟩ := bind_ok he
  obtain ⟨s4, e4, he⟩ := bind_ok he
  simp only [pure_eq_ok, Except.ok.injEq, Prod.mk.injEq] at he
  rw [← he.1]
  split_ifs at e1 with hq
  · obtain ⟨s0, e0, e1⟩ := bind_ok e1
    simp only [pure_eq_ok, Except.ok.injEq, Prod.mk.injEq] at e1
    exact Or.inr e1.1.symm
  · simp only [pure_eq_ok, Except.ok.injEq, Prod.mk.injEq] at e1
    exact Or.inl e1.1.symm

theorem set_deadline_state {s : Machine} {T : Tree} {x : Nat} {d : Int} (hq : QState s T)
    (hx : x ∉ T.inorder) :
    QState { s with timers := Function.update s.timers x { s.timers x with deadline := d } } T := by
  refine QState_congr hq (fun _ _ => rfl) (fun b hb0 hb => hq.idle b hb0 hb) rfl rfl ?_ ?_
  · intro b hb
    have hbx : b ≠ x := by rintro rfl; exact hx hb
    simp [deadlineOf, Function.update_apply, hbx]
  · intro b _
    by_cases hbx : b = x
    · subst hbx; simp [RT_HRTIMER_IS_QUEUED]
    · simp [Function.update_apply, hbx]

theorem start_spec {s : Machine} {T : Tree} {cs : rt_clocksource_device}
    {ev : rt_clockevent_device} {timer fuel : Nat} {time : Int} {mode : rt_hrtimer_mode}
    (hq : QState s T) (hcs : s.hrtimer_queue.cs = some cs)
    (hev : s.hrtimer_queue.event = some ev) (ht0 : timer ≠ 0)
    (hm : (s.timers timer).mode = mode)
    (hok : ¬ (mode = RT_HRTIMER_MODE_ABS ∧ time ≤ clockTime cs (s.counter s.reads)))
    (hfuel : T.inorder.length + 2 ≤ fuel) :
    ∃ s' T', rt_hrtimer_start fuel s timer time mode =
        .ok ((if RT_HRTIMER_IS_QUEUED (s.timers timer) = true then 1 else 0), s') ∧
      QState s' T' ∧ List.Perm T'.inorder (timer :: T.inorder.erase timer) ∧
      (s'.timers timer).deadline =
        (if mode = RT_HRTIMER_MODE_REL then to_s64 (clockTime cs (s.counter s.reads) + time)
          else time) ∧
      RT_HRTIMER_IS_QUEUED (s'.timers timer) = true ∧
      (∀ a, a ≠ timer → s'.timers a = s.timers a) := by
  have hq1 : QState { s with reads := s.reads + 1, hrtimer_queue :=
      { s.hrtimer_queue with cs := some (clockDev cs (s.counter s.reads)) } } T :=
    QState_env hq rfl rfl rfl rfl
  have habs := abs_time_eq hcs
  generalize hs1 : ({ s with reads := s.reads + 1, hrtimer_queue :=
      { s.hrtimer_queue with cs := some (clockDev cs (s.counter s.reads)) } } : Machine) = s1
    at habs hq1
  generalize hnow : clockTime cs (s.counter s.reads) = now at habs hok ⊢
  have ht1 : s1.timers = s.timers := by rw [← hs1]
  have he1 : s1.hrtimer_queue.event = some ev := by rw [← hs1]; exact hev
  have hc1 : ∃ c, s1.hrtimer_queue.cs = some c := by rw [← hs1]; exact ⟨_, rfl⟩
  clear hs1
  -- optional dequeue
  have hdq : ∃ s2 T2, (if RT_HRTIMER_IS_QUEUED (s1.timers timer) = true then do
        let s ← rt_hrtimer_dequeue fuel s1 timer
        Except.ok ((1 : Int), s)
      else Except.ok ((0 : Int), s1)) =
        .ok ((if RT_HRTIMER_IS_QUEUED (s.timers timer) = true then (1 : Int) else 0), s2) ∧
      QState s2 T2 ∧ T2.inorder = T.inorder.erase timer ∧
      (∀ a, a ≠ timer → s2.timers a = s.timers a) ∧ (s2.timers timer).mode = mode ∧
      SameEnv s1 s2 := by
    rw [ht1]
    by_cases hqd : RT_HRTIMER_IS_QUEUED (s.timers timer) = true
    · have hmem : timer ∈ T.inorder := (hq.flags timer ht0).1 hqd
      obtain ⟨s2, T2, e2, hq2, hT2, ho2, hs2, henv2⟩ :=
        dequeue_spec hq1 hmem (show T.inorder.length + 1 ≤ fuel by omega)
      refine ⟨s2, T2, ?_, hq2, hT2, fun a ha => by rw [ho2 a ha, ht1], ?_, henv2⟩
      · simp only [hqd, if_true, e2, ok_bind]
      · rw [hs2, ht1]; exact hm
    · have hmem : timer ∉ T.inorder := fun h => hqd ((hq.flags timer ht0).2 h)
      refine ⟨s1, T, ?_, hq1, (List.erase_of_not_mem hmem).symm, fun a _ => by rw [ht1],
        by rw [ht1]; exact hm, SameEnv.refl s1⟩
      simp only [hqd, Bool.false_eq_true, if_false]
  obtain ⟨s2, T2, e2, hq2, hT2, ho2, hm2, henv2⟩ := hdq
  have hx2 : timer ∉ T2.inorder := by
    rw [hT2]
    intro hmem
    by_cases hin : timer ∈ T.inorder
    · exact ((List.Nodup.mem_erase_iff hq.inv.ht.nodup).1 hmem).1 rfl
    · exact hin (List.mem_of_mem_erase hmem)
  -- new deadline
  have hq3 := set_deadline_state
    (d := if mode = RT_HRTIMER_MODE_REL then to_s64 (now + time) else time) hq2 hx2
  obtain ⟨s4, T4, A, B, e4, hq4, hAB, hT4, -, -, ho4, hs4, henv4⟩ :=
    enqueue_spec hq3 ht0 hx2 (show T2.inorder.length + 1 ≤ fuel by
      rw [hT2]; have := List.length_erase_le timer T.inorder; omega)
  have hperm : List.Perm T4.inorder (timer :: T.inorder.erase timer) := by
    rw [hT4, ← hT2, hAB]
    exact List.perm_middle
  have hdl4 : (s4.timers timer).deadline =
      (if mode = RT_HRTIMER_MODE_REL then to_s64 (now + time) else time) := by
    rw [hs4]; simp
  have hqd4 : RT_HRTIMER_IS_QUEUED (s4.timers timer) = true :=
    (hq4.flags timer ht0).2 (by rw [hT4]; simp)
  have ho4' : ∀ a, a ≠ timer → s4.timers a = s.timers a := by
    intro a ha
    rw [ho4 a ha]
    simp only [Function.update_apply, ha, if_false]
    exact ho2 a ha
  have hev4 : s4.hrtimer_queue.event = some ev := by
    rw [henv4.1]; show s2.hrtimer_queue.event = _; rw [henv2.1, he1]
  obtain ⟨c1, hc1⟩ := hc1
  have hcs4 : s4.hrtimer_queue.cs = some c1 := by
    rw [henv4.2.1]; show s2.hrtimer_queue.cs = _; rw [henv2.2.1, hc1]
  have hwd : (if (s2.timers timer).mode = RT_HRTIMER_MODE_REL then
        wrt s2 timer (fun t => { t with deadline := to_s64 (now + time) })
      else wrt s2 timer (fun t => { t with deadline := time })) =
      .ok { s2 with timers := Function.update s2.timers timer { s2.timers timer with
        deadline := if mode = RT_HRTIMER_MODE_REL then to_s64 (now + time) else time } } := by
    rw [hm2]
    by_cases hr : mode = RT_HRTIMER_MODE_REL
    · simp [hr, wrt, ht0]
    · simp [hr, wrt, ht0]
  have hrs : ∃ s5, (if s4.hrtimer_queue.next = timer then rt_hrtimer_reschedule fuel s4
      else Except.ok s4) = .ok s5 ∧ QState s5 T4 ∧ s5.timers = s4.timers := by
    by_cases hn : s4.hrtimer_queue.next = timer
    · rw [if_pos hn, reschedule_armed hcs4 hev4 (by rw [hn]; exact ht0)]
      exact ⟨_, rfl, QState_env hq4 rfl rfl rfl rfl, rfl⟩
    · rw [if_neg hn]
      exact ⟨s4, rfl, hq4, rfl⟩
  obtain ⟨s5, e5, hq5, ht5⟩ := hrs
  refine ⟨s5, T4, ?_, hq5, hperm, by rw [ht5]; exact hdl4, by rw [ht5]; exact hqd4,
    fun a ha => by rw [ht5]; exact ho4' a ha⟩
  simp only [rt_hrtimer_start, habs, ok_bind, rdt, ht0, if_false, ht1, hm, ne_eq,
    not_true_eq_false, pure_eq_ok]
  rw [if_neg (by rintro ⟨ha, hb⟩; exact hok ⟨hm ▸ ha, hb⟩)]
  rw [← ht1, e2]
  simp only [ok_bind, hwd, e4, e5, ht1]

theorem cancel_spec {s : Machine} {T : Tree} {cs : rt_clocksource_device}
    {ev : rt_clockevent_device} {timer fuel : Nat}
    (hq : QState s T) (hcs : s.hrtimer_queue.cs = some cs)
    (hev : s.hrtimer_queue.event = some ev) (hmem : timer ∈ T.inorder)
    (hne : timer ≠ s.update_clock_timer) (hu : s.update_clock_timer ≠ 0)
    (hfuel : T.inorder.length + 1 ≤ fuel) :
    ∃ s2 s' T', rt_hrtimer_dequeue fuel s timer = .ok s2 ∧
      (if s.hrtimer_queue.next = timer then rt_hrtimer_reschedule fuel s2 else .ok s2) = .ok s' ∧
      rt_hrtimer_cancel fuel s timer = .ok (1, s') ∧ QState s' T' ∧
      timer ∉ T'.inorder ∧ RT_HRTIMER_IS_QUEUED (s'.timers timer) = false ∧
      (s'.nodes timer).rt_rb_parent = timer ∧
      (∀ a ∈ T.inorder, a ≠ timer → a ∈ T'.inorder ∧ s'.timers a = s.timers a) ∧
      (T'.inorder = T.inorder.erase timer ∨
        (T.inorder.erase timer = [] ∧ T'.inorder = [s.update_clock_timer])) := by
  have ht0 : timer ≠ 0 := mem_ne_zero hq.inv.ht.rep hmem
  have hqd : RT_HRTIMER_IS_QUEUED (s.timers timer) = true := (hq.flags timer ht0).2 hmem
  obtain ⟨s2, T2, e2, hq2, hT2, ho2, hs2, henv2⟩ := dequeue_spec hq hmem hfuel
  obtain ⟨ev2, cs2, uc2, ctr2, rd2, ar2, fi2⟩ := henv2
  have hx2 : timer ∉ T2.inorder := by
    rw [hT2]
    exact fun h => ((List.Nodup.mem_erase_iff hq.inv.ht.nodup).1 h).1 rfl
  have hmem2 : ∀ a ∈ T.inorder, a ≠ timer → a ∈ T2.inorder := by
    intro a ha hat
    rw [hT2]; exact (List.mem_erase_of_ne hat).2 ha
  have key : ∃ s' T', (if s.hrtimer_queue.next = timer then rt_hrtimer_reschedule fuel s2
        else .ok s2) = .ok s' ∧ QState s' T' ∧ timer ∉ T'.inorder ∧
      (∀ a ∈ T.inorder, a ≠ timer → a ∈ T'.inorder ∧ s'.timers a = s.timers a) ∧
      (T'.inorder = T.inorder.erase timer ∨
        (T.inorder.erase timer = [] ∧ T'.inorder = [s.update_clock_timer])) := by
    by_cases hn : s.hrtimer_queue.next = timer
    · rw [if_pos hn]
      by_cases hn2 : s2.hrtimer_queue.next = 0
      · obtain ⟨s', T', e, hq', hT2nil, hT', -, ho', -, -, -, -⟩ :=
          reschedule_idle hq2 (cs2.trans hcs) hn2 (by rw [uc2]; exact hu)
            (show 1 ≤ fuel by omega)
        rw [uc2] at hT' ho'
        refine ⟨s', T', e, hq', ?_, ?_, Or.inr ⟨by rw [← hT2]; exact hT2nil, hT'⟩⟩
        · rw [hT']; simpa using hne
        · intro a ha hat
          have := hmem2 a ha hat
          rw [hT2nil] at this
          simp at this
      · rw [reschedule_armed (cs2.trans hcs) (ev2.trans hev) hn2]
        refine ⟨_, T2, rfl, QState_env hq2 rfl rfl rfl rfl, hx2, ?_, Or.inl hT2⟩
        intro a ha hat
        exact ⟨hmem2 a ha hat, ho2 a hat⟩
    · rw [if_neg hn]
      exact ⟨s2, T2, rfl, hq2, hx2, fun a ha hat => ⟨hmem2 a ha hat, ho2 a hat⟩, Or.inl hT2⟩
  obtain ⟨s', T', e, hq', hx', ho', hT'⟩ := key
  refine ⟨s2, s', T', e2, e, ?_, hq', hx', ?_, hq'.idle timer ht0 hx', ho', hT'⟩
  · simp only [rt_hrtimer_cancel, rdt, ht0, if_false, ok_bind, hqd, Bool.true_eq_false, e2,
      decide_eq_true_eq, pure_eq_ok]
    rw [e]
    rfl
  · by_contra h
    exact hx' ((hq'.flags timer ht0).1 (by simpa using h))

end RtThread

namespace RtThread
open Color Tree rt_hrtimer_mode rt_hrtimer_restart rt_clocksource_mode

/-! ## Facts about the example states -/

theorem idleMachine_state : QState idleMachine nil := by
  refine ⟨⟨⟨rfl, trivial, List.nodup_nil⟩, ⟨rfl, trivial, trivial⟩, List.Pairwise.nil, rfl⟩,
    fun a _ _ => rfl, fun a _ => ?_⟩
  simp [idleMachine, RT_HRTIMER_IS_QUEUED, Tree.inorder]

theorem oneTimer_state : QState oneTimer (node 1 RB_BLACK nil nil) := by
  refine ⟨⟨⟨rfl, ⟨by decide, rfl, trivial, trivial⟩, by simp [Tree.inorder]⟩, by decide,
    by simp [Tree.inorder], rfl⟩, fun a _ ha => ?_, fun a _ => ?_⟩
  · have : a ≠ 1 := by simpa [Tree.inorder] using ha
    simp [oneTimer, this]
  · by_cases h : a = 1
    · subst h; simp [oneTimer, RT_HRTIMER_IS_QUEUED, Tree.inorder, RT_HRTIMER_STATE_ENQUEUED]
    · simp [oneTimer, RT_HRTIMER_IS_QUEUED, Tree.inorder, h]

theorem oneTimer_clock : ClockFixed oneTimer 5 :=
  ⟨exampleClock, 5, rfl, fun _ => rfl, by decide⟩

/-! ## The red-black tree index -/

/-- C1: insert preserves the red-black invariants.  For every well-formed linked tree that
satisfies them and every unlinked node `x` attached at a leaf position (reached by the path
`k`) by `rt_rb_link_node`, `rt_rb_insert_color` returns when given fuel for the height of the
position, and the tree it leaves is well formed, has a black root, no red node with a red
child, and equal black height on every path; its in-order sequence is the old one with `x`
at the chosen position. -/
theorem rt_rb_insert_color_preserves_invariants (m : NodeMem) (root : rt_rb_root) (k : Ctx)
    (x : Nat) (fuel : Nat)
    (h : HeapTree m root (plug k nil)) (hrb : (plug k nil).IsRB)
    (hx0 : x ≠ 0) (hx : x ∉ (plug k nil).inorder) (hfuel : k.length + 1 ≤ fuel) :
    ∃ m1 root1 m2 root2 T',
      rt_rb_link_node m root x k.top k.link = .ok (m1, root1) ∧
      rt_rb_insert_color fuel m1 x root1 = .ok (m2, root2) ∧
      HeapTree m2 root2 T' ∧
      T'.color = RB_BLACK ∧ T'.NoRedRed ∧ T'.Balanced ∧
      T'.inorder = Ctx.before k ++ x :: Ctx.after k := by
  obtain ⟨m1, root1, m2, root2, T', e1, e2, hT', hrb', hin, -⟩ :=
    link_insert_color h hrb hx0 hx hfuel
  refine ⟨m1, root1, m2, root2, T', e1, e2, hT', hrb'.1, hrb'.2.1, hrb'.2.2, ?_⟩
  rw [hin, inorder_plug]
  simp [Tree.inorder]

/-- Instance: node 2 is linked as the left child of the single black node 1. -/
theorem rt_rb_insert_color_preserves_invariants_witness :
    ∃ m1 root1 m2 root2 T',
      rt_rb_link_node oneTimer.nodes { rt_rb_node := 1 } 2 1 (.left 1) = .ok (m1, root1) ∧
      rt_rb_insert_color 2 m1 2 root1 = .ok (m2, root2) ∧
      HeapTree m2 root2 T' ∧
      T'.color = RB_BLACK ∧ T'.NoRedRed ∧ T'.Balanced ∧
      T'.inorder = [2, 1] :=
  rt_rb_insert_color_preserves_invariants oneTimer.nodes { rt_rb_node := 1 }
    [.L 1 RB_BLACK nil] 2 2 oneTimer_state.inv.ht (by decide) (by decide)
    (by decide) (by decide)

/-- C2: erase preserves the red-black invariants.  For every well-formed linked tree that
satisfies them and every node `x` linked in it, `rt_rb_erase` returns when given fuel for the
size of the tree, and the tree it leaves is well formed, has a black root (or is empty), no
red node with a red child, and equal black height on every path; its in-order sequence is
the old one without `x`. -/
theorem rt_rb_erase_preserves_invariants (m : NodeMem) (root : rt_rb_root) (T : Tree)
    (x : Nat) (fuel : Nat)
    (h : HeapTree m root T) (hrb : T.IsRB) (hx : x ∈ T.inorder)
    (hfuel : T.inorder.length + 1 ≤ fuel) :
    ∃ m' root' T', rt_rb_erase fuel m x root = .ok (m', root') ∧ HeapTree m' root' T' ∧
      T'.color = RB_BLACK ∧ T'.NoRedRed ∧ T'.Balanced ∧
      T'.inorder = T.inorder.erase x := by
  obtain ⟨k, c, l, r, rfl⟩ := exists_plug_of_mem hx
  obtain ⟨m', root', T', e, hT', hrb', hin, -⟩ := erase_at h hrb hfuel
  exact ⟨m', root', T', e, hT', hrb'.1, hrb'.2.1, hrb'.2.2, hin⟩

/-- Instance: the only node of a one-node tree is erased. -/
theorem rt_rb_erase_preserves_invariants_witness :
    ∃ m' root' T', rt_rb_erase 2 oneTimer.nodes 1 { rt_rb_node := 1 } = .ok (m', root') ∧
      HeapTree m' root' T' ∧
      T'.color = RB_BLACK ∧ T'.NoRedRed ∧ T'.Balanced ∧
      T'.inorder = [] :=
  rt_rb_erase_preserves_invariants oneTimer.nodes { rt_rb_node := 1 } (node 1 RB_BLACK nil nil)
    1 2 oneTimer_state.inv.ht
    (by decide) (by decide) (by decide)

/-! ## The timer queue -/

/-- C3: starting from the empty queue with initialised timers, a sequence of
`rt_hrtimer_insert` and `rt_hrtimer_remove` calls either stops at a failing `RT_ASSERT`
(a timer inserted twice or removed while not linked), or returns with a well-formed tree
whose in-order sequence is in non-decreasing deadline order. -/
theorem hrtimer_queue_inorder_sorted (ops : List QueueOp) (s0 : Machine) (fuel : Nat)
    (hroot : s0.hrtimer_queue.head.rt_rb_node = 0) (hnext : s0.hrtimer_queue.next = 0)
    (hclr : ∀ a, a ≠ 0 → (s0.nodes a).rt_rb_parent = a)
    (hops : ∀ op ∈ ops, op.node ≠ 0) (hfuel : ops.length + 1 ≤ fuel) :
    (∃ s T, runOps fuel ops s0 = .ok s ∧ HeapTree s.nodes s.hrtimer_queue.head T ∧
      T.inorder.Pairwise (fun a b => (s.timers a).deadline ≤ (s.timers b).deadline)) ∨
    runOps fuel ops s0 = .error .assertion := by
  have hq : QInv s0 nil :=
    ⟨⟨hroot, trivial, List.nodup_nil⟩, ⟨rfl, trivial, trivial⟩, List.Pairwise.nil, hnext⟩
  rcases runOps_inv fuel ops s0 nil hq (fun a ha _ => hclr a ha) hops
      (by simpa [Tree.inorder] using hfuel) with ⟨s, T, e, hq', -, -⟩ | e
  · exact Or.inl ⟨s, T, e, hq'.ht, hq'.sorted⟩
  · exact Or.inr e

/-- Instance: timers 3, 1, 2 are inserted and 3 is removed again. -/
theorem hrtimer_queue_inorder_sorted_witness :
    (∃ s T, runOps 5 [.insert 3, .insert 1, .insert 2, .remove 3] idleMachine = .ok s ∧
      HeapTree s.nodes s.hrtimer_queue.head T ∧
      T.inorder.Pairwise (fun a b => (s.timers a).deadline ≤ (s.timers b).deadline)) ∨
    runOps 5 [.insert 3, .insert 1, .insert 2, .remove 3] idleMachine = .error .assertion :=
  hrtimer_queue_inorder_sorted [.insert 3, .insert 1, .insert 2, .remove 3] idleMachine 5
    rfl rfl (fun _ _ => rfl) (by decide) (by decide)

/-- C4: cached-minimum invariant.  After every sequence of `rt_hrtimer_insert` and
`rt_hrtimer_remove` calls from the empty queue that does not stop at a failing `RT_ASSERT`,
`next` is the first node of the tree in in-order, it is `NULL` exactly when the tree is
empty, and no linked timer has a smaller deadline than the timer `next` points to. -/
theorem hrtimer_queue_next_is_first (ops : List QueueOp) (s0 : Machine) (fuel : Nat)
    (hroot : s0.hrtimer_queue.head.rt_rb_node = 0) (hnext : s0.hrtimer_queue.next = 0)
    (hclr : ∀ a, a ≠ 0 → (s0.nodes a).rt_rb_parent = a)
    (hops : ∀ op ∈ ops, op.node ≠ 0) (hfuel : ops.length + 1 ≤ fuel) :
    (∃ s T, runOps fuel ops s0 = .ok s ∧ HeapTree s.nodes s.hrtimer_queue.head T ∧
      s.hrtimer_queue.next = T.inorder.headD 0 ∧
      (s.hrtimer_queue.next = 0 ↔ T.inorder = []) ∧
      ∀ a ∈ T.inorder, (s.timers s.hrtimer_queue.next).deadline ≤ (s.timers a).deadline) ∨
    runOps fuel ops s0 = .error .assertion := by
  have hq : QInv s0 nil :=
    ⟨⟨hroot, trivial, List.nodup_nil⟩, ⟨rfl, trivial, trivial⟩, List.Pairwise.nil, hnext⟩
  rcases runOps_inv fuel ops s0 nil hq (fun a ha _ => hclr a ha) hops
      (by simpa [Tree.inorder] using hfuel) with ⟨s, T, e, hq', -, -⟩ | e
  · refine Or.inl ⟨s, T, e, hq'.ht, hq'.next_eq, ?_, ?_⟩
    · rw [hq'.next_eq]
      rcases hl : T.inorder with _ | ⟨a, rest⟩
      · simp
      · have : a ≠ 0 := mem_ne_zero hq'.ht.rep (by rw [hl]; simp)
        simp [this]
    · intro a ha
      rw [hq'.next_eq]
      have hs := hq'.sorted
      rcases hl : T.inorder with _ | ⟨b, rest⟩
      · rw [hl] at ha; simp at ha
      · rw [hl] at ha hs
        rcases List.mem_cons.1 ha with rfl | ha
        · exact le_refl _
        · exact (List.pairwise_cons.1 hs).1 a ha
  · exact Or.inr e

/-- Instance: timers 2, 1 are inserted and 1 is removed again. -/
theorem hrtimer_queue_next_is_first_witness :
    (∃ s T, runOps 4 [.insert 2, .insert 1, .remove 1] idleMachine = .ok s ∧
      HeapTree s.nodes s.hrtimer_queue.head T ∧
      s.hrtimer_queue.next = T.inorder.headD 0 ∧
      (s.hrtimer_queue.next = 0 ↔ T.inorder = []) ∧
      ∀ a ∈ T.inorder, (s.timers s.hrtimer_queue.next).deadline ≤ (s.timers a).deadline) ∨
    runOps 4 [.insert 2, .insert 1, .remove 1] idleMachine = .error .assertion :=
  hrtimer_queue_next_is_first [.insert 2, .insert 1, .remove 1] idleMachine 4
    rfl rfl (fun _ _ => rfl) (by decide) (by decide)

end RtThread

namespace RtThread
open Color Tree rt_hrtimer_mode rt_hrtimer_restart rt_clocksource_mode

/-! ## The callback dispatcher `rt_hrtimer_invoke`: the stale return value -/

/-- C7 (divergence of the code): the local `ret` of `rt_hrtimer_invoke` is declared outside
the loop and is only assigned when the fired timer has a callback.  In the state
`staleMachine` the first pass fires timer 1, whose callback returns `RESTART`; the second
pass dequeues timer 2, which has no callback (`function == NULL`), finds the stale `RESTART`
in `ret` and enqueues timer 2 again: after the two passes the only callback called is that
of timer 1, and timer 2 is enqueued and is the cached minimum again. -/
theorem rt_hrtimer_invoke_stale_restart :
    (do
      let (s, r1) ← rt_hrtimer_invoke_body restartCallback 5 staleMachine RT_HRTIMER_NORESTART
      let (s, r2) ← rt_hrtimer_invoke_body restartCallback 5 s (r1.getD RT_HRTIMER_NORESTART)
      pure (r1, r2, s.fired, (s.timers 2).function, RT_HRTIMER_IS_QUEUED (s.timers 2),
        s.hrtimer_queue.next)) =
      .ok (some RT_HRTIMER_RESTART, some RT_HRTIMER_RESTART, [1], 0, true, 2) := by
  rfl

end RtThread

namespace RtThread
open Color Tree rt_hrtimer_mode rt_hrtimer_restart rt_clocksource_mode

/-! ## Starting and cancelling through the public interface -/

/-- C8: `rt_hrtimer_start` returns -1 exactly when the mode argument differs from the
configured mode of the timer, or the mode is absolute and `time ≤ now`, where `now` is the
absolute time sampled at entry.  In that case the state returned differs from the old one
only in the clocksource bookkeeping of that time sample: timer records, node links, the tree
root, `next`, the clockevent device and the logs are the old ones. -/
theorem rt_hrtimer_start_rejects (s : Machine) (cs : rt_clocksource_device) (timer fuel : Nat)
    (time : Int) (mode : rt_hrtimer_mode)
    (hcs : s.hrtimer_queue.cs = some cs) (ht0 : timer ≠ 0) :
    (((s.timers timer).mode ≠ mode ∨
        (mode = RT_HRTIMER_MODE_ABS ∧ time ≤ clockTime cs (s.counter s.reads))) →
      rt_hrtimer_start fuel s timer time mode = .ok (-1, { s with
        reads := s.reads + 1
        hrtimer_queue :=
          { s.hrtimer_queue with cs := some (clockDev cs (s.counter s.reads)) } })) ∧
    (∀ r s', rt_hrtimer_start fuel s timer time mode = .ok (r, s') →
      (r = -1 ↔ ((s.timers timer).mode ≠ mode ∨
        (mode = RT_HRTIMER_MODE_ABS ∧ time ≤ clockTime cs (s.counter s.reads))))) := by
  refine ⟨start_reject hcs ht0, ?_⟩
  intro r s' he
  constructor
  · intro hr
    by_contra hn
    rcases start_status hcs ht0 hn he with h | h <;> omega
  · intro h
    rw [start_reject hcs ht0 h] at he
    simp only [Except.ok.injEq, Prod.mk.injEq] at he
    exact he.1.symm

/-- Instance: an absolute start is asked of the relative timer 2 of the idle system. -/
theorem rt_hrtimer_start_rejects_witness :
    rt_hrtimer_start 3 idleMachine 2 100 RT_HRTIMER_MODE_ABS = .ok (-1, { idleMachine with
      reads := idleMachine.reads + 1
      hrtimer_queue := { idleMachine.hrtimer_queue with
        cs := some (clockDev exampleClock (idleMachine.counter idleMachine.reads)) } }) :=
  (rt_hrtimer_start_rejects idleMachine exampleClock 2 3 100 RT_HRTIMER_MODE_ABS rfl
    (by decide)).1 (Or.inl (by decide))

/-- C9, refuted at the width of `rt_ktime_t`: at time 5 the idle timer 3 is started for the
relative time `2^63 - 1`.  The call returns 0 and enqueues the timer, and the deadline it
stores is the 64-bit sum `-9223372036854775804`, not `5 + (2^63 - 1)`. -/
theorem rt_hrtimer_start_deadline_wraps :
    (rt_hrtimer_start 3 idleMachine 3 9223372036854775807 RT_HRTIMER_MODE_REL).map
        (fun r => (r.1, (r.2.timers 3).deadline, RT_HRTIMER_IS_QUEUED (r.2.timers 3))) =
      .ok (0, -9223372036854775804, true) ∧
    (rt_clocksource_absolute_time idleMachine).map (fun r => r.1) = .ok 5 ∧
    (-9223372036854775804 : Int) ≠ 5 + 9223372036854775807 := by
  refine ⟨by rfl, by rfl, by decide⟩

/-- C9: when `rt_hrtimer_start` does not fail (the mode matches and an absolute time lies
after `now`), on a consistent queue with both devices registered it returns 1 if the timer
was enqueued before the call and 0 otherwise; afterwards the queue is consistent again, the
timer is enqueued exactly once, the other enqueued timers are the same as before, and the
deadline of the timer is `time` for an absolute timer and, for a relative one, the sum
`now + time` formed in the signed 64-bit `rt_ktime_t`, which is `now + time` itself whenever
that lies in `[-2^63, 2^63)`; `now` is the absolute time sampled at entry. -/
theorem rt_hrtimer_start_enqueues (s : Machine) (T : Tree) (cs : rt_clocksource_device)
    (ev : rt_clockevent_device) (timer fuel : Nat) (time : Int) (mode : rt_hrtimer_mode)
    (hq : QState s T) (hcs : s.hrtimer_queue.cs = some cs)
    (hev : s.hrtimer_queue.event = some ev) (ht0 : timer ≠ 0)
    (hm : (s.timers timer).mode = mode)
    (hok : ¬ (mode = RT_HRTIMER_MODE_ABS ∧ time ≤ clockTime cs (s.counter s.reads)))
    (hfuel : T.inorder.length + 2 ≤ fuel) :
    ∃ s' T', rt_hrtimer_start fuel s timer time mode =
        .ok ((if RT_HRTIMER_IS_QUEUED (s.timers timer) = true then 1 else 0), s') ∧
      QState s' T' ∧ T'.inorder.count timer = 1 ∧
      List.Perm T'.inorder (timer :: T.inorder.erase timer) ∧
      RT_HRTIMER_IS_QUEUED (s'.timers timer) = true ∧
      (s'.timers timer).deadline =
        (if mode = RT_HRTIMER_MODE_REL then to_s64 (clockTime cs (s.counter s.reads) + time)
          else time) ∧
      (-2 ^ 63 ≤ clockTime cs (s.counter s.reads) + time →
        clockTime cs (s.counter s.reads) + time < 2 ^ 63 →
        to_s64 (clockTime cs (s.counter s.reads) + time) =
          clockTime cs (s.counter s.reads) + time) ∧
      (∀ a, a ≠ timer → s'.timers a = s.timers a) := by
  obtain ⟨s', T', e, hq', hperm, hdl, hqd, hoth⟩ := start_spec hq hcs hev ht0 hm hok hfuel
  refine ⟨s', T', e, hq', ?_, hperm, hqd, hdl, to_s64_of_range, hoth⟩
  exact List.count_eq_one_of_mem hq'.inv.ht.nodup ((hq'.flags timer ht0).1 hqd)

/-- Instance: the enqueued timer 1 is started again for 10 ns at time 5. -/
theorem rt_hrtimer_start_enqueues_witness :
    ∃ s' T', rt_hrtimer_start 3 oneTimer 1 10 RT_HRTIMER_MODE_REL = .ok (1, s') ∧
      QState s' T' ∧ T'.inorder.count 1 = 1 ∧ (s'.timers 1).deadline = 15 := by
  obtain ⟨s', T', e, hq', hc, -, -, hdl, -, -⟩ :=
    rt_hrtimer_start_enqueues oneTimer (node 1 RB_BLACK nil nil) exampleClock exampleEvent 1 3 10
      RT_HRTIMER_MODE_REL oneTimer_state rfl rfl (by decide) rfl (by decide) (by decide)
  exact ⟨s', T', e, hq', hc, hdl.trans (by rfl)⟩

/-- C10: `rt_hrtimer_cancel` on an enqueued timer (other than the file-private keep-alive
timer) of a consistent queue with both devices registered returns 1.  It dequeues the timer
and, exactly when the timer was the cached minimum, runs `rt_hrtimer_reschedule` on the
result.  Afterwards the queue is consistent, the timer is not in the index, its `ENQUEUED`
flag is clear and its node is cleared; every other timer that was enqueued is still enqueued
with its record unchanged; the index holds the old timers without the cancelled one, plus
the keep-alive timer when the reschedule found the queue empty. -/
theorem rt_hrtimer_cancel_dequeues (s : Machine) (T : Tree) (cs : rt_clocksource_device)
    (ev : rt_clockevent_device) (timer fuel : Nat)
    (hq : QState s T) (hcs : s.hrtimer_queue.cs = some cs)
    (hev : s.hrtimer_queue.event = some ev) (hmem : RT_HRTIMER_IS_QUEUED (s.timers timer) = true)
    (ht0 : timer ≠ 0) (hne : timer ≠ s.update_clock_timer) (hu : s.update_clock_timer ≠ 0)
    (hfuel : T.inorder.length + 1 ≤ fuel) :
    ∃ s2 s' T', rt_hrtimer_dequeue fuel s timer = .ok s2 ∧
      (if s.hrtimer_queue.next = timer then rt_hrtimer_reschedule fuel s2 else .ok s2) = .ok s' ∧
      rt_hrtimer_cancel fuel s timer = .ok (1, s') ∧ QState s' T' ∧
      timer ∉ T'.inorder ∧ RT_HRTIMER_IS_QUEUED (s'.timers timer) = false ∧
      (s'.nodes timer).rt_rb_parent = timer ∧
      (∀ a ∈ T.inorder, a ≠ timer → a ∈ T'.inorder ∧ s'.timers a = s.timers a) ∧
      (T'.inorder = T.inorder.erase timer ∨
        (T.inorder.erase timer = [] ∧ T'.inorder = [s.update_clock_timer])) :=
  cancel_spec hq hcs hev ((hq.flags timer ht0).1 hmem) hne hu hfuel

/-- Instance: the only enqueued timer 1 is cancelled. -/
theorem rt_hrtimer_cancel_dequeues_witness :
    ∃ s' T', rt_hrtimer_cancel 2 oneTimer 1 = .ok (1, s') ∧ QState s' T' ∧
      1 ∉ T'.inorder ∧ RT_HRTIMER_IS_QUEUED (s'.timers 1) = false ∧
      (s'.nodes 1).rt_rb_parent = 1 := by
  obtain ⟨-, s', T', -, -, e, hq', h1, h2, h3, -⟩ :=
    rt_hrtimer_cancel_dequeues oneTimer (node 1 RB_BLACK nil nil) exampleClock exampleEvent 1 2
      oneTimer_state rfl rfl (by decide) (by decide) (by decide) (by decide) (by decide)
  exact ⟨s', T', e, hq', h1, h2, h3⟩

end RtThread

namespace RtThread
open Color Tree rt_hrtimer_mode rt_hrtimer_restart rt_clocksource_mode

/-! ## Forwarding a timer -/

/-- The quotient formed by `rt_hrtimer_forward` is the ceiling of `delta / interval`. -/
theorem tdiv_ceil {delta interval : Int} (hd : 0 ≤ delta) (hi : 0 < interval) :
    Int.tdiv (delta + interval - 1) interval = ⌈(delta : ℚ) / (interval : ℚ)⌉ := by
  have hq : (0 : ℚ) < (interval : ℚ) := by exact_mod_cast hi
  rw [Int.tdiv_eq_ediv (by omega) hi.le, eq_comm, Int.ceil_eq_iff]
  have h1 := Int.emod_add_ediv (delta + interval - 1) interval
  have h2 := Int.emod_nonneg (delta + interval - 1) hi.ne'
  have h3 := Int.emod_lt_of_pos (delta + interval - 1) hi
  set q := (delta + interval - 1) / interval
  set r := (delta + interval - 1) % interval
  have hd' : delta = r + interval * q - interval + 1 := by omega
  constructor
  · rw [lt_div_iff₀ hq]
    have : ((q : ℚ) - 1) * interval = ((q * interval - interval : Int) : ℚ) := by push_cast; ring
    rw [this]
    have : q * interval - interval < delta := by nlinarith
    exact_mod_cast this
  · rw [div_le_iff₀ hq]
    have : (q : ℚ) * interval = ((q * interval : Int) : ℚ) := by push_cast; ring
    rw [this]
    have : delta ≤ q * interval := by nlinarith
    exact_mod_cast this

theorem to_s64_range (x : Int) : -2 ^ 63 ≤ to_s64 x ∧ to_s64 x < 2 ^ 63 := by
  unfold to_s64
  omega

theorem to_int_to_s64 (x : Int) : to_int (to_s64 x) = to_int x := by
  unfold to_int to_s64
  omega

theorem to_s64_pred (x : Int) : to_s64 (to_s64 x - 1) = to_s64 (x - 1) := by
  unfold to_s64
  omega

theorem forward_early {s : Machine} {timer : Nat} {now interval : Int} (ht0 : timer ≠ 0)
    (hr1 : -2 ^ 63 ≤ now - (s.timers timer).deadline)
    (hr2 : now - (s.timers timer).deadline < 2 ^ 63)
    (h : now < (s.timers timer).deadline) :
    rt_hrtimer_forward s timer now interval = .ok (0, s) := by
  have : to_s64 (now - (s.timers timer).deadline) < 0 := by
    rw [to_s64_of_range hr1 hr2]; omega
  simp only [rt_hrtimer_forward, rdt, ht0, if_false, ok_bind, if_pos this, pure_eq_ok]

theorem forward_resync {s : Machine} {ev : rt_clockevent_device} {timer : Nat}
    {now interval : Int} (ht0 : timer ≠ 0) (hev : s.hrtimer_queue.event = some ev)
    (hi : 0 < interval) (h : interval ≤ now - (s.timers timer).deadline)
    (hfit : now - (s.timers timer).deadline + interval ≤ 2 ^ 63) :
    rt_hrtimer_forward s timer now interval =
      .ok (to_int (1 + ⌈((now - (s.timers timer).deadline : Int) : ℚ) / (interval : ℚ)⌉),
        { s with
          timers := Function.update s.timers timer
            { s.timers timer with deadline := to_s64 (now + (ev.min_delta_ns : Int)) } }) := by
  have hd : to_s64 (now - (s.timers timer).deadline) = now - (s.timers timer).deadline :=
    to_s64_of_range (by omega) (by omega)
  have h1 : ¬ now - (s.timers timer).deadline < 0 := by omega
  have h2 : interval ≠ 0 := hi.ne'
  have h4 : to_s64 (to_s64 (now - (s.timers timer).deadline + interval) - 1) =
      now - (s.timers timer).deadline + interval - 1 := by
    rw [to_s64_pred]
    exact to_s64_of_range (by omega) (by omega)
  rw [← tdiv_ceil (by omega) hi]
  simp only [rt_hrtimer_forward, rdt, ht0, if_false, ok_bind, hd, if_neg h1, ge_iff_le, if_pos h,
    if_neg h2, h4, to_int_to_s64, hev, wrt, pure_eq_ok]

theorem forward_resync_any {s : Machine} {ev : rt_clockevent_device} {timer : Nat}
    {now interval : Int} (ht0 : timer ≠ 0) (hev : s.hrtimer_queue.event = some ev)
    (hi : 0 < interval) (h : interval ≤ now - (s.timers timer).deadline)
    (hr2 : now - (s.timers timer).deadline < 2 ^ 63) :
    ∃ r, rt_hrtimer_forward s timer now interval =
      .ok (r, { s with
          timers := Function.update s.timers timer
            { s.timers timer with deadline := to_s64 (now + (ev.min_delta_ns : Int)) } }) := by
  have hd : to_s64 (now - (s.timers timer).deadline) = now - (s.timers timer).deadline :=
    to_s64_of_range (by omega) (by omega)
  have h1 : ¬ now - (s.timers timer).deadline < 0 := by omega
  have h2 : interval ≠ 0 := hi.ne'
  refine ⟨to_int (to_s64 (1 + Int.tdiv (to_s64 (to_s64
    (now - (s.timers timer).deadline + interval) - 1)) interval)), ?_⟩
  simp only [rt_hrtimer_forward, rdt, ht0, if_false, ok_bind, hd, if_neg h1, ge_iff_le, if_pos h,
    if_neg h2, hev, wrt, pure_eq_ok]

theorem forward_step {s : Machine} {timer : Nat} {now interval : Int} (ht0 : timer ≠ 0)
    (hr2 : now - (s.timers timer).deadline < 2 ^ 63)
    (h1 : (s.timers timer).deadline ≤ now) (h2 : now - (s.timers timer).deadline < interval) :
    rt_hrtimer_forward s timer now interval =
      .ok (1, { s with
        timers := Function.update s.timers timer
          { s.timers timer with
            deadline := to_s64 ((s.timers timer).deadline + interval) } }) := by
  have hd : to_s64 (now - (s.timers timer).deadline) = now - (s.timers timer).deadline :=
    to_s64_of_range (by omega) (by omega)
  have h3 : ¬ now - (s.timers timer).deadline < 0 := by omega
  have h4 : ¬ interval ≤ now - (s.timers timer).deadline := by omega
  simp only [rt_hrtimer_forward, rdt, ht0, if_false, ok_bind, hd, if_neg h3, ge_iff_le,
    if_neg h4, if_pos h1, wrt, pure_eq_ok]

end RtThread

namespace RtThread
open Color Tree rt_hrtimer_mode rt_hrtimer_restart rt_clocksource_mode

/-! ## Initialising a timer in either mode -/

theorem init_abs_eq {s : Machine} {timer f a : Nat} {w : Int} (ht0 : timer ≠ 0) :
    rt_hrtimer_init s timer f a w RT_HRTIMER_MODE_ABS = .ok { s with
      nodes := Function.update s.nodes timer
        { rt_rb_parent := timer, rt_rb_color := RB_RED, rt_rb_right := 0, rt_rb_left := 0 }
      timers := Function.update s.timers timer
        { deadline := w, state := RT_HRTIMER_STATE_INACTIVE, mode := RT_HRTIMER_MODE_ABS,
          function := f, arg := a } } := by
  simp only [rt_hrtimer_init, wr_ok ht0, wrt, ht0, if_false, ok_bind, reduceCtorEq,
    RT_RB_CLEAR_NODE, rt_rb_set_parent, Function.update_same, Function.update_idem, pure_eq_ok]

theorem init_spec {s : Machine} {cs : rt_clocksource_device} {timer f a : Nat} {w : Int}
    {mode : rt_hrtimer_mode} (ht0 : timer ≠ 0)
    (hcs : mode = RT_HRTIMER_MODE_REL → s.hrtimer_queue.cs = some cs) :
    ∃ s', rt_hrtimer_init s timer f a w mode = .ok s' ∧
      s'.timers timer =
        { deadline := if mode = RT_HRTIMER_MODE_REL then
              to_s64 (clockTime cs (s.counter s.reads) + w)
            else w,
          state := RT_HRTIMER_STATE_INACTIVE, mode := mode, function := f, arg := a } ∧
      s'.nodes timer =
        { rt_rb_parent := timer, rt_rb_color := RB_RED, rt_rb_right := 0, rt_rb_left := 0 } ∧
      s'.hrtimer_queue.head = s.hrtimer_queue.head ∧
      s'.hrtimer_queue.next = s.hrtimer_queue.next ∧
      s'.hrtimer_queue.event = s.hrtimer_queue.event ∧
      s'.update_clock_timer = s.update_clock_timer ∧ s'.armed = s.armed ∧ s'.fired = s.fired ∧
      (∀ x, x ≠ timer → s'.nodes x = s.nodes x ∧ s'.timers x = s.timers x) := by
  cases mode with
  | RT_HRTIMER_MODE_ABS =>
    refine ⟨_, init_abs_eq ht0, ?_, ?_, rfl, rfl, rfl, rfl, rfl, rfl, ?_⟩
    · simp
    · simp
    · intro x hx
      simp [Function.update_noteq hx]
  | RT_HRTIMER_MODE_REL =>
    refine ⟨_, init_rel_eq (hcs rfl) ht0, ?_, ?_, rfl, rfl, rfl, rfl, rfl, rfl, ?_⟩
    · simp
    · simp
    · intro x hx
      simp [Function.update_noteq hx]

end RtThread

namespace RtThread
open Color Tree rt_hrtimer_mode rt_hrtimer_restart rt_clocksource_mode

/-! ## Cancelling twice, forwarding, initialising -/

/-- C11: on a consistent queue with both devices registered, two calls of
`rt_hrtimer_cancel` in a row on an enqueued timer (other than the file-private keep-alive
timer) return 1 and then 0, and the second call returns the state it was given: it changes
neither the timer record nor the queue. -/
theorem rt_hrtimer_cancel_twice (s : Machine) (T : Tree) (cs : rt_clocksource_device)
    (ev : rt_clockevent_device) (timer fuel : Nat)
    (hq : QState s T) (hcs : s.hrtimer_queue.cs = some cs)
    (hev : s.hrtimer_queue.event = some ev) (hmem : RT_HRTIMER_IS_QUEUED (s.timers timer) = true)
    (ht0 : timer ≠ 0) (hne : timer ≠ s.update_clock_timer) (hu : s.update_clock_timer ≠ 0)
    (hfuel : T.inorder.length + 1 ≤ fuel) :
    ∃ s', rt_hrtimer_cancel fuel s timer = .ok (1, s') ∧
      rt_hrtimer_cancel fuel s' timer = .ok (0, s') := by
  obtain ⟨-, s', -, -, -, e, -, -, hflag, -⟩ :=
    cancel_spec hq hcs hev ((hq.flags timer ht0).1 hmem) hne hu hfuel
  refine ⟨s', e, ?_⟩
  simp only [rt_hrtimer_cancel, rdt, ht0, if_false, ok_bind, hflag, if_true, pure_eq_ok]

/-- Instance: the only enqueued timer 1 is cancelled twice. -/
theorem rt_hrtimer_cancel_twice_witness :
    ∃ s', rt_hrtimer_cancel 2 oneTimer 1 = .ok (1, s') ∧
      rt_hrtimer_cancel 2 s' 1 = .ok (0, s') :=
  rt_hrtimer_cancel_twice oneTimer (node 1 RB_BLACK nil nil) exampleClock exampleEvent 1 2
    oneTimer_state rfl rfl (by decide) (by decide) (by decide) (by decide) (by decide)

/-- C13, refuted: timer 2 of the idle system has deadline `D = 2`; forwarded with the even
interval `I = 2` at `now = D + 2.5 * I = 7` the overrun returned is 4, not 3, and the new
deadline is `now + min_delta_ns = 1007`, which does not lie in `(now - I, now]`.  Timer 3
(deadline `D = 3`) forwarded with the even interval `I = 3 * 2^60` at `now = D + 2.5 * I`
returns 0: the 64-bit sum `now - D + I - 1` is negative. -/
theorem rt_hrtimer_forward_two_and_a_half :
    (∃ s', rt_hrtimer_forward idleMachine 2 ((idleMachine.timers 2).deadline + 5 * (2 / 2)) 2
        = .ok (4, s') ∧ (s'.timers 2).deadline = 1007 ∧
      ¬ ((idleMachine.timers 2).deadline + 5 * (2 / 2) - 2 < (s'.timers 2).deadline ∧
        (s'.timers 2).deadline ≤ (idleMachine.timers 2).deadline + 5 * (2 / 2))) ∧
    (rt_hrtimer_forward idleMachine 3
        ((idleMachine.timers 3).deadline + 5 * (3458764513820540928 / 2))
        3458764513820540928).map (fun r => r.1) = .ok 0 ∧
    (idleMachine.timers 3).deadline + 5 * (3458764513820540928 / 2) < 2 ^ 63 := by
  refine ⟨⟨_, rfl, rfl, ?_⟩, by rfl, by decide⟩
  decide

/-- C13: for every deadline `D`, every even interval `I > 0` with `3.5 * I ≤ 2^63` (so that
the 64-bit sum `now - D + I - 1` does not overflow) and a registered clockevent,
`rt_hrtimer_forward` on a timer with deadline `D` called with `now = D + 2.5 * I` returns
the overrun `4 = 1 + ceil(2.5)` and leaves as new deadline the 64-bit sum
`now + min_delta_ns`, which is `now + min_delta_ns` itself, and so not before `now`,
whenever that lies in `[-2^63, 2^63)`; no other field is modified. -/
theorem rt_hrtimer_forward_resync_overrun (s : Machine) (ev : rt_clockevent_device)
    (timer : Nat) (interval : Int) (ht0 : timer ≠ 0) (hev : s.hrtimer_queue.event = some ev)
    (hi : 0 < interval) (heven : 2 ∣ interval) (hfit : 7 * (interval / 2) ≤ 2 ^ 63) :
    rt_hrtimer_forward s timer ((s.timers timer).deadline + 5 * (interval / 2)) interval =
        .ok (4, { s with
          timers := Function.update s.timers timer
            { s.timers timer with
              deadline := to_s64 ((s.timers timer).deadline + 5 * (interval / 2)
                + (ev.min_delta_ns : Int)) } }) ∧
      (-2 ^ 63 ≤ (s.timers timer).deadline + 5 * (interval / 2) + (ev.min_delta_ns : Int) →
        (s.timers timer).deadline + 5 * (interval / 2) + (ev.min_delta_ns : Int) < 2 ^ 63 →
        to_s64 ((s.timers timer).deadline + 5 * (interval / 2) + (ev.min_delta_ns : Int)) =
            (s.timers timer).deadline + 5 * (interval / 2) + (ev.min_delta_ns : Int) ∧
          (s.timers timer).deadline + 5 * (interval / 2) ≤
            (s.timers timer).deadline + 5 * (interval / 2) + (ev.min_delta_ns : Int)) := by
  obtain ⟨h, rfl⟩ := heven
  have hh : 0 < h := by omega
  have e := @forward_resync s ev timer ((s.timers timer).deadline + 5 * (2 * h / 2)) (2 * h)
    ht0 hev hi (by omega) (by omega)
  have hc : ⌈(((s.timers timer).deadline + 5 * (2 * h / 2) - (s.timers timer).deadline : Int) : ℚ)
      / ((2 * h : Int) : ℚ)⌉ = 3 := by
    have hq : (0 : ℚ) < (h : ℚ) := by exact_mod_cast hh
    have : (((s.timers timer).deadline + 5 * (2 * h / 2) - (s.timers timer).deadline : Int) : ℚ)
        / ((2 * h : Int) : ℚ) = 5 / 2 := by
      have : (s.timers timer).deadline + 5 * (2 * h / 2) - (s.timers timer).deadline = 5 * h := by
        omega
      rw [this]
      push_cast
      field_simp
      ring
    rw [this, Int.ceil_eq_iff]
    norm_num
  rw [hc] at e
  exact ⟨e, fun h1 h2 => ⟨to_s64_of_range h1 h2, by omega⟩⟩

/-- Instance: timer 2 of the idle system (deadline 2) is forwarded with interval 4 at
time 12. -/
theorem rt_hrtimer_forward_resync_overrun_witness :
    rt_hrtimer_forward idleMachine 2 ((idleMachine.timers 2).deadline + 5 * (4 / 2)) 4 =
      .ok (4, { idleMachine with
        timers := Function.update idleMachine.timers 2
          { idleMachine.timers 2 with
            deadline := to_s64 ((idleMachine.timers 2).deadline + 5 * (4 / 2)
              + (exampleEvent.min_delta_ns : Int)) } }) :=
  (rt_hrtimer_forward_resync_overrun idleMachine exampleEvent 2 4 (by decide) rfl (by decide)
    (by decide) (by decide)).1

/-- C14, refuted at the width of `rt_ktime_t`: timer 10 of the idle system (deadline 10)
forwarded at `now = 15` with the interval `2^63 - 1` gets the 64-bit sum
`-9223372036854775799` as deadline, which lies before `now`; timer 1 (deadline 1) forwarded
at `now = 2^63 - 1` with interval 1 gets the 64-bit sum `now + 1000 = -9223372036854774809`;
and a timer with the deadline `-2^63` forwarded at `now = 0` keeps its deadline, the 64-bit
difference `now - D` being negative. -/
theorem rt_hrtimer_forward_deadline_wraps :
    ((rt_hrtimer_forward idleMachine 10 15 9223372036854775807).map
        (fun r => decide (15 < (r.2.timers 10).deadline)) = .ok false) ∧
    ((rt_hrtimer_forward idleMachine 1 9223372036854775807 1).map
        (fun r => decide (9223372036854775807 < (r.2.timers 1).deadline)) = .ok false) ∧
    ((rt_hrtimer_forward (oneTimerAt (-9223372036854775808) exampleEvent) 1 0 1).map
        (fun r => decide (0 < (r.2.timers 1).deadline)) = .ok false) ∧
    0 < exampleEvent.min_delta_ns := by
  refine ⟨by rfl, by rfl, by rfl, by decide⟩

/-- C14: with a registered clockevent whose `min_delta_ns` is positive, an interval `> 0`
and a timer with a 64-bit deadline `D`, where the difference `now - D` and the sums
`now + min_delta_ns` and `D + interval` that the function may form lie in the range
`[-2^63, 2^63)` of `rt_ktime_t`: `rt_hrtimer_forward(timer, now, interval)` returns, and
afterwards the deadline of the timer is strictly greater than `now`; likewise
`rt_hrtimer_forward_now` leaves a deadline strictly greater than the absolute time it
sampled and passed on. -/
theorem rt_hrtimer_forward_future (s : Machine) (ev : rt_clockevent_device) (timer : Nat)
    (now interval : Int) (ht0 : timer ≠ 0) (hev : s.hrtimer_queue.event = some ev)
    (hi : 0 < interval) (hmin : 0 < ev.min_delta_ns)
    (hD : -2 ^ 63 ≤ (s.timers timer).deadline)
    (hstep : (s.timers timer).deadline + interval < 2 ^ 63) :
    (-2 ^ 63 ≤ now - (s.timers timer).deadline → now - (s.timers timer).deadline < 2 ^ 63 →
      now + (ev.min_delta_ns : Int) < 2 ^ 63 →
      ∃ r s', rt_hrtimer_forward s timer now interval = .ok (r, s') ∧
        now < (s'.timers timer).deadline) ∧
    (∀ cs, s.hrtimer_queue.cs = some cs →
      -2 ^ 63 ≤ clockTime cs (s.counter s.reads) - (s.timers timer).deadline →
      clockTime cs (s.counter s.reads) - (s.timers timer).deadline < 2 ^ 63 →
      clockTime cs (s.counter s.reads) + (ev.min_delta_ns : Int) < 2 ^ 63 →
      ∃ r s', rt_hrtimer_forward_now s timer interval = .ok (r, s') ∧
        clockTime cs (s.counter s.reads) < (s'.timers timer).deadline) := by
  have key : ∀ (s : Machine) (now : Int), s.hrtimer_queue.event = some ev →
      -2 ^ 63 ≤ (s.timers timer).deadline → (s.timers timer).deadline + interval < 2 ^ 63 →
      -2 ^ 63 ≤ now - (s.timers timer).deadline → now - (s.timers timer).deadline < 2 ^ 63 →
      now + (ev.min_delta_ns : Int) < 2 ^ 63 →
      ∃ r s', rt_hrtimer_forward s timer now interval = .ok (r, s') ∧
        now < (s'.timers timer).deadline := by
    intro s now hev hD hstep hr1 hr2 hres
    have hm : (0 : Int) < (ev.min_delta_ns : Int) := by exact_mod_cast hmin
    by_cases h1 : now < (s.timers timer).deadline
    · exact ⟨_, _, forward_early ht0 hr1 hr2 h1, h1⟩
    · by_cases h2 : interval ≤ now - (s.timers timer).deadline
      · obtain ⟨r, e⟩ := forward_resync_any ht0 hev hi h2 hr2
        refine ⟨_, _, e, ?_⟩
        simp only [Function.update_same]
        rw [to_s64_of_range (by omega) hres]
        omega
      · refine ⟨_, _, forward_step ht0 hr2 (by omega) (by omega), ?_⟩
        simp only [Function.update_same]
        rw [to_s64_of_range (by omega) hstep]
        omega
  refine ⟨key s now hev hD hstep, fun cs hcs hr1 hr2 hres => ?_⟩
  simp only [rt_hrtimer_forward_now, abs_time_eq hcs, ok_bind]
  exact key _ _ hev hD hstep hr1 hr2 hres

/-- Instance: timer 3 of the idle system (deadline 3) is forwarded at time 10 with
interval 2. -/
theorem rt_hrtimer_forward_future_witness :
    ∃ r s', rt_hrtimer_forward idleMachine 3 10 2 = .ok (r, s') ∧
      10 < (s'.timers 3).deadline :=
  (rt_hrtimer_forward_future idleMachine exampleEvent 3 10 2 (by decide) rfl (by decide)
    (by decide) (by decide) (by decide)).1 (by decide) (by decide) (by decide)

/-- C15, refuted at the width of `rt_ktime_t`: at time 5 timer 2 of the idle system is
initialised as a relative timer with the time `2^63 - 1`; the deadline stored is the 64-bit
sum `-9223372036854775804`, not `5 + (2^63 - 1)`. -/
theorem rt_hrtimer_init_deadline_wraps :
    (rt_hrtimer_init idleMachine 2 7 2 9223372036854775807 RT_HRTIMER_MODE_REL).map
        (fun s => (s.timers 2).deadline) = .ok (-9223372036854775804) ∧
    (rt_clocksource_absolute_time idleMachine).map (fun r => r.1) = .ok 5 ∧
    (-9223372036854775804 : Int) ≠ 5 + 9223372036854775807 := by
  refine ⟨by rfl, by rfl, by decide⟩

/-- C15: `rt_hrtimer_init(timer, callback, arg, time, mode)` returns (a relative timer
needs the registered clocksource for `now`), and afterwards the record holds exactly the
given callback, argument and mode, as deadline `time` for an absolute timer and for a
relative one the sum `now + time` formed in the signed 64-bit `rt_ktime_t`, which is
`now + time` itself whenever that lies in `[-2^63, 2^63)`, and the state `INACTIVE`, so that
neither the `ENQUEUED` nor the `CALLBACK` flag is set; the node of the timer is cleared
(`RT_RB_EMPTY_NODE` holds).  The queue is not modified: root, cached minimum and clockevent
of the queue, the logs, and the node and record of every other timer are the old ones, and
a consistent queue that does not hold the timer is still consistent with the same tree. -/
theorem rt_hrtimer_init_record (s : Machine) (cs : rt_clocksource_device)
    (timer function arg : Nat) (time : Int) (mode : rt_hrtimer_mode) (ht0 : timer ≠ 0)
    (hcs : mode = RT_HRTIMER_MODE_REL → s.hrtimer_queue.cs = some cs) :
    ∃ s', rt_hrtimer_init s timer function arg time mode = .ok s' ∧
      s'.timers timer =
        { deadline := if mode = RT_HRTIMER_MODE_REL then
              to_s64 (clockTime cs (s.counter s.reads) + time)
            else time,
          state := RT_HRTIMER_STATE_INACTIVE, mode := mode, function := function, arg := arg } ∧
      (-2 ^ 63 ≤ clockTime cs (s.counter s.reads) + time →
        clockTime cs (s.counter s.reads) + time < 2 ^ 63 →
        to_s64 (clockTime cs (s.counter s.reads) + time) =
          clockTime cs (s.counter s.reads) + time) ∧
      RT_HRTIMER_IS_QUEUED (s'.timers timer) = false ∧
      RT_HRTIMER_IS_CALLBACK_RUNNING (s'.timers timer) = false ∧
      RT_HRTIMER_IS_ACTIVE (s'.timers timer) = false ∧
      RT_RB_EMPTY_NODE s'.nodes timer = .ok true ∧
      s'.hrtimer_queue.head = s.hrtimer_queue.head ∧
      s'.hrtimer_queue.next = s.hrtimer_queue.next ∧
      s'.hrtimer_queue.event = s.hrtimer_queue.event ∧
      s'.armed = s.armed ∧ s'.fired = s.fired ∧
      (∀ x, x ≠ timer → s'.nodes x = s.nodes x ∧ s'.timers x = s.timers x) ∧
      (∀ T, QState s T → timer ∉ T.inorder → QState s' T) := by
  obtain ⟨s', e, ht, hn, hh, hx, hev, -, har, hfi, hoth⟩ :=
    init_spec (f := function) (a := arg) (w := time) ht0 hcs
  have hnq : RT_HRTIMER_IS_QUEUED (s'.timers timer) = false := by
    simp [ht, RT_HRTIMER_IS_QUEUED, RT_HRTIMER_STATE_INACTIVE]
  refine ⟨s', e, ht, to_s64_of_range, hnq, ?_, ?_, ?_, hh, hx, hev, har, hfi, hoth, ?_⟩
  · simp [ht, RT_HRTIMER_IS_CALLBACK_RUNNING, RT_HRTIMER_STATE_INACTIVE]
  · simp [ht, RT_HRTIMER_IS_ACTIVE]
  · simp [RT_RB_EMPTY_NODE, rt_rb_parent, rd_ok ht0, hn]
  · intro T hq hT
    refine QState_congr hq ?_ ?_ hh hx ?_ ?_
    · intro a ha
      exact (hoth a (fun h => hT (h ▸ ha))).1
    · intro a ha0 ha
      by_cases h : a = timer
      · subst h; rw [hn]
      · rw [(hoth a h).1]; exact hq.idle a ha0 ha
    · intro a ha
      simp only [deadlineOf]
      rw [(hoth a (fun h => hT (h ▸ ha))).2]
    · intro a ha0
      by_cases h : a = timer
      · subst h
        rw [hnq]
        constructor
        · intro h; exact absurd h (by simp)
        · intro h; exact absurd ((hq.flags a ha0).1 h) hT
      · rw [(hoth a h).2]

/-- Instance: timer 2 of the idle system is initialised as a relative timer of 10 ns with
the callback at address 7, at time 5. -/
theorem rt_hrtimer_init_record_witness :
    ∃ s', rt_hrtimer_init idleMachine 2 7 2 10 RT_HRTIMER_MODE_REL = .ok s' ∧
      s'.timers 2 =
        { deadline := 15, state := RT_HRTIMER_STATE_INACTIVE, mode := RT_HRTIMER_MODE_REL,
          function := 7, arg := 2 } ∧
      RT_RB_EMPTY_NODE s'.nodes 2 = .ok true ∧ QState s' nil := by
  obtain ⟨s', e, ht, -, -, -, -, hn, -, -, -, -, -, -, hq⟩ :=
    rt_hrtimer_init_record idleMachine exampleClock 2 7 2 10 RT_HRTIMER_MODE_REL (by decide)
      (fun _ => rfl)
  exact ⟨s', e, ht.trans (by rfl), hn, hq nil idleMachine_state (by simp [Tree.inorder])⟩

end RtThread

namespace RtThread
open Color Tree rt_hrtimer_mode rt_hrtimer_restart rt_clocksource_mode

/-! ## The cycle delta and its conversion -/

theorem toNat_emod_mod {x : Int} {M N : Nat} (hMN : M ∣ N) (hN : 0 < N) :
    (((x % (N : Int)).toNat % M : Nat) : Int) = x % (M : Int) := by
  have h0 : 0 ≤ x % (N : Int) := Int.emod_nonneg _ (by exact_mod_cast hN.ne')
  rw [Int.natCast_mod, Int.toNat_of_nonneg h0]
  exact Int.emod_emod_of_dvd x (by exact_mod_cast hMN)

theorem delta_up {M N raw last d : Nat} (hMN : M ∣ N) (hN : 0 < N) (hd : d < M)
    (h : raw % M = (last + d) % M) :
    ((((raw % N : Nat) : Int) - (last : Int)) % (N : Int)).toNat % M = d := by
  have key : (((raw % N : Nat) : Int) - (last : Int)) % (M : Int) = (d : Int) := by
    have h1 : ((raw % N : Nat) : Int) % (M : Int) = ((last + d : Nat) : Int) % (M : Int) := by
      rw [← Int.natCast_mod, ← Int.natCast_mod, Nat.mod_mod_of_dvd _ hMN, h]
    rw [Int.sub_emod, h1, ← Int.sub_emod]
    push_cast
    rw [add_sub_cancel_left]
    exact Int.emod_eq_of_lt (by omega) (by exact_mod_cast hd)
  have := toNat_emod_mod (x := ((raw % N : Nat) : Int) - (last : Int)) hMN hN
  rw [key] at this
  exact_mod_cast this

theorem delta_down {M N raw last d : Nat} (hMN : M ∣ N) (hN : 0 < N) (hd : d < M)
    (h : (raw + d) % M = last % M) :
    (((last : Int) - ((raw % N : Nat) : Int)) % (N : Int)).toNat % M = d := by
  have key : ((last : Int) - ((raw % N : Nat) : Int)) % (M : Int) = (d : Int) := by
    have h1 : ((raw % N : Nat) : Int) % (M : Int) = (raw : Int) % (M : Int) := by
      rw [← Int.natCast_mod, ← Int.natCast_mod, Nat.mod_mod_of_dvd _ hMN]
    have h2 : (last : Int) % (M : Int) = ((raw + d : Nat) : Int) % (M : Int) := by
      rw [← Int.natCast_mod, ← Int.natCast_mod, h]
    rw [Int.sub_emod, h1, h2, ← Int.sub_emod]
    push_cast
    rw [add_sub_cancel_left]
    exact Int.emod_eq_of_lt (by omega) (by exact_mod_cast hd)
  have := toNat_emod_mod (x := (last : Int) - ((raw % N : Nat) : Int)) hMN hN
  rw [key] at this
  exact_mod_cast this

/-- The cycle delta computed from a reading that lies `d ≤ mask` cycles past the anchor
is `d`, whatever the wrap of the counter. -/
theorem clockDelta_eq {cs : rt_clocksource_device} {raw d w : Nat} (hw : w ≤ 64)
    (hm : cs.mask = 2 ^ w - 1) (hd : d ≤ cs.mask) (h : CyclesPastAnchor cs raw d) :
    clockDelta cs raw = d := by
  have hpos : 0 < 2 ^ w := Nat.pow_pos (by norm_num)
  have hM : cs.mask + 1 = 2 ^ w := by omega
  have hdvd : 2 ^ w ∣ 2 ^ 64 := Nat.pow_dvd_pow 2 hw
  unfold CyclesPastAnchor at h
  rw [hM] at h
  unfold clockDelta to_u64
  rw [hm]
  simp only [Nat.and_pow_two_sub_one_eq_mod, Int.ofNat_eq_coe]
  split_ifs with hmode
  · rw [if_pos hmode] at h
    exact delta_up (N := 2 ^ 64) hdvd (by norm_num) (by omega) h
  · rw [if_neg hmode] at h
    exact delta_down (N := 2 ^ 64) hdvd (by norm_num) (by omega) h

theorem cyc2ns_eq {d mult shift : Nat} (h : d * mult < 2 ^ 64) :
    rt_clocksource_cyc2ns d mult shift = d * mult / 2 ^ shift := by
  unfold rt_clocksource_cyc2ns
  rw [Nat.mod_eq_of_lt h, Nat.shiftRight_eq_div_pow]

/-- Within the budget `max_cycles` of a calibrated clocksource a cycle count is below the
wrap of the counter and its conversion does not overflow 64 bits. -/
theorem calibrated_budget {cs : rt_clocksource_device} {d : Nat} (hc : Calibrated cs)
    (hd : d ≤ cs.max_cycles) : d ≤ cs.mask ∧ d * cs.mult < 2 ^ 64 := by
  obtain ⟨-, hpos, -, hmax⟩ := hc
  have h1 : cs.max_cycles ≤ cs.mask := by rw [hmax]; exact min_le_right _ _
  have h2 : cs.max_cycles ≤ (2 ^ 64 - 1) / (cs.mult + cs.maxadj) := by
    rw [hmax]; exact min_le_left _ _
  refine ⟨le_trans hd h1, ?_⟩
  have h3 : cs.max_cycles * (cs.mult + cs.maxadj) ≤ 2 ^ 64 - 1 :=
    (Nat.le_div_iff_mul_le hpos).1 h2
  have h4 : d * cs.mult ≤ cs.max_cycles * (cs.mult + cs.maxadj) :=
    Nat.mul_le_mul hd (Nat.le_add_right _ _)
  omega

end RtThread

namespace RtThread
open Color Tree rt_hrtimer_mode rt_hrtimer_restart rt_clocksource_mode

/-! ## One reading of the clock within the budget -/

/-- Conversion of `d` cycles by the factors of `cs`, without the 64-bit reduction. -/
theorem clockTime_eq {cs : rt_clocksource_device} {raw d : Nat} (hc : Calibrated cs)
    (hp : CyclesPastAnchor cs raw d) (hd : d ≤ cs.max_cycles)
    (hlo : -2 ^ 63 ≤ cs.time_base)
    (hhi : cs.time_base + ((d * cs.mult / 2 ^ cs.shift : Nat) : Int) < 2 ^ 63) :
    clockDelta cs raw = d ∧
    rt_clocksource_cyc2ns (clockDelta cs raw) cs.mult cs.shift = d * cs.mult / 2 ^ cs.shift ∧
    clockTime cs raw = cs.time_base + ((d * cs.mult / 2 ^ cs.shift : Nat) : Int) := by
  obtain ⟨hb1, hb2⟩ := calibrated_budget hc hd
  obtain ⟨⟨w, hw, hm⟩, -⟩ := hc
  have h1 : clockDelta cs raw = d := clockDelta_eq hw hm hb1 hp
  have h2 : rt_clocksource_cyc2ns (clockDelta cs raw) cs.mult cs.shift
      = d * cs.mult / 2 ^ cs.shift := by rw [h1, cyc2ns_eq hb2]
  refine ⟨h1, h2, ?_⟩
  unfold clockTime
  rw [h2]
  exact to_s64_of_range (by simp only [Int.ofNat_eq_coe]; omega) hhi

theorem clockDev_mask (cs : rt_clocksource_device) (raw : Nat) :
    (clockDev cs raw).mask = cs.mask ∧ (clockDev cs raw).mult = cs.mult ∧
    (clockDev cs raw).shift = cs.shift ∧ (clockDev cs raw).maxadj = cs.maxadj ∧
    (clockDev cs raw).mode = cs.mode ∧ (clockDev cs raw).max_cycles = cs.max_cycles ∧
    (clockDev cs raw).max_idle_ns_half = cs.max_idle_ns_half ∧
    (clockDev cs raw).max_idle_ns = cs.max_idle_ns := by
  unfold clockDev
  split_ifs <;> exact ⟨rfl, rfl, rfl, rfl, rfl, rfl, rfl, rfl⟩

theorem Calibrated_clockDev {cs : rt_clocksource_device} (raw : Nat) (hc : Calibrated cs) :
    Calibrated (clockDev cs raw) := by
  obtain ⟨h1, h2, h3, h4, -, h6, -, -⟩ := clockDev_mask cs raw
  unfold Calibrated
  rw [h1, h2, h4, h6]
  exact hc

theorem CounterAdvances_clockDev {cs : rt_clocksource_device} {counter adv : Nat → Nat}
    (raw : Nat) (h : CounterAdvances cs counter adv) :
    CounterAdvances (clockDev cs raw) counter adv := by
  obtain ⟨h1, -, -, -, h5, -, -, -⟩ := clockDev_mask cs raw
  unfold CounterAdvances
  rw [h1, h5]
  exact h

theorem anchorDistances_congr {cs cs' : rt_clocksource_device} (adv : Nat → Nat)
    (h1 : cs'.mult = cs.mult) (h2 : cs'.shift = cs.shift)
    (h3 : cs'.max_idle_ns_half = cs.max_idle_ns_half) :
    ∀ (n i d : Nat), anchorDistances cs' adv n i d = anchorDistances cs adv n i d := by
  intro n
  induction n with
  | zero => intro i d; rfl
  | succ n ih =>
    intro i d
    simp only [anchorDistances, h1, h2, h3, ih]

/-- The reading after the next one lies `adv` cycles further from the anchor, or `adv`
cycles past the new anchor when the call in between has moved it. -/
theorem next_past_anchor {cs : rt_clocksource_device} {counter adv : Nat → Nat} {i d : Nat}
    (hc : Calibrated cs) (ha : CounterAdvances cs counter adv)
    (hp : CyclesPastAnchor cs (counter i) d) (hd : d ≤ cs.max_cycles) :
    CyclesPastAnchor (clockDev cs (counter i)) (counter (i + 1))
      ((if rt_clocksource_cyc2ns d cs.mult cs.shift > cs.max_idle_ns_half then 0 else d)
        + adv i) := by
  obtain ⟨hb1, hb2⟩ := calibrated_budget hc hd
  obtain ⟨⟨w, hw, hm⟩, -⟩ := hc
  have hdel : clockDelta cs (counter i) = d := clockDelta_eq hw hm hb1 hp
  have hpos : 0 < 2 ^ w := Nat.pow_pos (by norm_num)
  have hM : cs.mask + 1 = 2 ^ w := by omega
  have hdvd : 2 ^ w ∣ 2 ^ 64 := Nat.pow_dvd_pow 2 hw
  have hai := ha i
  unfold CyclesPastAnchor at hp ⊢
  unfold clockDev
  rw [hdel]
  rw [hM] at hp hai
  by_cases hre : rt_clocksource_cyc2ns d cs.mult cs.shift > cs.max_idle_ns_half
  · simp only [hre, if_true, hM, zero_add]
    by_cases hmode : cs.mode = RT_CLOCKSOURCE_UP
    · rw [if_pos hmode] at hai ⊢
      rw [hai, Nat.add_mod, Nat.add_mod (counter i % 2 ^ 64), Nat.mod_mod_of_dvd _ hdvd]
    · rw [if_neg hmode] at hai ⊢
      rw [hai, Nat.mod_mod_of_dvd _ hdvd]
  · simp only [hre, if_false, hM]
    by_cases hmode : cs.mode = RT_CLOCKSOURCE_UP
    · rw [if_pos hmode] at hai hp ⊢
      rw [hai, Nat.add_mod, hp, ← Nat.add_mod, Nat.add_assoc]
    · rw [if_neg hmode] at hai hp ⊢
      rw [← hp, ← Nat.add_assoc, Nat.add_right_comm, Nat.add_mod, hai, ← Nat.add_mod]

end RtThread

namespace RtThread
open Color Tree rt_hrtimer_mode rt_hrtimer_restart rt_clocksource_mode

/-! ## Successive readings of the clock -/

theorem convert_mono {a b m : Nat} (S : Nat) (h : a ≤ b) : a * m / S ≤ b * m / S :=
  Nat.div_le_div_right (Nat.mul_le_mul_right m h)

theorem convert_add (a b m S : Nat) : a * m / S + b * m / S ≤ (a + b) * m / S := by
  rw [Nat.add_mul]
  exact Nat.add_div_le_add_div _ _ _

/-- Effect of one call on time base and distance from the anchor. -/
theorem step_time {cs : rt_clocksource_device} {raw d : Nat} (a : Nat)
    (hdel : clockDelta cs raw = d)
    (hns : rt_clocksource_cyc2ns (clockDelta cs raw) cs.mult cs.shift
      = d * cs.mult / 2 ^ cs.shift)
    (htime : clockTime cs raw = cs.time_base + ((d * cs.mult / 2 ^ cs.shift : Nat) : Int)) :
    (cs.time_base + ((d * cs.mult / 2 ^ cs.shift : Nat) : Int) ≤
      (clockDev cs raw).time_base +
        ((((if rt_clocksource_cyc2ns d cs.mult cs.shift > cs.max_idle_ns_half then 0 else d)
          + a) * cs.mult / 2 ^ cs.shift : Nat) : Int)) ∧
    cs.time_base ≤ (clockDev cs raw).time_base ∧
    ∀ E : Nat, (clockDev cs raw).time_base +
        ((((if rt_clocksource_cyc2ns d cs.mult cs.shift > cs.max_idle_ns_half then 0 else d)
          + a + E) * cs.mult / 2 ^ cs.shift : Nat) : Int) ≤
      cs.time_base + (((d + (a + E)) * cs.mult / 2 ^ cs.shift : Nat) : Int) := by
  unfold clockDev
  rw [hns]
  rw [hdel] at hns
  rw [hns]
  by_cases hre : d * cs.mult / 2 ^ cs.shift > cs.max_idle_ns_half
  · simp only [hre, if_true, zero_add, htime]
    refine ⟨?_, ?_, fun E => ?_⟩
    · generalize d * cs.mult / 2 ^ cs.shift = A
      generalize a * cs.mult / 2 ^ cs.shift = B
      omega
    · generalize d * cs.mult / 2 ^ cs.shift = A
      omega
    · have := convert_add d (a + E) cs.mult (2 ^ cs.shift)
      generalize d * cs.mult / 2 ^ cs.shift = A at this ⊢
      generalize (a + E) * cs.mult / 2 ^ cs.shift = B at this ⊢
      generalize (d + (a + E)) * cs.mult / 2 ^ cs.shift = C at this ⊢
      omega
  · simp only [hre, if_false]
    refine ⟨?_, le_refl _, fun E => ?_⟩
    · have := convert_mono (m := cs.mult) (2 ^ cs.shift) (Nat.le_add_right d a)
      generalize d * cs.mult / 2 ^ cs.shift = A at this ⊢
      generalize (d + a) * cs.mult / 2 ^ cs.shift = B at this ⊢
      omega
    · rw [Nat.add_assoc]

/-- Successive readings within the budget, below the wrap of the signed 64-bit time: the
calls return, the first value is the time base plus the converted distance from the
anchor, and no value is smaller than the one before. -/
theorem calls_sorted (adv : Nat → Nat) : ∀ (n : Nat) (s : Machine) (cs : rt_clocksource_device)
    (d : Nat), s.hrtimer_queue.cs = some cs → Calibrated cs →
    CounterAdvances cs s.counter adv → CyclesPastAnchor cs (s.counter s.reads) d →
    (∀ x ∈ anchorDistances cs adv n s.reads d, x ≤ cs.max_cycles) →
    -2 ^ 63 ≤ cs.time_base →
    (∀ k, k < n → cs.time_base +
      (((d + cyclesElapsed adv s.reads k) * cs.mult / 2 ^ cs.shift : Nat) : Int) < 2 ^ 63) →
    ∃ ts s', absolute_time_calls n s = .ok (ts, s') ∧ ts.length = n ∧
      List.Chain' (fun a b => a ≤ b) ts ∧
      (∀ t ∈ ts.head?, t = cs.time_base + ((d * cs.mult / 2 ^ cs.shift : Nat) : Int)) := by
  intro n
  induction n with
  | zero =>
    intro s cs d _ _ _ _ _ _ _
    exact ⟨[], s, rfl, rfl, List.chain'_nil, by simp⟩
  | succ n ih =>
    intro s cs d hcs hc ha hp hb hlo hhi
    have hd : d ≤ cs.max_cycles := hb d (by simp [anchorDistances])
    have hhi0 : cs.time_base + ((d * cs.mult / 2 ^ cs.shift : Nat) : Int) < 2 ^ 63 := by
      have := hhi 0 (Nat.succ_pos n)
      simpa [cyclesElapsed] using this
    obtain ⟨hdel, hns, htime⟩ := clockTime_eq hc hp hd hlo hhi0
    obtain ⟨h1, h2, h3, h4, h5, h6, h7, h8⟩ := clockDev_mask cs (s.counter s.reads)
    -- the state after the first call
    have e1 := abs_time_eq hcs
    set cs1 := clockDev cs (s.counter s.reads) with hcs1
    set d1 := (if rt_clocksource_cyc2ns d cs.mult cs.shift > cs.max_idle_ns_half then 0 else d)
      + adv s.reads with hd1
    have hp1 : CyclesPastAnchor cs1 (s.counter (s.reads + 1)) d1 := next_past_anchor hc ha hp hd
    have hb1 : ∀ x ∈ anchorDistances cs1 adv n (s.reads + 1) d1, x ≤ cs1.max_cycles := by
      intro x hx
      rw [anchorDistances_congr adv h2 h3 h7] at hx
      rw [h6]
      exact hb x (by simp only [anchorDistances]; exact List.mem_cons_of_mem _ hx)
    -- time base and distance after the first call
    have htb := step_time (adv s.reads) hdel hns htime
    rw [← hcs1, ← hd1] at htb
    obtain ⟨ht1, ht2, ht3⟩ := htb
    have hhi1 : ∀ k, k < n → cs1.time_base +
        (((d1 + cyclesElapsed adv (s.reads + 1) k) * cs1.mult / 2 ^ cs1.shift : Nat) : Int)
          < 2 ^ 63 := by
      intro k hk
      have := hhi (k + 1) (Nat.succ_lt_succ hk)
      simp only [cyclesElapsed] at this
      rw [h2, h3]
      exact lt_of_le_of_lt (ht3 _) this
    obtain ⟨ts, s', e2, hlen, hch, hhead⟩ :=
      ih { s with reads := s.reads + 1,
                  hrtimer_queue := { s.hrtimer_queue with cs := some cs1 } }
        cs1 d1 rfl (Calibrated_clockDev _ hc) (CounterAdvances_clockDev _ ha) hp1 hb1
        (le_trans hlo ht2) hhi1
    refine ⟨clockTime cs (s.counter s.reads) :: ts, s', ?_, by simp [hlen], ?_, ?_⟩
    · simp only [absolute_time_calls, e1, ok_bind, e2, pure_eq_ok]
    · rw [List.chain'_cons']
      refine ⟨fun y hy => ?_, hch⟩
      rw [hhead y hy, htime, h2, h3]
      exact ht1
    · intro t ht
      simp only [List.head?_cons, Option.mem_def, Option.some.injEq] at ht
      rw [← ht, htime]

end RtThread

namespace RtThread
open Color Tree rt_hrtimer_mode rt_hrtimer_restart rt_clocksource_mode

/-! ## Monotonicity of the absolute time -/

theorem convert_ge {a m S : Nat} (hS : 0 < S) (h : S ≤ m) : a ≤ a * m / S := by
  rw [Nat.le_div_iff_mul_le hS]
  exact Nat.mul_le_mul_left a h

theorem boardClock_calibrated (last : Nat) (tb : Int) : Calibrated (boardClock last tb) :=
  ⟨⟨32, by decide, rfl⟩, by norm_num [boardClock], by norm_num [boardClock],
    by norm_num [boardClock]⟩

theorem boardMachine_advances (tb : Int) (start step : Nat) :
    CounterAdvances (boardClock 0 tb) (boardMachine tb start step).counter (fun _ => step) := by
  intro i
  simp only [boardClock, boardMachine, if_true]
  congr 1
  ring

/-- C16, refuted at the width of `rt_ktime_t`: on the board clocksource calibrated for
24 MHz, anchored at counter value 0 with the time base `2^63 - 1`, the counter advances by
240000 cycles between two calls, well within `max_cycles`.  The first call returns
`2^63 - 1`; the second one adds 10000000 ns in `uint64_t`, the sum is converted back to the
signed `rt_ktime_t`, and the value returned is negative. -/
theorem rt_clocksource_absolute_time_wraps :
    Calibrated (boardClock 0 9223372036854775807) ∧
    CounterAdvances (boardClock 0 9223372036854775807)
      (boardMachine 9223372036854775807 0 240000).counter (fun _ => 240000) ∧
    CyclesPastAnchor (boardClock 0 9223372036854775807)
      ((boardMachine 9223372036854775807 0 240000).counter 0) 0 ∧
    (∀ x ∈ anchorDistances (boardClock 0 9223372036854775807) (fun _ => 240000) 2 0 0,
      x ≤ (boardClock 0 9223372036854775807).max_cycles) ∧
    ∃ s', absolute_time_calls 2 (boardMachine 9223372036854775807 0 240000) =
        .ok ([9223372036854775807, -9223372036844775809], s') ∧
      ¬ List.Chain' (fun a b : Int => a ≤ b) [9223372036854775807, -9223372036844775809] := by
  refine ⟨boardClock_calibrated _ _, boardMachine_advances _ _ _, ?_, by decide, _, rfl, ?_⟩
  · simp [CyclesPastAnchor, boardClock, boardMachine]
  · simp

/-- C16: `rt_clocksource_absolute_time` is non-decreasing below the wrap of the signed
64-bit time.  For a calibrated clocksource, counting up or down, whose raw counter only
advances (by `adv i` cycles between read `i` and read `i + 1`), wraps modulo `mask + 1`, and
at every call is at most `max_cycles` past the current anchor, `n` successive calls return,
and each value returned is `≥` the value returned before, as long as the time base plus the
conversion of all cycles elapsed stays below `2^63`. -/
theorem rt_clocksource_absolute_time_monotone (s : Machine) (cs : rt_clocksource_device)
    (adv : Nat → Nat) (n d : Nat) (hcs : s.hrtimer_queue.cs = some cs) (hc : Calibrated cs)
    (ha : CounterAdvances cs s.counter adv)
    (hp : CyclesPastAnchor cs (s.counter s.reads) d)
    (hb : ∀ x ∈ anchorDistances cs adv n s.reads d, x ≤ cs.max_cycles)
    (hlo : -2 ^ 63 ≤ cs.time_base)
    (hhi : ∀ k, k < n → cs.time_base +
      (((d + cyclesElapsed adv s.reads k) * cs.mult / 2 ^ cs.shift : Nat) : Int) < 2 ^ 63) :
    ∃ ts s', absolute_time_calls n s = .ok (ts, s') ∧ ts.length = n ∧
      List.Chain' (fun a b => a ≤ b) ts := by
  obtain ⟨ts, s', e, hl, hch, -⟩ := calls_sorted adv n s cs d hcs hc ha hp hb hlo hhi
  exact ⟨ts, s', e, hl, hch⟩

/-- Instance: three calls on the board clocksource, 10 ms apart, starting at time 0. -/
theorem rt_clocksource_absolute_time_monotone_witness :
    ∃ ts s', absolute_time_calls 3 (boardMachine 0 0 240000) = .ok (ts, s') ∧ ts.length = 3 ∧
      List.Chain' (fun a b => a ≤ b) ts :=
  rt_clocksource_absolute_time_monotone (boardMachine 0 0 240000) (boardClock 0 0)
    (fun _ => 240000) 3 0 rfl (boardClock_calibrated _ _) (boardMachine_advances _ _ _)
    (by simp [CyclesPastAnchor, boardClock, boardMachine, idleMachine]) (by decide) (by decide)
    (by
      intro k hk
      interval_cases k <;> norm_num [cyclesElapsed, boardClock])

/-- Effect of one call on the value returned by the next one when the counter has advanced
by at least one cycle and a cycle is at least a nanosecond. -/
theorem step_time_strict {cs : rt_clocksource_device} {raw d a : Nat} (ha : 1 ≤ a)
    (hms : 2 ^ cs.shift ≤ cs.mult)
    (hdel : clockDelta cs raw = d)
    (hns : rt_clocksource_cyc2ns (clockDelta cs raw) cs.mult cs.shift
      = d * cs.mult / 2 ^ cs.shift)
    (htime : clockTime cs raw = cs.time_base + ((d * cs.mult / 2 ^ cs.shift : Nat) : Int)) :
    cs.time_base + ((d * cs.mult / 2 ^ cs.shift : Nat) : Int) <
      (clockDev cs raw).time_base +
        ((((if rt_clocksource_cyc2ns d cs.mult cs.shift > cs.max_idle_ns_half then 0 else d)
          + a) * cs.mult / 2 ^ cs.shift : Nat) : Int) := by
  have hS : 0 < 2 ^ cs.shift := Nat.pow_pos (by norm_num)
  have h1 : a ≤ a * cs.mult / 2 ^ cs.shift := convert_ge hS hms
  unfold clockDev
  rw [hns]
  rw [hdel] at hns
  rw [hns]
  by_cases hre : d * cs.mult / 2 ^ cs.shift > cs.max_idle_ns_half
  · simp only [hre, if_true, zero_add, htime]
    generalize d * cs.mult / 2 ^ cs.shift = A
    generalize a * cs.mult / 2 ^ cs.shift = B at h1 ⊢
    omega
  · simp only [hre, if_false]
    have := convert_add d a cs.mult (2 ^ cs.shift)
    generalize d * cs.mult / 2 ^ cs.shift = A at this ⊢
    generalize a * cs.mult / 2 ^ cs.shift = B at this h1 ⊢
    generalize (d + a) * cs.mult / 2 ^ cs.shift = C at this ⊢
    omega

/-- C17, refuted at the width of `rt_ktime_t`: on the board clocksource calibrated for
24 MHz (`mult ≥ 2^shift`), anchored at counter value 0 with the time base `2^63 - 41`, the
counter advances by one cycle between two calls.  The first call returns `2^63 - 41`; the
second one adds 41 ns in `uint64_t`, the sum `2^63` is converted back to the signed
`rt_ktime_t`, and the value returned is `-2^63`, which is smaller than the first. -/
theorem rt_clocksource_absolute_time_strict_wraps :
    Calibrated (boardClock 0 9223372036854775767) ∧
    2 ^ (boardClock 0 9223372036854775767).shift ≤ (boardClock 0 9223372036854775767).mult ∧
    CounterAdvances (boardClock 0 9223372036854775767)
      (boardMachine 9223372036854775767 0 1).counter (fun _ => 1) ∧
    CyclesPastAnchor (boardClock 0 9223372036854775767)
      ((boardMachine 9223372036854775767 0 1).counter 0) 0 ∧
    (∀ x ∈ anchorDistances (boardClock 0 9223372036854775767) (fun _ => 1) 2 0 0,
      x ≤ (boardClock 0 9223372036854775767).max_cycles) ∧
    ∃ s1 s2, rt_clocksource_absolute_time (boardMachine 9223372036854775767 0 1) =
        .ok (9223372036854775767, s1) ∧
      rt_clocksource_absolute_time s1 = .ok (-9223372036854775808, s2) ∧
      ¬ ((9223372036854775767 : Int) < -9223372036854775808) := by
  refine ⟨boardClock_calibrated _ _, by norm_num [boardClock], boardMachine_advances _ _ _, ?_,
    by decide, _, _, rfl, rfl, by decide⟩
  simp [CyclesPastAnchor, boardClock, boardMachine]

/-- C17: two successive calls of `rt_clocksource_absolute_time` return strictly increasing
values below the wrap of the signed 64-bit time.  For a calibrated clocksource with
`mult ≥ 2^shift` whose raw counter advances by `adv i ≥ 1` cycles between the two reads,
wraps modulo `mask + 1`, and at both calls is at most `max_cycles` past the current anchor,
both calls return and the second value is greater than the first, as long as the time base
plus the conversion of the cycles elapsed stays below `2^63`. -/
theorem rt_clocksource_absolute_time_strict (s : Machine) (cs : rt_clocksource_device)
    (adv : Nat → Nat) (d : Nat) (hcs : s.hrtimer_queue.cs = some cs) (hc : Calibrated cs)
    (hms : 2 ^ cs.shift ≤ cs.mult) (ha : CounterAdvances cs s.counter adv)
    (h1 : 1 ≤ adv s.reads) (hp : CyclesPastAnchor cs (s.counter s.reads) d)
    (hb : ∀ x ∈ anchorDistances cs adv 2 s.reads d, x ≤ cs.max_cycles)
    (hlo : -2 ^ 63 ≤ cs.time_base)
    (hhi : cs.time_base +
      (((d + adv s.reads) * cs.mult / 2 ^ cs.shift : Nat) : Int) < 2 ^ 63) :
    ∃ t1 s1 t2 s2, rt_clocksource_absolute_time s = .ok (t1, s1) ∧
      rt_clocksource_absolute_time s1 = .ok (t2, s2) ∧ t1 < t2 := by
  have hd : d ≤ cs.max_cycles := hb d (by simp [anchorDistances])
  have hhi0 : cs.time_base + ((d * cs.mult / 2 ^ cs.shift : Nat) : Int) < 2 ^ 63 := by
    have := convert_mono (m := cs.mult) (2 ^ cs.shift) (Nat.le_add_right d (adv s.reads))
    generalize d * cs.mult / 2 ^ cs.shift = A at this ⊢
    generalize (d + adv s.reads) * cs.mult / 2 ^ cs.shift = B at this hhi
    omega
  obtain ⟨hdel, hns, htime⟩ := clockTime_eq hc hp hd hlo hhi0
  obtain ⟨-, h2, h3, -, -, h6, -, -⟩ := clockDev_mask cs (s.counter s.reads)
  have hstrict := step_time_strict h1 hms hdel hns htime
  obtain ⟨-, hle, hE⟩ := step_time (adv s.reads) hdel hns htime
  have hp1 := next_past_anchor hc ha hp hd
  have hd1 : (if rt_clocksource_cyc2ns d cs.mult cs.shift > cs.max_idle_ns_half then 0 else d)
      + adv s.reads ≤ (clockDev cs (s.counter s.reads)).max_cycles := by
    rw [h6]
    exact hb _ (by simp [anchorDistances])
  have hhi1 : (clockDev cs (s.counter s.reads)).time_base +
      ((((if rt_clocksource_cyc2ns d cs.mult cs.shift > cs.max_idle_ns_half then 0 else d)
        + adv s.reads) * (clockDev cs (s.counter s.reads)).mult /
          2 ^ (clockDev cs (s.counter s.reads)).shift : Nat) : Int) < 2 ^ 63 := by
    rw [h2, h3]
    have := hE 0
    simp only [Nat.add_zero] at this
    exact lt_of_le_of_lt this hhi
  obtain ⟨-, -, htime1⟩ := clockTime_eq (Calibrated_clockDev _ hc) hp1 hd1 (le_trans hlo hle) hhi1
  refine ⟨_, _, _, _, abs_time_eq hcs, @abs_time_eq _ (clockDev cs (s.counter s.reads)) rfl, ?_⟩
  rw [htime]
  show _ < clockTime (clockDev cs (s.counter s.reads)) (s.counter (s.reads + 1))
  rw [htime1, h2, h3]
  exact hstrict

/-- Instance: two calls on the board clocksource, one cycle apart, starting at time 0. -/
theorem rt_clocksource_absolute_time_strict_witness :
    ∃ t1 s1 t2 s2, rt_clocksource_absolute_time (boardMachine 0 0 1) = .ok (t1, s1) ∧
      rt_clocksource_absolute_time s1 = .ok (t2, s2) ∧ t1 < t2 :=
  rt_clocksource_absolute_time_strict (boardMachine 0 0 1) (boardClock 0 0) (fun _ => 1) 0 rfl
    (boardClock_calibrated _ _) (by norm_num [boardClock]) (boardMachine_advances _ _ _)
    (le_refl 1) (by simp [CyclesPastAnchor, boardClock, boardMachine, idleMachine]) (by decide)
    (by norm_num [boardClock]) (by norm_num [boardClock])

end RtThread

namespace RtThread
open Color Tree rt_hrtimer_mode rt_hrtimer_restart rt_clocksource_mode

/-! ## Rescheduling -/

/-- The cycle count computed by `rt_hrtimer_reschedule` is the conversion of the clamped
delay, reduced to the width of `unsigned long`, when the difference `deadline - now` does not
overflow `int64_t`. -/
theorem rescheduleCycles_eq {ev : rt_clockevent_device} (deadline now : Int)
    (hmm : ev.min_delta_ns ≤ ev.max_delta_ns) (hmax : ev.max_delta_ns < 2 ^ ULONG_BITS)
    (hmult : ev.mult < 2 ^ 32) (hr1 : -2 ^ 63 ≤ deadline - now)
    (hr2 : deadline - now < 2 ^ 63) :
    rescheduleCycles ev deadline now =
      (((clampedDelay ev deadline now).toNat * ev.mult) >>> ev.shift) % 2 ^ ULONG_BITS := by
  have hmm' : (ev.min_delta_ns : Int) ≤ (ev.max_delta_ns : Int) := by exact_mod_cast hmm
  have hmax' : (ev.max_delta_ns : Int) < 2 ^ 32 := by
    have : ev.max_delta_ns < 2 ^ 32 := hmax
    exact_mod_cast this
  have h0 : (0 : Int) ≤ (ev.min_delta_ns : Int) := Int.ofNat_nonneg _
  have hd : (if (if (if deadline - now ≤ 0 then (ev.min_delta_ns : Int) else deadline - now)
        < (ev.max_delta_ns : Int)
      then (if deadline - now ≤ 0 then (ev.min_delta_ns : Int) else deadline - now)
      else (ev.max_delta_ns : Int)) < (ev.min_delta_ns : Int) then (ev.min_delta_ns : Int)
    else (if (if deadline - now ≤ 0 then (ev.min_delta_ns : Int) else deadline - now)
        < (ev.max_delta_ns : Int)
      then (if deadline - now ≤ 0 then (ev.min_delta_ns : Int) else deadline - now)
      else (ev.max_delta_ns : Int))) = clampedDelay ev deadline now := by
    unfold clampedDelay
    split_ifs <;> omega
  have hr : 0 ≤ clampedDelay ev deadline now ∧ clampedDelay ev deadline now < 2 ^ 32 := by
    unfold clampedDelay
    split_ifs <;> omega
  unfold rescheduleCycles
  simp only [to_s64_of_range hr1 hr2, hd]
  have hu : to_u64 (clampedDelay ev deadline now) = (clampedDelay ev deadline now).toNat := by
    unfold to_u64
    rw [Int.emod_eq_of_lt hr.1 (by omega)]
  rw [hu]
  have hlt : (clampedDelay ev deadline now).toNat * ev.mult < 2 ^ 64 := by
    have h1 : (clampedDelay ev deadline now).toNat < 2 ^ 32 := by omega
    calc (clampedDelay ev deadline now).toNat * ev.mult
        < 2 ^ 32 * 2 ^ 32 := Nat.mul_lt_mul'' h1 hmult
      _ = 2 ^ 64 := by norm_num
  rw [Nat.mod_eq_of_lt hlt]

end RtThread

namespace RtThread
open Color Tree rt_hrtimer_mode rt_hrtimer_restart rt_clocksource_mode

/-! ## Rescheduling and the interrupt handler -/

/-- C18, refuted at the widths of `unsigned long` and `int64_t`.  With the 32-bit
multiplier `4294967295` and shift 0, timer 1 with deadline 1000000 is the cached minimum at
time 5: the delay is 999995 ns, `(delta * mult) >> shift` is `4294945820163525`, and
`set_next_event` is called with its low 32 bits, `4293967301`.  With the deadline `-2^63`
the difference `d - now` is negative, but formed in `int64_t` it is positive and is clamped
to `max_delta_ns`: the clockevent is armed with 1000000 cycles, not with the 1000 cycles of
`min_delta_ns`. -/
theorem rt_hrtimer_reschedule_truncates :
    ((rt_hrtimer_reschedule 1 (oneTimerAt 1000000 wideEvent)).map (fun s => s.armed)
        = .ok [4293967301] ∧
      (rt_clocksource_absolute_time (oneTimerAt 1000000 wideEvent)).map (fun r => r.1)
        = .ok 5 ∧
      clampedDelay wideEvent 1000000 5 = 999995 ∧
      (999995 * wideEvent.mult) >>> wideEvent.shift = 4294945820163525 ∧
      wideEvent.min_delta_ns ≤ wideEvent.max_delta_ns) ∧
    ((rt_hrtimer_reschedule 1 (oneTimerAt (-9223372036854775808) exampleEvent)).map
        (fun s => s.armed) = .ok [1000000] ∧
      clampedDelay exampleEvent (-9223372036854775808) 5 = 1000 ∧
      (1000 * exampleEvent.mult) >>> exampleEvent.shift = 1000) := by
  refine ⟨⟨by rfl, by rfl, by rfl, by rfl, by decide⟩, by rfl, by rfl, by rfl⟩

/-- C18: when the queue has a cached minimum with deadline `d` and both devices are
registered, `rt_hrtimer_reschedule` returns after exactly one call of `set_next_event`.
When the difference `d - now` lies in the range `[-2^63, 2^63)` of `int64_t`, with
`delta = min_delta_ns` if `d - now ≤ 0` and otherwise `d - now` clamped into
`[min_delta_ns, max_delta_ns]` (given `min_delta_ns ≤ max_delta_ns`, both `unsigned long`,
and the 32-bit `mult`), the argument of the call is `(delta * mult) >> shift` as the
`unsigned long` that `set_next_event` takes, that is, reduced modulo `2^32`, and so
`(delta * mult) >> shift` itself whenever that is below `2^32`.  The queue is not modified:
nodes, timer records, root and cached minimum are the old ones. -/
theorem rt_hrtimer_reschedule_arms (s : Machine) (cs : rt_clocksource_device)
    (ev : rt_clockevent_device) (fuel : Nat) (hcs : s.hrtimer_queue.cs = some cs)
    (hev : s.hrtimer_queue.event = some ev) (hn : s.hrtimer_queue.next ≠ 0)
    (hmm : ev.min_delta_ns ≤ ev.max_delta_ns) (hmax : ev.max_delta_ns < 2 ^ ULONG_BITS)
    (hmult : ev.mult < 2 ^ 32) :
    ∃ s', rt_hrtimer_reschedule fuel s = .ok s' ∧ s'.armed.length = s.armed.length + 1 ∧
      (-2 ^ 63 ≤ (s.timers s.hrtimer_queue.next).deadline - clockTime cs (s.counter s.reads) →
        (s.timers s.hrtimer_queue.next).deadline - clockTime cs (s.counter s.reads) < 2 ^ 63 →
        s'.armed = s.armed ++
          [(((clampedDelay ev (s.timers s.hrtimer_queue.next).deadline
              (clockTime cs (s.counter s.reads))).toNat * ev.mult) >>> ev.shift)
            % 2 ^ ULONG_BITS] ∧
        ((((clampedDelay ev (s.timers s.hrtimer_queue.next).deadline
              (clockTime cs (s.counter s.reads))).toNat * ev.mult) >>> ev.shift)
            < 2 ^ ULONG_BITS →
          s'.armed = s.armed ++
            [((clampedDelay ev (s.timers s.hrtimer_queue.next).deadline
              (clockTime cs (s.counter s.reads))).toNat * ev.mult) >>> ev.shift])) ∧
      s'.nodes = s.nodes ∧ s'.timers = s.timers ∧
      s'.hrtimer_queue.head = s.hrtimer_queue.head ∧
      s'.hrtimer_queue.next = s.hrtimer_queue.next ∧
      s'.hrtimer_queue.event = s.hrtimer_queue.event ∧ s'.fired = s.fired ∧
      (∀ T, QState s T → QState s' T) := by
  refine ⟨_, reschedule_armed hcs hev hn, by simp, fun hr1 hr2 => ⟨?_, ?_⟩, rfl, rfl, rfl, rfl,
    rfl, rfl, ?_⟩
  · simp only [rescheduleCycles_eq _ _ hmm hmax hmult hr1 hr2]
  · intro hfit
    simp only [rescheduleCycles_eq _ _ hmm hmax hmult hr1 hr2, Nat.mod_eq_of_lt hfit]
  · intro T hq
    exact QState_env hq rfl rfl rfl rfl

/-- Instance: the queue holds timer 1 with deadline 1 at time 5, so that the delay is
`min_delta_ns = 1000` and the clockevent is armed with 1000 cycles. -/
theorem rt_hrtimer_reschedule_arms_witness :
    ∃ s', rt_hrtimer_reschedule 1 oneTimer = .ok s' ∧ s'.armed = [1000] ∧
      s'.nodes = oneTimer.nodes ∧ s'.timers = oneTimer.timers := by
  obtain ⟨s', e, -, ha, hn, ht, -⟩ :=
    rt_hrtimer_reschedule_arms oneTimer exampleClock exampleEvent 1 rfl rfl (by decide)
      (by decide) (by decide) (by decide)
  exact ⟨s', e, (ha (by decide) (by decide)).2 (by decide), hn, ht⟩

/-- C19, refuted at the width of `rt_ktime_t`: on the board clocksource with the time base
`2^63 - 1` and an empty queue the time is `2^63 - 1` and `max_idle_ns` is 79635851949; the
deadline given to the keep-alive timer 9 is the 64-bit sum `-9223371957218923860`, not
`now + max_idle_ns`. -/
theorem rt_hrtimer_reschedule_keep_alive_wraps :
    (rt_hrtimer_reschedule 1 (boardMachine 9223372036854775807 0 0)).map
        (fun s => (s.hrtimer_queue.next, (s.timers 9).deadline))
      = .ok (9, -9223371957218923860) ∧
    (rt_clocksource_absolute_time (boardMachine 9223372036854775807 0 0)).map (fun r => r.1)
      = .ok 9223372036854775807 ∧
    (boardClock 0 9223372036854775807).max_idle_ns = 79635851949 ∧
    (boardMachine 9223372036854775807 0 0).update_clock_timer = 9 ∧
    (-9223371957218923860 : Int) ≠ 9223372036854775807 + 79635851949 := by
  refine ⟨by rfl, by rfl, by rfl, by rfl, by decide⟩

/-- C19: when the queue is empty (and consistent, with a registered clocksource),
`rt_hrtimer_reschedule` initialises the keep-alive timer `update_clock_timer` as a relative
timer without callback and enqueues it: afterwards the queue is consistent, holds exactly
that timer, and the timer is the cached minimum.  Its deadline is the sum
`now + max_idle_ns` formed in the signed 64-bit `rt_ktime_t`, `max_idle_ns` being passed as
the `rt_ktime_t` argument of `rt_hrtimer_init`; it is `now + max_idle_ns` itself whenever
that is below `2^63`.  `set_next_event` is not called. -/
theorem rt_hrtimer_reschedule_keep_alive (s : Machine) (T : Tree)
    (cs : rt_clocksource_device) (fuel : Nat) (hq : QState s T)
    (hcs : s.hrtimer_queue.cs = some cs) (hempty : T.inorder = [])
    (hu : s.update_clock_timer ≠ 0) (hfuel : 1 ≤ fuel) :
    ∃ s' T', rt_hrtimer_reschedule fuel s = .ok s' ∧ QState s' T' ∧
      T'.inorder = [s.update_clock_timer] ∧
      s'.hrtimer_queue.next = s.update_clock_timer ∧
      RT_HRTIMER_IS_QUEUED (s'.timers s.update_clock_timer) = true ∧
      (s'.timers s.update_clock_timer).function = 0 ∧
      (s'.timers s.update_clock_timer).mode = RT_HRTIMER_MODE_REL ∧
      (s'.timers s.update_clock_timer).deadline =
        to_s64 (clockTime cs (s.counter s.reads) + to_s64 cs.max_idle_ns) ∧
      (clockTime cs (s.counter s.reads) + (cs.max_idle_ns : Int) < 2 ^ 63 →
        (s'.timers s.update_clock_timer).deadline =
          clockTime cs (s.counter s.reads) + (cs.max_idle_ns : Int)) ∧
      (∀ a, a ≠ s.update_clock_timer → s'.timers a = s.timers a) ∧
      s'.armed = s.armed := by
  have hn : s.hrtimer_queue.next = 0 := by
    rw [hq.inv.next_eq, hempty]; rfl
  obtain ⟨s', T', e, hq', -, hT', ht, hoth, harm, -, -, -⟩ := reschedule_idle hq hcs hn hu hfuel
  have hx : s'.hrtimer_queue.next = s.update_clock_timer := by
    rw [hq'.inv.next_eq, hT']; rfl
  refine ⟨s', T', e, hq', hT', hx, ?_, by rw [ht], by rw [ht], by rw [ht], ?_, hoth, harm⟩
  · exact (hq'.flags _ hu).2 (by rw [hT']; simp)
  · intro hlt
    rw [ht]
    have hnow := to_s64_range (cs.time_base + Int.ofNat
      (rt_clocksource_cyc2ns (clockDelta cs (s.counter s.reads)) cs.mult cs.shift))
    have hnow' : -2 ^ 63 ≤ clockTime cs (s.counter s.reads) := hnow.1
    have hm0 : (0 : Int) ≤ (cs.max_idle_ns : Int) := Int.ofNat_nonneg _
    have : to_s64 (clockTime cs (s.counter s.reads) + to_s64 (cs.max_idle_ns : Int)) =
        to_s64 (clockTime cs (s.counter s.reads) + (cs.max_idle_ns : Int)) := by
      unfold to_s64
      omega
    simp only [this]
    exact to_s64_of_range (by omega) hlt

/-- Instance: the idle system at time 5, whose clocksource has `max_idle_ns = 1000`; the
keep-alive timer is timer 9. -/
theorem rt_hrtimer_reschedule_keep_alive_witness :
    ∃ s' T', rt_hrtimer_reschedule 1 idleMachine = .ok s' ∧ QState s' T' ∧
      T'.inorder = [9] ∧ s'.hrtimer_queue.next = 9 ∧ (s'.timers 9).function = 0 ∧
      (s'.timers 9).deadline = 1005 := by
  obtain ⟨s', T', e, hq', hT', hx, -, hf, -, -, hd, -, -⟩ :=
    rt_hrtimer_reschedule_keep_alive idleMachine nil exampleClock 1 idleMachine_state rfl rfl
      (by decide) (by decide)
  exact ⟨s', T', e, hq', hT', hx, hf, hd (by decide)⟩

/-- C20 (divergence of the code): in the state `oneTimer` the queue holds only timer 1,
which is due at time 5 and whose callback does not restart it.  `rt_hrtimer_handler` fires
it, and `rt_hrtimer_reschedule` then finds the queue empty: it initialises and enqueues the
keep-alive timer 9 with deadline `5 + max_idle_ns = 1005`, but returns without a call of
`set_next_event`.  After the handler the keep-alive timer is the cached minimum and the
clockevent has not been armed at all. -/
theorem rt_hrtimer_handler_leaves_unarmed :
    (do
      let s ← rt_hrtimer_handler oneShotCallback 3 oneTimer
      pure (s.fired, s.hrtimer_queue.next, RT_HRTIMER_IS_QUEUED (s.timers 9),
        (s.timers 9).deadline, s.armed)) =
      .ok ([1], 9, true, 1005, []) := by
  rfl

end RtThread

namespace RtThread
open Color Tree rt_hrtimer_mode rt_hrtimer_restart rt_clocksource_mode

/-! ## The search of `rt_clocks_calc_mult_shift` -/

theorem size_half {n : Nat} (h : n ≠ 0) : Nat.size n = Nat.size (n >>> 1) + 1 := by
  have h1 : n >>> 1 = Nat.div2 n := by
    rw [Nat.div2_val, Nat.shiftRight_eq_div_pow]
  rw [h1]
  conv_lhs => rw [← Nat.bit_decomp n]
  rw [Nat.size_bit]
  rwa [Nat.bit_decomp]

/-- The first loop leaves `sftacc` reduced by the bit length of `tmp`. -/
theorem calc_sftacc_spec : ∀ (fuel tmp acc : Nat), Nat.size tmp < fuel → Nat.size tmp ≤ acc →
    acc < 2 ^ 32 → calc_sftacc fuel tmp acc = .ok (acc - Nat.size tmp) := by
  intro fuel
  induction fuel with
  | zero => intro tmp acc h; omega
  | succ fuel ih =>
    intro tmp acc hf ha hacc
    by_cases h0 : tmp = 0
    · subst h0
      simp [calc_sftacc]
    · have hs := size_half h0
      have e : (acc + 2 ^ 32 - 1) % 2 ^ 32 = acc - 1 := by omega
      simp only [calc_sftacc, ne_eq, h0, not_false_eq_true, if_true]
      rw [e]
      have h1 : (tmp >>> 1).size < fuel := by omega
      have h2 : (tmp >>> 1).size ≤ acc - 1 := by omega
      have h3 : acc - 1 < 2 ^ 32 := by omega
      have h4 : acc - 1 - (tmp >>> 1).size = acc - tmp.size := by omega
      exact (ih _ _ h1 h2 h3).trans (congrArg Except.ok h4)

theorem shiftRight_eq_zero_iff (x k : Nat) : x >>> k = 0 ↔ x < 2 ^ k := by
  rw [Nat.shiftRight_eq_div_pow, Nat.div_eq_zero_iff (Nat.pow_pos (by norm_num))]

/-- The multiplier tried for the shift `s`, without the 64-bit reductions. -/
theorem mult_for_shift {from_ to_ s : Nat} (hf : from_ < 2 ^ 32) (ht : to_ < 2 ^ 32)
    (hs : s ≤ 32) :
    ((to_ <<< s) % 2 ^ 64 + from_ / 2) % 2 ^ 64 / from_ = (to_ * 2 ^ s + from_ / 2) / from_ := by
  have h1 : to_ * 2 ^ s ≤ (2 ^ 32 - 1) * 2 ^ 32 :=
    Nat.mul_le_mul (by omega) (Nat.pow_le_pow_right (by norm_num) hs)
  have h2 : to_ * 2 ^ s < 2 ^ 64 := by
    have : (2 ^ 32 - 1) * 2 ^ 32 < 2 ^ 64 := by norm_num
    omega
  have h3 : to_ * 2 ^ s + from_ / 2 < 2 ^ 64 := by
    have : (2 ^ 32 - 1) * 2 ^ 32 + 2 ^ 32 ≤ 2 ^ 64 := by norm_num
    omega
  rw [Nat.shiftLeft_eq, Nat.mod_eq_of_lt h2, Nat.mod_eq_of_lt h3]

/-- The second loop, entered at `sft ≤ 32`: it stops at the largest shift `s ≤ sft` whose
multiplier is below `2^sftacc`; when there is none it leaves shift 0 and the multiplier
tried last. -/
theorem calc_loop_spec {from_ to_ acc : Nat} (hf0 : from_ ≠ 0) (hf : from_ < 2 ^ 32)
    (ht : to_ < 2 ^ 32) : ∀ (sft fuel tmp : Nat), sft ≤ 32 → sft + 1 ≤ fuel →
    ∃ m s, calc_mult_shift_loop fuel from_ to_ acc sft tmp = .ok (m, s) ∧ s ≤ sft ∧
      ((1 ≤ s ∧ m = (to_ * 2 ^ s + from_ / 2) / from_ ∧ m < 2 ^ acc ∧
          ∀ j, s < j → j ≤ sft → ¬ (to_ * 2 ^ j + from_ / 2) / from_ < 2 ^ acc) ∨
        (s = 0 ∧ (∀ j, 1 ≤ j → j ≤ sft → ¬ (to_ * 2 ^ j + from_ / 2) / from_ < 2 ^ acc) ∧
          m = if sft = 0 then tmp else (to_ * 2 ^ 1 + from_ / 2) / from_)) := by
  intro sft
  induction sft with
  | zero =>
    intro fuel tmp _ hfuel
    obtain ⟨fuel, rfl⟩ : ∃ k, fuel = k + 1 := ⟨fuel - 1, by omega⟩
    refine ⟨tmp, 0, by simp [calc_mult_shift_loop], le_refl _, Or.inr ⟨rfl, ?_, by simp⟩⟩
    intro j h1 h2; omega
  | succ sft ih =>
    intro fuel tmp hs hfuel
    obtain ⟨fuel, rfl⟩ : ∃ k, fuel = k + 1 := ⟨fuel - 1, by omega⟩
    rw [calc_mult_shift_loop]
    simp only [Nat.succ_pos, gt_iff_lt, if_true, hf0, if_false, mult_for_shift hf ht hs,
      shiftRight_eq_zero_iff]
    by_cases hfit : (to_ * 2 ^ (sft + 1) + from_ / 2) / from_ < 2 ^ acc
    · rw [if_pos hfit]
      refine ⟨_, _, rfl, le_refl _, Or.inl ⟨by omega, rfl, hfit, ?_⟩⟩
      intro j h1 h2; omega
    · rw [if_neg hfit]
      obtain ⟨m, s, e, hle, h⟩ := ih fuel ((to_ * 2 ^ (sft + 1) + from_ / 2) / from_) (by omega)
        (by omega)
      simp only [Nat.add_sub_cancel]
      refine ⟨m, s, e, by omega, ?_⟩
      rcases h with ⟨h1, h2, h3, h4⟩ | ⟨h1, h2, h3⟩
      · left
        refine ⟨h1, h2, h3, ?_⟩
        intro j hj1 hj2
        by_cases hj : j = sft + 1
        · subst hj; exact hfit
        · exact h4 j hj1 (by omega)
      · right
        refine ⟨h1, ?_, ?_⟩
        · intro j hj1 hj2
          by_cases hj : j = sft + 1
          · subst hj; exact hfit
          · exact h2 j hj1 (by omega)
        · rw [h3]
          by_cases h0 : sft = 0
          · subst h0; simp
          · simp [h0]

end RtThread

namespace RtThread
open Color Tree rt_hrtimer_mode rt_hrtimer_restart rt_clocksource_mode

/-! ## `rt_clocks_calc_mult_shift` -/

/-- Result of `rt_clocks_calc_mult_shift` for 32-bit arguments and `from > 0`: with
`sftacc = 32 - size ((maxsec * from) >> 32)`, the shift returned is the largest one in
`1..32` whose multiplier `(to * 2^shift + from / 2) / from` is below `2^sftacc`, and that
multiplier is returned; when there is no such shift, 0 is returned with the low 32 bits of
the multiplier of shift 1. -/
theorem calc_mult_shift_spec {fuel from_ to_ maxsec : Nat} (hf0 : from_ ≠ 0)
    (hf : from_ < 2 ^ 32) (ht : to_ < 2 ^ 32) (hm : maxsec < 2 ^ 32) (hfuel : 34 ≤ fuel) :
    ∃ mult shift, rt_clocks_calc_mult_shift fuel from_ to_ maxsec = .ok (mult, shift) ∧
      shift ≤ 32 ∧
      ((1 ≤ shift ∧ mult = (to_ * 2 ^ shift + from_ / 2) / from_ ∧
          mult < 2 ^ (32 - Nat.size ((maxsec * from_) >>> 32)) ∧
          ∀ j, shift < j → j ≤ 32 → ¬ (to_ * 2 ^ j + from_ / 2) / from_
            < 2 ^ (32 - Nat.size ((maxsec * from_) >>> 32))) ∨
        (shift = 0 ∧
          (∀ j, 1 ≤ j → j ≤ 32 → ¬ (to_ * 2 ^ j + from_ / 2) / from_
            < 2 ^ (32 - Nat.size ((maxsec * from_) >>> 32))) ∧
          mult = ((to_ * 2 ^ 1 + from_ / 2) / from_) % 2 ^ 32)) := by
  have hprod : maxsec * from_ < 2 ^ 64 := by
    calc maxsec * from_ < 2 ^ 32 * 2 ^ 32 := Nat.mul_lt_mul'' hm hf
      _ = 2 ^ 64 := by norm_num
  have htmp : (maxsec * from_) >>> 32 < 2 ^ 32 := by
    rw [Nat.shiftRight_eq_div_pow, Nat.div_lt_iff_lt_mul (by norm_num)]
    calc maxsec * from_ < 2 ^ 64 := hprod
      _ = 2 ^ 32 * 2 ^ 32 := by norm_num
  have hsize : Nat.size ((maxsec * from_) >>> 32) ≤ 32 := Nat.size_le.2 htmp
  have e1 := calc_sftacc_spec fuel ((maxsec * from_) >>> 32) 32 (by omega) hsize (by norm_num)
  obtain ⟨m, s, e2, hs, h⟩ := @calc_loop_spec from_ to_
    (32 - Nat.size ((maxsec * from_) >>> 32)) hf0 hf ht 32 fuel 0 (le_refl _) (by omega)
  refine ⟨m % 2 ^ 32, s, ?_, hs, ?_⟩
  · simp only [rt_clocks_calc_mult_shift, Nat.mod_eq_of_lt hprod, e1, ok_bind, e2, pure_eq_ok]
  · rcases h with ⟨h1, h2, h3, h4⟩ | ⟨h1, h2, h3⟩
    · left
      have hlt : m < 2 ^ 32 :=
        lt_of_lt_of_le h3 (Nat.pow_le_pow_right (by norm_num) (Nat.sub_le _ _))
      rw [Nat.mod_eq_of_lt hlt]
      exact ⟨h1, h2, h3, h4⟩
    · right
      refine ⟨h1, h2, ?_⟩
      rw [h3]
      simp

/-- When a shift `≥ 1` is returned, no value up to `maxsec * from` overflows 64 bits when
multiplied with the multiplier returned. -/
theorem calc_mult_shift_no_overflow {fuel from_ to_ maxsec mult shift v : Nat}
    (hf0 : from_ ≠ 0) (hf : from_ < 2 ^ 32) (ht : to_ < 2 ^ 32) (hm : maxsec < 2 ^ 32)
    (hfuel : 34 ≤ fuel)
    (e : rt_clocks_calc_mult_shift fuel from_ to_ maxsec = .ok (mult, shift))
    (hs : 1 ≤ shift) (hv : v ≤ maxsec * from_) : v * mult < 2 ^ 64 := by
  obtain ⟨m, s, e', -, h⟩ := calc_mult_shift_spec hf0 hf ht hm hfuel
  rw [e] at e'
  simp only [Except.ok.injEq, Prod.mk.injEq] at e'
  obtain ⟨rfl, rfl⟩ := e'
  rcases h with ⟨-, -, h3, -⟩ | ⟨h1, -, -⟩
  · have htmp : (maxsec * from_) >>> 32 < 2 ^ 32 := by
      rw [Nat.shiftRight_eq_div_pow, Nat.div_lt_iff_lt_mul (by norm_num)]
      exact Nat.mul_lt_mul'' hm hf
    have hsize : Nat.size ((maxsec * from_) >>> 32) ≤ 32 := Nat.size_le.2 htmp
    have h5 : maxsec * from_ < 2 ^ Nat.size ((maxsec * from_) >>> 32) * 2 ^ 32 := by
      rw [← Nat.div_lt_iff_lt_mul (by norm_num), ← Nat.shiftRight_eq_div_pow]
      exact Nat.lt_size_self _
    generalize Nat.size ((maxsec * from_) >>> 32) = b at *
    by_cases h0 : mult = 0
    · subst h0; simp
    · have h6 := Nat.mul_lt_mul'' (lt_of_le_of_lt hv h5) h3
      have h7 : b + 32 + (32 - b) = 64 := by omega
      rw [← Nat.pow_add, ← Nat.pow_add, h7] at h6
      exact h6
  · omega

end RtThread

namespace RtThread
open Color Tree rt_hrtimer_mode rt_hrtimer_restart rt_clocksource_mode

/-! ## Claims on `rt_clocks_calc_mult_shift` -/

/-- Rounding to nearest by adding half of the divisor before the division. -/
theorem div_add_half_eq_round (a b : Nat) (hb : 0 < b) :
    (((a + b / 2) / b : Nat) : Int) = round ((a : ℚ) / (b : ℚ)) := by
  rw [round_eq, eq_comm, Int.floor_eq_iff]
  have hq : (0 : ℚ) < (b : ℚ) := by exact_mod_cast hb
  have h1 := Nat.div_add_mod (a + b / 2) b
  have h2 := Nat.mod_lt (a + b / 2) hb
  have h3 := Nat.div_add_mod b 2
  have h4 := Nat.mod_lt b (by norm_num : 0 < 2)
  set q := (a + b / 2) / b
  set r := (a + b / 2) % b
  set h := b / 2
  set e := b % 2
  have hA : 2 * a + b = 2 * (b * q) + 2 * r + e := by omega
  have hAq : (2 : ℚ) * a + b = 2 * (b * q) + 2 * r + e := by exact_mod_cast hA
  have hr : 2 * r + e < 2 * b := by omega
  have hrq : (2 : ℚ) * r + e < 2 * b := by exact_mod_cast hr
  have hr0 : (0 : ℚ) ≤ 2 * r + e := by positivity
  have key : (a : ℚ) / b + 1 / 2 = (2 * a + b) / (2 * b) := by
    field_simp
    ring
  rw [key, hAq]
  constructor
  · rw [le_div_iff₀ (by positivity)]
    push_cast
    nlinarith
  · rw [div_lt_iff₀ (by positivity)]
    push_cast
    nlinarith

/-- C22 (divergence of the code): for `from = to = maxsec = 2^32 - 1` the headroom `sftacc`
is 0 and no shift in `1..32` has a multiplier that fits (each multiplier is at least 2), so
the `for` loop of `rt_clocks_calc_mult_shift` ends without `break` and the function returns
shift 0 with the multiplier 2 that it tried for shift 1.  The value `v = maxsec * from`
multiplied with it does not fit in 64 bits. -/
theorem rt_clocks_calc_mult_shift_overflows :
    rt_clocks_calc_mult_shift 34 4294967295 4294967295 4294967295 = .ok (2, 0) ∧
      2 ^ 64 ≤ (4294967295 * 4294967295) * 2 := by
  refine ⟨rfl, by norm_num⟩

/-- C23, refuted: for `from = 3`, `to = 1`, `maxsec = 1` the shift returned is 32 and the
multiplier is `1431655765`, the quotient `2^32 / 3 = 1431655765.33…` rounded to nearest,
whereas its ceiling is `1431655766`. -/
theorem rt_clocks_calc_mult_shift_rounds_down :
    rt_clocks_calc_mult_shift 34 3 1 1 = .ok (1431655765, 32) ∧
      ⌈((1 * 2 ^ 32 : Nat) : ℚ) / ((3 : Nat) : ℚ)⌉ = 1431655766 := by
  refine ⟨rfl, ?_⟩
  rw [Int.ceil_eq_iff]
  norm_num

/-- C23: for 32-bit arguments with `from > 0`, `rt_clocks_calc_mult_shift` returns, the
shift is at most 32, and when it is at least 1 the multiplier returned is `to * 2^shift /
from` rounded to the nearest integer, halves upwards: it is computed as
`(to * 2^shift + from / 2) / from`. -/
theorem rt_clocks_calc_mult_shift_rounds (fuel from_ to_ maxsec : Nat) (hf0 : 0 < from_)
    (hf : from_ < 2 ^ 32) (ht : to_ < 2 ^ 32) (hm : maxsec < 2 ^ 32) (hfuel : 34 ≤ fuel) :
    ∃ mult shift, rt_clocks_calc_mult_shift fuel from_ to_ maxsec = .ok (mult, shift) ∧
      shift ≤ 32 ∧
      (1 ≤ shift → mult = (to_ * 2 ^ shift + from_ / 2) / from_ ∧
        (mult : Int) = round (((to_ * 2 ^ shift : Nat) : ℚ) / (from_ : ℚ))) := by
  obtain ⟨mult, shift, e, hs, h⟩ := calc_mult_shift_spec hf0.ne' hf ht hm hfuel
  refine ⟨mult, shift, e, hs, fun h1 => ?_⟩
  rcases h with ⟨-, h2, -, -⟩ | ⟨h0, -, -⟩
  · refine ⟨h2, ?_⟩
    rw [h2]
    exact div_add_half_eq_round _ _ hf0
  · omega

/-- Instance: the conversion from 24 MHz cycles to nanoseconds for 156 s. -/
theorem rt_clocks_calc_mult_shift_rounds_witness :
    ∃ mult shift, rt_clocks_calc_mult_shift 34 24000000 1000000000 156 = .ok (mult, shift) ∧
      shift ≤ 32 ∧
      (1 ≤ shift → mult = (1000000000 * 2 ^ shift + 24000000 / 2) / 24000000 ∧
        (mult : Int) = round (((1000000000 * 2 ^ shift : Nat) : ℚ) / ((24000000 : Nat) : ℚ))) :=
  rt_clocks_calc_mult_shift_rounds 34 24000000 1000000000 156 (by norm_num) (by norm_num)
    (by norm_num) (by norm_num) (le_refl _)

/-- C24, refuted: for `from = 1000000`, `to = 2^32 - 1`, `maxsec = 2^32 - 1` the headroom
`sftacc` is 12 and already the multiplier 8590 of shift 1 does not fit below `2^12`; the
function returns the shift 0, which is not in `1..32`, together with that multiplier. -/
theorem rt_clocks_calc_mult_shift_no_fit :
    rt_clocks_calc_mult_shift 34 1000000 4294967295 4294967295 = .ok (8590, 0) ∧
      32 - Nat.size ((4294967295 * 1000000) >>> 32) = 12 ∧ ¬ 8590 < 2 ^ 12 := by
  refine ⟨rfl, ?_, by norm_num⟩
  have : Nat.size ((4294967295 * 1000000) >>> 32) = 20 := by
    apply le_antisymm
    · rw [Nat.size_le]; norm_num [Nat.shiftRight_eq_div_pow]
    · rw [← Nat.lt_iff_add_one_le, Nat.lt_size]; norm_num [Nat.shiftRight_eq_div_pow]
  rw [this]

/-- C24: for 32-bit arguments with `from > 0`, let `sftacc` be 32 minus the bit length of
`(maxsec * from) >> 32`.  Whenever some shift in `1..32` has a multiplier
`(to * 2^shift + from / 2) / from` below `2^sftacc`, `rt_clocks_calc_mult_shift` returns the
largest such shift with its multiplier: the multiplier returned fits, and the multiplier of
every larger shift up to 32 does not. -/
theorem rt_clocks_calc_mult_shift_largest (fuel from_ to_ maxsec : Nat) (hf0 : 0 < from_)
    (hf : from_ < 2 ^ 32) (ht : to_ < 2 ^ 32) (hm : maxsec < 2 ^ 32) (hfuel : 34 ≤ fuel)
    (hfit : ∃ j, 1 ≤ j ∧ j ≤ 32 ∧ (to_ * 2 ^ j + from_ / 2) / from_
      < 2 ^ (32 - Nat.size ((maxsec * from_) >>> 32))) :
    ∃ mult shift, rt_clocks_calc_mult_shift fuel from_ to_ maxsec = .ok (mult, shift) ∧
      1 ≤ shift ∧ shift ≤ 32 ∧ mult = (to_ * 2 ^ shift + from_ / 2) / from_ ∧
      mult < 2 ^ (32 - Nat.size ((maxsec * from_) >>> 32)) ∧
      ∀ j, shift < j → j ≤ 32 → ¬ (to_ * 2 ^ j + from_ / 2) / from_
        < 2 ^ (32 - Nat.size ((maxsec * from_) >>> 32)) := by
  obtain ⟨mult, shift, e, hs, h⟩ := calc_mult_shift_spec hf0.ne' hf ht hm hfuel
  rcases h with ⟨h1, h2, h3, h4⟩ | ⟨-, h2, -⟩
  · exact ⟨mult, shift, e, h1, hs, h2, h3, h4⟩
  · obtain ⟨j, hj1, hj2, hj3⟩ := hfit
    exact absurd hj3 (h2 j hj1 hj2)

/-- Instance: the conversion from 24 MHz cycles to nanoseconds for 156 s, where the
headroom is 32 bits and the multiplier of shift 1 fits. -/
theorem rt_clocks_calc_mult_shift_largest_witness :
    ∃ mult shift, rt_clocks_calc_mult_shift 34 24000000 1000000000 156 = .ok (mult, shift) ∧
      1 ≤ shift ∧ shift ≤ 32 ∧ mult = (1000000000 * 2 ^ shift + 24000000 / 2) / 24000000 ∧
      mult < 2 ^ (32 - Nat.size ((156 * 24000000) >>> 32)) ∧
      ∀ j, shift < j → j ≤ 32 → ¬ (1000000000 * 2 ^ j + 24000000 / 2) / 24000000
        < 2 ^ (32 - Nat.size ((156 * 24000000) >>> 32)) :=
  rt_clocks_calc_mult_shift_largest 34 24000000 1000000000 156 (by norm_num) (by norm_num)
    (by norm_num) (by norm_num) (le_refl _)
    ⟨1, le_refl _, by norm_num, by
      have : (156 * 24000000) >>> 32 = 0 := by norm_num [Nat.shiftRight_eq_div_pow]
      rw [this]
      norm_num⟩

end RtThread

namespace RtThread
open Color Tree rt_hrtimer_mode rt_hrtimer_restart rt_clocksource_mode

/-! ## Calibration of a clocksource -/

theorem max_adjustment_eq {mult : Nat} (h : mult < 2 ^ 32) :
    rt_clocksource_max_adjustment mult = mult * 11 / 100 := by
  unfold rt_clocksource_max_adjustment
  have h1 : mult * 11 < 2 ^ 64 := by omega
  have h2 : mult * 11 / 100 < 2 ^ 32 := by omega
  rw [Nat.mod_eq_of_lt h1, Nat.mod_eq_of_lt h2]

theorem sub_wrap {m a : Nat} (ha : a ≤ m) (hm : m < 2 ^ 32) :
    (m + 2 ^ 32 - a) % 2 ^ 32 = m - a := by
  have : m + 2 ^ 32 - a = (m - a) + 2 ^ 32 := by omega
  rw [this, Nat.add_mod_right, Nat.mod_eq_of_lt (by omega)]

theorem add_wrap {x : Nat} (h1 : 2 ^ 32 ≤ x) (h2 : x < 2 ^ 33) :
    x % 2 ^ 32 = x - 2 ^ 32 := by
  rw [Nat.mod_eq_sub_mod h1, Nat.mod_eq_of_lt (by omega)]

/-- The test of the loop of `__rt_clocksource_updatefreq_scale` holds exactly when
`mult + maxadj` does not fit in 32 bits. -/
theorem adjust_test {mult a : Nat} (hm : mult < 2 ^ 32) (ha : a ≤ mult) :
    ((mult + a) % 2 ^ 32 < mult ∨ (mult + 2 ^ 32 - a) % 2 ^ 32 > mult) ↔ 2 ^ 32 ≤ mult + a := by
  rw [sub_wrap ha hm]
  by_cases h : mult + a < 2 ^ 32
  · rw [Nat.mod_eq_of_lt h]
    omega
  · rw [add_wrap (by omega) (by omega)]
    omega

/-- The loop of `__rt_clocksource_updatefreq_scale` runs its body at most once: it halves
`mult` exactly when `mult + maxadj` does not fit in 32 bits. -/
theorem updatefreq_adjust_spec {fuel mult shift : Nat} (hm : mult < 2 ^ 32) (hfuel : 2 ≤ fuel) :
    updatefreq_adjust fuel mult shift (rt_clocksource_max_adjustment mult) =
      .ok (if mult + mult * 11 / 100 < 2 ^ 32 then (mult, shift, mult * 11 / 100)
        else (mult >>> 1, (shift + 2 ^ 32 - 1) % 2 ^ 32, (mult >>> 1) * 11 / 100)) := by
  obtain ⟨fuel, rfl⟩ : ∃ k, fuel = k + 2 := ⟨fuel - 2, by omega⟩
  have hh : mult >>> 1 = mult / 2 := by rw [Nat.shiftRight_eq_div_pow, pow_one]
  have hm2 : mult >>> 1 < 2 ^ 32 := by rw [hh]; omega
  have ha : mult * 11 / 100 ≤ mult := by omega
  have ha2 : (mult >>> 1) * 11 / 100 ≤ mult >>> 1 := by omega
  rw [max_adjustment_eq hm]
  by_cases h : mult + mult * 11 / 100 < 2 ^ 32
  · have hc : ¬ ((mult + mult * 11 / 100) % 2 ^ 32 < mult ∨
        (mult + 2 ^ 32 - mult * 11 / 100) % 2 ^ 32 > mult) := by
      rw [adjust_test hm ha]; omega
    rw [updatefreq_adjust, if_neg hc, if_pos h]
    rfl
  · have hc : (mult + mult * 11 / 100) % 2 ^ 32 < mult ∨
        (mult + 2 ^ 32 - mult * 11 / 100) % 2 ^ 32 > mult := by
      rw [adjust_test hm ha]; omega
    have hc2 : ¬ ((mult >>> 1 + (mult >>> 1) * 11 / 100) % 2 ^ 32 < mult >>> 1 ∨
        (mult >>> 1 + 2 ^ 32 - (mult >>> 1) * 11 / 100) % 2 ^ 32 > mult >>> 1) := by
      rw [adjust_test hm2 ha2, hh]; omega
    rw [updatefreq_adjust, if_pos hc]
    simp only [max_adjustment_eq hm2]
    rw [updatefreq_adjust, if_neg hc2, if_neg h]
    rfl

end RtThread

namespace RtThread
open Color Tree rt_hrtimer_mode rt_hrtimer_restart rt_clocksource_mode

/-- For 32-bit arguments and `from > 0`, `rt_clocks_calc_mult_shift` returns, and the pair
returned is a 32-bit multiplier and a shift of at most 32. -/
theorem calc_mult_shift_total {fuel from_ to_ maxsec : Nat} (hf0 : from_ ≠ 0)
    (hf : from_ < 2 ^ 32) (ht : to_ < 2 ^ 32) (hm : maxsec < 2 ^ 32) (hfuel : 34 ≤ fuel) :
    ∃ mult shift, rt_clocks_calc_mult_shift fuel from_ to_ maxsec = .ok (mult, shift) ∧
      mult < 2 ^ 32 ∧ shift ≤ 32 := by
  obtain ⟨m, s, e, hs, h⟩ := calc_mult_shift_spec hf0 hf ht hm hfuel
  refine ⟨m, s, e, ?_, hs⟩
  rcases h with ⟨-, -, h3, -⟩ | ⟨-, -, h3⟩
  · exact lt_of_lt_of_le h3 (Nat.pow_le_pow_right (by norm_num) (Nat.sub_le _ _))
  · rw [h3]
    exact Nat.mod_lt _ (by norm_num)

/-- Result of `rt_clocks_calc_max_nsecs` when `mult + maxadj` fits in 32 bits, `maxadj` is at
most `mult` and the sum is not zero. -/
theorem calc_max_nsecs_ok {mult shift maxadj mask : Nat} (h : mult + maxadj < 2 ^ 32)
    (ha : maxadj ≤ mult) (h0 : 0 < mult + maxadj) :
    rt_clocks_calc_max_nsecs mult shift maxadj mask =
      .ok ((rt_clocksource_cyc2ns (min ((2 ^ 64 - 1) / (mult + maxadj)) mask)
              (mult - maxadj) shift) >>> 1,
           min ((2 ^ 64 - 1) / (mult + maxadj)) mask) := by
  unfold rt_clocks_calc_max_nsecs
  have hne : ¬ (mult + maxadj) % 2 ^ 32 = 0 := by
    rw [Nat.mod_eq_of_lt h]; omega
  simp only [if_neg hne, pure_eq_ok]
  rw [Nat.mod_eq_of_lt h, sub_wrap ha (by omega)]
  have hmin : (if (2 ^ 64 - 1) / (mult + maxadj) < mask then (2 ^ 64 - 1) / (mult + maxadj)
      else mask) = min ((2 ^ 64 - 1) / (mult + maxadj)) mask := by
    split
    · rw [min_eq_left]; omega
    · rw [min_eq_right]; omega
  rw [hmin]

/-- With `mult + maxadj = 0` in 32 bits, `rt_clocks_calc_max_nsecs` divides by zero. -/
theorem calc_max_nsecs_zero {shift mask : Nat} :
    rt_clocks_calc_max_nsecs 0 shift 0 mask = .error .div_by_zero := by
  simp [rt_clocks_calc_max_nsecs]

/-- Function `__rt_clocksource_updatefreq_scale` in terms of the pair found by
`rt_clocks_calc_mult_shift`: the loop halves `mult` at most once. -/
theorem updatefreq_scale_eq {fuel : Nat} {cs : rt_clocksource_device} {scale freq m0 s0 : Nat}
    (hfreq : 0 < freq) (hscale : 0 < scale) (hfuel : 2 ≤ fuel) (hm0 : m0 < 2 ^ 32)
    (hs0 : s0 ≤ 32)
    (e : rt_clocks_calc_mult_shift fuel freq ((NSEC_PER_SEC / scale) % 2 ^ 32)
      (((updatefreq_sec cs.mask scale freq * scale) % 2 ^ 64) % 2 ^ 32) = .ok (m0, s0))
    (k : Nat) (hk : k = if m0 + m0 * 11 / 100 < 2 ^ 32 then 0 else 1) :
    __rt_clocksource_updatefreq_scale fuel cs scale freq =
      (rt_clocks_calc_max_nsecs (m0 >>> k) ((s0 + 2 ^ 32 - k) % 2 ^ 32) ((m0 >>> k) * 11 / 100)
        cs.mask >>= fun r =>
          pure { cs with mult := m0 >>> k, shift := (s0 + 2 ^ 32 - k) % 2 ^ 32,
                         maxadj := (m0 >>> k) * 11 / 100, max_idle_ns := r.1,
                         max_cycles := r.2, max_idle_ns_half := r.1 >>> 1 }) := by
  unfold __rt_clocksource_updatefreq_scale
  simp only [if_neg hfreq.ne', if_neg hscale.ne', e, ok_bind, updatefreq_adjust_spec hm0 hfuel]
  by_cases h : m0 + m0 * 11 / 100 < 2 ^ 32
  · rw [if_pos h] at hk ⊢
    subst hk
    have hs : (s0 + 2 ^ 32 - 0) % 2 ^ 32 = s0 := by
      rw [Nat.sub_zero, Nat.add_mod_right, Nat.mod_eq_of_lt (by omega)]
    rw [hs, Nat.shiftRight_zero]
  · rw [if_neg h] at hk ⊢
    subst hk
    rfl

/-- C25: for a frequency `0 < freq < 2^32` and a scale `> 0`, calibration of a clocksource
by `__rt_clocksource_updatefreq_scale` takes the pair `(m0, s0)` found by
`rt_clocks_calc_mult_shift` and halves `mult` and decrements `shift` (modulo `2^32`)
together, `k` times, where `k = 0` if `m0 + floor(m0 * 11 / 100)` fits in 32 bits and
`k = 1` otherwise.  Unless the final `mult` is 0, the function returns a record with
`maxadj = floor(mult * 11 / 100)` for the final `mult`, `mult + maxadj ≤ 2^32 - 1` and
`maxadj ≤ mult`; with final `mult = 0` it divides by zero in `rt_clocks_calc_max_nsecs`. -/
theorem rt_clocksource_updatefreq_scale_maxadj (fuel : Nat) (cs : rt_clocksource_device)
    (scale freq : Nat) (hfreq : 0 < freq) (hfreq32 : freq < 2 ^ 32) (hscale : 0 < scale)
    (hfuel : 34 ≤ fuel) :
    ∃ m0 s0 k, rt_clocks_calc_mult_shift fuel freq ((NSEC_PER_SEC / scale) % 2 ^ 32)
        (((updatefreq_sec cs.mask scale freq * scale) % 2 ^ 64) % 2 ^ 32) = .ok (m0, s0) ∧
      k = (if m0 + m0 * 11 / 100 < 2 ^ 32 then 0 else 1) ∧
      (m0 >>> k ≠ 0 → ∃ cs', __rt_clocksource_updatefreq_scale fuel cs scale freq = .ok cs' ∧
        cs'.mult = m0 >>> k ∧ cs'.shift = (s0 + 2 ^ 32 - k) % 2 ^ 32 ∧
        cs'.maxadj = cs'.mult * 11 / 100 ∧ cs'.mult + cs'.maxadj ≤ 2 ^ 32 - 1 ∧
        cs'.maxadj ≤ cs'.mult) ∧
      (m0 >>> k = 0 →
        __rt_clocksource_updatefreq_scale fuel cs scale freq = .error .div_by_zero) := by
  obtain ⟨m0, s0, e, hm0, hs0⟩ := @calc_mult_shift_total fuel freq
    ((NSEC_PER_SEC / scale) % 2 ^ 32)
    (((updatefreq_sec cs.mask scale freq * scale) % 2 ^ 64) % 2 ^ 32) hfreq.ne' hfreq32
    (Nat.mod_lt _ (by norm_num)) (Nat.mod_lt _ (by norm_num)) hfuel
  refine ⟨m0, s0, if m0 + m0 * 11 / 100 < 2 ^ 32 then 0 else 1, e, rfl, ?_, ?_⟩
  · intro hne
    have hsum : m0 >>> (if m0 + m0 * 11 / 100 < 2 ^ 32 then 0 else 1) +
        (m0 >>> (if m0 + m0 * 11 / 100 < 2 ^ 32 then 0 else 1)) * 11 / 100 < 2 ^ 32 := by
      split
      · rw [Nat.shiftRight_zero]; assumption
      · rw [Nat.shiftRight_eq_div_pow, pow_one]; omega
    have key := updatefreq_scale_eq hfreq hscale (by omega) hm0 hs0 e _ rfl
    generalize (if m0 + m0 * 11 / 100 < 2 ^ 32 then 0 else 1) = k at key hsum hne ⊢
    generalize m0 >>> k = M at key hsum hne ⊢
    have hle : M * 11 / 100 ≤ M := by omega
    rw [key, calc_max_nsecs_ok hsum hle (by omega)]
    refine ⟨_, rfl, rfl, rfl, rfl, ?_, ?_⟩
    · dsimp only
      omega
    · dsimp only
      omega
  · intro h0
    rw [updatefreq_scale_eq hfreq hscale (by omega) hm0 hs0 e _ rfl, h0]
    simp [calc_max_nsecs_zero]

/-- Instance: the clocksource of the board calibrated for 24 MHz. -/
theorem rt_clocksource_updatefreq_scale_maxadj_witness :
    (0 < 24000000 ∧ 24000000 < 2 ^ 32 ∧ 0 < 1 ∧ 34 ≤ 40) ∧
    ∃ m0 s0 k, rt_clocks_calc_mult_shift 40 24000000 ((NSEC_PER_SEC / 1) % 2 ^ 32)
        (((updatefreq_sec clocksource_dm365.mask 1 24000000 * 1) % 2 ^ 64) % 2 ^ 32)
          = .ok (m0, s0) ∧
      k = (if m0 + m0 * 11 / 100 < 2 ^ 32 then 0 else 1) ∧
      (m0 >>> k ≠ 0 →
        ∃ cs', __rt_clocksource_updatefreq_scale 40 clocksource_dm365 1 24000000 = .ok cs' ∧
        cs'.mult = m0 >>> k ∧ cs'.shift = (s0 + 2 ^ 32 - k) % 2 ^ 32 ∧
        cs'.maxadj = cs'.mult * 11 / 100 ∧ cs'.mult + cs'.maxadj ≤ 2 ^ 32 - 1 ∧
        cs'.maxadj ≤ cs'.mult) ∧
      (m0 >>> k = 0 →
        __rt_clocksource_updatefreq_scale 40 clocksource_dm365 1 24000000
          = .error .div_by_zero) :=
  ⟨⟨by norm_num, by norm_num, by norm_num, by norm_num⟩,
    rt_clocksource_updatefreq_scale_maxadj 40 clocksource_dm365 1 24000000 (by norm_num)
      (by norm_num) (by norm_num) (by norm_num)⟩

end RtThread

namespace RtThread
open Color Tree rt_hrtimer_mode rt_hrtimer_restart rt_clocksource_mode

/-! ## `rt_clocks_calc_max_nsecs` -/

/-- No cycle count up to `(2^64 - 1) / d` overflows 64 bits when multiplied by a factor of
at most `d`. -/
theorem mul_le_of_le_div {c d m : Nat} (hc : c ≤ (2 ^ 64 - 1) / d) (hm : m ≤ d) :
    c * m < 2 ^ 64 := by
  have h1 : c * m ≤ (2 ^ 64 - 1) / d * d := Nat.mul_le_mul hc hm
  have h2 : (2 ^ 64 - 1) / d * d ≤ 2 ^ 64 - 1 := Nat.div_mul_le_self _ _
  have h3 : 2 ^ 64 - 1 < 2 ^ 64 := by norm_num
  exact lt_of_le_of_lt (le_trans h1 h2) h3

/-- C26, refuted as stated: with `mult = 4000000000`, `maxadj = 440000000` (11% of `mult`)
and a 64-bit mask the sum `mult + maxadj` wraps to 145032704 in 32 bits;
`rt_clocks_calc_max_nsecs` stores `max_cycles = 127190237546`, which is not
`min ((2^64 - 1) / (mult + maxadj)) mask = 4154672088`, and `max_cycles * mult` does not fit
in 64 bits. -/
theorem rt_clocks_calc_max_nsecs_wraps :
    rt_clocks_calc_max_nsecs 4000000000 0 440000000 (2 ^ 64 - 1)
        = .ok (5037693947365380608, 127190237546) ∧
      min ((2 ^ 64 - 1) / (4000000000 + 440000000)) (2 ^ 64 - 1) = 4154672088 ∧
      ¬ 127190237546 * 4000000000 < 2 ^ 64 := by
  refine ⟨?_, by norm_num, by norm_num⟩
  rfl

/-- C26: when `mult + maxadj` fits in 32 bits and is not 0 and `maxadj ≤ mult`,
`rt_clocks_calc_max_nsecs` stores `max_cycles = min ((2^64 - 1) / (mult + maxadj)) mask` and
returns `((max_cycles * (mult - maxadj)) >> shift) / 2`, and for every cycle count
`c ≤ max_cycles` the products `c * (mult + maxadj)` and `c * mult` are below `2^64`. -/
theorem rt_clocks_calc_max_nsecs_spec (mult shift maxadj mask : Nat)
    (h : mult + maxadj < 2 ^ 32) (ha : maxadj ≤ mult) (h0 : 0 < mult + maxadj) :
    rt_clocks_calc_max_nsecs mult shift maxadj mask =
        .ok (((min ((2 ^ 64 - 1) / (mult + maxadj)) mask * (mult - maxadj)) >>> shift) / 2,
             min ((2 ^ 64 - 1) / (mult + maxadj)) mask) ∧
      ∀ c, c ≤ min ((2 ^ 64 - 1) / (mult + maxadj)) mask →
        c * (mult + maxadj) < 2 ^ 64 ∧ c * mult < 2 ^ 64 := by
  constructor
  · rw [calc_max_nsecs_ok h ha h0]
    unfold rt_clocksource_cyc2ns
    rw [Nat.mod_eq_of_lt (mul_le_of_le_div (min_le_left _ _) (Nat.sub_le_of_le_add (by omega))),
      Nat.shiftRight_eq_div_pow _ 1, pow_one]
  · intro c hc
    have hc' : c ≤ (2 ^ 64 - 1) / (mult + maxadj) := le_trans hc (min_le_left _ _)
    exact ⟨mul_le_of_le_div hc' (le_refl _), mul_le_of_le_div hc' (Nat.le_add_right _ _)⟩

/-- Instance: the values of the board clocksource calibrated for 24 MHz. -/
theorem rt_clocks_calc_max_nsecs_spec_witness :
    (2796202667 + 307582293 < 2 ^ 32 ∧ 307582293 ≤ 2796202667 ∧ 0 < 2796202667 + 307582293) ∧
    (rt_clocks_calc_max_nsecs 2796202667 26 307582293 0xFFFFFFFF =
        .ok (((min ((2 ^ 64 - 1) / (2796202667 + 307582293)) 0xFFFFFFFF
                * (2796202667 - 307582293)) >>> 26) / 2,
             min ((2 ^ 64 - 1) / (2796202667 + 307582293)) 0xFFFFFFFF) ∧
      ∀ c, c ≤ min ((2 ^ 64 - 1) / (2796202667 + 307582293)) 0xFFFFFFFF →
        c * (2796202667 + 307582293) < 2 ^ 64 ∧ c * 2796202667 < 2 ^ 64) :=
  ⟨⟨by norm_num, by norm_num, by norm_num⟩,
    rt_clocks_calc_max_nsecs_spec 2796202667 26 307582293 0xFFFFFFFF (by norm_num) (by norm_num)
      (by norm_num)⟩

end RtThread

namespace RtThread
open Color Tree rt_hrtimer_mode rt_hrtimer_restart rt_clocksource_mode

/-! ## `_rt_clockevent_delta2ns` -/

/-- The backwards conversion `(ns >> shift) != cycles` differs exactly when the 64-bit shift
`cycles << shift` lost bits. -/
theorem shift_overflow_iff (cycles s : Nat) :
    ((cycles <<< s) % 2 ^ 64) >>> s ≠ cycles ↔ 2 ^ 64 ≤ cycles * 2 ^ s := by
  rw [Nat.shiftLeft_eq, Nat.shiftRight_eq_div_pow]
  have hp : 0 < 2 ^ s := Nat.pow_pos (by norm_num)
  constructor
  · intro h
    by_contra hlt
    rw [not_le] at hlt
    rw [Nat.mod_eq_of_lt hlt, Nat.mul_div_cancel _ hp] at h
    exact h rfl
  · intro h
    have h1 : (cycles * 2 ^ s) % 2 ^ 64 < 2 ^ 64 := Nat.mod_lt _ (by norm_num)
    have h2 : (cycles * 2 ^ s) % 2 ^ 64 < cycles * 2 ^ s := lt_of_lt_of_le h1 h
    have h3 : (cycles * 2 ^ s) % 2 ^ 64 / 2 ^ s < cycles := by
      rw [Nat.div_lt_iff_lt_mul hp]
      exact h2
    exact Nat.ne_of_lt h3

theorem one_shiftLeft_mod {s : Nat} (hs : s < 64) : (1 <<< s) % 2 ^ 64 = 2 ^ s := by
  rw [Nat.shiftLeft_eq, one_mul]
  exact Nat.mod_eq_of_lt (Nat.pow_lt_pow_right (by norm_num) hs)

theorem ite_gt_eq_max (n : Nat) : (if n > 1000 then n else 1000) = max 1000 n := by
  split
  · rw [max_eq_right]; omega
  · rw [max_eq_left]; omega

/-- Result of `_rt_clockevent_delta2ns` when the shift does not overflow: the cycle count is
scaled by `2^shift`, `mult - 1` is added when that cannot overflow and the call is for the
lower bound or `mult ≤ 2^shift`, and the quotient by `mult` is floored at 1000. -/
theorem delta2ns_eq {cycles : Nat} {event : rt_clockevent_device} {ismax : Bool}
    (hm : event.mult ≠ 0) (hs : event.shift < 64) (hno : cycles * 2 ^ event.shift < 2 ^ 64) :
    _rt_clockevent_delta2ns cycles event ismax =
      .ok (max 1000 ((cycles * 2 ^ event.shift +
        (if 2 ^ 64 - 1 - cycles * 2 ^ event.shift > event.mult - 1 ∧
            (ismax = false ∨ event.mult ≤ 2 ^ event.shift) then event.mult - 1 else 0))
          / event.mult)) := by
  have ht : ¬ ((cycles <<< event.shift) % 2 ^ 64) >>> event.shift ≠ cycles := by
    rw [shift_overflow_iff]; omega
  unfold _rt_clockevent_delta2ns
  simp only [if_neg hm, if_neg ht, one_shiftLeft_mod hs, pure_eq_ok, ite_gt_eq_max]
  rw [Nat.shiftLeft_eq, Nat.mod_eq_of_lt hno]
  congr 2
  split <;> rfl

/-- Result of `_rt_clockevent_delta2ns` when the shift overflows: `2^64 - 1` stands in for
the scaled cycle count and nothing is added to it. -/
theorem delta2ns_sat {cycles : Nat} {event : rt_clockevent_device} {ismax : Bool}
    (hm : event.mult ≠ 0) (hov : 2 ^ 64 ≤ cycles * 2 ^ event.shift) :
    _rt_clockevent_delta2ns cycles event ismax =
      .ok (max 1000 ((2 ^ 64 - 1) / event.mult)) := by
  have ht : ((cycles <<< event.shift) % 2 ^ 64) >>> event.shift ≠ cycles := by
    rw [shift_overflow_iff]; exact hov
  have hc : ¬ (2 ^ 64 - 1 - (2 ^ 64 - 1) > event.mult - 1 ∧
      (ismax = false ∨ event.mult ≤ (1 <<< event.shift) % 2 ^ 64)) := by
    rw [Nat.sub_self]
    intro h
    exact Nat.not_lt_zero _ h.1
  unfold _rt_clockevent_delta2ns
  simp only [if_neg hm, if_pos ht, if_neg hc, pure_eq_ok, ite_gt_eq_max]

/-- C29: in `_rt_clockevent_delta2ns` (for `shift < 64` and `mult` other than 0) the test
`(ns >> shift) != cycles` on the 64-bit value `ns = cycles << shift` holds exactly when
`cycles * 2^shift` does not fit in 64 bits; in that case the function computes with
`2^64 - 1` in place of the wrapped product and returns `max 1000 ((2^64 - 1) / mult)`, and
otherwise it computes with `cycles * 2^shift` itself. -/
theorem rt_clockevent_delta2ns_saturates (cycles : Nat) (event : rt_clockevent_device)
    (ismax : Bool) (hs : event.shift < 64) (hm : event.mult ≠ 0) :
    ((((cycles <<< event.shift) % 2 ^ 64) >>> event.shift ≠ cycles) ↔
        2 ^ 64 ≤ cycles * 2 ^ event.shift) ∧
      (2 ^ 64 ≤ cycles * 2 ^ event.shift →
        _rt_clockevent_delta2ns cycles event ismax =
          .ok (max 1000 ((2 ^ 64 - 1) / event.mult))) ∧
      (cycles * 2 ^ event.shift < 2 ^ 64 →
        _rt_clockevent_delta2ns cycles event ismax =
          .ok (max 1000 ((cycles * 2 ^ event.shift +
            (if 2 ^ 64 - 1 - cycles * 2 ^ event.shift > event.mult - 1 ∧
                (ismax = false ∨ event.mult ≤ 2 ^ event.shift) then event.mult - 1 else 0))
              / event.mult))) :=
  ⟨shift_overflow_iff cycles event.shift, fun hov => delta2ns_sat hm hov,
    fun hno => delta2ns_eq hm hs hno⟩

/-- Instance: 4 cycles at `shift = 62` and `mult = 1` overflow the 64-bit shift; the result
is `2^64 - 1`. -/
theorem rt_clockevent_delta2ns_saturates_witness :
    ((62 : Nat) < 64 ∧ (1 : Nat) ≠ 0) ∧
      2 ^ 64 ≤ 4 * 2 ^ 62 ∧
      (((4 <<< 62) % 2 ^ 64) >>> 62 ≠ 4) ∧
      _rt_clockevent_delta2ns 4
        { min_delta_cycles := 1, max_delta_cycles := 4, min_delta_ns := 0, max_delta_ns := 0,
          mult := 1, shift := 62 } true = .ok (max 1000 ((2 ^ 64 - 1) / 1)) :=
  ⟨⟨by norm_num, by norm_num⟩, by norm_num,
    (rt_clockevent_delta2ns_saturates 4
      { min_delta_cycles := 1, max_delta_cycles := 4, min_delta_ns := 0, max_delta_ns := 0,
        mult := 1, shift := 62 } true (by norm_num) (by norm_num)).1.2 (by norm_num),
    (rt_clockevent_delta2ns_saturates 4
      { min_delta_cycles := 1, max_delta_cycles := 4, min_delta_ns := 0, max_delta_ns := 0,
        mult := 1, shift := 62 } true (by norm_num) (by norm_num)).2.1 (by norm_num)⟩

end RtThread

namespace RtThread
open Color Tree rt_hrtimer_mode rt_hrtimer_restart rt_clocksource_mode

/-! ## `rt_clockevents_config` -/

theorem ceil_mul_ge (a M : Nat) (hM : 0 < M) : a ≤ ((a + (M - 1)) / M) * M := by
  have h := Nat.lt_mul_div_succ (a + (M - 1)) hM
  rw [Nat.mul_add, Nat.mul_one, Nat.mul_comm] at h
  omega

/-- The lower bound in nanoseconds converts back to at least `c` cycles. -/
theorem min_bound {c P M n : Nat} (hP : 0 < P) (hM : 0 < M)
    (hn : n = max 1000 ((c * P + (M - 1)) / M)) : c ≤ (n * M) / P := by
  rw [Nat.le_div_iff_mul_le hP]
  have h1 : (c * P + (M - 1)) / M ≤ n := by rw [hn]; exact le_max_right _ _
  exact le_trans (ceil_mul_ge (c * P) M hM) (Nat.mul_le_mul_right M h1)

/-- The upper bound in nanoseconds converts back to at most `c` cycles when 1000 ns do. -/
theorem max_bound {c P M e n : Nat} (hP : 0 < P) (he : e < P)
    (hn : n = max 1000 ((c * P + e) / M)) (h1000 : (1000 * M) / P ≤ c) :
    n * M < (c + 1) * P := by
  rcases le_total 1000 ((c * P + e) / M) with h | h
  · rw [max_eq_right h] at hn
    have h1 : n * M ≤ c * P + e := by rw [hn]; exact Nat.div_mul_le_self _ _
    rw [Nat.add_mul, Nat.one_mul]
    omega
  · rw [max_eq_left h] at hn
    rw [hn, ← Nat.div_lt_iff_lt_mul hP]
    omega

/-- For a frequency `0 < freq < 2^32` and a 32-bit seconds budget the multiplier that
`rt_clocks_calc_mult_shift` finds for the conversion from nanoseconds to cycles is not 0. -/
theorem config_mult_pos {fuel freq maxsec : Nat} (hfreq : 0 < freq) (hfreq32 : freq < 2 ^ 32)
    (hm : maxsec < 2 ^ 32) (hfuel : 34 ≤ fuel) :
    ∃ mult shift, rt_clocks_calc_mult_shift fuel NSEC_PER_SEC freq maxsec = .ok (mult, shift) ∧
      1 ≤ mult ∧ mult < 2 ^ 32 ∧ shift ≤ 32 := by
  obtain ⟨m, s, e, hs, h⟩ := @calc_mult_shift_spec fuel NSEC_PER_SEC freq maxsec
    (by norm_num [NSEC_PER_SEC]) (by norm_num [NSEC_PER_SEC]) hfreq32 hm hfuel
  have hx : (maxsec * NSEC_PER_SEC) >>> 32 < 2 ^ 30 := by
    rw [Nat.shiftRight_eq_div_pow]
    simp only [NSEC_PER_SEC]
    omega
  have hsize : Nat.size ((maxsec * NSEC_PER_SEC) >>> 32) ≤ 30 := Nat.size_le.2 hx
  have hA : 2 ^ 2 ≤ 2 ^ (32 - Nat.size ((maxsec * NSEC_PER_SEC) >>> 32)) :=
    Nat.pow_le_pow_right (by norm_num) (by omega)
  have hB : 2 ^ (32 - Nat.size ((maxsec * NSEC_PER_SEC) >>> 32)) ≤ 2 ^ 32 :=
    Nat.pow_le_pow_right (by norm_num) (Nat.sub_le _ _)
  generalize 2 ^ (32 - Nat.size ((maxsec * NSEC_PER_SEC) >>> 32)) = B at h hA hB
  simp only [NSEC_PER_SEC] at h
  refine ⟨m, s, e, ?_, ?_, hs⟩
  · rcases h with ⟨h1, h2, h3, h4⟩ | ⟨h1, h2, h3⟩
    · rcases Nat.lt_or_ge s 32 with hlt | hge
      · have h5 := h4 (s + 1) (by omega) (by omega)
        rw [pow_succ, ← Nat.mul_assoc] at h5
        rw [h2]
        generalize freq * 2 ^ s = X at h5 ⊢
        omega
      · have hs32 : s = 32 := by omega
        rw [h2, hs32]
        omega
    · have h5 := h2 1 (by omega) (by omega)
      rw [h3]
      omega
  · rcases h with ⟨h1, h2, h3, h4⟩ | ⟨h1, h2, h3⟩
    · omega
    · rw [h3]
      exact Nat.mod_lt _ (by norm_num)

theorem shifted_le {c shift : Nat} (hc : c < 2 ^ 32) (hs : shift ≤ 32) :
    c * 2 ^ shift ≤ 2 ^ 64 - 2 ^ 32 := by
  have hpow : 2 ^ shift ≤ 2 ^ 32 := Nat.pow_le_pow_right (by norm_num) hs
  have h1 : c * 2 ^ shift ≤ (2 ^ 32 - 1) * 2 ^ 32 := Nat.mul_le_mul (by omega) hpow
  have h2 : (2 ^ 32 - 1) * 2 ^ 32 = 2 ^ 64 - 2 ^ 32 := by norm_num
  omega

/-- Lower bound in nanoseconds computed by `_rt_clockevent_delta2ns` for a 32-bit cycle
count, a 32-bit multiplier other than 0 and a shift of at most 32: the quotient is rounded
up and floored at 1000. -/
theorem delta2ns_min {c : Nat} {event : rt_clockevent_device} (hc : c < 2 ^ 32)
    (hm : 1 ≤ event.mult) (hm32 : event.mult < 2 ^ 32) (hs : event.shift ≤ 32) :
    _rt_clockevent_delta2ns c event false =
      .ok (max 1000 ((c * 2 ^ event.shift + (event.mult - 1)) / event.mult)) := by
  have h1 := @shifted_le c event.shift hc hs
  have c1 : (2 ^ 64 - 1 - c * 2 ^ event.shift > event.mult - 1 ∧
      (false = false ∨ event.mult ≤ 2 ^ event.shift)) := ⟨by omega, Or.inl rfl⟩
  rw [delta2ns_eq (by omega) (by omega) (by omega), if_pos c1]

/-- Upper bound in nanoseconds computed by `_rt_clockevent_delta2ns` for a 32-bit cycle
count, a 32-bit multiplier other than 0 and a shift of at most 32: the quotient is rounded
up only when `mult ≤ 2^shift`, and floored at 1000. -/
theorem delta2ns_max {c : Nat} {event : rt_clockevent_device} (hc : c < 2 ^ 32)
    (hm : 1 ≤ event.mult) (hm32 : event.mult < 2 ^ 32) (hs : event.shift ≤ 32) :
    _rt_clockevent_delta2ns c event true =
      .ok (max 1000 ((c * 2 ^ event.shift +
        (if event.mult ≤ 2 ^ event.shift then event.mult - 1 else 0)) / event.mult)) := by
  have h1 := @shifted_le c event.shift hc hs
  have c2 : (2 ^ 64 - 1 - c * 2 ^ event.shift > event.mult - 1 ∧
      (true = false ∨ event.mult ≤ 2 ^ event.shift)) ↔ event.mult ≤ 2 ^ event.shift := by
    constructor
    · rintro ⟨-, h | h⟩
      · cases h
      · exact h
    · intro h
      exact ⟨by omega, Or.inr h⟩
  rw [delta2ns_eq (by omega) (by omega) (by omega), if_congr c2 rfl rfl]

/-- Function `rt_clockevents_config` in terms of the pair `(mult, shift)` found by
`rt_clocks_calc_mult_shift`, for 32-bit cycle bounds: both bounds are converted without
overflow of the shift, and the 64-bit results are cut to 32 bits when stored. -/
theorem config_eq {fuel : Nat} {dev : rt_clockevent_device} {freq mult shift : Nat}
    (hfreq : 0 < freq) (hmin : dev.min_delta_cycles < 2 ^ 32)
    (hmax : dev.max_delta_cycles < 2 ^ 32) (hm : 1 ≤ mult) (hm32 : mult < 2 ^ 32)
    (hs : shift ≤ 32)
    (e : rt_clocks_calc_mult_shift fuel NSEC_PER_SEC freq
      ((if dev.max_delta_cycles / freq = 0 then 1 else dev.max_delta_cycles / freq) % 2 ^ 32)
        = .ok (mult, shift)) :
    rt_clockevents_config fuel dev freq =
      .ok { dev with
            mult := mult, shift := shift,
            min_delta_ns :=
              (max 1000 ((dev.min_delta_cycles * 2 ^ shift + (mult - 1)) / mult)) % 2 ^ 32,
            max_delta_ns :=
              (max 1000 ((dev.max_delta_cycles * 2 ^ shift +
                (if mult ≤ 2 ^ shift then mult - 1 else 0)) / mult)) % 2 ^ 32 } := by
  have hU : ¬ (dev.max_delta_cycles / freq > 600 ∧ dev.max_delta_cycles > UINT_MAX) := by
    simp only [UINT_MAX]; omega
  have e1 := @delta2ns_min dev.min_delta_cycles { dev with mult := mult, shift := shift } hmin
    hm hm32 hs
  have e2 := @delta2ns_max dev.max_delta_cycles
    { dev with mult := mult, shift := shift,
               min_delta_ns :=
                (max 1000 ((dev.min_delta_cycles * 2 ^ shift + (mult - 1)) / mult)) % 2 ^ 32 }
    hmax hm hm32 hs
  unfold rt_clockevents_config
  simp only [if_neg hfreq.ne', if_neg hU, e, ok_bind, ULONG_BITS]
  rw [e1]
  simp only [ok_bind]
  rw [e2]
  rfl

end RtThread

namespace RtThread
open Color Tree rt_hrtimer_mode rt_hrtimer_restart rt_clocksource_mode

/-- C27 (divergence of the code): for a clockevent with `max_delta_cycles = 2^31` at
500 MHz, `rt_clockevents_config` finds `mult = 2^31` and `shift = 32`;
`_rt_clockevent_delta2ns` returns `2^32` for the upper bound, and the 32-bit field
`max_delta_ns` receives its low 32 bits, 0, which is below 1000. -/
theorem rt_clockevents_config_truncates :
    _rt_clockevent_delta2ns 2147483648
        { min_delta_cycles := 1, max_delta_cycles := 2147483648, min_delta_ns := 1000,
          max_delta_ns := 0, mult := 2147483648, shift := 32 } true = .ok 4294967296 ∧
      rt_clockevents_config 40
        { min_delta_cycles := 1, max_delta_cycles := 2147483648, min_delta_ns := 0,
          max_delta_ns := 0, mult := 0, shift := 0 } 500000000 =
        .ok { min_delta_cycles := 1, max_delta_cycles := 2147483648, min_delta_ns := 1000,
              max_delta_ns := 0, mult := 2147483648, shift := 32 } := by
  constructor
  · rfl
  · rfl

/-- C28, refuted as stated: for a clockevent with `min_delta_cycles = 1` and
`max_delta_cycles = 10` at 1 GHz, `rt_clockevents_config` finds `mult = 2^31` and
`shift = 31` and floors the upper bound to `max_delta_ns = 1000`, which converts back to
1000 cycles, more than `max_delta_cycles`. -/
theorem rt_clockevents_config_floor_exceeds :
    rt_clockevents_config 40
        { min_delta_cycles := 1, max_delta_cycles := 10, min_delta_ns := 0,
          max_delta_ns := 0, mult := 0, shift := 0 } 1000000000 =
        .ok { min_delta_cycles := 1, max_delta_cycles := 10, min_delta_ns := 1000,
              max_delta_ns := 1000, mult := 2147483648, shift := 31 } ∧
      ¬ (1000 * 2147483648) >>> 31 ≤ 10 := by
  constructor
  · rfl
  · norm_num [Nat.shiftRight_eq_div_pow]

/-- C28: for a frequency `0 < freq < 2^32` and 32-bit cycle bounds `rt_clockevents_config`
returns a device `dev'` whose fields `min_delta_ns` and `max_delta_ns` hold the low 32 bits
of the values `nmin` and `nmax` that `_rt_clockevent_delta2ns` computes for the two cycle
bounds.  When `nmin` fits in 32 bits, `(min_delta_ns * mult) >> shift ≥ min_delta_cycles`.
When 1000 ns convert to at most `max_delta_cycles` cycles,
`(max_delta_ns * mult) >> shift ≤ max_delta_cycles`, whether `nmax` fits in 32 bits or not,
and every delay `d` in `[min_delta_ns, max_delta_ns]` has a product `d * mult` below `2^64`
and a cycle count `(d * mult) >> shift` that is at most `max_delta_cycles` and, when `nmin`
fits in 32 bits, at least `min_delta_cycles`. -/
theorem rt_clockevents_config_bounds (fuel : Nat) (dev : rt_clockevent_device) (freq : Nat)
    (hfreq : 0 < freq) (hfreq32 : freq < 2 ^ 32) (hmin : dev.min_delta_cycles < 2 ^ 32)
    (hmax : dev.max_delta_cycles < 2 ^ 32) (hfuel : 34 ≤ fuel) :
    ∃ dev' nmin nmax, rt_clockevents_config fuel dev freq = .ok dev' ∧
      dev'.min_delta_cycles = dev.min_delta_cycles ∧
      dev'.max_delta_cycles = dev.max_delta_cycles ∧
      _rt_clockevent_delta2ns dev.min_delta_cycles dev' false = .ok nmin ∧
      _rt_clockevent_delta2ns dev.max_delta_cycles dev' true = .ok nmax ∧
      dev'.min_delta_ns = nmin % 2 ^ 32 ∧ dev'.max_delta_ns = nmax % 2 ^ 32 ∧
      (nmin < 2 ^ 32 →
        dev'.min_delta_cycles ≤ (dev'.min_delta_ns * dev'.mult) >>> dev'.shift) ∧
      ((1000 * dev'.mult) >>> dev'.shift ≤ dev'.max_delta_cycles →
        (dev'.max_delta_ns * dev'.mult) >>> dev'.shift ≤ dev'.max_delta_cycles) ∧
      ((1000 * dev'.mult) >>> dev'.shift ≤ dev'.max_delta_cycles →
        ∀ d, dev'.min_delta_ns ≤ d → d ≤ dev'.max_delta_ns →
          d * dev'.mult < 2 ^ 64 ∧
          (d * dev'.mult) >>> dev'.shift ≤ dev'.max_delta_cycles ∧
          (nmin < 2 ^ 32 → dev'.min_delta_cycles ≤ (d * dev'.mult) >>> dev'.shift)) := by
  obtain ⟨mult, shift, e, hm, hm32, hs⟩ := @config_mult_pos fuel freq
    ((if dev.max_delta_cycles / freq = 0 then 1 else dev.max_delta_cycles / freq) % 2 ^ 32)
    hfreq hfreq32 (Nat.mod_lt _ (by norm_num)) hfuel
  have key := config_eq hfreq hmin hmax hm hm32 hs e
  have hP : 0 < 2 ^ shift := Nat.pow_pos (by norm_num)
  have hPle : 2 ^ shift ≤ 2 ^ 32 := Nat.pow_le_pow_right (by norm_num) hs
  have he : (if mult ≤ 2 ^ shift then mult - 1 else 0) < 2 ^ shift := by
    split <;> omega
  generalize hnmin : max 1000 ((dev.min_delta_cycles * 2 ^ shift + (mult - 1)) / mult) = nmin
    at key
  generalize hnmax : max 1000 ((dev.max_delta_cycles * 2 ^ shift +
    (if mult ≤ 2 ^ shift then mult - 1 else 0)) / mult) = nmax at key
  have hlo : dev.min_delta_cycles ≤ (nmin * mult) / 2 ^ shift := min_bound hP hm hnmin.symm
  have hhi : (1000 * mult) / 2 ^ shift ≤ dev.max_delta_cycles →
      nmax * mult < (dev.max_delta_cycles + 1) * 2 ^ shift := max_bound hP he hnmax.symm
  have hmono : ∀ a b : Nat, a ≤ b → (a * mult) / 2 ^ shift ≤ (b * mult) / 2 ^ shift :=
    fun a b hab => Nat.div_le_div_right (Nat.mul_le_mul_right mult hab)
  have hcut : nmax % 2 ^ 32 ≤ nmax := Nat.mod_le _ _
  refine ⟨_, nmin, nmax, key, rfl, rfl, ?_, ?_, rfl, rfl, ?_, ?_, ?_⟩
  · rw [← hnmin]
    exact delta2ns_min hmin hm hm32 hs
  · rw [← hnmax]
    exact delta2ns_max hmax hm hm32 hs
  · intro h1
    show dev.min_delta_cycles ≤ ((nmin % 2 ^ 32) * mult) >>> shift
    rw [Nat.mod_eq_of_lt h1, Nat.shiftRight_eq_div_pow]
    exact hlo
  · intro h2
    show ((nmax % 2 ^ 32) * mult) >>> shift ≤ dev.max_delta_cycles
    rw [Nat.shiftRight_eq_div_pow] at h2 ⊢
    have h3 := hhi h2
    rw [← Nat.div_lt_iff_lt_mul hP] at h3
    have h4 := hmono _ _ hcut
    omega
  · intro h2 d hd1 hd2
    change nmin % 2 ^ 32 ≤ d at hd1
    change d ≤ nmax % 2 ^ 32 at hd2
    show d * mult < 2 ^ 64 ∧ (d * mult) >>> shift ≤ dev.max_delta_cycles ∧
      (nmin < 2 ^ 32 → dev.min_delta_cycles ≤ (d * mult) >>> shift)
    rw [Nat.shiftRight_eq_div_pow] at h2 ⊢
    have h3 := hhi h2
    rw [← Nat.div_lt_iff_lt_mul hP] at h3
    have h6 := hmono _ _ (le_trans hd2 hcut)
    refine ⟨?_, by omega, fun h1 => ?_⟩
    · have hd32 : d < 2 ^ 32 := lt_of_le_of_lt hd2 (Nat.mod_lt _ (by norm_num))
      calc d * mult < 2 ^ 32 * 2 ^ 32 := Nat.mul_lt_mul'' hd32 hm32
        _ = 2 ^ 64 := by norm_num
    · rw [Nat.mod_eq_of_lt h1] at hd1
      have h5 := hmono _ _ hd1
      omega

/-- Instance: the clockevent of the board, with cycle bounds 1 and `2^32 - 2`, configured
for 24 MHz; its upper bound is computed as 178956969028 ns and does not fit in 32 bits. -/
theorem rt_clockevents_config_bounds_witness :
    (0 < 24000000 ∧ 24000000 < 2 ^ 32 ∧ clockevent_dm365.min_delta_cycles < 2 ^ 32 ∧
      clockevent_dm365.max_delta_cycles < 2 ^ 32 ∧ 34 ≤ 40) ∧
    ∃ dev' nmin nmax, rt_clockevents_config 40 clockevent_dm365 24000000 = .ok dev' ∧
      dev'.min_delta_cycles = clockevent_dm365.min_delta_cycles ∧
      dev'.max_delta_cycles = clockevent_dm365.max_delta_cycles ∧
      _rt_clockevent_delta2ns clockevent_dm365.min_delta_cycles dev' false = .ok nmin ∧
      _rt_clockevent_delta2ns clockevent_dm365.max_delta_cycles dev' true = .ok nmax ∧
      dev'.min_delta_ns = nmin % 2 ^ 32 ∧ dev'.max_delta_ns = nmax % 2 ^ 32 ∧
      (nmin < 2 ^ 32 →
        dev'.min_delta_cycles ≤ (dev'.min_delta_ns * dev'.mult) >>> dev'.shift) ∧
      ((1000 * dev'.mult) >>> dev'.shift ≤ dev'.max_delta_cycles →
        (dev'.max_delta_ns * dev'.mult) >>> dev'.shift ≤ dev'.max_delta_cycles) ∧
      ((1000 * dev'.mult) >>> dev'.shift ≤ dev'.max_delta_cycles →
        ∀ d, dev'.min_delta_ns ≤ d → d ≤ dev'.max_delta_ns →
          d * dev'.mult < 2 ^ 64 ∧
          (d * dev'.mult) >>> dev'.shift ≤ dev'.max_delta_cycles ∧
          (nmin < 2 ^ 32 → dev'.min_delta_cycles ≤ (d * dev'.mult) >>> dev'.shift)) :=
  ⟨⟨by norm_num, by norm_num, by decide, by decide, by norm_num⟩,
    rt_clockevents_config_bounds 40 clockevent_dm365 24000000 (by norm_num) (by norm_num)
      (by decide) (by decide) (by norm_num)⟩

/-- Two instances evaluated.  For cycle bounds 1 and 24000 at 24 MHz: `mult = 103079215`,
`shift = 32`, and the bounds 1000 ns and 1000001 ns fit in 32 bits and are not cut; 1000 ns
convert to 23 cycles and 1000001 ns to 24000 cycles.  For the clockevent of the board at
24 MHz: `mult = 51539608`, `shift = 31`, the upper bound 178956969028 ns is cut to
2863309892 ns, which converts to 68719438 cycles. -/
theorem rt_clockevents_config_example :
    rt_clockevents_config 40
        { min_delta_cycles := 1, max_delta_cycles := 24000, min_delta_ns := 0,
          max_delta_ns := 0, mult := 0, shift := 0 } 24000000 =
        .ok { min_delta_cycles := 1, max_delta_cycles := 24000, min_delta_ns := 1000,
              max_delta_ns := 1000001, mult := 103079215, shift := 32 } ∧
      (1000 * 103079215) >>> 32 = 23 ∧ (1000001 * 103079215) >>> 32 = 24000 ∧
      rt_clockevents_config 40 clockevent_dm365 24000000 =
        .ok { min_delta_cycles := 1, max_delta_cycles := 4294967294, min_delta_ns := 1000,
              max_delta_ns := 2863309892, mult := 51539608, shift := 31 } ∧
      _rt_clockevent_delta2ns 4294967294
        { min_delta_cycles := 1, max_delta_cycles := 4294967294, min_delta_ns := 1000,
          max_delta_ns := 2863309892, mult := 51539608, shift := 31 } true
        = .ok 178956969028 ∧
      (2863309892 * 51539608) >>> 31 = 68719438 := by
  refine ⟨rfl, ?_, ?_, rfl, rfl, ?_⟩ <;> norm_num [Nat.shiftRight_eq_div_pow]

end RtThread

namespace RtThread
open Color Tree rt_hrtimer_mode rt_hrtimer_restart rt_clocksource_mode

/-! ## Time stamps and the end-to-end run -/

/-- The memory of the caller is the same after `rt_hrtimer_store_absolute_time` as before,
and the value returned is the one `rt_clocksource_absolute_time` returns. -/
theorem store_absolute_time_eq (s : Machine) (mem : Nat → Int) (p : Nat) :
    rt_hrtimer_store_absolute_time s mem p =
      (rt_clocksource_absolute_time s >>= fun r => pure (r.1, mem, r.2)) := rfl

/-- Function `rt_hrtimer_elapsed_time` returns the current absolute time minus `*then`,
formed in the 64-bit signed `rt_ktime_t`. -/
theorem elapsed_time_eq (s : Machine) (mem : Nat → Int) (p : Nat) (hp : p ≠ 0) :
    rt_hrtimer_elapsed_time s mem p =
      (rt_clocksource_absolute_time s >>= fun r => pure (to_s64 (r.1 - mem p), r.2)) := by
  unfold rt_hrtimer_elapsed_time
  cases rt_clocksource_absolute_time s with
  | error e => rfl
  | ok r => simp [hp]

/-- C30 (divergence of the code): in the idle system, where the absolute time is 5, with the
`rt_ktime_t` object at address 1 holding 2, `rt_hrtimer_store_absolute_time` called on that
address returns 5 and leaves the object at 2; `rt_hrtimer_elapsed_time` on the same address
returns `5 - 2 = 3`. -/
theorem rt_hrtimer_store_absolute_time_no_store :
    (do
      let (ts, mem, _) ← rt_hrtimer_store_absolute_time idleMachine (fun _ => 2) 1
      pure (ts, mem 1)) = .ok (5, 2) ∧
    (do
      let (delta, _) ← rt_hrtimer_elapsed_time idleMachine (fun _ => 2) 1
      pure delta) = .ok 3 := by
  constructor
  · rfl
  · rfl

/-- C21: on a system with no device registered and the counter at 0, register the 32-bit
up-counting clocksource of the board for 24000 kHz as `rt_hw_timer_init` does, register the
clockevent for 24 MHz, initialise timer 1 as a relative timer with a callback that does not
restart it and start it for 10000000 ns: the deadline is 10000000 and the clockevent is
armed for 240000 cycles.  The handler run with the counter at 240000 invokes the callback
of timer 1 once and of no other timer, leaves timer 1 not enqueued, and reschedules: the
queue is empty, so the keep-alive timer 9 becomes the cached minimum.  Registration at
24000000 Hz gives the same calibration. -/
theorem rt_hrtimer_end_to_end_24mhz :
    (do
      let s ← rt_clocksource_device_register_khz 40 bootMachine clocksource_dm365 24000
      let s ← rt_clockevent_device_register 40 s clockevent_dm365 24000000
      let s ← rt_hrtimer_init s 1 7 1 10000000 RT_HRTIMER_MODE_REL
      let (r, s) ← rt_hrtimer_start 5 s 1 10000000 RT_HRTIMER_MODE_REL
      let s' ← rt_hrtimer_handler oneShotCallback 5 s
      pure (r, (s.timers 1).deadline, RT_HRTIMER_IS_QUEUED (s.timers 1), s.armed, s.fired,
        s.counter s.reads, s'.fired, RT_HRTIMER_IS_QUEUED (s'.timers 1),
        s'.hrtimer_queue.next)) =
      .ok (0, 10000000, true, [240000], [], 240000, [1], false, 9) ∧
    __rt_clocksource_updatefreq_scale 40 clocksource_dm365 1000 24000 =
      .ok { boardClock 0 0 with freq := 0 } ∧
    __rt_clocksource_updatefreq_scale 40 clocksource_dm365 1 24000000 =
      .ok { boardClock 0 0 with freq := 0 } := by
  refine ⟨?_, ?_, ?_⟩
  · rfl
  · rfl
  · rfl

end RtThread

namespace RtThread
open Color Tree rt_hrtimer_mode rt_hrtimer_restart rt_clocksource_mode

/-! ## The seconds budget of the clocksource calibration -/

theorem mask_margin (mask : Nat) (h : mask < 2 ^ 64) :
    (mask + 2 ^ 64 - (mask >>> 3)) % 2 ^ 64 = mask - mask / 8 := by
  rw [Nat.shiftRight_eq_div_pow]
  have h1 : mask / 2 ^ 3 = mask / 8 := by norm_num
  rw [h1]
  have h2 : mask + 2 ^ 64 - mask / 8 = (mask - mask / 8) + 2 ^ 64 := by omega
  rw [h2, Nat.add_mod_right, Nat.mod_eq_of_lt (by omega)]

/-- C39, refuted as stated: for a 32-bit counter (`mask = 0xFFFFFFFF`) at 1 MHz the
12.5%-margin bound is 3758 s.  The limit of 600 s is applied only to masks above `UINT_MAX`,
so the budget stays 3758 s, and `__rt_clocksource_updatefreq_scale` calibrates with the pair
that `rt_clocks_calc_mult_shift` finds for 3758 s. -/
theorem rt_clocksource_updatefreq_budget_exceeds :
    updatefreq_sec 0xFFFFFFFF 1 1000000 = 3758 ∧ ¬ 3758 ≤ 600 ∧
      rt_clocks_calc_mult_shift 40 1000000 1000000000 3758 = .ok (4194304000, 22) ∧
      (__rt_clocksource_updatefreq_scale 40 clocksource_dm365 1 1000000).map
        (fun cs => (cs.mult, cs.shift)) = .ok (4194304000 >>> 1, 21) := by
  refine ⟨by rfl, by norm_num, by rfl, by rfl⟩

/-- C39: for every 64-bit mask, `freq` and `scale` (the function divides by both, so it is
reached with values other than 0 only), the seconds budget of
`__rt_clocksource_updatefreq_scale` is derived from the 12.5%-margin bound
`b = (mask - mask / 8) / freq / scale` as follows: 1 when `b = 0`; otherwise the minimum of
600 and `b` when the mask is above `UINT_MAX` (a counter of more than 32 bits), and `b`
itself for a mask of at most 32 bits.  The budget is at least 1, and for a mask above
`UINT_MAX` it is at most 600. -/
theorem rt_clocksource_updatefreq_budget (mask scale freq : Nat) (hmask : mask < 2 ^ 64) :
    updatefreq_sec mask scale freq =
        (if (mask - mask / 8) / freq / scale = 0 then 1
          else if UINT_MAX < mask then min 600 ((mask - mask / 8) / freq / scale)
          else (mask - mask / 8) / freq / scale) ∧
      1 ≤ updatefreq_sec mask scale freq ∧
      (UINT_MAX < mask → updatefreq_sec mask scale freq ≤ 600) := by
  have e : updatefreq_sec mask scale freq =
      (if (mask - mask / 8) / freq / scale = 0 then 1
        else if UINT_MAX < mask then min 600 ((mask - mask / 8) / freq / scale)
        else (mask - mask / 8) / freq / scale) := by
    unfold updatefreq_sec
    simp only [mask_margin mask hmask]
    generalize (mask - mask / 8) / freq / scale = b
    by_cases hb : b = 0
    · simp [hb]
    · rw [if_neg hb, if_neg hb]
      by_cases hm : UINT_MAX < mask
      · rw [if_pos hm]
        by_cases h6 : b > 600
        · rw [if_pos ⟨h6, hm⟩, min_eq_left (by omega)]
        · rw [if_neg (fun h => h6 h.1), min_eq_right (by omega)]
      · rw [if_neg hm, if_neg (fun h => hm h.2)]
  refine ⟨e, ?_, ?_⟩
  · rw [e]
    generalize (mask - mask / 8) / freq / scale = b
    by_cases hb : b = 0
    · rw [if_pos hb]
    · rw [if_neg hb]
      split
      · exact le_min (by norm_num) (by omega)
      · omega
  · intro hm
    rw [e, if_pos hm]
    split_ifs
    · norm_num
    · exact min_le_left _ _

/-- Instance: the 32-bit counter of the board at 24 MHz, whose budget is 156 s. -/
theorem rt_clocksource_updatefreq_budget_witness :
    (0xFFFFFFFF : Nat) < 2 ^ 64 ∧ updatefreq_sec 0xFFFFFFFF 1 24000000 = 156 :=
  ⟨by norm_num,
    (rt_clocksource_updatefreq_budget 0xFFFFFFFF 1 24000000 (by norm_num)).1.trans
      (by norm_num [UINT_MAX])⟩

end RtThread

namespace RtThread
open Color Tree rt_hrtimer_mode rt_hrtimer_restart rt_clocksource_mode

/-! ## Round trip through `struct timespec` -/

theorem to_signed_of_range {w : Nat} {x : Int} (hw : 1 ≤ w) (h0 : 0 ≤ x)
    (h1 : x < 2 ^ (w - 1)) : to_signed w x = x := by
  unfold to_signed
  have hp : (2 : Int) ^ w = 2 ^ (w - 1) * 2 := by
    rw [← pow_succ]
    congr 1
    omega
  have hpos : (0 : Int) < 2 ^ (w - 1) := by positivity
  rw [Int.emod_eq_of_lt (by omega) (by omega)]
  omega

theorem to_signed_add_mul (W : Nat) (hW : 32 ≤ W) (x : Int) :
    ∃ k : Int, to_signed W x = x + k * 2 ^ 32 := by
  refine ⟨-(2 ^ (W - 32)) * ((x + 2 ^ (W - 1)) / 2 ^ W), ?_⟩
  unfold to_signed
  rw [Int.emod_def]
  have hp : (2 : Int) ^ W = 2 ^ (W - 32) * 2 ^ 32 := by
    rw [← pow_add]
    congr 1
    omega
  generalize (x + 2 ^ (W - 1)) / 2 ^ W = q
  rw [hp]
  ring

theorem to_s64_add_mul (x : Int) : ∃ k : Int, to_s64 x = x + k * 2 ^ 32 := by
  refine ⟨-(2 ^ 32) * ((x + 2 ^ 63) / 2 ^ 64), ?_⟩
  unfold to_s64
  omega

theorem to_signed_long_add_mul {r k : Int} (h0 : 0 ≤ r) (h1 : r < 2 ^ 31) :
    to_signed ULONG_BITS (r + k * 2 ^ 32) = r := by
  unfold to_signed ULONG_BITS
  norm_num
  omega

/-- C40, refuted for a 32-bit `time_t`: the absolute time `2147483648000000005` has
`2^31` seconds, which `tv_sec` does not hold; `rt_abstime_to_ts` stores `tv_sec = -2^31`,
and `rt_ts_to_abstime` applied to the record returns `-2147483647999999995`. -/
theorem rt_abstime_to_ts_seconds_wrap :
    rt_abstime_to_ts 32 2147483648000000005 = { tv_sec := -2147483648, tv_nsec := 5 } ∧
      rt_ts_to_abstime (rt_abstime_to_ts 32 2147483648000000005) = -2147483647999999995 ∧
      (2147483648000000005 : Int) / 10 ^ 9 = 2147483648 := by
  refine ⟨by decide, by decide, by decide⟩

/-- C40: for every absolute time `t ≥ 0` of the 64-bit type `rt_ktime_t` whose number of
seconds `t / 10^9` fits in the signed type `time_t` of `w` bits (every such `t` when
`time_t` has 64 bits), `rt_abstime_to_ts` produces `tv_sec = t / 10^9` and
`tv_nsec = t mod 10^9` with `0 ≤ tv_nsec < 10^9`, and `rt_ts_to_abstime` applied to that
record returns `t`. -/
theorem rt_abstime_to_ts_round_trip (w : Nat) (t : Int) (hw : 1 ≤ w) (h0 : 0 ≤ t)
    (ht : t < 2 ^ 63) (hfit : t / 10 ^ 9 < 2 ^ (w - 1)) :
    (rt_abstime_to_ts w t).tv_sec = t / 10 ^ 9 ∧
      (rt_abstime_to_ts w t).tv_nsec = t % 10 ^ 9 ∧
      0 ≤ (rt_abstime_to_ts w t).tv_nsec ∧ (rt_abstime_to_ts w t).tv_nsec < 10 ^ 9 ∧
      rt_ts_to_abstime (rt_abstime_to_ts w t) = t := by
  have hq : Int.tdiv t ((NSEC_PER_SEC : Nat) : Int) = t / 10 ^ 9 := by
    rw [Int.tdiv_eq_ediv h0 (by norm_num [NSEC_PER_SEC])]
    norm_num [NSEC_PER_SEC]
  have hq0 : 0 ≤ t / 10 ^ 9 := Int.ediv_nonneg h0 (by norm_num)
  have hsec : (rt_abstime_to_ts w t).tv_sec = t / 10 ^ 9 := by
    show to_signed w (Int.tdiv t ((NSEC_PER_SEC : Nat) : Int)) = _
    rw [hq, to_signed_of_range hw hq0 hfit]
  have hr := Int.emod_add_ediv t (10 ^ 9)
  have hr0 := Int.emod_nonneg t (by norm_num : (10 : Int) ^ 9 ≠ 0)
  have hr1 := Int.emod_lt_of_pos t (by norm_num : (0 : Int) < 10 ^ 9)
  have hnsec : (rt_abstime_to_ts w t).tv_nsec = t % 10 ^ 9 := by
    show to_signed ULONG_BITS (to_s64 (t - to_signed (max w ULONG_BITS)
      (to_signed w (Int.tdiv t ((NSEC_PER_SEC : Nat) : Int)) * ((NSEC_PER_SEC : Nat) : Int)))) = _
    rw [hq, to_signed_of_range hw hq0 hfit]
    obtain ⟨k1, e1⟩ := to_signed_add_mul (max w ULONG_BITS) (le_max_right _ _)
      (t / 10 ^ 9 * ((NSEC_PER_SEC : Nat) : Int))
    obtain ⟨k2, e2⟩ := to_s64_add_mul
      (t - to_signed (max w ULONG_BITS) (t / 10 ^ 9 * ((NSEC_PER_SEC : Nat) : Int)))
    have e : to_s64 (t - to_signed (max w ULONG_BITS)
        (t / 10 ^ 9 * ((NSEC_PER_SEC : Nat) : Int))) = t % 10 ^ 9 + (k2 - k1) * 2 ^ 32 := by
      rw [e2, e1]
      norm_num [NSEC_PER_SEC]
      have : (k2 - k1) * 4294967296 = k2 * 4294967296 - k1 * 4294967296 := by ring
      omega
    rw [e]
    exact to_signed_long_add_mul hr0 (lt_of_lt_of_le hr1 (by norm_num))
  refine ⟨hsec, hnsec, ?_, ?_, ?_⟩
  · rw [hnsec]; exact hr0
  · rw [hnsec]; exact hr1
  · unfold rt_ts_to_abstime
    rw [hsec, hnsec]
    have e1 : to_s64 (t / 10 ^ 9 * ((NSEC_PER_SEC : Nat) : Int)) =
        t / 10 ^ 9 * ((NSEC_PER_SEC : Nat) : Int) := by
      apply to_s64_of_range
      · norm_num [NSEC_PER_SEC]; omega
      · norm_num [NSEC_PER_SEC]; omega
    simp only [e1]
    have e2 : t / 10 ^ 9 * ((NSEC_PER_SEC : Nat) : Int) + t % 10 ^ 9 = t := by
      norm_num [NSEC_PER_SEC]
      omega
    rw [e2]
    exact to_s64_of_range (by omega) ht

/-- Instance: 5.000000123 s with a 32-bit `time_t`. -/
theorem rt_abstime_to_ts_round_trip_witness :
    ((1 : Nat) ≤ 32 ∧ (0 : Int) ≤ 5000000123 ∧ (5000000123 : Int) / 10 ^ 9 < 2 ^ (32 - 1)) ∧
      rt_abstime_to_ts 32 5000000123 = { tv_sec := 5, tv_nsec := 123 } ∧
      rt_ts_to_abstime (rt_abstime_to_ts 32 5000000123) = 5000000123 :=
  ⟨⟨by norm_num, by norm_num, by norm_num⟩, by decide,
    (rt_abstime_to_ts_round_trip 32 5000000123 (by norm_num) (by norm_num) (by norm_num)
      (by norm_num)).2.2.2.2⟩

end RtThread

namespace RtThread
open Color Tree rt_hrtimer_mode rt_hrtimer_restart rt_clocksource_mode

/-! ## One call of `rt_clocksource_absolute_time` -/

theorem pow_sub_one_add_one (w : Nat) : 2 ^ w - 1 + 1 = 2 ^ w := by
  have : 0 < 2 ^ w := Nat.pow_pos (by norm_num)
  omega

/-- C31: for a counter of `w ≤ 64` bits (`mask = 2^w - 1`) and a true elapsed count
`e ≤ mask`, when the raw reading is `(cycle_last + e) mod 2^w` on an up-counter, or
`(cycle_last - e) mod 2^w` on a down-counter, the cycle delta computed by
`rt_clocksource_absolute_time` is `e`, and the function returns the time base plus the
conversion of `e` cycles (as a signed 64-bit value). -/
theorem rt_clocksource_cycle_delta_wrap (s : Machine) (cs : rt_clocksource_device)
    (w e : Nat) (hcs : s.hrtimer_queue.cs = some cs) (hw : w ≤ 64)
    (hm : cs.mask = 2 ^ w - 1) (he : e ≤ cs.mask)
    (hraw : s.counter s.reads =
      if cs.mode = RT_CLOCKSOURCE_UP then (cs.cycle_last + e) % 2 ^ w
      else (cs.cycle_last + 2 ^ w - e) % 2 ^ w) :
    clockDelta cs (s.counter s.reads) = e ∧
      ∃ s', rt_clocksource_absolute_time s =
        .ok (to_s64 (cs.time_base + Int.ofNat (rt_clocksource_cyc2ns e cs.mult cs.shift)), s') := by
  have hp : CyclesPastAnchor cs (s.counter s.reads) e := by
    unfold CyclesPastAnchor
    rw [hm, pow_sub_one_add_one, hraw]
    by_cases hu : cs.mode = RT_CLOCKSOURCE_UP
    · rw [if_pos hu, if_pos hu, Nat.mod_mod]
    · rw [if_neg hu, if_neg hu, Nat.mod_add_mod]
      have h2 : e ≤ 2 ^ w := by
        have := pow_sub_one_add_one w
        omega
      have h3 : cs.cycle_last + 2 ^ w - e + e = cs.cycle_last + 2 ^ w := by omega
      rw [h3, Nat.add_mod_right]
  have hd := clockDelta_eq hw hm he hp
  refine ⟨hd, ?_⟩
  rw [abs_time_eq hcs]
  unfold clockTime
  rw [hd]
  exact ⟨_, rfl⟩

/-- Instance: the 32-bit up-counter anchored at `0xFFFFFFF0` reads `0x10` after `0x20`
cycles. -/
theorem rt_clocksource_cycle_delta_wrap_witness :
    clockDelta (boardClock 4294967280 0) 16 = 32 :=
  (rt_clocksource_cycle_delta_wrap
    { boardMachine 0 16 0 with
      hrtimer_queue := { head := { rt_rb_node := 0 }, next := 0, event := some exampleEvent,
                         cs := some (boardClock 4294967280 0) } }
    (boardClock 4294967280 0) 32 32 rfl (by norm_num) rfl (by norm_num [boardClock])
    (by norm_num [boardClock, boardMachine])).1

/-- C32, refuted at the width of `rt_ktime_t`: on the board clocksource anchored at counter
value 0 with the time base `2^63 - 1`, a reading of 240000 cycles converts to 10000000 ns;
the sum `time_base + 10000000` is formed in 64 bits and the value returned is
`-9223372036844775809`, not `2^63 - 1 + 10000000`. -/
theorem rt_clocksource_absolute_time_sum_wraps :
    (rt_clocksource_absolute_time (boardMachine 9223372036854775807 240000 0)).map
        (fun r => r.1) = .ok (-9223372036844775809) ∧
      clockDelta (boardClock 0 9223372036854775807) 240000 = 240000 ∧
      (9223372036854775807 : Int) + (((240000 * 2796202667) >>> 26 : Nat) : Int)
        = 9223372036864775807 := by
  refine ⟨by rfl, by rfl, by rfl⟩

/-- C32: with the clocksource `cs` registered and `raw` the reading of the counter, let
`ns = ((cycle_delta * mult) mod 2^64) >> shift` be the converted delta.
`rt_clocksource_absolute_time` returns `time_base + ns` converted to the signed 64-bit
`rt_ktime_t`, which is the sum itself when the sum lies in `[-2^63, 2^63)`, and
`ns = (cycle_delta * mult) >> shift` when the product is below `2^64`.  It stores
`cycle_last := raw` and `time_base :=` the value returned exactly when
`ns > max_idle_ns_half` (with `max_idle_ns_half = max_idle_ns >> 1` as calibration sets it:
exactly when `2 * ns > max_idle_ns`), and otherwise leaves the clocksource record as it
is.  No other field of the clocksource changes; of the rest of the state only the count of
counter reads does. -/
theorem rt_clocksource_absolute_time_commit (s : Machine) (cs : rt_clocksource_device)
    (hcs : s.hrtimer_queue.cs = some cs) :
    rt_clocksource_absolute_time s =
        .ok (to_s64 (cs.time_base + Int.ofNat
              (rt_clocksource_cyc2ns (clockDelta cs (s.counter s.reads)) cs.mult cs.shift)),
          { s with
            reads := s.reads + 1
            hrtimer_queue := { s.hrtimer_queue with
              cs := some
                (if rt_clocksource_cyc2ns (clockDelta cs (s.counter s.reads)) cs.mult cs.shift
                    > cs.max_idle_ns_half then
                  { cs with
                    cycle_last := s.counter s.reads % 2 ^ 64
                    time_base := to_s64 (cs.time_base + Int.ofNat
                      (rt_clocksource_cyc2ns (clockDelta cs (s.counter s.reads)) cs.mult
                        cs.shift)) }
                else cs) } }) ∧
      (clockDelta cs (s.counter s.reads) * cs.mult < 2 ^ 64 →
        rt_clocksource_cyc2ns (clockDelta cs (s.counter s.reads)) cs.mult cs.shift =
          (clockDelta cs (s.counter s.reads) * cs.mult) >>> cs.shift) ∧
      (-2 ^ 63 ≤ cs.time_base + Int.ofNat
          (rt_clocksource_cyc2ns (clockDelta cs (s.counter s.reads)) cs.mult cs.shift) →
        cs.time_base + Int.ofNat
          (rt_clocksource_cyc2ns (clockDelta cs (s.counter s.reads)) cs.mult cs.shift) < 2 ^ 63 →
        to_s64 (cs.time_base + Int.ofNat
            (rt_clocksource_cyc2ns (clockDelta cs (s.counter s.reads)) cs.mult cs.shift)) =
          cs.time_base + Int.ofNat
            (rt_clocksource_cyc2ns (clockDelta cs (s.counter s.reads)) cs.mult cs.shift)) ∧
      (cs.max_idle_ns_half = cs.max_idle_ns >>> 1 →
        (rt_clocksource_cyc2ns (clockDelta cs (s.counter s.reads)) cs.mult cs.shift
            > cs.max_idle_ns_half ↔
          2 * rt_clocksource_cyc2ns (clockDelta cs (s.counter s.reads)) cs.mult cs.shift
            > cs.max_idle_ns)) := by
  refine ⟨?_, ?_, ?_, ?_⟩
  · rw [abs_time_eq hcs]
    rfl
  · intro h
    unfold rt_clocksource_cyc2ns
    rw [Nat.mod_eq_of_lt h]
  · intro h1 h2
    exact to_s64_of_range h1 h2
  · intro hh
    rw [hh, Nat.shiftRight_eq_div_pow, pow_one]
    omega

/-- Instance: the board clocksource 240000 cycles past its anchor returns 10000000 and
leaves the anchor as it is. -/
theorem rt_clocksource_absolute_time_commit_witness :
    rt_clocksource_absolute_time (boardMachine 0 240000 0) =
      .ok (10000000, { boardMachine 0 240000 0 with reads := 1 }) :=
  (rt_clocksource_absolute_time_commit (boardMachine 0 240000 0) (boardClock 0 0) rfl).1.trans
    (by rfl)

end RtThread

namespace RtThread
open Color Tree rt_hrtimer_mode rt_hrtimer_restart rt_clocksource_mode

/-! ## Erasing a node, and the faults of the rebalancing loops -/

/-- The tree held by the state `threeTimers`. -/
theorem threeTimers_state :
    QState threeTimers (node 2 RB_BLACK (node 1 RB_RED nil nil) (node 3 RB_RED nil nil)) := by
  refine ⟨⟨⟨rfl, ⟨by decide, rfl, ⟨by decide, rfl, trivial, trivial⟩,
    ⟨by decide, rfl, trivial, trivial⟩⟩, by simp [Tree.inorder]⟩, by decide,
    by simp [Tree.inorder, deadlineOf, threeTimers], rfl⟩, fun a _ ha => ?_, fun a _ => ?_⟩
  · have h : a ≠ 1 ∧ a ≠ 2 ∧ a ≠ 3 := by simpa [Tree.inorder] using ha
    simp [threeTimers, h.1, h.2.1, h.2.2]
  · by_cases h1 : a = 1
    · subst h1; simp [threeTimers, RT_HRTIMER_IS_QUEUED, Tree.inorder, RT_HRTIMER_STATE_ENQUEUED]
    · by_cases h2 : a = 2
      · subst h2
        simp [threeTimers, RT_HRTIMER_IS_QUEUED, Tree.inorder, RT_HRTIMER_STATE_ENQUEUED]
      · by_cases h3 : a = 3
        · subst h3
          simp [threeTimers, RT_HRTIMER_IS_QUEUED, Tree.inorder, RT_HRTIMER_STATE_ENQUEUED]
        · simp [threeTimers, RT_HRTIMER_IS_QUEUED, Tree.inorder, h1, h2, h3]

/-- C34: for every well-formed linked tree that satisfies the red-black invariants and every
node `x` linked in it, `rt_rb_erase` returns (given fuel for the size of the tree) and
leaves a well-formed tree whose in-order sequence is the old one with `x` deleted: the old
sequence is `A ++ x :: B`, the new one is `A ++ B`, and `x` occurs in neither part. -/
theorem rt_rb_erase_removes_node (m : NodeMem) (root : rt_rb_root) (T : Tree)
    (x : Nat) (fuel : Nat)
    (h : HeapTree m root T) (hrb : T.IsRB) (hx : x ∈ T.inorder)
    (hfuel : T.inorder.length + 1 ≤ fuel) :
    ∃ m' root' T' A B, rt_rb_erase fuel m x root = .ok (m', root') ∧ HeapTree m' root' T' ∧
      T.inorder = A ++ x :: B ∧ T'.inorder = A ++ B ∧ x ∉ A ∧ x ∉ B := by
  obtain ⟨k, c, l, r, rfl⟩ := exists_plug_of_mem hx
  obtain ⟨m', root', T', e, hT', -, hin, -⟩ := erase_at h hrb hfuel
  have hsplit : (plug k (node x c l r)).inorder =
      (Ctx.before k ++ l.inorder) ++ x :: (r.inorder ++ Ctx.after k) := by
    rw [inorder_plug]
    simp [Tree.inorder]
  have hnd := h.nodup
  rw [hsplit] at hnd hin
  have hA : x ∉ Ctx.before k ++ l.inorder := fun hmem =>
    (List.nodup_append.1 hnd).2.2 hmem (List.mem_cons_self _ _) 
  have hB : x ∉ r.inorder ++ Ctx.after k :=
    (List.nodup_cons.1 (List.nodup_append.1 hnd).2.1).1
  refine ⟨m', root', T', _, _, e, hT', hsplit, ?_, hA, hB⟩
  rw [hin, List.erase_append_right _ hA, List.erase_cons_head]

/-- Instance: the root 2 of the tree of `threeTimers`, which has two children, is erased;
its successor 3 takes its place. -/
theorem rt_rb_erase_removes_node_witness :
    ∃ m' root' T' A B, rt_rb_erase 4 threeTimers.nodes 2 { rt_rb_node := 2 } = .ok (m', root') ∧
      HeapTree m' root' T' ∧
      [1, 2, 3] = A ++ 2 :: B ∧ T'.inorder = A ++ B ∧ 2 ∉ A ∧ 2 ∉ B :=
  rt_rb_erase_removes_node threeTimers.nodes { rt_rb_node := 2 }
    (node 2 RB_BLACK (node 1 RB_RED nil nil) (node 3 RB_RED nil nil)) 2 4
    threeTimers_state.inv.ht (by decide) (by decide) (by decide)

/-- C38: on a well-formed linked tree that satisfies the red-black invariants, rebalancing
does not fault and ends.  After `rt_rb_link_node` has attached an unlinked node at a leaf
position, `rt_rb_insert_color` returns a result (it reads through the grandparent only where
there is one), and for a linked node `rt_rb_erase`, with `__rt_rb_erase_color`, returns a
result (the sibling and the sibling's child it recolours are there), each given fuel for
the height of the position, respectively the size of the tree. -/
theorem rt_rb_rebalance_no_fault (m : NodeMem) (root : rt_rb_root) (k : Ctx) (T : Tree)
    (x y fuel fuel' : Nat)
    (h : HeapTree m root (plug k nil)) (hrb : (plug k nil).IsRB)
    (hx0 : x ≠ 0) (hx : x ∉ (plug k nil).inorder) (hfuel : k.length + 1 ≤ fuel)
    (hT : plug k nil = T) (hy : y ∈ T.inorder) (hfuel' : T.inorder.length + 1 ≤ fuel') :
    (∃ m1 root1 r, rt_rb_link_node m root x k.top k.link = .ok (m1, root1) ∧
      rt_rb_insert_color fuel m1 x root1 = .ok r) ∧
    (∃ r, rt_rb_erase fuel' m y root = .ok r) := by
  subst hT
  constructor
  · obtain ⟨m1, root1, m2, root2, T', e1, e2, -⟩ := link_insert_color h hrb hx0 hx hfuel
    exact ⟨m1, root1, _, e1, e2⟩
  · obtain ⟨k', c, l, r, hk⟩ := exists_plug_of_mem hy
    rw [hk] at h hrb hfuel'
    obtain ⟨m', root', T', e, -⟩ := erase_at h hrb hfuel'
    exact ⟨_, e⟩

/-- Instance: on the one-node tree of `oneTimer`, node 2 is linked to the left of node 1
and rebalanced, and node 1 is erased. -/
theorem rt_rb_rebalance_no_fault_witness :
    (∃ m1 root1 r, rt_rb_link_node oneTimer.nodes { rt_rb_node := 1 } 2 1 (.left 1)
        = .ok (m1, root1) ∧
      rt_rb_insert_color 2 m1 2 root1 = .ok r) ∧
    (∃ r, rt_rb_erase 2 oneTimer.nodes 1 { rt_rb_node := 1 } = .ok r) :=
  rt_rb_rebalance_no_fault oneTimer.nodes { rt_rb_node := 1 } [.L 1 RB_BLACK nil]
    (node 1 RB_BLACK nil nil) 2 1 2 2 oneTimer_state.inv.ht (by decide) (by decide)
    (by decide) (by decide) rfl (by decide) (by decide)

end RtThread

namespace RtThread
open Color Tree rt_hrtimer_mode rt_hrtimer_restart rt_clocksource_mode

/-! ## `rt_hrtimer_insert` as a stable sorted insert -/

/-- A split of the sequence into the timers with deadline `≤` that of `x` and those with a
greater one is the split that `stableInsert` makes. -/
theorem stableInsert_split {d : Nat → Int} {x : Nat} {A B : List Nat}
    (hA : ∀ a ∈ A, d a ≤ d x) (hB : ∀ b ∈ B, d x < d b) :
    stableInsert d x (A ++ B) = A ++ x :: B := by
  unfold stableInsert
  rw [List.filter_append, List.filter_append]
  have h1 : A.filter (fun a => decide (d a ≤ d x)) = A :=
    List.filter_eq_self.2 (fun a ha => decide_eq_true (hA a ha))
  have h2 : B.filter (fun a => decide (d a ≤ d x)) = [] :=
    List.filter_eq_nil_iff.2 (fun b hb => by
      have := hB b hb
      simp only [decide_eq_true_eq, not_le]
      exact this)
  have h3 : A.filter (fun b => decide (d x < d b)) = [] :=
    List.filter_eq_nil_iff.2 (fun a ha => by
      have := hA a ha
      simp only [decide_eq_true_eq, not_lt]
      exact this)
  have h4 : B.filter (fun b => decide (d x < d b)) = B :=
    List.filter_eq_self.2 (fun b hb => decide_eq_true (hB b hb))
  rw [h1, h2, h3, h4]
  simp

/-- A sequence of insertions of timers that are not queued and removals of timers that are
returns, and the in-order sequence of the index follows the list model. -/
theorem runOps_refines (fuel : Nat) (d : Nat → Int) : ∀ (ops : List QueueOp) (s : Machine)
    (T : Tree), QInv s T → Idle s T → deadlineOf s = d → (∀ op ∈ ops, op.node ≠ 0) →
    opsValid d ops T.inorder = true → T.inorder.length + ops.length + 1 ≤ fuel →
    ∃ s' T', runOps fuel ops s = .ok s' ∧ QInv s' T' ∧ Idle s' T' ∧ s'.timers = s.timers ∧
      T'.inorder = specQueue d ops T.inorder := by
  intro ops
  induction ops with
  | nil => intro s T hq hi _ _ _ _; exact ⟨s, T, rfl, hq, hi, rfl, rfl⟩
  | cons op ops ih =>
    intro s T hq hi hd h0 hv hfuel
    have hop0 := h0 op (List.mem_cons_self _ _)
    have h0' : ∀ op' ∈ ops, op'.node ≠ 0 := fun o ho => h0 o (List.mem_cons_of_mem _ ho)
    simp only [List.length_cons] at hfuel
    cases op with
    | insert a =>
      have hop0 : a ≠ 0 := hop0
      simp only [opsValid, Bool.and_eq_true, decide_eq_true_eq] at hv
      obtain ⟨ha, hv'⟩ := hv
      obtain ⟨m', root', T', A, B, e, hq', hT, hT', hA, hB, hfr⟩ :=
        insert_spec hq hop0 ha (hi a hop0 ha) (by omega : T.inorder.length + 1 ≤ fuel)
      have hi' : Idle { s with nodes := m', hrtimer_queue :=
          { s.hrtimer_queue with head := root', next := T'.inorder.headD 0 } } T' := by
        intro z hz0 hz
        have hza : z ≠ a := by rintro rfl; exact hz (by rw [hT']; simp)
        have hzT : z ∉ T.inorder := by
          intro hm; apply hz; rw [hT'] ; rw [hT] at hm
          rcases List.mem_append.1 hm with h1 | h1
          · exact List.mem_append_left _ h1
          · exact List.mem_append_right _ (List.mem_cons_of_mem _ h1)
        show (m' z).rt_rb_parent = z
        rw [hfr z hza hzT]
        exact hi z hz0 hzT
      have hlen : T'.inorder.length = T.inorder.length + 1 := by
        rw [hT', hT]; simp; omega
      have hst : T'.inorder = stableInsert d a T.inorder := by
        rw [hT', hT, ← hd]
        exact (stableInsert_split hA hB).symm
      rw [← hst] at hv'
      obtain ⟨s'', T'', e2, hq'', hi'', ht'', hin⟩ := ih _ T' hq' hi' hd h0' hv' (by omega)
      refine ⟨s'', T'', by rw [runOps, e]; exact e2, hq'', hi'', ht'', ?_⟩
      rw [hin, hst]
      rfl
    | remove a =>
      have hop0 : a ≠ 0 := hop0
      simp only [opsValid, Bool.and_eq_true, decide_eq_true_eq] at hv
      obtain ⟨ha, hv'⟩ := hv
      obtain ⟨m', root', T', e, hq', hT', hpa, hfr⟩ :=
        remove_spec hq ha (by omega : T.inorder.length + 1 ≤ fuel)
      have hi' : Idle { s with nodes := m', hrtimer_queue :=
          { s.hrtimer_queue with head := root', next := T'.inorder.headD 0 } } T' := by
        intro z hz0 hz
        show (m' z).rt_rb_parent = z
        by_cases hza : z = a
        · rw [hza]; exact hpa
        · have hzT : z ∉ T.inorder := by
            intro hm; apply hz; rw [hT']
            exact (List.mem_erase_of_ne hza).2 hm
          rw [hfr z hza hzT]
          exact hi z hz0 hzT
      have hlen : T'.inorder.length ≤ T.inorder.length := by
        rw [hT']; exact List.length_erase_le _ _
      rw [← hT'] at hv'
      obtain ⟨s'', T'', e2, hq'', hi'', ht'', hin⟩ := ih _ T' hq' hi' hd h0' hv' (by omega)
      refine ⟨s'', T'', by rw [runOps, e]; exact e2, hq'', hi'', ht'', ?_⟩
      rw [hin, hT']
      rfl

/-- C33: on a queue whose index is a well-formed red-black tree sorted by deadline, with
`next` cached and the nodes of the other timers cleared, `rt_hrtimer_insert` of a timer `x`
that is not linked returns (given fuel for the size of the tree) and is a stable sorted
insert: the old in-order sequence splits into `A ++ B` with every deadline in `A` `≤` that
of `x` and every deadline in `B` greater, and the new one is `A ++ x :: B`, so `x` follows
every queued timer with an equal deadline.  Hence every sequence `ops` of insertions of
timers that are not queued and removals of timers that are returns with the in-order
sequence that the list model `specQueue` gives: timers with equal deadlines are listed in
the order of their most recent insertion. -/
theorem rt_hrtimer_insert_stable (s : Machine) (T : Tree) (x : Nat) (ops : List QueueOp)
    (fuel : Nat) (hq : QInv s T) (hi : Idle s T) (hx0 : x ≠ 0) (hx : x ∉ T.inorder)
    (h0 : ∀ op ∈ ops, op.node ≠ 0) (hv : opsValid (deadlineOf s) ops T.inorder = true)
    (hfuel : T.inorder.length + ops.length + 1 ≤ fuel) :
    (∃ s' T' A B, rt_hrtimer_insert fuel s x = .ok s' ∧ QInv s' T' ∧
      T.inorder = A ++ B ∧ T'.inorder = A ++ x :: B ∧
      (∀ a ∈ A, (s.timers a).deadline ≤ (s.timers x).deadline) ∧
      (∀ b ∈ B, (s.timers x).deadline < (s.timers b).deadline) ∧
      T'.inorder = stableInsert (deadlineOf s) x T.inorder ∧ s'.timers = s.timers) ∧
    (∃ s' T', runOps fuel ops s = .ok s' ∧ QInv s' T' ∧
      T'.inorder = specQueue (deadlineOf s) ops T.inorder ∧ s'.timers = s.timers) := by
  constructor
  · obtain ⟨m', root', T', A, B, e, hq', hT, hT', hA, hB, -⟩ :=
      insert_spec hq hx0 hx (hi x hx0 hx) (by omega : T.inorder.length + 1 ≤ fuel)
    refine ⟨_, T', A, B, e, hq', hT, hT', hA, hB, ?_, rfl⟩
    rw [hT', hT]
    exact (stableInsert_split hA hB).symm
  · obtain ⟨s', T', e, hq', -, ht, hin⟩ := runOps_refines fuel (deadlineOf s) ops s T hq hi rfl
      h0 hv hfuel
    exact ⟨s', T', e, hq', hin, ht⟩

/-- Instance: in a system whose timers all have the deadline 7, timer 4 is inserted into
the empty queue; and timers 2, 1, 3 are inserted, 2 is removed and inserted again: the
queue then lists 1, 3, 2. -/
theorem rt_hrtimer_insert_stable_witness :
    specQueue (deadlineOf tieMachine)
        [.insert 2, .insert 1, .insert 3, .remove 2, .insert 2] [] = [1, 3, 2] ∧
    (∃ s' T' A B, rt_hrtimer_insert 6 tieMachine 4 = .ok s' ∧ QInv s' T' ∧
      [] = A ++ B ∧ T'.inorder = A ++ 4 :: B ∧
      (∀ a ∈ A, (tieMachine.timers a).deadline ≤ (tieMachine.timers 4).deadline) ∧
      (∀ b ∈ B, (tieMachine.timers 4).deadline < (tieMachine.timers b).deadline) ∧
      T'.inorder = stableInsert (deadlineOf tieMachine) 4 [] ∧
      s'.timers = tieMachine.timers) ∧
    (∃ s' T', runOps 6 [.insert 2, .insert 1, .insert 3, .remove 2, .insert 2] tieMachine
        = .ok s' ∧ QInv s' T' ∧
      T'.inorder = specQueue (deadlineOf tieMachine)
        [.insert 2, .insert 1, .insert 3, .remove 2, .insert 2] [] ∧
      s'.timers = tieMachine.timers) :=
  ⟨by decide,
    rt_hrtimer_insert_stable tieMachine nil 4
      [.insert 2, .insert 1, .insert 3, .remove 2, .insert 2] 6
      (QInv_congr idleMachine_state.inv rfl rfl rfl (fun a ha => by simp [Tree.inorder] at ha))
      idleMachine_state.idle (by decide) (by decide) (by decide) (by decide) (by decide)⟩

end RtThread

namespace RtThread
open Color Tree rt_hrtimer_mode rt_hrtimer_restart rt_clocksource_mode

/-! ## In-order predecessor, first and last node -/

theorem Ctx.after_rightSpine {k : Ctx} (h : k.isRightSpine) : k.after = [] := by
  induction k with
  | nil => rfl
  | cons f rest ih =>
    cases f with
    | R a c l => exact ih h
    | L a c r => exact absurd h (by simp [Ctx.isRightSpine])

theorem exists_rightmost (t : Tree) (ht : t ≠ nil) :
    ∃ kr s cs sl, t = plug kr (node s cs sl nil) ∧ Ctx.isRightSpine kr := by
  induction t with
  | nil => exact absurd rfl ht
  | node a c l r _ ihr =>
    cases r with
    | nil => exact ⟨[], a, c, l, rfl, trivial⟩
    | node ra rc rl rr =>
      obtain ⟨kr, s, cs, sl, e, hsp⟩ := ihr (by simp)
      refine ⟨kr ++ [.R a c l], s, cs, sl, ?_, ?_⟩
      · rw [plug_append, ← e]; rfl
      · clear e ihr
        induction kr with
        | nil => trivial
        | cons f rest ih =>
          cases f with
          | R a c l => exact ih hsp
          | L a c r => exact absurd hsp (by simp [Ctx.isRightSpine])

theorem rightmost_spine {m : NodeMem} {k0 : Ctx} : ∀ (kr : Ctx) (y fuel : Nat),
    Ctx.isRightSpine kr → CtxRep m (kr ++ k0) y → y ≠ 0 →
    rightmost (fuel + kr.length) m (Ctx.rootAddr kr y) = rightmost fuel m y := by
  intro kr
  induction kr with
  | nil => intro y fuel _ _ _; rfl
  | cons f rest ih =>
    intro y fuel hsp hk hy
    cases f with
    | L a c r => exact absurd hsp (by simp [Ctx.isRightSpine])
    | R a c l =>
      obtain ⟨ha0, hma, -, hrest⟩ := hk
      have := ih a (fuel + 1) hsp hrest ha0
      simp only [List.length_cons, Ctx.rootAddr_cons, Frame.addr_R]
      rw [show fuel + (rest.length + 1) = fuel + 1 + rest.length by omega, this, rightmost]
      simp [rd_ok ha0, hma, hy]

theorem rightmost_spec {m : NodeMem} {root : rt_rb_root} (kr k0 : Ctx) {s : Nat} {cs : Color}
    {sl : Tree} (fuel : Nat)
    (h : HeapTree m root (plug (kr ++ k0) (node s cs sl nil))) (hsp : Ctx.isRightSpine kr)
    (hfuel : kr.length + 1 ≤ fuel) :
    rightmost fuel m (Ctx.rootAddr kr s) = .ok s := by
  have h' := (heapTree_plug _ _).1 h
  obtain ⟨-, hrep, hk, -⟩ := h'
  obtain ⟨fuel', rfl⟩ : ∃ f, fuel = f + 1 + kr.length := ⟨fuel - 1 - kr.length, by omega⟩
  rw [rightmost_spine kr s (fuel' + 1) hsp hk hrep.1, rightmost]
  simp [rd_ok hrep.1, hrep.2.1]

theorem climb_left_spec {m : NodeMem} {root : rt_rb_root} : ∀ (k : Ctx) (y : Nat) (c : Color)
    (l r : Tree) (fuel : Nat), HeapTree m root (plug k (node y c l r)) → k.length + 1 ≤ fuel →
    climb_from_left fuel m y = .ok ((Ctx.before k).getLast?.getD 0) := by
  intro k
  induction k with
  | nil =>
    intro y c l r fuel h hfuel
    obtain ⟨fuel, rfl⟩ : ∃ f, fuel = f + 1 := ⟨fuel - 1, by omega⟩
    obtain ⟨hy0, hmy⟩ := heapTree_cell h
    simp [climb_from_left, rt_rb_parent, rd_ok hy0, hmy, Ctx.before]
  | cons f rest ih =>
    intro y c l r fuel h hfuel
    obtain ⟨fuel, rfl⟩ : ∃ f, fuel = f + 1 := ⟨fuel - 1, by omega⟩
    obtain ⟨hy0, hmy⟩ := heapTree_cell h
    have h' := (heapTree_plug _ _).1 h
    obtain ⟨-, -, hk, hocc⟩ := h'
    have hy := hocc y
    simp only [occ_node, if_true] at hy
    cases f with
    | R a ca sib =>
      obtain ⟨ha0, hma, -, -⟩ := hk
      simp only [Ctx.occ_consR] at hy
      have hne : y ≠ sib.addr := ne_addr_of_occ hy0 (by omega)
      simp [climb_from_left, rt_rb_parent, rd_ok hy0, hmy, rd_ok ha0, hma, ha0, hne, Ctx.before]
    | L a ca sib =>
      obtain ⟨ha0, hma, -, -⟩ := hk
      have := ih a ca (node y c l r) sib fuel h (by simpa using hfuel)
      simp [climb_from_left, rt_rb_parent, rd_ok hy0, hmy, rd_ok ha0, hma, ha0, Ctx.before, this]

theorem prev_spec {m : NodeMem} {root : rt_rb_root} {k : Ctx} {x : Nat} {c : Color} {l r : Tree}
    {fuel : Nat} (h : HeapTree m root (plug k (node x c l r)))
    (hfuel : (plug k (node x c l r)).inorder.length + 1 ≤ fuel) :
    rt_rb_prev fuel m x = .ok ((Ctx.before k ++ l.inorder).getLast?.getD 0) := by
  obtain ⟨hx0, hmx⟩ := heapTree_cell h
  have hocc := ((heapTree_plug _ _).1 h).2.2.2
  have hx := hocc x
  simp only [occ_node, if_true] at hx
  have hkx : k.top ≠ x := (ne_top_of_occ hx0 (by omega)).symm
  have hlen := length_plug k (node x c l r)
  simp only [Tree.inorder, List.length_append, List.length_cons] at hlen
  by_cases hl : l = nil
  · subst hl
    have := climb_left_spec k x c nil r fuel h (by omega)
    simp [rt_rb_prev, rt_rb_parent, rd_ok hx0, hmx, hkx, this, Tree.inorder]
  · obtain ⟨kr, s, cs, sl, rfl, hsp⟩ := exists_rightmost l hl
    have hT : plug k (node x c (plug kr (node s cs sl nil)) r) =
        plug (kr ++ .L x c r :: k) (node s cs sl nil) := by
      simp [plug_append]
    rw [hT] at h
    have hlen2 := length_plug kr (node s cs sl nil)
    have hlm := rightmost_spec _ _ fuel h hsp (by omega)
    have hr0 : Ctx.rootAddr kr s ≠ 0 := by
      have h2 := (heapTree_plug _ _).1 (hT ▸ h)
      have hrr := h2.2.1.2.2.1
      have := Rep_addr_ne_zero hrr (plug_ne_nil kr s cs sl nil)
      simpa [addr_plug] using this
    have hin : (plug kr (node s cs sl nil)).inorder = (Ctx.before kr ++ sl.inorder) ++ [s] := by
      rw [inorder_plug, Ctx.after_rightSpine hsp]; simp [Tree.inorder]
    simp [rt_rb_prev, rt_rb_parent, rd_ok hx0, hmx, hkx, addr_plug, hr0, hlm, hin]

theorem first_spec {m : NodeMem} {root : rt_rb_root} {T : Tree} {fuel : Nat}
    (h : HeapTree m root T) (hfuel : T.inorder.length + 1 ≤ fuel) :
    rt_rb_first fuel m root = .ok (T.inorder.headD 0) := by
  by_cases hT : T = nil
  · subst hT
    have := h.root_eq
    simp [rt_rb_first, this, Tree.inorder]
  · obtain ⟨kr, s, cs, sr, rfl, hsp⟩ := exists_leftmost T hT
    have hroot : root.rt_rb_node = Ctx.rootAddr kr s := by rw [h.root_eq, addr_plug]; rfl
    have hr0 : Ctx.rootAddr kr s ≠ 0 := by
      have := Rep_addr_ne_zero h.rep (plug_ne_nil kr s cs nil sr)
      simpa [addr_plug] using this
    have hlen := length_plug kr (node s cs nil sr)
    have h2 : HeapTree m root (plug (kr ++ []) (node s cs nil sr)) := by simpa using h
    have hlm := leftmost_spec kr [] fuel h2 hsp (by omega)
    have hin : (plug kr (node s cs nil sr)).inorder = s :: (sr.inorder ++ Ctx.after kr) := by
      rw [inorder_plug, Ctx.before_leftSpine hsp]; simp [Tree.inorder]
    simp [rt_rb_first, hroot, hr0, hlm, hin]

theorem last_spec {m : NodeMem} {root : rt_rb_root} {T : Tree} {fuel : Nat}
    (h : HeapTree m root T) (hfuel : T.inorder.length + 1 ≤ fuel) :
    rt_rb_last fuel m root = .ok (T.inorder.getLast?.getD 0) := by
  by_cases hT : T = nil
  · subst hT
    have := h.root_eq
    simp [rt_rb_last, this, Tree.inorder]
  · obtain ⟨kr, s, cs, sl, rfl, hsp⟩ := exists_rightmost T hT
    have hroot : root.rt_rb_node = Ctx.rootAddr kr s := by rw [h.root_eq, addr_plug]; rfl
    have hr0 : Ctx.rootAddr kr s ≠ 0 := by
      have := Rep_addr_ne_zero h.rep (plug_ne_nil kr s cs sl nil)
      simpa [addr_plug] using this
    have hlen := length_plug kr (node s cs sl nil)
    have h2 : HeapTree m root (plug (kr ++ []) (node s cs sl nil)) := by simpa using h
    have hlm := rightmost_spec kr [] fuel h2 hsp (by omega)
    have hin : (plug kr (node s cs sl nil)).inorder = (Ctx.before kr ++ sl.inorder) ++ [s] := by
      rw [inorder_plug, Ctx.after_rightSpine hsp]; simp [Tree.inorder]
    simp [rt_rb_last, hroot, hr0, hlm, hin]

/-- Successor and predecessor of a node in terms of its place in the in-order sequence. -/
theorem next_prev_at {m : NodeMem} {root : rt_rb_root} {T : Tree} {fuel : Nat} {A B : List Nat}
    {x : Nat} (h : HeapTree m root T) (hfuel : T.inorder.length + 1 ≤ fuel)
    (hT : T.inorder = A ++ x :: B) :
    rt_rb_next fuel m x = .ok (B.headD 0) ∧ rt_rb_prev fuel m x = .ok (A.getLast?.getD 0) := by
  have hx : x ∈ T.inorder := by rw [hT]; simp
  obtain ⟨k, c, l, r, rfl⟩ := exists_plug_of_mem hx
  have hsplit : (plug k (node x c l r)).inorder =
      (Ctx.before k ++ l.inorder) ++ x :: (r.inorder ++ Ctx.after k) := by
    rw [inorder_plug]
    simp [Tree.inorder]
  have hnd := h.nodup
  rw [hsplit] at hnd
  have hA : x ∉ Ctx.before k ++ l.inorder := fun hmem =>
    (List.nodup_append.1 hnd).2.2 hmem (List.mem_cons_self _ _)
  have hB : x ∉ r.inorder ++ Ctx.after k :=
    (List.nodup_cons.1 (List.nodup_append.1 hnd).2.1).1
  have e := hsplit.symm.trans hT
  obtain ⟨e1, -, e2⟩ := (List.append_cons_inj_of_not_mem hA hB).1 e
  rw [← e1, ← e2]
  exact ⟨next_spec h hfuel, prev_spec h hfuel⟩

/-- A cleared node has neither successor nor predecessor. -/
theorem next_prev_cleared {m : NodeMem} {z fuel : Nat} (hz : z ≠ 0)
    (h : (m z).rt_rb_parent = z) :
    rt_rb_next fuel m z = .ok 0 ∧ rt_rb_prev fuel m z = .ok 0 := by
  simp [rt_rb_next, rt_rb_prev, rt_rb_parent, rd_ok hz, h]

/-- The walk from the node at the head of a suffix of the in-order sequence visits that
suffix. -/
theorem walk_loop_spec {m : NodeMem} {root : rt_rb_root} {T : Tree} {fuel : Nat}
    (h : HeapTree m root T) (hfuel : T.inorder.length + 1 ≤ fuel) :
    ∀ (B A : List Nat) (steps : Nat), T.inorder = A ++ B → B.length + 1 ≤ steps →
    rb_walk_loop steps fuel m (B.headD 0) = .ok B := by
  intro B
  induction B with
  | nil =>
    intro A steps _ hs
    obtain ⟨steps, rfl⟩ : ∃ n, steps = n + 1 := ⟨steps - 1, by simp at hs; omega⟩
    simp [rb_walk_loop]
  | cons x B ih =>
    intro A steps hT hs
    obtain ⟨steps, rfl⟩ : ∃ n, steps = n + 1 := ⟨steps - 1, by simp at hs; omega⟩
    have hx0 : x ≠ 0 := mem_ne_zero h.rep (by rw [hT]; simp)
    have hn := (next_prev_at h hfuel hT).1
    have hT' : T.inorder = (A ++ [x]) ++ B := by rw [hT]; simp
    have := ih (A ++ [x]) steps hT' (by simp at hs; omega)
    show rb_walk_loop (steps + 1) fuel m x = _
    rw [rb_walk_loop, if_neg hx0, hn]
    simp only [ok_bind]
    rw [this]
    rfl

end RtThread

namespace RtThread
open Color Tree rt_hrtimer_mode rt_hrtimer_restart rt_clocksource_mode

/-- C35: on a well-formed linked tree with in-order sequence `T.inorder` (no address in it is
`NULL` and none occurs twice), given fuel for the size of the tree: `rt_rb_first` returns
the first node of the sequence and `rt_rb_last` the last, each `NULL` exactly when the tree
is empty; for a node `x` at any place `A ++ x :: B` of the sequence `rt_rb_next` returns the
head of `B` (`NULL` when `x` is last) and `rt_rb_prev` the last node of `A` (`NULL` when `x`
is first); the walk that iterates `rt_rb_next` from `rt_rb_first` until `NULL` ends and
visits exactly the in-order sequence; and for a cleared node both `rt_rb_next` and
`rt_rb_prev` return `NULL`. -/
theorem rt_rb_traversal_in_order (m : NodeMem) (root : rt_rb_root) (T : Tree)
    (fuel steps : Nat) (h : HeapTree m root T) (hfuel : T.inorder.length + 1 ≤ fuel)
    (hsteps : T.inorder.length + 1 ≤ steps) :
    (∀ a ∈ T.inorder, a ≠ 0) ∧ T.inorder.Nodup ∧
    rt_rb_first fuel m root = .ok (T.inorder.headD 0) ∧
    rt_rb_last fuel m root = .ok (T.inorder.getLast?.getD 0) ∧
    (T.inorder.headD 0 = 0 ↔ T.inorder = []) ∧
    (T.inorder.getLast?.getD 0 = 0 ↔ T.inorder = []) ∧
    (∀ A x B, T.inorder = A ++ x :: B →
      rt_rb_next fuel m x = .ok (B.headD 0) ∧
      rt_rb_prev fuel m x = .ok (A.getLast?.getD 0)) ∧
    rb_walk steps fuel m root = .ok T.inorder ∧
    (∀ z, z ≠ 0 → (m z).rt_rb_parent = z →
      rt_rb_next fuel m z = .ok 0 ∧ rt_rb_prev fuel m z = .ok 0) := by
  have h0 : ∀ a ∈ T.inorder, a ≠ 0 := fun a ha => mem_ne_zero h.rep ha
  refine ⟨h0, h.nodup, first_spec h hfuel, last_spec h hfuel, ?_, ?_,
    fun A x B hT => next_prev_at h hfuel hT, ?_, fun z hz hp => next_prev_cleared hz hp⟩
  · constructor
    · intro hh
      cases hl : T.inorder with
      | nil => rfl
      | cons a l =>
        rw [hl] at hh
        exact absurd hh (h0 a (by rw [hl]; simp))
    · intro hh
      rw [hh]; rfl
  · constructor
    · intro hh
      rcases List.eq_nil_or_concat T.inorder with hl | ⟨l, a, hl⟩
      · exact hl
      · rw [List.concat_eq_append] at hl
        rw [hl, List.getLast?_concat] at hh
        exact absurd hh (h0 a (by rw [hl]; simp))
    · intro hh
      rw [hh]; rfl
  · unfold rb_walk
    rw [first_spec h hfuel]
    exact walk_loop_spec h hfuel T.inorder [] steps rfl hsteps

/-- Instance: the tree of `threeTimers` is walked in the order 1, 2, 3. -/
theorem rt_rb_traversal_in_order_witness :
    rb_walk 4 4 threeTimers.nodes { rt_rb_node := 2 } = .ok [1, 2, 3] ∧
      rt_rb_first 4 threeTimers.nodes { rt_rb_node := 2 } = .ok 1 ∧
      rt_rb_prev 4 threeTimers.nodes 2 = .ok 1 :=
  ⟨(rt_rb_traversal_in_order threeTimers.nodes { rt_rb_node := 2 }
      (node 2 RB_BLACK (node 1 RB_RED nil nil) (node 3 RB_RED nil nil)) 4 4
      threeTimers_state.inv.ht (by decide) (by decide)).2.2.2.2.2.2.2.1,
    (rt_rb_traversal_in_order threeTimers.nodes { rt_rb_node := 2 }
      (node 2 RB_BLACK (node 1 RB_RED nil nil) (node 3 RB_RED nil nil)) 4 4
      threeTimers_state.inv.ht (by decide) (by decide)).2.2.1,
    ((rt_rb_traversal_in_order threeTimers.nodes { rt_rb_node := 2 }
      (node 2 RB_BLACK (node 1 RB_RED nil nil) (node 3 RB_RED nil nil)) 4 4
      threeTimers_state.inv.ht (by decide) (by decide)).2.2.2.2.2.2.1 [1] 2 [3] rfl).2⟩

end RtThread

namespace RtThread
open Color Tree rt_hrtimer_mode rt_hrtimer_restart rt_clocksource_mode

/-! ## More fuel does not change a result -/

theorem Step.same {α : Type} (a : Except Fault α) : Step a a := Or.inr rfl

theorem Step.bind {α β : Type} {a b : Except Fault α} {f g : α → Except Fault β}
    (h : Step a b) (hf : ∀ x, Step (f x) (g x)) : Step (a >>= f) (b >>= g) := by
  rcases h with h | h
  · left; rw [h]; rfl
  · rw [h]
    cases a with
    | error e => right; rfl
    | ok x =>
      rcases hf x with h2 | h2
      · left; exact h2
      · right; exact h2

theorem Step.ite {α : Type} {c : Prop} [Decidable c] {a b a' b' : Except Fault α}
    (h : c → Step a b) (h' : ¬ c → Step a' b') :
    Step (if c then a else a') (if c then b else b') := by
  by_cases hc : c
  · rw [if_pos hc, if_pos hc]; exact h hc
  · rw [if_neg hc, if_neg hc]; exact h' hc

theorem leftmost_step : ∀ (n : Nat) (m : NodeMem) (node : Nat),
    Step (leftmost n m node) (leftmost (n + 1) m node) := by
  intro n
  induction n with
  | zero => intro m node; left; rfl
  | succ n ih =>
    intro m node
    conv => enter [1]; rw [leftmost]
    conv => enter [2]; rw [leftmost]
    repeat' first
      | with_reducible exact Step.same _
      | with_reducible exact ih _ _
      | apply Step.bind
      | apply Step.ite
      | intro _

theorem climb_from_right_step : ∀ (n : Nat) (m : NodeMem) (node : Nat),
    Step (climb_from_right n m node) (climb_from_right (n + 1) m node) := by
  intro n
  induction n with
  | zero => intro m node; left; rfl
  | succ n ih =>
    intro m node
    conv => enter [1]; rw [climb_from_right]
    conv => enter [2]; rw [climb_from_right]
    repeat' first
      | with_reducible exact Step.same _
      | with_reducible exact ih _ _
      | apply Step.bind
      | apply Step.ite
      | intro _

theorem insert_find_step : ∀ (n : Nat) (s : Machine) (d : Int) (parent : Nat) (new : Link),
    Step (rt_hrtimer_insert_find n s d parent new)
      (rt_hrtimer_insert_find (n + 1) s d parent new) := by
  intro n
  induction n with
  | zero => intro s d parent new; left; rfl
  | succ n ih =>
    intro s d parent new
    conv => enter [1]; rw [rt_hrtimer_insert_find]
    conv => enter [2]; rw [rt_hrtimer_insert_find]
    repeat' first
      | with_reducible exact Step.same _
      | with_reducible exact ih _ _ _ _
      | apply Step.bind
      | apply Step.ite
      | intro _

theorem insert_color_step : ∀ (n : Nat) (m : NodeMem) (node : Nat) (root : rt_rb_root),
    Step (rt_rb_insert_color n m node root) (rt_rb_insert_color (n + 1) m node root) := by
  intro n
  induction n with
  | zero => intro m node root; left; rfl
  | succ n ih =>
    intro m node root
    conv => enter [1]; rw [rt_rb_insert_color]
    conv => enter [2]; rw [rt_rb_insert_color]
    repeat' first
      | with_reducible exact Step.same _
      | with_reducible exact ih _ _ _
      | apply Step.bind
      | apply Step.ite
      | intro _

theorem erase_color_step : ∀ (n : Nat) (m : NodeMem) (node parent : Nat) (root : rt_rb_root),
    Step (__rt_rb_erase_color n m node parent root)
      (__rt_rb_erase_color (n + 1) m node parent root) := by
  intro n
  induction n with
  | zero => intro m node parent root; left; rfl
  | succ n ih =>
    intro m node parent root
    conv => enter [1]; rw [__rt_rb_erase_color]
    conv => enter [2]; rw [__rt_rb_erase_color]
    repeat' first
      | with_reducible exact Step.same _
      | with_reducible exact ih _ _ _ _
      | apply Step.bind
      | apply Step.ite
      | intro _

theorem rb_next_step (n : Nat) (m : NodeMem) (node : Nat) :
    Step (rt_rb_next n m node) (rt_rb_next (n + 1) m node) := by
  unfold rt_rb_next
  repeat' first
    | with_reducible exact Step.same _
    | exact leftmost_step _ _ _
    | exact climb_from_right_step _ _ _
    | apply Step.bind
    | apply Step.ite
    | intro _

theorem rb_erase_step (n : Nat) (m : NodeMem) (node : Nat) (root : rt_rb_root) :
    Step (rt_rb_erase n m node root) (rt_rb_erase (n + 1) m node root) := by
  unfold rt_rb_erase
  repeat' first
    | with_reducible exact Step.same _
    | exact leftmost_step _ _ _
    | exact erase_color_step _ _ _ _ _
    | apply Step.bind
    | apply Step.ite
    | intro _

theorem hrtimer_insert_step (n : Nat) (s : Machine) (node : Nat) :
    Step (rt_hrtimer_insert n s node) (rt_hrtimer_insert (n + 1) s node) := by
  unfold rt_hrtimer_insert
  repeat' first
    | with_reducible exact Step.same _
    | exact insert_find_step _ _ _ _ _
    | exact insert_color_step _ _ _ _
    | apply Step.bind
    | apply Step.ite
    | intro _

theorem hrtimer_remove_step (n : Nat) (s : Machine) (node : Nat) :
    Step (rt_hrtimer_remove n s node) (rt_hrtimer_remove (n + 1) s node) := by
  unfold rt_hrtimer_remove
  repeat' first
    | with_reducible exact Step.same _
    | exact rb_next_step _ _ _
    | exact rb_erase_step _ _ _ _
    | apply Step.bind
    | apply Step.ite
    | intro _

theorem enqueue_step (n : Nat) (s : Machine) (node : Nat) :
    Step (rt_hrtimer_enqueue n s node) (rt_hrtimer_enqueue (n + 1) s node) := by
  unfold rt_hrtimer_enqueue
  exact Step.bind (hrtimer_insert_step _ _ _) (fun _ => Step.same _)

theorem dequeue_step (n : Nat) (s : Machine) (node : Nat) :
    Step (rt_hrtimer_dequeue n s node) (rt_hrtimer_dequeue (n + 1) s node) := by
  unfold rt_hrtimer_dequeue
  exact Step.bind (hrtimer_remove_step _ _ _) (fun _ => Step.same _)

/-- A result other than running out of fuel is the result for every larger amount of
fuel. -/
theorem steps {α : Type} {f : Nat → Except Fault α} (h : ∀ n, Step (f n) (f (n + 1)))
    (n k : Nat) : Step (f n) (f (n + k)) := by
  induction k with
  | zero => exact Step.same _
  | succ k ih =>
    rcases ih with h1 | h1
    · exact Or.inl h1
    · rcases h (n + k) with h2 | h2
      · left; rw [← h1, h2]
      · right; rw [← h1]; exact h2

/-- With any amount of fuel, `rt_hrtimer_dequeue` of a linked timer runs out of fuel or
returns the result it returns with enough fuel. -/
theorem dequeue_any {s : Machine} {T : Tree} {x : Nat} (fuel : Nat) (hq : QState s T)
    (hx : x ∈ T.inorder) :
    rt_hrtimer_dequeue fuel s x = .error .out_of_fuel ∨
    ∃ s' T', rt_hrtimer_dequeue fuel s x = .ok s' ∧ QState s' T' ∧
      T'.inorder = T.inorder.erase x ∧
      (∀ a, a ≠ x → s'.timers a = s.timers a) ∧
      s'.timers x = { s.timers x with
        state := (s.timers x).state &&& ulong_not RT_HRTIMER_STATE_ENQUEUED } ∧
      SameEnv s s' := by
  obtain ⟨s', T', e, h⟩ := @dequeue_spec s T x (fuel + (T.inorder.length + 1)) hq hx (by omega)
  rcases steps (fun n => dequeue_step n s x) fuel (T.inorder.length + 1) with h1 | h1
  · exact Or.inl h1
  · exact Or.inr ⟨s', T', h1 ▸ e, h⟩

/-- With any amount of fuel, `rt_hrtimer_enqueue` of a timer that is not linked runs out of
fuel or returns the result it returns with enough fuel. -/
theorem enqueue_any {s : Machine} {T : Tree} {x : Nat} (fuel : Nat) (hq : QState s T)
    (hx0 : x ≠ 0) (hx : x ∉ T.inorder) :
    rt_hrtimer_enqueue fuel s x = .error .out_of_fuel ∨
    ∃ s' T' A B, rt_hrtimer_enqueue fuel s x = .ok s' ∧ QState s' T' ∧
      T.inorder = A ++ B ∧ T'.inorder = A ++ x :: B ∧
      (∀ a ∈ A, deadlineOf s a ≤ deadlineOf s x) ∧ (∀ b ∈ B, deadlineOf s x < deadlineOf s b) ∧
      (∀ a, a ≠ x → s'.timers a = s.timers a) ∧
      s'.timers x = { s.timers x with state := (s.timers x).state ||| RT_HRTIMER_STATE_ENQUEUED } ∧
      SameEnv s s' := by
  obtain ⟨s', T', A, B, e, h⟩ :=
    @enqueue_spec s T x (fuel + (T.inorder.length + 1)) hq hx0 hx (by omega)
  rcases steps (fun n => enqueue_step n s x) fuel (T.inorder.length + 1) with h1 | h1
  · exact Or.inl h1
  · exact Or.inr ⟨s', T', A, B, h1 ▸ e, h⟩

end RtThread

namespace RtThread
open Color Tree rt_hrtimer_mode rt_hrtimer_restart rt_clocksource_mode

/-! ## The `CALLBACK` flag and the steps of the public interface -/

theorem cb_of_enq_set (st : Nat) :
    (st ||| RT_HRTIMER_STATE_ENQUEUED) &&& RT_HRTIMER_STATE_CALLBACK =
      st &&& RT_HRTIMER_STATE_CALLBACK := by
  rw [Nat.and_comm, Nat.and_or_distrib_left]
  have : RT_HRTIMER_STATE_CALLBACK &&& RT_HRTIMER_STATE_ENQUEUED = 0 := by decide
  rw [this, Nat.or_zero, Nat.and_comm]

theorem cb_of_enq_clear (st : Nat) :
    (st &&& ulong_not RT_HRTIMER_STATE_ENQUEUED) &&& RT_HRTIMER_STATE_CALLBACK =
      st &&& RT_HRTIMER_STATE_CALLBACK := by
  rw [Nat.and_assoc]
  have : ulong_not RT_HRTIMER_STATE_ENQUEUED &&& RT_HRTIMER_STATE_CALLBACK =
      RT_HRTIMER_STATE_CALLBACK := by decide
  rw [this]

theorem cb_of_cb_clear (st : Nat) :
    (st &&& ulong_not RT_HRTIMER_STATE_CALLBACK) &&& RT_HRTIMER_STATE_CALLBACK = 0 := by
  rw [Nat.and_assoc]
  have : ulong_not RT_HRTIMER_STATE_CALLBACK &&& RT_HRTIMER_STATE_CALLBACK = 0 := by decide
  rw [this, Nat.and_zero]

theorem running_iff (t : rt_hrtimer) :
    RT_HRTIMER_IS_CALLBACK_RUNNING t = false ↔ t.state &&& RT_HRTIMER_STATE_CALLBACK = 0 := by
  simp [RT_HRTIMER_IS_CALLBACK_RUNNING]

theorem queued_iff (t : rt_hrtimer) :
    RT_HRTIMER_IS_QUEUED t = true ↔ t.state &&& RT_HRTIMER_STATE_ENQUEUED ≠ 0 := by
  simp [RT_HRTIMER_IS_QUEUED]

theorem ApiInv.env {s s' : Machine} {T : Tree} (h : ApiInv s T) (hn : s'.nodes = s.nodes)
    (ht : s'.timers = s.timers) (hh : s'.hrtimer_queue.head = s.hrtimer_queue.head)
    (hx : s'.hrtimer_queue.next = s.hrtimer_queue.next)
    (hc : s'.hrtimer_queue.cs.isSome = true)
    (he : s'.hrtimer_queue.event = s.hrtimer_queue.event)
    (hu : s'.update_clock_timer = s.update_clock_timer) : ApiInv s' T :=
  ⟨QState_env h.q hn ht hh hx, by rw [ht]; exact h.nocb, hc, by rw [he]; exact h.ev,
    by rw [hu]; exact h.uct⟩

/-- Reading the clock keeps the state between calls. -/
theorem abs_inv {s : Machine} {T : Tree} (h : ApiInv s T) :
    ∃ now s1, rt_clocksource_absolute_time s = .ok (now, s1) ∧ ApiInv s1 T ∧
      s1.timers = s.timers ∧ s1.nodes = s.nodes ∧
      s1.update_clock_timer = s.update_clock_timer ∧
      s1.hrtimer_queue.next = s.hrtimer_queue.next ∧
      s1.hrtimer_queue.event = s.hrtimer_queue.event ∧ s1.fired = s.fired := by
  obtain ⟨c, hc⟩ := Option.isSome_iff_exists.1 h.cs
  exact ⟨_, _, abs_time_eq hc, h.env rfl rfl rfl rfl rfl rfl rfl, rfl, rfl, rfl, rfl, rfl, rfl⟩

/-- Dequeuing a linked timer keeps the state between calls; it runs out of fuel only with
less fuel than the size of the tree plus one. -/
theorem dequeue_inv {s : Machine} {T : Tree} {x : Nat} (fuel : Nat) (h : ApiInv s T)
    (hx : x ∈ T.inorder) :
    (rt_hrtimer_dequeue fuel s x = .error .out_of_fuel ∧ fuel < T.inorder.length + 1) ∨
    ∃ s' T', rt_hrtimer_dequeue fuel s x = .ok s' ∧ ApiInv s' T' ∧
      T'.inorder = T.inorder.erase x ∧
      (∀ a, a ≠ x → s'.timers a = s.timers a) ∧
      s'.timers x = { s.timers x with
        state := (s.timers x).state &&& ulong_not RT_HRTIMER_STATE_ENQUEUED } ∧
      SameEnv s s' := by
  rcases dequeue_any fuel h.q hx with e | ⟨s', T', e, hq, hT, ho, hs, henv⟩
  · left
    refine ⟨e, ?_⟩
    by_contra hf
    obtain ⟨s', T', e', -⟩ := @dequeue_spec s T x fuel h.q hx (by omega)
    rw [e] at e'
    cases e'
  · right
    refine ⟨s', T', e, ⟨hq, ?_, by rw [henv.2.1]; exact h.cs, by rw [henv.1]; exact h.ev,
      by rw [henv.2.2.1]; exact h.uct⟩, hT, ho, hs, henv⟩
    intro a ha
    by_cases hax : a = x
    · subst hax
      rw [hs, running_iff]
      show ((s.timers a).state &&& ulong_not RT_HRTIMER_STATE_ENQUEUED) &&&
        RT_HRTIMER_STATE_CALLBACK = 0
      rw [cb_of_enq_clear]
      exact (running_iff _).1 (h.nocb a ha)
    · rw [ho a hax]
      exact h.nocb a ha

/-- Enqueuing a timer that is not linked keeps the state between calls; it runs out of fuel
only with less fuel than the size of the tree plus one. -/
theorem enqueue_inv {s : Machine} {T : Tree} {x : Nat} (fuel : Nat) (h : ApiInv s T)
    (hx0 : x ≠ 0) (hx : x ∉ T.inorder) :
    (rt_hrtimer_enqueue fuel s x = .error .out_of_fuel ∧ fuel < T.inorder.length + 1) ∨
    ∃ s' T', rt_hrtimer_enqueue fuel s x = .ok s' ∧ ApiInv s' T' ∧
      T'.inorder.length = T.inorder.length + 1 ∧
      (∀ a, a ≠ x → s'.timers a = s.timers a) ∧
      s'.timers x = { s.timers x with state := (s.timers x).state ||| RT_HRTIMER_STATE_ENQUEUED } ∧
      SameEnv s s' := by
  rcases enqueue_any fuel h.q hx0 hx with e | ⟨s', T', A, B, e, hq, hAB, hT, -, -, ho, hs, henv⟩
  · left
    refine ⟨e, ?_⟩
    by_contra hf
    obtain ⟨s', T', A, B, e', -⟩ := @enqueue_spec s T x fuel h.q hx0 hx (by omega)
    rw [e] at e'
    cases e'
  · right
    refine ⟨s', T', e, ⟨hq, ?_, by rw [henv.2.1]; exact h.cs, by rw [henv.1]; exact h.ev,
      by rw [henv.2.2.1]; exact h.uct⟩, by rw [hT, hAB]; simp; omega, ho, hs, henv⟩
    intro a ha
    by_cases hax : a = x
    · subst hax
      rw [hs, running_iff]
      show ((s.timers a).state ||| RT_HRTIMER_STATE_ENQUEUED) &&&
        RT_HRTIMER_STATE_CALLBACK = 0
      rw [cb_of_enq_set]
      exact (running_iff _).1 (h.nocb a ha)
    · rw [ho a hax]
      exact h.nocb a ha

end RtThread

namespace RtThread
open Color Tree rt_hrtimer_mode rt_hrtimer_restart rt_clocksource_mode

/-! ## `rt_hrtimer_reschedule`, `rt_hrtimer_start` and `rt_hrtimer_cancel` between calls -/

theorem inorder_nil_of_next {s : Machine} {T : Tree} (hq : QState s T)
    (hn : s.hrtimer_queue.next = 0) : T.inorder = [] := by
  rcases hl : T.inorder with _ | ⟨a, rest⟩
  · rfl
  · have h1 := hq.inv.next_eq
    rw [hl, hn] at h1
    have : a ≠ 0 := mem_ne_zero hq.inv.ht.rep (by rw [hl]; simp)
    exact absurd h1.symm this

/-- `rt_hrtimer_reschedule` keeps the state between calls: with a timer queued it only reads
the clock and arms the clockevent, and on the empty queue it enqueues the keep-alive
timer. -/
theorem reschedule_inv {s : Machine} {T : Tree} {fuel : Nat} (h : ApiInv s T)
    (hfuel : 1 ≤ fuel) :
    ∃ s' T', rt_hrtimer_reschedule fuel s = .ok s' ∧ ApiInv s' T' ∧
      T'.inorder.length ≤ T.inorder.length + 1 ∧
      s'.update_clock_timer = s.update_clock_timer ∧
      (∀ a, a ≠ s.update_clock_timer → s'.timers a = s.timers a) ∧
      (T.inorder ≠ [] → T'.inorder = T.inorder) := by
  obtain ⟨cs, hcs⟩ := Option.isSome_iff_exists.1 h.cs
  obtain ⟨ev, hev⟩ := Option.isSome_iff_exists.1 h.ev
  by_cases hn : s.hrtimer_queue.next = 0
  · have hT := inorder_nil_of_next h.q hn
    have hu := h.uct
    have hi := @init_rel_eq s cs s.update_clock_timer 0 0 (to_s64 cs.max_idle_ns) hcs hu
    have hq1 : QState { s with
        reads := s.reads + 1
        hrtimer_queue := { s.hrtimer_queue with cs := some (clockDev cs (s.counter s.reads)) }
        nodes := Function.update s.nodes s.update_clock_timer
          { rt_rb_parent := s.update_clock_timer, rt_rb_color := RB_RED, rt_rb_right := 0,
            rt_rb_left := 0 }
        timers := Function.update s.timers s.update_clock_timer
          { deadline := to_s64 (clockTime cs (s.counter s.reads) + to_s64 cs.max_idle_ns),
            state := RT_HRTIMER_STATE_INACTIVE, mode := RT_HRTIMER_MODE_REL, function := 0,
            arg := 0 } } T := by
      refine QState_congr h.q ?_ ?_ rfl rfl ?_ ?_
      · intro a ha; rw [hT] at ha; simp at ha
      · intro a ha0 ha
        simp only [Function.update_apply]
        split_ifs with h'
        · exact h'.symm
        · exact h.q.idle a ha0 ha
      · intro a ha; rw [hT] at ha; simp at ha
      · intro a ha0
        simp only [Function.update_apply]
        split_ifs with h'
        · subst h'
          have h1 : ¬ RT_HRTIMER_IS_QUEUED (s.timers s.update_clock_timer) = true := by
            rw [h.q.flags _ ha0, hT]; simp
          simp only [h1, iff_false]
          simp [RT_HRTIMER_IS_QUEUED, RT_HRTIMER_STATE_INACTIVE]
        · exact Iff.rfl
    have hi1 : ApiInv { s with
        reads := s.reads + 1
        hrtimer_queue := { s.hrtimer_queue with cs := some (clockDev cs (s.counter s.reads)) }
        nodes := Function.update s.nodes s.update_clock_timer
          { rt_rb_parent := s.update_clock_timer, rt_rb_color := RB_RED, rt_rb_right := 0,
            rt_rb_left := 0 }
        timers := Function.update s.timers s.update_clock_timer
          { deadline := to_s64 (clockTime cs (s.counter s.reads) + to_s64 cs.max_idle_ns),
            state := RT_HRTIMER_STATE_INACTIVE, mode := RT_HRTIMER_MODE_REL, function := 0,
            arg := 0 } } T := by
      refine ⟨hq1, ?_, rfl, h.ev, h.uct⟩
      intro a ha
      show RT_HRTIMER_IS_CALLBACK_RUNNING (Function.update s.timers s.update_clock_timer _ a) = _
      simp only [Function.update_apply]
      split_ifs with h'
      · simp [RT_HRTIMER_IS_CALLBACK_RUNNING, RT_HRTIMER_STATE_INACTIVE]
      · exact h.nocb a ha
    rcases enqueue_inv fuel hi1 hu (by rw [hT]; simp) with ⟨-, hlt⟩ | ⟨s', T', e, hi', hlen, ho, -, henv⟩
    · rw [hT] at hlt
      simp at hlt
      omega
    · refine ⟨s', T', ?_, hi', by omega, henv.2.2.1, ?_, fun hne => absurd hT hne⟩
      · simp only [rt_hrtimer_reschedule]
        rw [if_neg (not_not.2 hn)]
        simp only [hcs, hi, ok_bind]
        exact e
      · intro a ha
        rw [ho a ha]
        simp [Function.update_apply, ha]
  · refine ⟨_, T, reschedule_armed hcs hev hn, h.env rfl rfl rfl rfl rfl rfl rfl, by omega, rfl,
      fun a _ => rfl, fun _ => rfl⟩

theorem set_deadline_inv {s : Machine} {T : Tree} {x : Nat} {d : Int} (h : ApiInv s T)
    (hx : x ∉ T.inorder) :
    ApiInv { s with timers := Function.update s.timers x { s.timers x with deadline := d } } T := by
  refine ⟨set_deadline_state h.q hx, ?_, h.cs, h.ev, h.uct⟩
  intro a ha
  show RT_HRTIMER_IS_CALLBACK_RUNNING (Function.update s.timers x _ a) = _
  simp only [Function.update_apply]
  split_ifs with h'
  · subst h'
    exact h.nocb a ha
  · exact h.nocb a ha

/-- `rt_hrtimer_start` returns and keeps the state between calls, given fuel for the size of
the tree; the tree grows by at most one timer. -/
theorem start_inv {s : Machine} {T : Tree} {timer fuel : Nat} {time : Int}
    {mode : rt_hrtimer_mode} (h : ApiInv s T) (ht0 : timer ≠ 0)
    (hfuel : T.inorder.length + 2 ≤ fuel) :
    ∃ r s' T', rt_hrtimer_start fuel s timer time mode = .ok (r, s') ∧ ApiInv s' T' ∧
      T'.inorder.length ≤ T.inorder.length + 1 ∧
      s'.update_clock_timer = s.update_clock_timer := by
  obtain ⟨cs, hcs⟩ := Option.isSome_iff_exists.1 h.cs
  by_cases hrej : (s.timers timer).mode ≠ mode ∨
      (mode = RT_HRTIMER_MODE_ABS ∧ time ≤ clockTime cs (s.counter s.reads))
  · exact ⟨_, _, T, start_reject hcs ht0 hrej, h.env rfl rfl rfl rfl rfl rfl rfl, by omega, rfl⟩
  · simp only [not_or, not_not] at hrej
    obtain ⟨hm, hok⟩ := hrej
    have hi1 : ApiInv { s with reads := s.reads + 1, hrtimer_queue :=
        { s.hrtimer_queue with cs := some (clockDev cs (s.counter s.reads)) } } T :=
      h.env rfl rfl rfl rfl rfl rfl rfl
    have habs := abs_time_eq hcs
    generalize hs1 : ({ s with reads := s.reads + 1, hrtimer_queue :=
        { s.hrtimer_queue with cs := some (clockDev cs (s.counter s.reads)) } } : Machine) = s1
      at habs hi1
    generalize hnow : clockTime cs (s.counter s.reads) = now at habs hok ⊢
    have ht1 : s1.timers = s.timers := by rw [← hs1]
    have hu1 : s1.update_clock_timer = s.update_clock_timer := by rw [← hs1]
    clear hs1
    have hdq : ∃ r s2 T2, (if RT_HRTIMER_IS_QUEUED (s1.timers timer) = true then do
          let s ← rt_hrtimer_dequeue fuel s1 timer
          Except.ok ((1 : Int), s)
        else Except.ok ((0 : Int), s1)) = .ok (r, s2) ∧
        ApiInv s2 T2 ∧ T2.inorder.length ≤ T.inorder.length ∧ timer ∉ T2.inorder ∧
        (s2.timers timer).mode = mode ∧
        s2.update_clock_timer = s.update_clock_timer := by
      by_cases hqd : RT_HRTIMER_IS_QUEUED (s1.timers timer) = true
      · have hmem : timer ∈ T.inorder := (hi1.q.flags timer ht0).1 hqd
        rcases dequeue_inv fuel hi1 hmem with ⟨-, hlt⟩ | ⟨s2, T2, e2, hi2, hT2, -, hs2, henv2⟩
        · omega
        · refine ⟨1, s2, T2, ?_, hi2, ?_, ?_, ?_, ?_⟩
          · simp only [hqd, if_true, e2, ok_bind]
          · rw [hT2]; exact List.length_erase_le _ _
          · rw [hT2]
            intro hmem'
            exact ((List.Nodup.mem_erase_iff hi1.q.inv.ht.nodup).1 hmem').1 rfl
          · rw [hs2, ht1]; exact hm
          · rw [henv2.2.2.1, hu1]
      · have hmem : timer ∉ T.inorder := fun h' => hqd ((hi1.q.flags timer ht0).2 h')
        refine ⟨0, s1, T, ?_, hi1, le_refl _, hmem, by rw [ht1]; exact hm, hu1⟩
        simp only [hqd, Bool.false_eq_true, if_false]
    obtain ⟨r, s2, T2, e2, hi2, hlen2, hx2, hm2, hu2⟩ := hdq
    have hi3 := @set_deadline_inv s2 T2 timer
      (if mode = RT_HRTIMER_MODE_REL then to_s64 (now + time) else time) hi2 hx2
    rcases enqueue_inv fuel hi3 ht0 hx2 with ⟨-, hlt⟩ | ⟨s4, T4, e4, hi4, hlen4, -, -, henv4⟩
    · omega
    · have hwd : (if (s2.timers timer).mode = RT_HRTIMER_MODE_REL then
            wrt s2 timer (fun t => { t with deadline := to_s64 (now + time) })
          else wrt s2 timer (fun t => { t with deadline := time })) =
          .ok { s2 with timers := Function.update s2.timers timer { s2.timers timer with
            deadline := if mode = RT_HRTIMER_MODE_REL then to_s64 (now + time) else time } } := by
        rw [hm2]
        by_cases hr : mode = RT_HRTIMER_MODE_REL
        · simp [hr, wrt, ht0]
        · simp [hr, wrt, ht0]
      have hu4 : s4.update_clock_timer = s.update_clock_timer := by
        rw [henv4.2.2.1]; exact hu2
      have hrs : ∃ s5 T5, (if s4.hrtimer_queue.next = timer then rt_hrtimer_reschedule fuel s4
          else Except.ok s4) = .ok s5 ∧ ApiInv s5 T5 ∧
          T5.inorder.length ≤ T4.inorder.length ∧
          s5.update_clock_timer = s.update_clock_timer := by
        by_cases hn : s4.hrtimer_queue.next = timer
        · obtain ⟨s5, T5, e5, hi5, -, hu5, -, hT5⟩ :=
            @reschedule_inv s4 T4 fuel hi4 (by omega)
          have hne : T4.inorder ≠ [] := by
            intro h0
            rw [h0] at hlen4
            simp at hlen4
          rw [if_pos hn]
          exact ⟨s5, T5, e5, hi5, by rw [hT5 hne], by rw [hu5, hu4]⟩
        · rw [if_neg hn]
          exact ⟨s4, T4, rfl, hi4, le_refl _, hu4⟩
      obtain ⟨s5, T5, e5, hi5, hlen5, hu5⟩ := hrs
      refine ⟨r, s5, T5, ?_, hi5, by omega, hu5⟩
      simp only [rt_hrtimer_start, habs, ok_bind, rdt, ht0, if_false, ht1, hm, ne_eq,
        not_true_eq_false, pure_eq_ok]
      rw [if_neg (by rintro ⟨ha, hb⟩; exact hok ⟨hm ▸ ha, hb⟩)]
      rw [← ht1, e2]
      simp only [ok_bind, hwd, e4, e5, ht1]

/-- `rt_hrtimer_cancel` returns and keeps the state between calls, given fuel for the size of
the tree; the tree does not grow. -/
theorem cancel_inv {s : Machine} {T : Tree} {timer fuel : Nat} (h : ApiInv s T)
    (ht0 : timer ≠ 0) (hfuel : T.inorder.length + 1 ≤ fuel) :
    ∃ r s' T', rt_hrtimer_cancel fuel s timer = .ok (r, s') ∧ ApiInv s' T' ∧
      T'.inorder.length ≤ T.inorder.length ∧
      s'.update_clock_timer = s.update_clock_timer := by
  by_cases hqd : RT_HRTIMER_IS_QUEUED (s.timers timer) = true
  · have hmem : timer ∈ T.inorder := (h.q.flags timer ht0).1 hqd
    rcases dequeue_inv fuel h hmem with ⟨-, hlt⟩ | ⟨s2, T2, e2, hi2, hT2, -, -, henv2⟩
    · omega
    · have hlen2 : T2.inorder.length + 1 = T.inorder.length := by
        rw [hT2, List.length_erase_of_mem hmem]
        have : 0 < T.inorder.length := List.length_pos_of_mem hmem
        omega
      have hrs : ∃ s' T', (if decide (s.hrtimer_queue.next = timer) = true then
            rt_hrtimer_reschedule fuel s2 else Except.ok s2) = .ok s' ∧ ApiInv s' T' ∧
          T'.inorder.length ≤ T2.inorder.length + 1 ∧
          s'.update_clock_timer = s.update_clock_timer := by
        by_cases hn : s.hrtimer_queue.next = timer
        · obtain ⟨s5, T5, e5, hi5, hlen5, hu5, -, -⟩ := @reschedule_inv s2 T2 fuel hi2 (by omega)
          simp only [hn, decide_True, if_true]
          exact ⟨s5, T5, e5, hi5, hlen5, by rw [hu5, henv2.2.2.1]⟩
        · simp only [hn, decide_False, Bool.false_eq_true, if_false]
          exact ⟨s2, T2, rfl, hi2, by omega, henv2.2.2.1⟩
      obtain ⟨s', T', e5, hi5, hlen5, hu5⟩ := hrs
      refine ⟨1, s', T', ?_, hi5, by omega, hu5⟩
      simp only [rt_hrtimer_cancel, rdt, ht0, if_false, ok_bind, hqd, Bool.true_eq_false, e2,
        pure_eq_ok]
      rw [e5]
      rfl
  · refine ⟨0, s, T, ?_, h, le_refl _, rfl⟩
    have hqf : RT_HRTIMER_IS_QUEUED (s.timers timer) = false := by
      cases hv : RT_HRTIMER_IS_QUEUED (s.timers timer) with
      | true => exact absurd hv hqd
      | false => rfl
    simp [rt_hrtimer_cancel, rdt, ht0, hqf]

end RtThread

namespace RtThread
open Color Tree rt_hrtimer_mode rt_hrtimer_restart rt_clocksource_mode

/-! ## The interrupt handler between calls -/

/-- The call of the callback of a timer that has just been dequeued keeps the state between
calls. -/
theorem callback_block {cb : Callbacks} {s2 : Machine} {T2 : Tree} {node : Nat}
    (ret : rt_hrtimer_restart) (hcb : CallbackFrame cb) (h : ApiInv s2 T2) (hn0 : node ≠ 0)
    (hx : node ∉ T2.inorder) :
    ∃ ret' s5, (if (s2.timers node).function ≠ 0 then do
        let s ← wrt s2 node (fun t => { t with state := t.state ||| RT_HRTIMER_STATE_CALLBACK })
        let s := { s with fired := s.fired ++ [node] }
        let (ret, s) ← cb (s.timers node).function (s.timers node).arg s
        let s ← wrt s node
          (fun t => { t with state := t.state &&& ulong_not RT_HRTIMER_STATE_CALLBACK })
        pure (ret, s)
      else pure (ret, s2)) = .ok (ret', s5) ∧ ApiInv s5 T2 ∧
      s5.update_clock_timer = s2.update_clock_timer ∧
      (NoRestart cb → ret = RT_HRTIMER_NORESTART → ret' = RT_HRTIMER_NORESTART) := by
  by_cases hfn : (s2.timers node).function = 0
  · exact ⟨ret, s2, by simp [hfn], h, rfl, fun _ hr => hr⟩
  · simp only [hfn, ne_eq, not_false_eq_true, if_true, wrt, hn0, if_false, ok_bind,
      Function.update_same]
    obtain ⟨ret', s4, ecb, h1, h2, h3, h4, h5, h6, h7⟩ :=
      hcb (s2.timers node).function (s2.timers node).arg
        { s2 with
          timers := Function.update s2.timers node
            { s2.timers node with
              state := (s2.timers node).state ||| RT_HRTIMER_STATE_CALLBACK }
          fired := s2.fired ++ [node] }
    simp only [ecb, ok_bind, pure_eq_ok]
    have hst : ∀ a, (s4.timers a).state =
        if a = node then (s2.timers node).state ||| RT_HRTIMER_STATE_CALLBACK
        else (s2.timers a).state := by
      intro a
      rw [(h7 a).1]
      show (Function.update s2.timers node _ a).state = _
      simp only [Function.update_apply]
      split_ifs <;> rfl
    refine ⟨ret', _, rfl, ⟨?_, ?_, h5 h.cs, by rw [h4]; exact h.ev, by rw [h6]; exact h.uct⟩,
      h6, fun hnr _ => hnr _ _ _ _ _ ecb⟩
    · refine QState_congr h.q (fun a _ => by show s4.nodes a = _; rw [h1])
        (fun a ha0 ha => by show (s4.nodes a).rt_rb_parent = a; rw [h1]; exact h.q.idle a ha0 ha)
        h2 h3 ?_ ?_
      · intro a ha
        have han : a ≠ node := by rintro rfl; exact hx ha
        have ha0 : a ≠ 0 := mem_ne_zero h.q.inv.ht.rep ha
        have hq : RT_HRTIMER_IS_QUEUED (s2.timers a) = true := (h.q.flags a ha0).2 ha
        show (Function.update s4.timers node _ a).deadline = (s2.timers a).deadline
        simp only [Function.update_apply, han, if_false]
        have := (h7 a).2
        simp only [Function.update_apply, han, if_false] at this
        exact this hq
      · intro a _
        rw [queued_iff, queued_iff]
        show (Function.update s4.timers node _ a).state &&& _ ≠ 0 ↔ _
        simp only [Function.update_apply]
        by_cases han : a = node
        · subst han
          simp only [if_true]
          rw [hst a]
          simp only [if_true, flag_cb_clear, flag_cb_set]
        · simp only [han, if_false]
          rw [hst a]
          simp only [han, if_false]
    · intro a ha
      rw [running_iff]
      show (Function.update s4.timers node _ a).state &&& _ = 0
      simp only [Function.update_apply]
      by_cases han : a = node
      · subst han
        simp only [if_true, cb_of_cb_clear]
      · simp only [han, if_false]
        rw [hst a]
        simp only [han, if_false]
        exact (running_iff _).1 (h.nocb a ha)

/-- One pass through the loop of `rt_hrtimer_invoke` keeps the state between calls: it
stops, or it fires the timer `next` and, on `RESTART`, enqueues it again.  It runs out of
fuel only with less fuel than the size of the tree plus one.  With callbacks that never ask for a
restart a pass that does not stop takes one timer out of the tree. -/
theorem invoke_body_inv {cb : Callbacks} {s : Machine} {T : Tree} (fuel : Nat)
    (ret : rt_hrtimer_restart) (hcb : CallbackFrame cb) (h : ApiInv s T) :
    (rt_hrtimer_invoke_body cb fuel s ret = .error .out_of_fuel ∧
      fuel < T.inorder.length + 1) ∨
    ∃ s' T' r, rt_hrtimer_invoke_body cb fuel s ret = .ok (s', r) ∧ ApiInv s' T' ∧
      s'.update_clock_timer = s.update_clock_timer ∧
      T'.inorder.length ≤ T.inorder.length ∧
      (NoRestart cb → ret = RT_HRTIMER_NORESTART →
        r = none ∨ (r = some RT_HRTIMER_NORESTART ∧ T'.inorder.length + 1 = T.inorder.length)) := by
  obtain ⟨now, s1, e1, hi1, ht1, -, hu1, -, -, -⟩ := abs_inv h
  by_cases hn0 : s1.hrtimer_queue.next = 0
  · right
    exact ⟨s1, T, none, by simp [rt_hrtimer_invoke_body, e1, hn0], hi1, hu1, le_refl _,
      fun _ _ => Or.inl rfl⟩
  by_cases hd : (s1.timers s1.hrtimer_queue.next).deadline > now
  · right
    exact ⟨s1, T, none, by simp [rt_hrtimer_invoke_body, e1, hn0, hd], hi1, hu1, le_refl _,
      fun _ _ => Or.inl rfl⟩
  have hmem : s1.hrtimer_queue.next ∈ T.inorder := by
    have h3 := hi1.q.inv.next_eq
    rcases hl : T.inorder with _ | ⟨a, rest⟩
    · rw [hl] at h3; exact absurd h3 hn0
    · rw [hl] at h3
      simp only [List.headD_cons] at h3
      rw [h3]; simp
  obtain ⟨node, hnode⟩ : ∃ n, s1.hrtimer_queue.next = n := ⟨_, rfl⟩
  rw [hnode] at hn0 hd hmem
  rcases dequeue_inv fuel hi1 hmem with ⟨e2, hlt⟩ | ⟨s2, T2, e2, hi2, hT2, -, -, henv2⟩
  · left
    refine ⟨?_, hlt⟩
    simp only [rt_hrtimer_invoke_body, e1, ok_bind, hnode, hn0, if_false, hd, e2]
    rfl
  · have hx2 : node ∉ T2.inorder := by
      rw [hT2]
      intro hmem'
      exact ((List.Nodup.mem_erase_iff hi1.q.inv.ht.nodup).1 hmem').1 rfl
    have hlen2 : T2.inorder.length + 1 = T.inorder.length := by
      rw [hT2, List.length_erase_of_mem hmem]
      have : 0 < T.inorder.length := List.length_pos_of_mem hmem
      omega
    obtain ⟨ret', s5, e5, hi5, hu5, hnr5⟩ := callback_block ret hcb hi2 hn0 hx2
    have hu2 : s2.update_clock_timer = s.update_clock_timer := by
      rw [henv2.2.2.1, hu1]
    by_cases hr : ret' = RT_HRTIMER_RESTART
    · rcases enqueue_inv fuel hi5 hn0 hx2 with ⟨e6, hlt⟩ | ⟨s6, T6, e6, hi6, hlen6, -, -, henv6⟩
      · left
        refine ⟨?_, by omega⟩
        simp only [rt_hrtimer_invoke_body, e1, ok_bind, hnode, hn0, if_false, hd, e2]
        rw [e5]
        simp only [ok_bind, hr, if_true, e6]
        rfl
      · right
        refine ⟨s6, T6, some ret', ?_, hi6, by rw [henv6.2.2.1, hu5, hu2], by omega, ?_⟩
        · simp only [rt_hrtimer_invoke_body, e1, ok_bind, hnode, hn0, if_false, hd, e2]
          rw [e5]
          simp only [ok_bind, hr, if_true, e6, pure_eq_ok]
        · intro hnr hret
          have := hnr5 hnr hret
          rw [hr] at this
          cases this
    · right
      refine ⟨s5, T2, some ret', ?_, hi5, by rw [hu5, hu2], by omega, ?_⟩
      · simp only [rt_hrtimer_invoke_body, e1, ok_bind, hnode, hn0, if_false, hd, e2]
        rw [e5]
        simp only [ok_bind, hr, if_false, pure_eq_ok]
      · intro hnr hret
        exact Or.inr ⟨by rw [hnr5 hnr hret], hlen2⟩

/-- The loop of `rt_hrtimer_invoke` keeps the state between calls, whatever the callbacks
return, unless it runs out of fuel. -/
theorem invoke_loop_inv {cb : Callbacks} (hcb : CallbackFrame cb) :
    ∀ (fuel : Nat) (s : Machine) (T : Tree) (ret : rt_hrtimer_restart), ApiInv s T →
    rt_hrtimer_invoke_loop cb fuel s ret = .error .out_of_fuel ∨
    ∃ s' T', rt_hrtimer_invoke_loop cb fuel s ret = .ok s' ∧ ApiInv s' T' ∧
      s'.update_clock_timer = s.update_clock_timer ∧
      T'.inorder.length ≤ T.inorder.length := by
  intro fuel
  induction fuel with
  | zero => intro s T ret _; left; rfl
  | succ n ih =>
    intro s T ret h
    rcases invoke_body_inv n ret hcb h with ⟨e, -⟩ | ⟨s1, T1, r, e, h1, hu1, hl1, -⟩
    · left
      rw [rt_hrtimer_invoke_loop, e]
      rfl
    · cases r with
      | none =>
        right
        exact ⟨s1, T1, by rw [rt_hrtimer_invoke_loop, e]; rfl, h1, hu1, hl1⟩
      | some r =>
        rcases ih s1 T1 r h1 with e2 | ⟨s2, T2, e2, h2, hu2, hl2⟩
        · left
          rw [rt_hrtimer_invoke_loop, e]
          exact e2
        · right
          exact ⟨s2, T2, by rw [rt_hrtimer_invoke_loop, e]; exact e2, h2, by rw [hu2, hu1],
            by omega⟩

/-- With callbacks that never ask for a restart the loop of `rt_hrtimer_invoke` returns,
given fuel for the size of the tree. -/
theorem invoke_loop_total {cb : Callbacks} (hcb : CallbackFrame cb) (hnr : NoRestart cb) :
    ∀ (n fuel : Nat) (s : Machine) (T : Tree), T.inorder.length = n → ApiInv s T →
    n + 2 ≤ fuel →
    ∃ s' T', rt_hrtimer_invoke_loop cb fuel s RT_HRTIMER_NORESTART = .ok s' ∧ ApiInv s' T' ∧
      s'.update_clock_timer = s.update_clock_timer ∧
      T'.inorder.length ≤ T.inorder.length := by
  intro n
  induction n with
  | zero =>
    intro fuel s T hn h hfuel
    obtain ⟨f, rfl⟩ : ∃ f, fuel = f + 1 := ⟨fuel - 1, by omega⟩
    rcases invoke_body_inv f RT_HRTIMER_NORESTART hcb h with
        ⟨-, hlt⟩ | ⟨s1, T1, r, e, h1, hu1, hl1, hr⟩
    · omega
    · rcases hr hnr rfl with rfl | ⟨-, hlen⟩
      · exact ⟨s1, T1, by rw [rt_hrtimer_invoke_loop, e]; rfl, h1, hu1, hl1⟩
      · omega
  | succ n ih =>
    intro fuel s T hn h hfuel
    obtain ⟨f, rfl⟩ : ∃ f, fuel = f + 1 := ⟨fuel - 1, by omega⟩
    rcases invoke_body_inv f RT_HRTIMER_NORESTART hcb h with
        ⟨-, hlt⟩ | ⟨s1, T1, r, e, h1, hu1, hl1, hr⟩
    · omega
    · rcases hr hnr rfl with rfl | ⟨rfl, hlen⟩
      · exact ⟨s1, T1, by rw [rt_hrtimer_invoke_loop, e]; rfl, h1, hu1, hl1⟩
      · obtain ⟨s2, T2, e2, h2, hu2, hl2⟩ := ih f s1 T1 (by omega) h1 (by omega)
        exact ⟨s2, T2, by rw [rt_hrtimer_invoke_loop, e]; exact e2, h2, by rw [hu2, hu1],
          by omega⟩

/-- A run of the interrupt handler keeps the state between calls; it returns, given fuel for
the size of the tree, unless a callback asks for a restart and the loop of
`rt_hrtimer_invoke` uses up the fuel. -/
theorem handler_inv {cb : Callbacks} {s : Machine} {T : Tree} {fuel : Nat}
    (hcb : CallbackFrame cb) (h : ApiInv s T) (hfuel : T.inorder.length + 2 ≤ fuel) :
    (rt_hrtimer_handler cb fuel s = .error .out_of_fuel ∧ ¬ NoRestart cb) ∨
    ∃ s' T', rt_hrtimer_handler cb fuel s = .ok s' ∧ ApiInv s' T' ∧
      s'.update_clock_timer = s.update_clock_timer ∧
      T'.inorder.length ≤ T.inorder.length + 1 := by
  have key : (rt_hrtimer_invoke_loop cb fuel s RT_HRTIMER_NORESTART = .error .out_of_fuel ∧
      ¬ NoRestart cb) ∨
      ∃ s' T', rt_hrtimer_invoke_loop cb fuel s RT_HRTIMER_NORESTART = .ok s' ∧ ApiInv s' T' ∧
        s'.update_clock_timer = s.update_clock_timer ∧
        T'.inorder.length ≤ T.inorder.length := by
    by_cases hnr : NoRestart cb
    · exact Or.inr (invoke_loop_total hcb hnr _ fuel s T rfl h hfuel)
    · rcases invoke_loop_inv hcb fuel s T RT_HRTIMER_NORESTART h with e | hok
      · exact Or.inl ⟨e, hnr⟩
      · exact Or.inr hok
  rcases key with ⟨e, hnr⟩ | ⟨s1, T1, e1, h1, hu1, hl1⟩
  · left
    refine ⟨?_, hnr⟩
    simp only [rt_hrtimer_handler, rt_hrtimer_invoke, e]
    rfl
  · right
    obtain ⟨s2, T2, e2, h2, hl2, hu2, -, -⟩ := @reschedule_inv s1 T1 fuel h1 (by omega)
    refine ⟨s2, T2, ?_, h2, by rw [hu2, hu1], by omega⟩
    simp only [rt_hrtimer_handler, rt_hrtimer_invoke, e1, ok_bind]
    exact e2

/-- A sequence of calls of the public interface keeps the state between calls; it returns,
given fuel for the size of the tree plus the number of calls, unless a callback asks for a
restart and a loop of `rt_hrtimer_invoke` uses up the fuel. -/
theorem runApi_inv {cb : Callbacks} {fuel : Nat} (hcb : CallbackFrame cb) :
    ∀ (ops : List ApiOp) (s : Machine) (T : Tree), ApiInv s T →
    (∀ op ∈ ops, op.nonNull) → T.inorder.length + ops.length + 2 ≤ fuel →
    (runApi cb fuel ops s = .error .out_of_fuel ∧ ¬ NoRestart cb) ∨
    ∃ s' T', runApi cb fuel ops s = .ok s' ∧ ApiInv s' T' ∧
      s'.update_clock_timer = s.update_clock_timer := by
  intro ops
  induction ops with
  | nil => intro s T h _ _; exact Or.inr ⟨s, T, rfl, h, rfl⟩
  | cons op ops ih =>
    intro s T h h0 hfuel
    have hop := h0 op (List.mem_cons_self _ _)
    have h0' : ∀ op' ∈ ops, op'.nonNull := fun o ho => h0 o (List.mem_cons_of_mem _ ho)
    simp only [List.length_cons] at hfuel
    cases op with
    | start timer time mode =>
      obtain ⟨r, s1, T1, e1, h1, hl1, hu1⟩ :=
        @start_inv s T timer fuel time mode h hop (by omega)
      rcases ih s1 T1 h1 h0' (by omega) with ⟨e2, hnr⟩ | ⟨s2, T2, e2, h2, hu2⟩
      · left
        refine ⟨?_, hnr⟩
        simp only [runApi, e1, ok_bind]
        exact e2
      · right
        refine ⟨s2, T2, ?_, h2, by rw [hu2, hu1]⟩
        simp only [runApi, e1, ok_bind]
        exact e2
    | cancel timer =>
      obtain ⟨r, s1, T1, e1, h1, hl1, hu1⟩ := @cancel_inv s T timer fuel h hop (by omega)
      rcases ih s1 T1 h1 h0' (by omega) with ⟨e2, hnr⟩ | ⟨s2, T2, e2, h2, hu2⟩
      · left
        refine ⟨?_, hnr⟩
        simp only [runApi, e1, ok_bind]
        exact e2
      · right
        refine ⟨s2, T2, ?_, h2, by rw [hu2, hu1]⟩
        simp only [runApi, e1, ok_bind]
        exact e2
    | handler =>
      rcases @handler_inv cb s T fuel hcb h (by omega) with
          ⟨e1, hnr⟩ | ⟨s1, T1, e1, h1, hu1, hl1⟩
      · left
        refine ⟨?_, hnr⟩
        simp only [runApi, e1]
        rfl
      · rcases ih s1 T1 h1 h0' (by omega) with ⟨e2, hnr⟩ | ⟨s2, T2, e2, h2, hu2⟩
        · left
          refine ⟨?_, hnr⟩
          simp only [runApi, e1, ok_bind]
          exact e2
        · right
          refine ⟨s2, T2, ?_, h2, by rw [hu2, hu1]⟩
          simp only [runApi, e1, ok_bind]
          exact e2

end RtThread

namespace RtThread
open Color Tree rt_hrtimer_mode rt_hrtimer_restart rt_clocksource_mode

/-! ## The state between calls of the public interface -/

theorem linked_parent_ne {m : NodeMem} {root : rt_rb_root} {T : Tree} {x : Nat}
    (h : HeapTree m root T) (hx : x ∈ T.inorder) : x ≠ 0 ∧ (m x).rt_rb_parent ≠ x := by
  obtain ⟨k, c, l, r, rfl⟩ := exists_plug_of_mem hx
  obtain ⟨hx0, hmx⟩ := heapTree_cell h
  have hocc := ((heapTree_plug _ _).1 h).2.2.2
  have hxo := hocc x
  simp only [occ_node, if_true] at hxo
  have hkx : k.top ≠ x := (ne_top_of_occ hx0 (by omega)).symm
  refine ⟨hx0, ?_⟩
  rw [hmx]
  exact hkx

theorem queued_iff_linked {s : Machine} {T : Tree} (h : QState s T) {a : Nat} (ha : a ≠ 0) :
    (RT_HRTIMER_IS_QUEUED (s.timers a) = true ↔ RT_RB_EMPTY_NODE s.nodes a = .ok false) := by
  rw [h.flags a ha]
  have e : RT_RB_EMPTY_NODE s.nodes a = .ok (decide ((s.nodes a).rt_rb_parent = a)) := by
    simp [RT_RB_EMPTY_NODE, rt_rb_parent, rd_ok ha]
  rw [e]
  constructor
  · intro hx
    have := (linked_parent_ne h.inv.ht hx).2
    simp [this]
  · intro hx
    by_contra hn
    have := h.idle a ha hn
    simp [this] at hx

theorem oneShot_frame : CallbackFrame oneShotCallback :=
  fun _ _ s => ⟨_, s, rfl, rfl, rfl, rfl, rfl, id, rfl, fun _ => ⟨rfl, fun _ => rfl⟩⟩

theorem oneShot_norestart : NoRestart oneShotCallback := by
  intro f arg s ret s' h
  simp only [oneShotCallback, Except.ok.injEq, Prod.mk.injEq] at h
  exact h.1.symm

theorem idleMachine_api : ApiInv idleMachine nil :=
  ⟨idleMachine_state, fun _ _ => by simp [idleMachine, RT_HRTIMER_IS_CALLBACK_RUNNING],
    rfl, rfl, by decide⟩

theorem oneTimer_api : ApiInv oneTimer (node 1 RB_BLACK nil nil) := by
  refine ⟨oneTimer_state, fun a _ => ?_, rfl, rfl, by decide⟩
  by_cases h : a = 1
  · subst h; rfl
  · simp [oneTimer, h, RT_HRTIMER_IS_CALLBACK_RUNNING]

/-- Initialising a timer that is not linked in the index, `rt_hrtimer_init`, keeps the state
between calls: the timer is left with a cleared node and no flag set. -/
theorem init_inv {s : Machine} {T : Tree} {timer : Nat} (f a : Nat) (w : Int)
    (mode : rt_hrtimer_mode) (h : ApiInv s T) (ht0 : timer ≠ 0) (ht : timer ∉ T.inorder) :
    ∃ s', rt_hrtimer_init s timer f a w mode = .ok s' ∧ ApiInv s' T ∧
      RT_RB_EMPTY_NODE s'.nodes timer = .ok true ∧
      (s'.timers timer).state = RT_HRTIMER_STATE_INACTIVE := by
  obtain ⟨c, hc⟩ := Option.isSome_iff_exists.1 h.cs
  obtain ⟨s', e, htm, hnd, hh, hx, he, hu, -, -, ho⟩ :=
    @init_spec s c timer f a w mode ht0 (fun _ => hc)
  have hcs : s'.hrtimer_queue.cs.isSome = true := by
    cases mode with
    | RT_HRTIMER_MODE_ABS =>
      rw [init_abs_eq ht0] at e
      cases e
      exact h.cs
    | RT_HRTIMER_MODE_REL =>
      rw [init_rel_eq hc ht0] at e
      cases e
      rfl
  refine ⟨s', e, ⟨QState_congr h.q ?_ ?_ hh hx ?_ ?_, ?_, hcs, by rw [he]; exact h.ev,
    by rw [hu]; exact h.uct⟩, ?_, by rw [htm]⟩
  · intro b hb
    exact (ho b (by rintro rfl; exact ht hb)).1
  · intro b hb0 hb
    by_cases hbt : b = timer
    · subst hbt; rw [hnd]
    · rw [(ho b hbt).1]; exact h.q.idle b hb0 hb
  · intro b hb
    simp only [deadlineOf]
    rw [(ho b (by rintro rfl; exact ht hb)).2]
  · intro b hb0
    by_cases hbt : b = timer
    · subst hbt
      rw [htm]
      have := (h.q.flags b hb0).not.2 ht
      simp only [Bool.not_eq_true] at this
      rw [this]
      simp [RT_HRTIMER_IS_QUEUED, RT_HRTIMER_STATE_INACTIVE]
    · rw [(ho b hbt).2]
  · intro b hb0
    by_cases hbt : b = timer
    · subst hbt
      rw [htm]
      simp [RT_HRTIMER_IS_CALLBACK_RUNNING, RT_HRTIMER_STATE_INACTIVE]
    · rw [(ho b hbt).2]; exact h.nocb b hb0
  · simp [RT_RB_EMPTY_NODE, rt_rb_parent, rd_ok ht0, hnd]

/-- Claim C36.  Start from a state between calls in which the queue is consistent with its
tree, no timer has the `CALLBACK` flag set and both devices are registered, as
`rt_hrtimer_init` and the registration calls leave it, and run any sequence of
`rt_hrtimer_start`, `rt_hrtimer_cancel` (on timers not at `NULL`) and interrupt handler
runs, with callbacks that return and leave the queue alone, given fuel for the size of the
tree plus the number of calls.  Then the run returns, unless a callback asks for a restart
and the loop of `rt_hrtimer_invoke` uses up the fuel, and in the state it returns the index
holds a tree without repeated address, and every timer has the `ENQUEUED` flag set exactly
when it is in that tree, which is exactly when `RT_RB_EMPTY_NODE` is false, and has the
`CALLBACK` flag clear. -/
theorem rt_hrtimer_queued_state_consistent (cb : Callbacks) (s : Machine) (T : Tree)
    (ops : List ApiOp) (fuel : Nat) (hcb : CallbackFrame cb) (h : ApiInv s T)
    (h0 : ∀ op ∈ ops, op.nonNull) (hfuel : T.inorder.length + ops.length + 2 ≤ fuel) :
    (runApi cb fuel ops s = .error .out_of_fuel ∧ ¬ NoRestart cb) ∨
    ∃ s' T', runApi cb fuel ops s = .ok s' ∧
      HeapTree s'.nodes s'.hrtimer_queue.head T' ∧ T'.inorder.Nodup ∧
      ∀ a, a ≠ 0 →
        (RT_HRTIMER_IS_QUEUED (s'.timers a) = true ↔ a ∈ T'.inorder) ∧
        (RT_HRTIMER_IS_QUEUED (s'.timers a) = true ↔
          RT_RB_EMPTY_NODE s'.nodes a = .ok false) ∧
        RT_HRTIMER_IS_CALLBACK_RUNNING (s'.timers a) = false := by
  rcases runApi_inv hcb ops s T h h0 hfuel with hoof | ⟨s', T', e, h', -⟩
  · exact Or.inl hoof
  · exact Or.inr ⟨s', T', e, h'.q.inv.ht, h'.q.inv.ht.nodup, fun a ha =>
      ⟨h'.q.flags a ha, queued_iff_linked h'.q ha, h'.nocb a ha⟩⟩

/-- Instance: on the idle system timer 1 is started, the handler runs, timer 2 is started
and timer 1 cancelled, with a one-shot callback. -/
theorem rt_hrtimer_queued_state_consistent_witness :
    (runApi oneShotCallback 6 [.start 1 10 RT_HRTIMER_MODE_REL, .handler,
        .start 2 20 RT_HRTIMER_MODE_REL, .cancel 1] idleMachine = .error .out_of_fuel ∧
      ¬ NoRestart oneShotCallback) ∨
    ∃ s' T', runApi oneShotCallback 6 [.start 1 10 RT_HRTIMER_MODE_REL, .handler,
        .start 2 20 RT_HRTIMER_MODE_REL, .cancel 1] idleMachine = .ok s' ∧
      HeapTree s'.nodes s'.hrtimer_queue.head T' ∧ T'.inorder.Nodup ∧
      ∀ a, a ≠ 0 →
        (RT_HRTIMER_IS_QUEUED (s'.timers a) = true ↔ a ∈ T'.inorder) ∧
        (RT_HRTIMER_IS_QUEUED (s'.timers a) = true ↔
          RT_RB_EMPTY_NODE s'.nodes a = .ok false) ∧
        RT_HRTIMER_IS_CALLBACK_RUNNING (s'.timers a) = false :=
  rt_hrtimer_queued_state_consistent oneShotCallback idleMachine nil _ 6 oneShot_frame
    idleMachine_api (by decide) (by decide)

/-- Sequences of whole calls: from a state between calls in which the queue is consistent
with its tree, no timer has the `CALLBACK` flag set and both devices are registered, any
sequence of calls of `rt_hrtimer_start` and `rt_hrtimer_cancel` (on timers not at `NULL`,
the keep-alive timer included) and of interrupt handler runs, none of which begins before
the one before it has returned, with callbacks that return and leave the queue alone, fails
no assertion of `rt_hrtimer_insert` or `rt_hrtimer_remove` and dereferences no `NULL`
pointer: given fuel for the size of the tree plus the number of calls, the run returns, or
it uses up the fuel, which it does only when a callback asks for a restart. -/
theorem runApi_whole_calls (cb : Callbacks) (s : Machine) (T : Tree)
    (ops : List ApiOp) (fuel : Nat) (hcb : CallbackFrame cb) (h : ApiInv s T)
    (h0 : ∀ op ∈ ops, op.nonNull) (hfuel : T.inorder.length + ops.length + 2 ≤ fuel) :
    runApi cb fuel ops s ≠ .error .assertion ∧
    runApi cb fuel ops s ≠ .error .null_deref ∧
    ((∃ s', runApi cb fuel ops s = .ok s') ∨ runApi cb fuel ops s = .error .out_of_fuel) ∧
    (NoRestart cb → ∃ s', runApi cb fuel ops s = .ok s') := by
  rcases runApi_inv hcb ops s T h h0 hfuel with ⟨e, hnr⟩ | ⟨s', T', e, -, -⟩
  · rw [e]
    exact ⟨by simp, by simp, Or.inr rfl, fun hn => absurd hn hnr⟩
  · rw [e]
    exact ⟨by simp, by simp, Or.inl ⟨s', rfl⟩, fun _ => ⟨s', rfl⟩⟩

end RtThread

namespace RtThread
open Color Tree rt_hrtimer_mode rt_hrtimer_restart rt_clocksource_mode

/-! ## One pass of the dispatcher with callbacks that leave the queue alone -/

theorem dequeue_bound {s : Machine} {T : Tree} {x : Nat} (fuel : Nat) (hq : QState s T)
    (hx : x ∈ T.inorder) :
    (rt_hrtimer_dequeue fuel s x = .error .out_of_fuel ∧ fuel < T.inorder.length + 1) ∨
    ∃ s' T', rt_hrtimer_dequeue fuel s x = .ok s' ∧ QState s' T' ∧
      T'.inorder = T.inorder.erase x ∧
      (∀ a, a ≠ x → s'.timers a = s.timers a) ∧
      s'.timers x = { s.timers x with
        state := (s.timers x).state &&& ulong_not RT_HRTIMER_STATE_ENQUEUED } ∧
      SameEnv s s' := by
  rcases dequeue_any fuel hq hx with e | h
  · left
    refine ⟨e, ?_⟩
    by_contra hf
    obtain ⟨s', T', e', -⟩ := @dequeue_spec s T x fuel hq hx (by omega)
    rw [e] at e'
    cases e'
  · exact Or.inr h

theorem enqueue_bound {s : Machine} {T : Tree} {x : Nat} (fuel : Nat) (hq : QState s T)
    (hx0 : x ≠ 0) (hx : x ∉ T.inorder) :
    (rt_hrtimer_enqueue fuel s x = .error .out_of_fuel ∧ fuel < T.inorder.length + 1) ∨
    ∃ s' T' A B, rt_hrtimer_enqueue fuel s x = .ok s' ∧ QState s' T' ∧
      T.inorder = A ++ B ∧ T'.inorder = A ++ x :: B ∧
      (∀ a ∈ A, deadlineOf s a ≤ deadlineOf s x) ∧ (∀ b ∈ B, deadlineOf s x < deadlineOf s b) ∧
      (∀ a, a ≠ x → s'.timers a = s.timers a) ∧
      s'.timers x = { s.timers x with state := (s.timers x).state ||| RT_HRTIMER_STATE_ENQUEUED } ∧
      SameEnv s s' := by
  rcases enqueue_any fuel hq hx0 hx with e | h
  · left
    refine ⟨e, ?_⟩
    by_contra hf
    obtain ⟨s', T', A, B, e', -⟩ := @enqueue_spec s T x fuel hq hx0 hx (by omega)
    rw [e] at e'
    cases e'
  · exact Or.inr h

/-- Reading a clock that is fixed at `now` returns `now` and leaves it fixed. -/
theorem clockFixed_read {s : Machine} {cs : rt_clocksource_device} {now : Int}
    (h : ClockFixed s now) (hcs : s.hrtimer_queue.cs = some cs) :
    clockTime cs (s.counter s.reads) = now ∧
      ClockFixed { s with reads := s.reads + 1, hrtimer_queue :=
        { s.hrtimer_queue with cs := some (clockDev cs (s.counter s.reads)) } } now := by
  obtain ⟨cs0, raw, hcs0, hctr, hnow⟩ := h
  rw [hcs] at hcs0
  cases hcs0
  have h0 : s.counter s.reads = raw := by simpa using hctr 0
  rw [h0]
  refine ⟨hnow, clockDev cs raw, raw, rfl, ?_, ?_⟩
  · intro i
    show s.counter (s.reads + 1 + i) = raw
    rw [Nat.add_assoc]; exact hctr (1 + i)
  · rw [(clock_stable cs raw).1, hnow]

/-- The call of the callback of a timer that has just been dequeued, for callbacks that
leave the queue alone: the queue stays consistent, the enqueued timers keep their records,
and the call is logged. -/
theorem callback_detail {cb : Callbacks} {s2 : Machine} {T2 : Tree} {node : Nat}
    (ret : rt_hrtimer_restart) (hfr : CallbackFrame cb) (hqt : CallbackQuiet cb)
    (hq : QState s2 T2) (hcs : s2.hrtimer_queue.cs.isSome = true) (hn0 : node ≠ 0)
    (hx : node ∉ T2.inorder) :
    ∃ ret' s5, (if (s2.timers node).function ≠ 0 then do
        let s ← wrt s2 node (fun t => { t with state := t.state ||| RT_HRTIMER_STATE_CALLBACK })
        let s := { s with fired := s.fired ++ [node] }
        let (ret, s) ← cb (s.timers node).function (s.timers node).arg s
        let s ← wrt s node
          (fun t => { t with state := t.state &&& ulong_not RT_HRTIMER_STATE_CALLBACK })
        pure (ret, s)
      else pure (ret, s2)) = .ok (ret', s5) ∧ QState s5 T2 ∧
      s5.hrtimer_queue.cs.isSome = true ∧
      s5.fired = s2.fired ++ (if (s2.timers node).function ≠ 0 then [node] else []) ∧
      (∀ a ∈ T2.inorder, s5.timers a = s2.timers a) ∧
      ((s2.timers node).function = 0 → ret' = ret ∧ s5.timers = s2.timers) ∧
      (NoRestart cb → ret = RT_HRTIMER_NORESTART → ret' = RT_HRTIMER_NORESTART) ∧
      (∀ now, ClockKept cb now → ClockFixed s2 now → ClockFixed s5 now) := by
  by_cases hfn : (s2.timers node).function = 0
  · exact ⟨ret, s2, by simp [hfn], hq, hcs, by simp [hfn], fun _ _ => rfl,
      fun _ => ⟨rfl, rfl⟩, fun _ hr => hr, fun _ _ hc => hc⟩
  · obtain ⟨ret', s4, ecb, h1, h2, h3, h4, h5, h6, h7⟩ :=
      hfr (s2.timers node).function (s2.timers node).arg
        { s2 with
          timers := Function.update s2.timers node
            { s2.timers node with
              state := (s2.timers node).state ||| RT_HRTIMER_STATE_CALLBACK }
          fired := s2.fired ++ [node] }
    obtain ⟨hfi, hrec⟩ := hqt _ _ _ _ _ ecb
    have hst : ∀ a, (s4.timers a).state =
        if a = node then (s2.timers node).state ||| RT_HRTIMER_STATE_CALLBACK
        else (s2.timers a).state := by
      intro a
      rw [(h7 a).1]
      show (Function.update s2.timers node _ a).state = _
      simp only [Function.update_apply]
      split_ifs <;> rfl
    have hkeep : ∀ a ∈ T2.inorder, s4.timers a = s2.timers a := by
      intro a ha
      have han : a ≠ node := by rintro rfl; exact hx ha
      have ha0 : a ≠ 0 := mem_ne_zero hq.inv.ht.rep ha
      have hqa : RT_HRTIMER_IS_QUEUED (s2.timers a) = true := (hq.flags a ha0).2 ha
      have := hrec a (by
        show RT_HRTIMER_IS_QUEUED (Function.update s2.timers node _ a) = true
        simp only [Function.update_apply, han, if_false]
        exact hqa)
      rw [this]
      show Function.update s2.timers node _ a = _
      simp only [Function.update_apply, han, if_false]
    refine ⟨ret', { s4 with
        timers := Function.update s4.timers node
          { s4.timers node with
            state := (s4.timers node).state &&& ulong_not RT_HRTIMER_STATE_CALLBACK } },
      ?_, ?_, h5 hcs, ?_, ?_, fun h0 => absurd h0 hfn, fun hnr _ => hnr _ _ _ _ _ ecb, ?_⟩
    · simp only [hfn, ne_eq, not_false_eq_true, if_true, wrt, hn0, if_false, ok_bind,
        Function.update_same, ecb, pure_eq_ok]
    · refine QState_congr hq (fun a _ => by show s4.nodes a = _; rw [h1])
        (fun a ha0 ha => by show (s4.nodes a).rt_rb_parent = a; rw [h1]; exact hq.idle a ha0 ha)
        h2 h3 ?_ ?_
      · intro a ha
        have han : a ≠ node := by rintro rfl; exact hx ha
        show (Function.update s4.timers node _ a).deadline = (s2.timers a).deadline
        simp only [Function.update_apply, han, if_false]
        rw [hkeep a ha]
      · intro a _
        rw [queued_iff, queued_iff]
        show (Function.update s4.timers node _ a).state &&& _ ≠ 0 ↔ _
        simp only [Function.update_apply]
        by_cases han : a = node
        · subst han
          simp only [if_true]
          rw [hst a]
          simp only [if_true, flag_cb_clear, flag_cb_set]
        · simp only [han, if_false]
          rw [hst a]
          simp only [han, if_false]
    · rw [if_pos hfn]
      exact hfi
    · intro a ha
      have han : a ≠ node := by rintro rfl; exact hx ha
      show Function.update s4.timers node _ a = _
      simp only [Function.update_apply, han, if_false]
      exact hkeep a ha
    · intro now hk hc
      have hc3 : ClockFixed { s2 with
          timers := Function.update s2.timers node
            { s2.timers node with
              state := (s2.timers node).state ||| RT_HRTIMER_STATE_CALLBACK }
          fired := s2.fired ++ [node] } now := ClockFixed_env hc rfl rfl rfl
      exact ClockFixed_env (hk _ _ _ _ _ ecb hc3) rfl rfl rfl

/-- A pass through the loop of `rt_hrtimer_invoke` stops when the queue is empty or its first
timer is not due at the time read. -/
theorem invoke_body_stop_any (cb : Callbacks) {s : Machine} {T : Tree}
    {cs : rt_clocksource_device} (fuel : Nat) (ret : rt_hrtimer_restart) (hq : QState s T)
    (hcs : s.hrtimer_queue.cs = some cs)
    (hstop : ∀ a ∈ T.inorder.head?, clockTime cs (s.counter s.reads) < deadlineOf s a) :
    rt_hrtimer_invoke_body cb fuel s ret =
      .ok ({ s with reads := s.reads + 1, hrtimer_queue :=
        { s.hrtimer_queue with cs := some (clockDev cs (s.counter s.reads)) } }, none) := by
  simp only [rt_hrtimer_invoke_body, abs_time_eq hcs, ok_bind, pure_eq_ok]
  split_ifs with h1 h2
  · rfl
  · rfl
  · exfalso
    have h3 := hq.inv.next_eq
    rcases hl : T.inorder with _ | ⟨a, rest⟩
    · rw [hl] at h3; exact h1 h3
    · rw [hl] at h3
      simp only [List.headD_cons] at h3
      have h4 := hstop a (by rw [hl]; simp)
      unfold deadlineOf at h4
      rw [← h3] at h4
      exact h2 h4

theorem invoke_body_stop_ex (cb : Callbacks) {s : Machine} {T : Tree}
    {cs : rt_clocksource_device} (fuel : Nat) (ret : rt_hrtimer_restart) (hq : QState s T)
    (hcs : s.hrtimer_queue.cs = some cs)
    (hstop : ∀ a ∈ T.inorder.head?, clockTime cs (s.counter s.reads) < deadlineOf s a) :
    ∃ s1, rt_hrtimer_invoke_body cb fuel s ret = .ok (s1, none) ∧ QState s1 T ∧
      s1.fired = s.fired ∧ s1.timers = s.timers ∧
      (∀ now, ClockFixed s now → ClockFixed s1 now) :=
  ⟨_, invoke_body_stop_any cb fuel ret hq hcs hstop, QState_env hq rfl rfl rfl rfl, rfl, rfl,
    fun _ hc => (clockFixed_read hc hcs).2⟩

/-- A pass through the loop of `rt_hrtimer_invoke` whose first timer `x` is due at the time
read, for callbacks that leave the queue alone: `x` is dequeued, its callback, if it has
one, is called and logged, and `x` is enqueued again or not; the other enqueued timers keep
their records.  The pass runs out of fuel only with less fuel than the size of the tree
plus one. -/
theorem invoke_body_fire_any {cb : Callbacks} {s : Machine} {T : Tree}
    {cs : rt_clocksource_device} {x : Nat} {rest : List Nat} (fuel : Nat)
    (ret : rt_hrtimer_restart) (hfr : CallbackFrame cb) (hqt : CallbackQuiet cb)
    (hq : QState s T) (hcs : s.hrtimer_queue.cs = some cs) (hT : T.inorder = x :: rest)
    (hdue : deadlineOf s x ≤ clockTime cs (s.counter s.reads)) :
    (rt_hrtimer_invoke_body cb fuel s ret = .error .out_of_fuel ∧
      fuel < T.inorder.length + 1) ∨
    ∃ s' T' ret', rt_hrtimer_invoke_body cb fuel s ret = .ok (s', some ret') ∧ QState s' T' ∧
      s'.hrtimer_queue.cs.isSome = true ∧
      s'.fired = s.fired ++ (if (s.timers x).function ≠ 0 then [x] else []) ∧
      (∀ a ∈ rest, s'.timers a = s.timers a) ∧
      (T'.inorder = rest ∨ (List.Perm T'.inorder (x :: rest) ∧
        ((s.timers x).function = 0 → (s'.timers x).function = 0))) ∧
      (NoRestart cb → ret = RT_HRTIMER_NORESTART →
        ret' = RT_HRTIMER_NORESTART ∧ T'.inorder = rest) ∧
      (∀ now, ClockKept cb now → ClockFixed s now → ClockFixed s' now) := by
  have hq1 : QState { s with reads := s.reads + 1, hrtimer_queue :=
      { s.hrtimer_queue with cs := some (clockDev cs (s.counter s.reads)) } } T :=
    QState_env hq rfl rfl rfl rfl
  have habs := abs_time_eq hcs
  have hck1 : ∀ now, ClockFixed s now → ClockFixed { s with reads := s.reads + 1, hrtimer_queue :=
      { s.hrtimer_queue with cs := some (clockDev cs (s.counter s.reads)) } } now :=
    fun now hc => (clockFixed_read hc hcs).2
  generalize hs1 : ({ s with reads := s.reads + 1, hrtimer_queue :=
      { s.hrtimer_queue with cs := some (clockDev cs (s.counter s.reads)) } } : Machine) = s1
    at habs hq1 hck1
  have ht1 : s1.timers = s.timers := by rw [← hs1]
  have hf1 : s1.fired = s.fired := by rw [← hs1]
  have hc1 : s1.hrtimer_queue.cs.isSome = true := by rw [← hs1]; rfl
  have hx0 : x ≠ 0 := mem_ne_zero hq.inv.ht.rep (by rw [hT]; simp)
  have hxT : x ∈ T.inorder := by rw [hT]; simp
  have hn1 : s1.hrtimer_queue.next = x := by rw [hq1.inv.next_eq, hT]; rfl
  have hdl : ¬ (s1.timers x).deadline > clockTime cs (s.counter s.reads) := by
    rw [ht1]; exact not_lt.2 hdue
  have hnd := hq.inv.ht.nodup
  rw [hT] at hnd
  have hxr : x ∉ rest := (List.nodup_cons.1 hnd).1
  rcases dequeue_bound fuel hq1 hxT with ⟨e2, hlt⟩ | ⟨s2, T2, e2, hq2, hT2, ho2, hs2, henv2⟩
  · left
    refine ⟨?_, hlt⟩
    simp only [rt_hrtimer_invoke_body, habs, ok_bind, hn1, hx0, if_false, hdl, e2]
    rfl
  rw [hT, List.erase_cons_head] at hT2
  have hx2 : x ∉ T2.inorder := by rw [hT2]; exact hxr
  have hc2 : s2.hrtimer_queue.cs.isSome = true := by rw [henv2.2.1]; exact hc1
  have hfn2 : (s2.timers x).function = (s.timers x).function := by rw [hs2, ht1]
  obtain ⟨ret', s5, e5, hq5, hc5, hf5, hk5, hz5, hnr5, hck5⟩ :=
    callback_detail ret hfr hqt hq2 hc2 hx0 hx2
  have hfired : s5.fired = s.fired ++ (if (s.timers x).function ≠ 0 then [x] else []) := by
    rw [hf5, henv2.2.2.2.2.2.2, hf1, hfn2]
  have hrest5 : ∀ a ∈ rest, s5.timers a = s.timers a := by
    intro a ha
    have hax : a ≠ x := by rintro rfl; exact hxr ha
    rw [hk5 a (by rw [hT2]; exact ha), ho2 a hax, ht1]
  have hclk5 : ∀ now, ClockKept cb now → ClockFixed s now → ClockFixed s5 now := by
    intro now hk hc
    exact hck5 now hk (ClockFixed_env (hck1 now hc) henv2.2.1 henv2.2.2.2.1 henv2.2.2.2.2.1)
  have hlen : T2.inorder.length + 1 = T.inorder.length := by rw [hT2, hT]; simp
  by_cases hr : ret' = RT_HRTIMER_RESTART
  · rcases enqueue_bound fuel hq5 hx0 hx2 with
        ⟨e6, hlt⟩ | ⟨s6, T6, A, B, e6, hq6, hAB, hT6, -, -, ho6, hs6, henv6⟩
    · left
      refine ⟨?_, by omega⟩
      simp only [rt_hrtimer_invoke_body, habs, ok_bind, hn1, hx0, if_false, hdl, e2]
      rw [e5]
      simp only [ok_bind, hr, if_true, e6]
      rfl
    · right
      refine ⟨s6, T6, ret', ?_, hq6, by rw [henv6.2.1]; exact hc5,
        by rw [henv6.2.2.2.2.2.2]; exact hfired, ?_, Or.inr ⟨?_, ?_⟩, ?_, ?_⟩
      · simp only [rt_hrtimer_invoke_body, habs, ok_bind, hn1, hx0, if_false, hdl, e2]
        rw [e5]
        simp only [ok_bind, hr, if_true, e6, pure_eq_ok]
      · intro a ha
        have hax : a ≠ x := by rintro rfl; exact hxr ha
        rw [ho6 a hax]; exact hrest5 a ha
      · rw [hT6, ← hT2, hAB]
        exact List.perm_middle
      · intro h0
        rw [hs6]
        show (s5.timers x).function = 0
        rw [(hz5 (by rw [hfn2]; exact h0)).2, hfn2]
        exact h0
      · intro hnr hret
        have := hnr5 hnr hret
        rw [hr] at this
        cases this
      · intro now hk hc
        exact ClockFixed_env (hclk5 now hk hc) henv6.2.1 henv6.2.2.2.1 henv6.2.2.2.2.1
  · right
    refine ⟨s5, T2, ret', ?_, hq5, hc5, hfired, hrest5, Or.inl hT2, ?_, hclk5⟩
    · simp only [rt_hrtimer_invoke_body, habs, ok_bind, hn1, hx0, if_false, hdl, e2]
      rw [e5]
      simp only [ok_bind, hr, if_false, pure_eq_ok]
    · intro hnr hret
      exact ⟨hnr5 hnr hret, hT2⟩

end RtThread

namespace RtThread
open Color Tree rt_hrtimer_mode rt_hrtimer_restart rt_clocksource_mode

/-! ## The dispatcher with callbacks that leave the queue alone -/

/-- With the clock fixed at `now` and callbacks that leave the queue alone and never ask for
a restart, the loop of `rt_hrtimer_invoke` returns, given fuel for the size of the tree: it
has taken the due timers out of the queue and logged the calls of their callbacks in queue
order. -/
theorem invoke_loop_due {cb : Callbacks} {now : Int} (hfr : CallbackFrame cb)
    (hqt : CallbackQuiet cb) (hnr : NoRestart cb) (hck : ClockKept cb now) :
    ∀ (n : Nat) (s : Machine) (T : Tree) (fuel : Nat), T.inorder.length = n → QState s T →
    ClockFixed s now → n + 2 ≤ fuel →
    ∃ s' T', rt_hrtimer_invoke_loop cb fuel s RT_HRTIMER_NORESTART = .ok s' ∧ QState s' T' ∧
      ClockFixed s' now ∧
      T'.inorder = T.inorder.filter (fun a => decide (now < deadlineOf s a)) ∧
      s'.fired = s.fired ++ T.inorder.filter
        (fun a => decide (deadlineOf s a ≤ now) && decide ((s.timers a).function ≠ 0)) ∧
      (∀ b ∈ T.inorder, now < deadlineOf s b → s'.timers b = s.timers b) := by
  intro n
  induction n with
  | zero =>
    intro s T fuel hn hq hc hfuel
    obtain ⟨fuel, rfl⟩ : ∃ f, fuel = f + 1 := ⟨fuel - 1, by omega⟩
    have hT : T.inorder = [] := List.length_eq_zero.1 hn
    obtain ⟨cs, hcs⟩ : ∃ cs, s.hrtimer_queue.cs = some cs := by
      obtain ⟨cs, -, hcs, -⟩ := hc
      exact ⟨cs, hcs⟩
    obtain ⟨s1, e, hq1, hf1, ht1, hc1⟩ :=
      invoke_body_stop_ex cb fuel RT_HRTIMER_NORESTART hq hcs (by rw [hT]; simp)
    refine ⟨s1, T, ?_, hq1, hc1 now hc, by rw [hT]; rfl, by rw [hT, hf1]; simp,
      fun b _ _ => by rw [ht1]⟩
    rw [rt_hrtimer_invoke_loop, e]; rfl
  | succ n ih =>
    intro s T fuel hn hq hc hfuel
    obtain ⟨fuel, rfl⟩ : ∃ f, fuel = f + 1 := ⟨fuel - 1, by omega⟩
    obtain ⟨cs, hcs⟩ : ∃ cs, s.hrtimer_queue.cs = some cs := by
      obtain ⟨cs, -, hcs, -⟩ := hc
      exact ⟨cs, hcs⟩
    have hnow := (clockFixed_read hc hcs).1
    rcases hT : T.inorder with _ | ⟨x, rest⟩
    · rw [hT] at hn; simp at hn
    have hsorted := hq.inv.sorted
    rw [hT] at hsorted
    have hhead := (List.pairwise_cons.1 hsorted).1
    by_cases hdue : deadlineOf s x ≤ now
    · rcases invoke_body_fire_any fuel RT_HRTIMER_NORESTART hfr hqt hq hcs hT
          (by rw [hnow]; exact hdue) with
        ⟨-, hlt⟩ | ⟨s1, T1, ret', e1, hq1, -, hf1, hrest1, -, hnr1, hck1⟩
      · omega
      obtain ⟨hret, hT1⟩ := hnr1 hnr rfl
      subst hret
      have hlen : T1.inorder.length = n := by
        rw [hT1]; rw [hT] at hn; simpa using hn
      obtain ⟨s', T', e2, hq', hc', hT', hf', ho'⟩ :=
        ih s1 T1 fuel hlen hq1 (hck1 now hck hc) (by omega)
      have hdl : ∀ a ∈ rest, deadlineOf s1 a = deadlineOf s a := by
        intro a ha
        unfold deadlineOf
        rw [hrest1 a ha]
      refine ⟨s', T', ?_, hq', hc', ?_, ?_, ?_⟩
      · rw [rt_hrtimer_invoke_loop, e1]; exact e2
      · rw [hT', hT1, List.filter_cons]
        simp only [not_lt.2 hdue, decide_False, Bool.false_eq_true, if_false]
        apply List.filter_congr
        intro a ha
        rw [hdl a ha]
      · rw [hf', hf1, hT1, List.filter_cons]
        have hcong : rest.filter (fun a => decide (deadlineOf s1 a ≤ now) &&
            decide ((s1.timers a).function ≠ 0)) = rest.filter (fun a =>
            decide (deadlineOf s a ≤ now) && decide ((s.timers a).function ≠ 0)) := by
          apply List.filter_congr
          intro a ha
          rw [hdl a ha, hrest1 a ha]
        rw [hcong]
        by_cases hfa : (s.timers x).function = 0
        · simp [hfa]
        · simp [hfa, hdue]
      · intro b hb hlt
        have hbx : b ≠ x := by
          rintro rfl
          exact absurd hdue (not_le.2 hlt)
        have hbr : b ∈ rest := by
          rcases List.mem_cons.1 hb with h | h
          · exact absurd h hbx
          · exact h
        rw [ho' b (by rw [hT1]; exact hbr) (by rw [hdl b hbr]; exact hlt), hrest1 b hbr]
    · have hall : ∀ b ∈ x :: rest, now < deadlineOf s b := by
        intro b hb
        rcases List.mem_cons.1 hb with rfl | hb
        · exact not_le.1 hdue
        · exact lt_of_lt_of_le (not_le.1 hdue) (hhead b hb)
      obtain ⟨s1, e, hq1, hf1, ht1, hc1⟩ :=
        invoke_body_stop_ex cb fuel RT_HRTIMER_NORESTART hq hcs
          (by rw [hT, hnow]; simpa using not_le.1 hdue)
      refine ⟨s1, T, ?_, hq1, hc1 now hc, ?_, ?_, fun b _ _ => by rw [ht1]⟩
      · rw [rt_hrtimer_invoke_loop, e]; rfl
      · rw [hT]
        exact (List.filter_eq_self.2 (fun b hb => by simpa using hall b hb)).symm
      · rw [hf1]
        have : (x :: rest).filter (fun a => decide (deadlineOf s a ≤ now) &&
            decide ((s.timers a).function ≠ 0)) = [] := by
          refine List.filter_eq_nil_iff.2 (fun b hb => ?_)
          simp [not_le.2 (hall b hb)]
        rw [this, List.append_nil]

end RtThread

namespace RtThread
open Color Tree rt_hrtimer_mode rt_hrtimer_restart rt_clocksource_mode

/-! ## Facts about the example callbacks and states -/

/-- The two ways `stampCallback` returns: it leaves the state alone, or the timer passed is
not enqueued, a clocksource is registered, and it reads the clock and stores the time. -/
theorem stamp_cases (f arg : Nat) (s : Machine) :
    stampCallback f arg s = .ok (RT_HRTIMER_NORESTART, s) ∨
    ∃ cs, s.hrtimer_queue.cs = some cs ∧ ¬ RT_HRTIMER_IS_QUEUED (s.timers arg) = true ∧
      stampCallback f arg s = .ok (RT_HRTIMER_NORESTART,
        { s with
          reads := s.reads + 1
          hrtimer_queue := { s.hrtimer_queue with cs := some (clockDev cs (s.counter s.reads)) }
          timers := Function.update s.timers arg
            { s.timers arg with deadline := clockTime cs (s.counter s.reads) } }) := by
  by_cases hq : RT_HRTIMER_IS_QUEUED (s.timers arg) = true
  · left
    simp only [stampCallback, hq, if_true]
  · cases hcs : s.hrtimer_queue.cs with
    | none =>
      left
      simp only [stampCallback, if_neg hq, rt_clocksource_absolute_time, hcs]
    | some cs =>
      right
      refine ⟨cs, rfl, hq, ?_⟩
      simp only [stampCallback, if_neg hq, abs_time_eq hcs]

theorem stamp_frame : CallbackFrame stampCallback := by
  intro f arg s
  rcases stamp_cases f arg s with e | ⟨cs, hcs, hq, e⟩
  · exact ⟨_, s, e, rfl, rfl, rfl, rfl, id, rfl, fun _ => ⟨rfl, fun _ => rfl⟩⟩
  · refine ⟨_, _, e, rfl, rfl, rfl, rfl, fun _ => rfl, rfl, fun a => ?_⟩
    by_cases ha : a = arg
    · subst ha
      exact ⟨by simp, fun h => absurd h hq⟩
    · exact ⟨by simp [Function.update_noteq ha], fun _ => by simp [Function.update_noteq ha]⟩

theorem stamp_quiet : CallbackQuiet stampCallback := by
  intro f arg s ret s' h
  rcases stamp_cases f arg s with e | ⟨cs, hcs, hq, e⟩
  · rw [e] at h
    simp only [Except.ok.injEq, Prod.mk.injEq] at h
    obtain ⟨-, rfl⟩ := h
    exact ⟨rfl, fun _ _ => rfl⟩
  · rw [e] at h
    simp only [Except.ok.injEq, Prod.mk.injEq] at h
    obtain ⟨-, rfl⟩ := h
    refine ⟨rfl, fun a ha => ?_⟩
    have hne : a ≠ arg := by rintro rfl; exact hq ha
    simp [Function.update_noteq hne]

theorem stamp_norestart : NoRestart stampCallback := by
  intro f arg s ret s' h
  rcases stamp_cases f arg s with e | ⟨cs, hcs, hq, e⟩
  · rw [e] at h
    simp only [Except.ok.injEq, Prod.mk.injEq] at h
    exact h.1.symm
  · rw [e] at h
    simp only [Except.ok.injEq, Prod.mk.injEq] at h
    exact h.1.symm

theorem stamp_clock (now : Int) : ClockKept stampCallback now := by
  intro f arg s ret s' h hc
  rcases stamp_cases f arg s with e | ⟨cs, hcs, hq, e⟩
  · rw [e] at h
    simp only [Except.ok.injEq, Prod.mk.injEq] at h
    obtain ⟨-, rfl⟩ := h
    exact hc
  · rw [e] at h
    simp only [Except.ok.injEq, Prod.mk.injEq] at h
    obtain ⟨-, rfl⟩ := h
    exact ClockFixed_env (clockFixed_read hc hcs).2 rfl rfl rfl

theorem dueTimers_state :
    QState dueTimers (node 2 RB_BLACK (node 1 RB_RED nil nil) (node 3 RB_RED nil nil)) := by
  refine ⟨⟨⟨rfl, ⟨by decide, rfl, ⟨by decide, rfl, trivial, trivial⟩,
    ⟨by decide, rfl, trivial, trivial⟩⟩, by simp [Tree.inorder]⟩, by decide,
    by simp [Tree.inorder, deadlineOf, dueTimers], rfl⟩, fun a _ ha => ?_, fun a _ => ?_⟩
  · have h : a ≠ 1 ∧ a ≠ 2 ∧ a ≠ 3 := by simpa [Tree.inorder] using ha
    simp [dueTimers, threeTimers, h.1, h.2.1, h.2.2]
  · by_cases h1 : a = 1
    · subst h1; simp [dueTimers, RT_HRTIMER_IS_QUEUED, Tree.inorder, RT_HRTIMER_STATE_ENQUEUED]
    · by_cases h2 : a = 2
      · subst h2
        simp [dueTimers, RT_HRTIMER_IS_QUEUED, Tree.inorder, RT_HRTIMER_STATE_ENQUEUED]
      · by_cases h3 : a = 3
        · subst h3
          simp [dueTimers, RT_HRTIMER_IS_QUEUED, Tree.inorder, RT_HRTIMER_STATE_ENQUEUED]
        · simp [dueTimers, RT_HRTIMER_IS_QUEUED, Tree.inorder, h1, h2, h3]

theorem dueTimers_clock : ClockFixed dueTimers 5 :=
  ⟨exampleClock, 5, rfl, fun _ => rfl, by decide⟩

/-! ## The callback dispatcher `rt_hrtimer_invoke` -/

/-- C5: with the clock reading fixed at `now` during the pass (it is fixed when the pass
starts and the callbacks leave it fixed) and callbacks that return, never ask for a restart
and leave the queue alone (index, flags and the records of the enqueued timers; a callback
may read the clock and write the record of the timer it is called for, which is dequeued),
`rt_hrtimer_invoke` returns (given fuel for the size of the queue) and has called, each once
and in queue order, exactly the callbacks of the enqueued timers with deadline `≤ now` (a
deadline equal to `now` included; a timer without callback has none to call).  On return
those timers are not enqueued, every timer with deadline `> now` is still enqueued with its
record unchanged, and the queue is empty or its minimum deadline is `> now`. -/
theorem rt_hrtimer_invoke_fires_due (cb : Callbacks) (s : Machine) (T : Tree) (now : Int)
    (fuel : Nat) (hfr : CallbackFrame cb) (hqt : CallbackQuiet cb) (hnr : NoRestart cb)
    (hck : ClockKept cb now) (hq : QState s T) (hc : ClockFixed s now)
    (hfuel : T.inorder.length + 2 ≤ fuel) :
    ∃ s' T', rt_hrtimer_invoke cb fuel s = .ok s' ∧ QState s' T' ∧
      s'.fired = s.fired ++ T.inorder.filter
        (fun a => decide ((s.timers a).deadline ≤ now) && decide ((s.timers a).function ≠ 0)) ∧
      (T.inorder.filter (fun a => decide ((s.timers a).deadline ≤ now) &&
        decide ((s.timers a).function ≠ 0))).Nodup ∧
      (∀ a ∈ T.inorder, (s.timers a).deadline ≤ now →
        a ∉ T'.inorder ∧ RT_HRTIMER_IS_QUEUED (s'.timers a) = false) ∧
      (∀ a ∈ T.inorder, now < (s.timers a).deadline →
        a ∈ T'.inorder ∧ RT_HRTIMER_IS_QUEUED (s'.timers a) = true ∧
          s'.timers a = s.timers a) ∧
      (s'.hrtimer_queue.next = 0 ∨ now < (s'.timers s'.hrtimer_queue.next).deadline) := by
  obtain ⟨s', T', e, hq', -, hT', hf', ho'⟩ :=
    invoke_loop_due hfr hqt hnr hck T.inorder.length s T fuel rfl hq hc hfuel
  have hmem : ∀ a, a ∈ T'.inorder ↔ a ∈ T.inorder ∧ now < (s.timers a).deadline := by
    intro a
    rw [hT', List.mem_filter]
    simp [deadlineOf]
  refine ⟨s', T', e, hq', hf', (List.Nodup.filter _ hq.inv.ht.nodup), ?_, ?_, ?_⟩
  · intro a ha hdue
    have ha0 : a ≠ 0 := mem_ne_zero hq.inv.ht.rep ha
    have hn : a ∉ T'.inorder := fun h => absurd ((hmem a).1 h).2 (not_lt.2 hdue)
    refine ⟨hn, ?_⟩
    by_contra h
    exact hn ((hq'.flags a ha0).1 (by simpa using h))
  · intro a ha hlt
    have ha0 : a ≠ 0 := mem_ne_zero hq.inv.ht.rep ha
    have hin : a ∈ T'.inorder := (hmem a).2 ⟨ha, hlt⟩
    exact ⟨hin, (hq'.flags a ha0).2 hin, ho' a ha hlt⟩
  · rw [hq'.inv.next_eq]
    rcases hl : T'.inorder with _ | ⟨a, rest⟩
    · exact Or.inl rfl
    · right
      have ha : a ∈ T'.inorder := by rw [hl]; simp
      simp only [List.headD_cons]
      rw [ho' a ((hmem a).1 ha).1 ((hmem a).1 ha).2]
      exact ((hmem a).1 ha).2

/-- Instance: at time 5 the queue holds timer 1 (deadline 1), timer 2 (deadline 5) and
timer 3 (deadline 9), whose callback reads the clock and stores the time in the record of
its timer: the callbacks of timers 1 and 2 are called, in this order, and timer 3 stays
enqueued. -/
theorem rt_hrtimer_invoke_fires_due_witness :
    ∃ s' T', rt_hrtimer_invoke stampCallback 5 dueTimers = .ok s' ∧ QState s' T' ∧
      s'.fired = [1, 2] ∧ RT_HRTIMER_IS_QUEUED (s'.timers 1) = false ∧
      RT_HRTIMER_IS_QUEUED (s'.timers 2) = false ∧
      RT_HRTIMER_IS_QUEUED (s'.timers 3) = true ∧ s'.hrtimer_queue.next ≠ 0 := by
  obtain ⟨s', T', e, hq', hf, -, hdue, hlate, -⟩ :=
    rt_hrtimer_invoke_fires_due stampCallback dueTimers
      (node 2 RB_BLACK (node 1 RB_RED nil nil) (node 3 RB_RED nil nil)) 5 5
      stamp_frame stamp_quiet stamp_norestart (stamp_clock 5) dueTimers_state dueTimers_clock
      (by decide)
  have h3 := hlate 3 (by decide) (by decide)
  refine ⟨s', T', e, hq', hf.trans (by decide), (hdue 1 (by decide) (by decide)).2,
    (hdue 2 (by decide) (by decide)).2, h3.2.1, ?_⟩
  rw [hq'.inv.next_eq]
  rcases hl : T'.inorder with _ | ⟨a, rest⟩
  · rw [hl] at h3; simp at h3
  · exact mem_ne_zero hq'.inv.ht.rep (by rw [hl]; simp)

set_option maxHeartbeats 4000000 in
/-- The instance evaluated: the pass with the periodic callback returns, has called the
callbacks of timers 1 and 2 in this order and has enqueued both again, with the deadlines
101 and 105, behind timer 3. -/
theorem rt_hrtimer_invoke_periodic_example :
    (rt_hrtimer_invoke periodicCallback 5 dueTimers).map
        (fun s => (s.fired, s.hrtimer_queue.next, (s.timers 1).deadline, (s.timers 2).deadline,
          RT_HRTIMER_IS_QUEUED (s.timers 1), RT_HRTIMER_IS_QUEUED (s.timers 2)))
      = .ok ([1, 2], 3, 101, 105, true, true) := by
  rfl

/-! ## A timer interrupt inside `rt_hrtimer_cancel` -/

/-- C37 (divergence of the code): `rt_hrtimer_cancel` tests `RT_HRTIMER_IS_QUEUED(timer)`
before it disables the interrupts, where `rt_hrtimer_start` makes the test after.  In the
state `oneTimer` timer 1 is enqueued and due and has a one-shot callback.  When the timer
interrupt is served between the test and `rt_hw_interrupt_disable`, the handler fires timer
1 and takes it out of the queue, and the call of `rt_hrtimer_dequeue` that follows fails the
assertion of `rt_hrtimer_remove`.  Either call alone returns: the handler, and the cancel
that is not interrupted, with status 1; so does the handler run followed by the whole
cancel call, which then finds the timer not enqueued. -/
theorem rt_hrtimer_cancel_interrupted_asserts :
    rt_hrtimer_cancel_interrupted oneShotCallback 3 oneTimer 1 = .error .assertion ∧
    (rt_hrtimer_handler oneShotCallback 3 oneTimer).map
        (fun s => (s.fired, RT_HRTIMER_IS_QUEUED (s.timers 1), RT_RB_EMPTY_NODE s.nodes 1))
      = .ok ([1], false, .ok true) ∧
    (rt_hrtimer_cancel 3 oneTimer 1).map (fun r => r.1) = .ok 1 ∧
    (runApi oneShotCallback 3 [.handler, .cancel 1] oneTimer).map (fun s => s.fired)
      = .ok [1] ∧
    RT_HRTIMER_IS_QUEUED (oneTimer.timers 1) = true := by
  refine ⟨by rfl, by rfl, by rfl, by rfl, by rfl⟩

end RtThread
